import Mathlib

/-!
# In-memory database (`imd`): data model, statement executor, tokenizer, parser, driver

A shallow embedding of `include/imd/ast.hpp`, `src/executor.cpp`, the part of
`src/renderer.cpp` the executor calls, `src/lexer.cpp`, `src/parser.cpp` and the
statement splitting of the interactive driver in `app/main.cpp`.

Modelling conventions.

* `std::string` is a Lean `String`; the ordering of `std::string` (`operator<`, which is
  `char_traits<char>::compare`, an unsigned byte comparison, followed by a length
  comparison) is taken on the UTF-8 bytes of the string.
* `long long` cells are `Int`; the executor only copies, compares and prints them, so no
  arithmetic can overflow.
* Column positions are `int` in the source (`Table::indexOf` returns `-1` for an unknown
  name).  They are `Int` here; `static_cast<int>(i)` in `exec(const CreateStmt&)` is the
  identity, i.e. a table has fewer than `2^31` columns.
* `std::unordered_map` is an association list with at most one live binding per key:
  `mapFind` is `find`/`count`, `mapAssign` is `m[k] = v` (and the update of the element
  `m[k]` refers to), `mapEmplace` is `emplace`.
* A C++ exception is an `Error`; a statement that throws after having changed the
  database returns the changed database together with the error.
* Indexing a `std::vector` outside its bounds is undefined behaviour in the source.  The
  model reports it as `Error.outOfRange`; it cannot happen on a database built by the
  executor itself.
* The text given to the tokenizer is a list of characters and a token text is a `String`.
  What the tokenizer or the parser throws is a `ParseError`; a loop of the source that
  never ends by itself is the outcome `ParseError.unbounded`.
* A loop of the parser is a function that counts its iterations down from the number of
  unread characters plus one; `ParseError.loopBound`, the outcome at zero, exists in the
  model only and is never the outcome of `parseAll` (`parseAll_sound`).
* The interactive driver is modelled on the lines of its input; of `exec_one` only the
  test for an exit command is kept, and the result of `repl` is the list of statement
  texts handed to `exec_one`.
-/

namespace imd

/-! ## Types and values (`ast.hpp`) -/

/-- Declared scalar kind of a column: `enum class ColType { INT, STR }`. -/
inductive ColType where
  | INT
  | STR
  deriving DecidableEq

/-- The variant `std::variant<long long, std::string>` held by `struct Value`. -/
inductive Value where
  | int (x : Int)
  | str (s : String)
  deriving DecidableEq

/-- The library function `std::to_string(long long)`: an optional `-` and the decimal digits. -/
def to_string (x : Int) : String :=
  if x < 0 then "-" ++ Nat.repr x.natAbs else Nat.repr x.natAbs

/-- Member `Value::isInt`. -/
def Value.isInt : Value → Bool
  | .int _ => true
  | .str _ => false

/-- Member `Value::isStr`. -/
def Value.isStr : Value → Bool
  | .int _ => false
  | .str _ => true

/-- Member `Value::toString`: `std::to_string` of an integer, a string as it is. -/
def Value.toString : Value → String
  | .int x => to_string x
  | .str s => s

/-- A column `struct Column { name; type; }`. -/
structure Column where
  name : String
  type : ColType
  deriving DecidableEq

/-- A row `using Row = std::vector<Value>`. -/
abbrev Row := List Value

/-- Lookup `unordered_map::find` (and `count`): the value bound to `key`, if any. -/
def mapFind {α : Type} : List (String × α) → String → Option α
  | [], _ => none
  | (k, v) :: m, key => if k = key then some v else mapFind m key

/-- Assignment `m[key] = v`: overwrite the binding of `key`, or add one. -/
def mapAssign {α : Type} : List (String × α) → String → α → List (String × α)
  | [], key, v => [(key, v)]
  | (k, w) :: m, key, v => if k = key then (k, v) :: m else (k, w) :: mapAssign m key v

/-- Insertion `unordered_map::emplace`: add the binding unless `key` is already bound. -/
def mapEmplace {α : Type} (m : List (String × α)) (key : String) (v : α) : List (String × α) :=
  if (mapFind m key).isSome then m else m ++ [(key, v)]

/-- A table `struct Table { name; columns; colIndex; rows; }`. -/
structure Table where
  name : String
  columns : List Column
  colIndex : List (String × Int)
  rows : List Row
  deriving DecidableEq

/-- Member `Table::indexOf`: the indexed position of `col`, or `-1`. -/
def Table.indexOf (t : Table) (col : String) : Int :=
  match mapFind t.colIndex col with
  | none => -1
  | some j => j

/-- The database `struct Database { tables; }`. -/
structure Database where
  tables : List (String × Table)
  deriving DecidableEq

/-- Comparison operator of a WHERE clause: `enum class CmpOp`. -/
inductive CmpOp where
  | EQ
  | NE
  | LT
  | LE
  | GT
  | GE
  deriving DecidableEq

/-- A WHERE clause `struct Condition { column; op; literal; }`. -/
structure Condition where
  column : String
  op : CmpOp
  literal : Value
  deriving DecidableEq

/-- Statement `struct CreateStmt`. -/
structure CreateStmt where
  table : String
  columns : List (String × ColType)
  deriving DecidableEq

/-- Statement `struct InsertStmt`. -/
structure InsertStmt where
  table : String
  cols : List String
  rows : List (List Value)
  deriving DecidableEq

/-- Statement `struct DeleteStmt`; `where_` is the member `where`. -/
structure DeleteStmt where
  table : String
  where_ : Option Condition
  deriving DecidableEq

/-- Statement `struct UpdateStmt`; `where_` is the member `where`. -/
structure UpdateStmt where
  table : String
  assignments : List (String × Value)
  where_ : Option Condition
  deriving DecidableEq

/-- Statement `struct SelectStmt`; `where_` is the member `where`. -/
structure SelectStmt where
  selectAll : Bool
  cols : List String
  table : String
  where_ : Option Condition
  deriving DecidableEq

/-- The variant `using Statement = std::variant<CreateStmt, InsertStmt, ...>`. -/
inductive Statement where
  | create (s : CreateStmt)
  | insert (s : InsertStmt)
  | delete (s : DeleteStmt)
  | update (s : UpdateStmt)
  | select (s : SelectStmt)
  deriving DecidableEq

/-! ## Errors and outcomes -/

/-- The `std::runtime_error`s thrown by the executor, one constructor per `throw`, and
`outOfRange` for an access outside a vector (undefined behaviour in the source). -/
inductive Error where
  | noSuchTable (name : String)
  | tableExists (name : String)
  | unknownColumn (name : String)
  | unknownWhereColumn (name : String)
  | unknownSetColumn (name : String)
  | valuesCount
  | expectedInt (column : String)
  | expectedStr (column : String)
  | typeMismatch
  | outOfRange
  deriving DecidableEq

/-- The text `what()` of each error. -/
def Error.message : Error → String
  | .noSuchTable n => "No such table: " ++ n
  | .tableExists n => "Table already exists: " ++ n
  | .unknownColumn n => "Unknown column: " ++ n
  | .unknownWhereColumn n => "Unknown column in WHERE: " ++ n
  | .unknownSetColumn n => "Unknown column in SET: " ++ n
  | .valuesCount => "VALUES count does not match column list"
  | .expectedInt c => "Type error: expected int for column '" ++ c ++ "'"
  | .expectedStr c => "Type error: expected str for column '" ++ c ++ "'"
  | .typeMismatch => "Type mismatch in comparison"
  | .outOfRange => "vector index out of range"

deriving instance DecidableEq for Except

/-- The arguments `exec(const SelectStmt&)` hands to `printAscii`. -/
structure Printed where
  headers : List String
  rows : List (List String)
  deriving DecidableEq

/-- What one `execute` call leaves behind: the database afterwards, and either the error
thrown or the table printed (`none` for every statement but SELECT). -/
structure Outcome where
  db : Database
  result : Except Error (Option Printed)
  deriving DecidableEq

/-! ## Executor (`executor.cpp`) -/

/-- Static `Executor::defaultFor`. -/
def defaultFor : ColType → Value
  | .INT => .int 0
  | .STR => .str ""

/-- Function `typeCheckAssign`. -/
def typeCheckAssign (col : Column) (v : Value) : Except Error Unit :=
  if col.type = .INT ∧ v.isInt = false then .error (.expectedInt col.name)
  else if col.type = .STR ∧ v.isStr = false then .error (.expectedStr col.name)
  else .ok ()

/-- Function `equalValues`: different alternatives are unequal, equal alternatives are
compared by content. -/
def equalValues : Value → Value → Bool
  | .int x, .int y => decide (x = y)
  | .str x, .str y => decide (x = y)
  | .int _, .str _ => false
  | .str _, .int _ => false

/-- The bytes of a `std::string`, as unsigned values. -/
def bytesOf (s : String) : List Nat :=
  s.toUTF8.data.toList.map UInt8.toNat

/-- The comparison `std::string::compare` on byte sequences: the first differing byte
decides, and a proper prefix is smaller; the result is negative, zero or positive. -/
def bytesCompare : List Nat → List Nat → Int
  | [], [] => 0
  | [], _ :: _ => -1
  | _ :: _, [] => 1
  | a :: x, b :: y => if a < b then -1 else if b < a then 1 else bytesCompare x y

/-- The operator `<` of `std::string`. -/
def stringLess (x y : String) : Bool :=
  decide (bytesCompare (bytesOf x) (bytesOf y) < 0)

/-- Function `compareValues`: `-1`, `0` or `1` for two values of the same alternative, and
the exception "Type mismatch in comparison" otherwise. -/
def compareValues : Value → Value → Except Error Int
  | .int x, .int y => if x < y then .ok (-1) else if x > y then .ok 1 else .ok 0
  | .str x, .str y => if stringLess x y then .ok (-1) else if stringLess y x then .ok 1 else .ok 0
  | .int _, .str _ => .error .typeMismatch
  | .str _, .int _ => .error .typeMismatch

/-- Static `Executor::rowMatches`. -/
def rowMatches (t : Table) (r : Row) (c : Condition) : Except Error Bool :=
  let j := t.indexOf c.column
  if j < 0 then .error (.unknownWhereColumn c.column)
  else
    match r[j.toNat]? with
    | none => .error .outOfRange
    | some cell =>
      match c.op with
      | .EQ => .ok (equalValues cell c.literal)
      | .NE => .ok (!equalValues cell c.literal)
      | .LT => (compareValues cell c.literal).map (fun k => decide (k < 0))
      | .LE => (compareValues cell c.literal).map (fun k => decide (k ≤ 0))
      | .GT => (compareValues cell c.literal).map (fun k => decide (k > 0))
      | .GE => (compareValues cell c.literal).map (fun k => decide (k ≥ 0))

/-- The row test of UPDATE and SELECT, `s.where && !rowMatches(t, r, *s.where)` being the
rows that are skipped: every row is selected without WHERE. -/
def selected (t : Table) (r : Row) : Option Condition → Except Error Bool
  | none => .ok true
  | some c => rowMatches t r c

/-- The loop of `exec(const CreateStmt&)`: push each declared column and index its name at
its position `i`. -/
def createColumns : List (String × ColType) → Nat → Table → Table
  | [], _, t => t
  | (n, ty) :: rest, i, t =>
    createColumns rest (i + 1)
      { t with columns := t.columns ++ [⟨n, ty⟩], colIndex := mapAssign t.colIndex n (Int.ofNat i) }

/-- Overload `Executor::exec(const CreateStmt&)`. -/
def execCreate (db : Database) (s : CreateStmt) : Outcome :=
  if (mapFind db.tables s.table).isSome then ⟨db, .error (.tableExists s.table)⟩
  else
    let t := createColumns s.columns 0 { name := s.table, columns := [], colIndex := [], rows := [] }
    ⟨{ tables := mapEmplace db.tables t.name t }, .ok none⟩

/-- First loop of `exec(const InsertStmt&)`: the position of every named column. -/
def insertPositions (t : Table) : List String → Except Error (List Int)
  | [] => .ok []
  | cn :: rest =>
    let j := t.indexOf cn
    if j < 0 then .error (.unknownColumn cn)
    else (insertPositions t rest).map (fun pos => j :: pos)

/-- Inner loop of `exec(const InsertStmt&)` over `k`: type-check `values[k]` against column
`pos[k]` and store it in `r[pos[k]]`. The row `r` has one cell per column, so `r[j]` is
in range whenever `t.columns[j]` is; the loop runs over `pos` and `values` in step, which
have the same length when it is entered. -/
def fillRow (t : Table) : List Int → List Value → Row → Except Error Row
  | j :: pos, v :: values, r =>
    match t.columns[j.toNat]? with
    | none => .error .outOfRange
    | some col =>
      match typeCheckAssign col v with
      | .error e => .error e
      | .ok _ => fillRow t pos values (r.set j.toNat v)
  | _, _, r => .ok r

/-- Outer loop of `exec(const InsertStmt&)` over the VALUES rows; the second component is
`t.rows` when the loop ends or throws. -/
def insertRows (t : Table) (pos : List Int) : List (List Value) → List Row → List Row × Except Error Unit
  | [], rows => (rows, .ok ())
  | values :: rest, rows =>
    if values.length ≠ pos.length then (rows, .error .valuesCount)
    else
      match fillRow t pos values (t.columns.map (fun col => defaultFor col.type)) with
      | .error e => (rows, .error e)
      | .ok r => insertRows t pos rest (rows ++ [r])

/-- Overload `Executor::exec(const InsertStmt&)`; the first `match` is
`ensureTableExists(db_, s.table)` followed by `db_.tables[s.table]`. -/
def execInsert (db : Database) (s : InsertStmt) : Outcome :=
  match mapFind db.tables s.table with
  | none => ⟨db, .error (.noSuchTable s.table)⟩
  | some t =>
    match insertPositions t s.cols with
    | .error e => ⟨db, .error e⟩
    | .ok pos =>
      let res := insertRows t pos s.rows t.rows
      ⟨{ tables := mapAssign db.tables s.table { t with rows := res.1 } }, res.2.map (fun _ => none)⟩

/-- Second phase of `std::remove_if`, after the first match: `gap` is the content of the
slots between the write position and the read position.  A kept row is moved into the
first slot of the gap and leaves an empty (moved-from) row behind. The result is the
content of the vector from the write position on, after `erase` or at the throw. -/
def removeIfShift (pred : Row → Except Error Bool) : List Row → List Row → List Row × Except Error Unit
  | _, [] => ([], .ok ())
  | gap, r :: rest =>
    match pred r with
    | .error e => (gap ++ r :: rest, .error e)
    | .ok true => removeIfShift pred (gap ++ [r]) rest
    | .ok false =>
      let res := removeIfShift pred (gap.tail ++ [[]]) rest
      (r :: res.1, res.2)

/-- The call `rows.erase(std::remove_if(rows.begin(), rows.end(), pred), rows.end())`:
first `find_if` the first match, then shift the kept rows down; the content of the vector
afterwards, and the exception if `pred` threw. -/
def removeIf (pred : Row → Except Error Bool) : List Row → List Row × Except Error Unit
  | [] => ([], .ok ())
  | r :: rest =>
    match pred r with
    | .error e => (r :: rest, .error e)
    | .ok true => removeIfShift pred [r] rest
    | .ok false =>
      let res := removeIf pred rest
      (r :: res.1, res.2)

/-- Overload `Executor::exec(const DeleteStmt&)`; the first `match` is
`ensureTableExists(db_, s.table)` followed by `db_.tables[s.table]`. -/
def execDelete (db : Database) (s : DeleteStmt) : Outcome :=
  match mapFind db.tables s.table with
  | none => ⟨db, .error (.noSuchTable s.table)⟩
  | some t =>
    match s.where_ with
    | none => ⟨{ tables := mapAssign db.tables s.table { t with rows := [] } }, .ok none⟩
    | some c =>
      let res := removeIf (fun r => rowMatches t r c) t.rows
      ⟨{ tables := mapAssign db.tables s.table { t with rows := res.1 } }, res.2.map (fun _ => none)⟩

/-- First loop of `exec(const UpdateStmt&)`: resolve and type-check every assignment. -/
def updateIndexes (t : Table) : List (String × Value) → Except Error (List Int)
  | [] => .ok []
  | (cn, v) :: rest =>
    let j := t.indexOf cn
    if j < 0 then .error (.unknownSetColumn cn)
    else
      match t.columns[j.toNat]? with
      | none => .error .outOfRange
      | some col =>
        match typeCheckAssign col v with
        | .error e => .error e
        | .ok _ => (updateIndexes t rest).map (fun idx => j :: idx)

/-- Inner loop of `exec(const UpdateStmt&)` over `k`: `r[idx[k]] = assignments[k].second`;
`idx` and `assignments` have the same length. -/
def assignRow : List Int → List (String × Value) → Row → Except Error Row
  | j :: idx, a :: rest, r =>
    if j.toNat < r.length then assignRow idx rest (r.set j.toNat a.2) else .error .outOfRange
  | _, _, r => .ok r

/-- Outer loop of `exec(const UpdateStmt&)` over the rows; the first component is `t.rows`
when the loop ends or throws. -/
def updateRows (t : Table) (idx : List Int) (s : UpdateStmt) : List Row → List Row × Except Error Unit
  | [] => ([], .ok ())
  | r :: rest =>
    match selected t r s.where_ with
    | .error e => (r :: rest, .error e)
    | .ok false =>
      let res := updateRows t idx s rest
      (r :: res.1, res.2)
    | .ok true =>
      match assignRow idx s.assignments r with
      | .error e => (r :: rest, .error e)
      | .ok r2 =>
        let res := updateRows t idx s rest
        (r2 :: res.1, res.2)

/-- Overload `Executor::exec(const UpdateStmt&)`; the first `match` is
`ensureTableExists(db_, s.table)` followed by `db_.tables[s.table]`. -/
def execUpdate (db : Database) (s : UpdateStmt) : Outcome :=
  match mapFind db.tables s.table with
  | none => ⟨db, .error (.noSuchTable s.table)⟩
  | some t =>
    match updateIndexes t s.assignments with
    | .error e => ⟨db, .error e⟩
    | .ok idx =>
      let res := updateRows t idx s t.rows
      ⟨{ tables := mapAssign db.tables s.table { t with rows := res.1 } }, res.2.map (fun _ => none)⟩

/-- Projection of `exec(const SelectStmt&)` for an explicit column list: positions and
headers of the listed columns. -/
def projectColumns (t : Table) : List String → Except Error (List Int × List String)
  | [] => .ok ([], [])
  | cn :: rest =>
    let j := t.indexOf cn
    if j < 0 then .error (.unknownColumn cn)
    else
      match t.columns[j.toNat]? with
      | none => .error .outOfRange
      | some col => (projectColumns t rest).map (fun ph => (j :: ph.1, col.name :: ph.2))

/-- Projection of `exec(const SelectStmt&)`: all columns for `*`, the listed ones otherwise. -/
def selectProjection (t : Table) (s : SelectStmt) : Except Error (List Int × List String) :=
  if s.selectAll then
    .ok ((List.range t.columns.length).map Int.ofNat, t.columns.map (fun col => col.name))
  else projectColumns t s.cols

/-- One output line of `exec(const SelectStmt&)`: `r[j].toString()` for every `j` of `proj`. -/
def projectRow (r : Row) : List Int → Except Error (List String)
  | [] => .ok []
  | j :: proj =>
    match r[j.toNat]? with
    | none => .error .outOfRange
    | some v => (projectRow r proj).map (fun line => v.toString :: line)

/-- Row loop of `exec(const SelectStmt&)`: the lines of the selected rows, in storage order. -/
def selectRows (t : Table) (proj : List Int) (w : Option Condition) : List Row → Except Error (List (List String))
  | [] => .ok []
  | r :: rest =>
    match selected t r w with
    | .error e => .error e
    | .ok false => selectRows t proj w rest
    | .ok true =>
      match projectRow r proj with
      | .error e => .error e
      | .ok line => (selectRows t proj w rest).map (fun out => line :: out)

/-- Overload `Executor::exec(const SelectStmt&)`; the first `match` is
`ensureTableExists(db_, s.table)` followed by `db_.tables[s.table]`, and the result is
what is passed to `printAscii`. -/
def execSelect (db : Database) (s : SelectStmt) : Outcome :=
  match mapFind db.tables s.table with
  | none => ⟨db, .error (.noSuchTable s.table)⟩
  | some t =>
    match selectProjection t s with
    | .error e => ⟨db, .error e⟩
    | .ok ph =>
      match selectRows t ph.1 s.where_ t.rows with
      | .error e => ⟨db, .error e⟩
      | .ok outRows => ⟨db, .ok (some ⟨ph.2, outRows⟩)⟩

/-- Method `Executor::execute`: dispatch on the statement alternative. -/
def execute (db : Database) : Statement → Outcome
  | .create s => execCreate db s
  | .insert s => execInsert db s
  | .delete s => execDelete db s
  | .update s => execUpdate db s
  | .select s => execSelect db s

/-- The database a fresh `Database db;` holds: no table. -/
def emptyDb : Database := ⟨[]⟩

/-- The database after executing the statements in order, each on the database the
previous one left, whether it threw or not. -/
def runAll (db : Database) : List Statement → Database
  | [] => db
  | st :: rest => runAll (execute db st).db rest

/-- A database is reachable when some sequence of `execute` calls, successful or not,
leads to it from the empty database. -/
def Reachable (db : Database) : Prop :=
  ∃ stmts : List Statement, runAll emptyDb stmts = db

/-! ## Renderer (`renderer.cpp`) -/

/-- Function `colWidths`: per header column, the largest size of the header and of the
cells of that column. -/
def colWidths (headers : List String) (rows : List (List String)) : List Nat :=
  rows.foldl
    (fun w r => w.mapIdx (fun j wj =>
      match r[j]? with
      | some cell => max wj cell.utf8ByteSize
      | none => wj))
    (headers.map (fun h => h.utf8ByteSize))

/-- Function `printBorder`: `+`, then per column `width + 2` dashes and `+`, then a newline. -/
def printBorder (w : List Nat) : String :=
  "+" ++ String.join (w.map (fun width => String.mk (List.replicate (width + 2) '-') ++ "+")) ++ "\n"

/-- Output of `os << std::left << std::setw(width) << cell`: the cell, padded with blanks
on the right up to `width`. -/
def leftJustified (width : Nat) (cell : String) : String :=
  cell ++ String.mk (List.replicate (width - cell.utf8ByteSize) ' ')

/-- Function `printOneRow`: `|`, then per column a blank, the left-justified cell (empty
when the row is too short), a blank and `|`, then a newline. -/
def printOneRow (row : List String) (w : List Nat) : String :=
  "|" ++ String.join (w.mapIdx (fun j wj => " " ++ leftJustified wj (row.getD j "") ++ " " ++ "|"))
    ++ "\n"

/-- Function `printAscii`: what is written to the stream. -/
def printAscii (headers : List String) (rows : List (List String)) : String :=
  printBorder (colWidths headers rows) ++ printOneRow headers (colWidths headers rows) ++
    printBorder (colWidths headers rows) ++
    String.join (rows.map (fun r => printOneRow r (colWidths headers rows))) ++
    printBorder (colWidths headers rows) ++
    (Nat.repr rows.length ++ " row(s)." ++ "\n")

/-! ## Specification vocabulary -/

/-- The scalar kind of a value: the alternative it holds. -/
def Value.kind : Value → ColType
  | .int _ => .INT
  | .str _ => .STR

/-- The name index of a table agrees with its column list: a name that no column bears
is not indexed, and an indexed name is indexed at the position of a column bearing it. -/
def IndexConsistent (t : Table) : Prop :=
  ∀ n : String,
    (t.indexOf n = -1 ∧ ∀ col ∈ t.columns, col.name ≠ n) ∨
    (∃ j : Nat, t.indexOf n = Int.ofNat j ∧ ∃ col, t.columns[j]? = some col ∧ col.name = n)

/-- Every table of the database has a consistent name index. -/
def IndexedDb (db : Database) : Prop :=
  ∀ name t, mapFind db.tables name = some t → IndexConsistent t

/-- The column a name denotes in a table: the one at the indexed position of the name. -/
def Table.column? (t : Table) (cn : String) : Option Column :=
  if t.indexOf cn < 0 then none else t.columns[(t.indexOf cn).toNat]?

/-- The literal an INSERT with column list `cols` and VALUES row `values` supplies for
the column at position `p`: the literal paired with the last name of the list that denotes
that position, if any name does. -/
def suppliedLiteral (t : Table) (cols : List String) (values : List Value) (p : Nat) : Option Value :=
  (((cols.zip values).filter (fun cv => decide (t.indexOf cv.1 = Int.ofNat p))).getLast?).map
    (fun cv => cv.2)

/-- The full-width row an INSERT builds from one VALUES row: at each column position the
supplied literal, or the default of the column type when no literal is supplied for it. -/
def expectedRow (t : Table) (cols : List String) (values : List Value) : Row :=
  t.columns.mapIdx (fun p col => (suppliedLiteral t cols values p).getD (defaultFor col.type))

/-- A VALUES row fits the column list of its INSERT: it has as many literals as there
are named columns, and the kind of each literal is the declared type of the column its
name denotes. -/
def RowAccepted (t : Table) (cols : List String) (values : List Value) : Prop :=
  values.length = cols.length ∧
  ∀ cv ∈ cols.zip values, (t.column? cv.1).map (fun col => col.type) = some cv.2.kind

/-- The literal an UPDATE assigns to the column at position `p`: the literal of the last
assignment whose column name denotes that position, if any does. -/
def assignedLiteral (t : Table) (assignments : List (String × Value)) (p : Nat) : Option Value :=
  ((assignments.filter (fun a => decide (t.indexOf a.1 = Int.ofNat p))).getLast?).map (fun a => a.2)

/-- The row an UPDATE makes of a selected row `r`: at each position the assigned literal,
or the old cell when nothing is assigned to that column. -/
def updatedRow (t : Table) (assignments : List (String × Value)) (r : Row) : Row :=
  r.mapIdx (fun p v => (assignedLiteral t assignments p).getD v)

/-- An assignment `cn = literal` fits the table: `cn` denotes a column and the kind of the
literal is the declared type of that column. -/
def AssignmentAccepted (t : Table) (a : String × Value) : Prop :=
  (t.column? a.1).map (fun col => col.type) = some a.2.kind

/-- The number a string of decimal digits denotes, read from the left. -/
def decimalValue (s : String) : Nat :=
  s.data.foldl (fun acc c => 10 * acc + (c.toNat - 48)) 0

/-- Whether every statement of the list succeeds when they are executed in order, each
on the database the previous one left. -/
def allSucceed (db : Database) : List Statement → Bool
  | [] => true
  | st :: rest =>
    (match (execute db st).result with
      | .ok _ => true
      | .error _ => false) && allSucceed (execute db st).db rest

/-! ## Example databases -/

/-- The database holding the freshly created table `t (n int, s str)`. -/
def tableNS : Database :=
  (execute emptyDb (.create ⟨"t", [("n", .INT), ("s", .STR)]⟩)).db

/-- The database holding the freshly created table `t (id int, name str)`. -/
def tableIdName : Database :=
  (execute emptyDb (.create ⟨"t", [("id", .INT), ("name", .STR)]⟩)).db

/-- The table `t (id int, name str)` with the rows (1, Alice), (2, Bob), (3, Cara). -/
def threeRows : Database :=
  (execute tableIdName (.insert ⟨"t", ["id", "name"],
    [[.int 1, .str "Alice"], [.int 2, .str "Bob"], [.int 3, .str "Cara"]]⟩)).db

/-- A row fits a column list: it has one cell per column, each of the declared kind. -/
def RowFits (cols : List Column) (r : Row) : Prop :=
  List.Forall₂ (fun col v => v.kind = col.type) cols r

/-- A table is well formed: its name index agrees with its columns and every row fits
its columns. -/
def TableWellFormed (t : Table) : Prop :=
  IndexConsistent t ∧ ∀ r ∈ t.rows, RowFits t.columns r

/-- Every table of the database is well formed. -/
def WellFormedDb (db : Database) : Prop :=
  ∀ name t, mapFind db.tables name = some t → TableWellFormed t

/-- Table named by a row statement (INSERT, DELETE, UPDATE); `none` for CREATE and SELECT. -/
def Statement.rowTable : Statement → Option String
  | .insert s => some s.table
  | .delete s => some s.table
  | .update s => some s.table
  | .create _ => none
  | .select _ => none

/-! ## Tokenizer (`lexer.hpp`, `lexer.cpp`)

The source text is a list of characters, the tokenizer state is the unread part of the
text (`s_` from position `i_` on) with the current line and column.  The source reads
bytes: a character outside ASCII is a sequence of bytes from `0x80` on, none of which is
a space, a digit, a letter or a quote in the "C" locale the program runs in, so reading it
byte by byte or at once gives the same tokens, and a column counts bytes. -/

/-- The token kinds `enum class TokType`. -/
inductive TokType where
  | End
  | Ident
  | Number
  | String
  | Comma
  | LParen
  | RParen
  | Semicolon
  | Star
  | Equal
  | NotEqual
  | Less
  | LessEq
  | Greater
  | GreaterEq
  deriving DecidableEq

/-- A token `struct Token { type; text; line; col; }`. -/
structure Token where
  type : TokType
  text : String
  line : Nat
  col : Nat
  deriving DecidableEq

/-- How a call of the tokenizer or of the parser ends when it does not return: with a
`std::runtime_error`, with the `std::out_of_range` or `std::invalid_argument` of
`std::stoll`, without ever leaving a loop by itself (`unbounded`), or, in the model only,
at the bound put on the number of iterations of a parser loop (`loopBound`). -/
inductive ParseError where
  | runtime (what : String)
  | out_of_range
  | invalid_argument
  | unbounded
  | loopBound
  deriving DecidableEq

/-- The character `'\0'`, which `peek` also returns at the end of the text. -/
def NUL : Char := Char.ofNat 0

/-- Library `std::isspace` in the "C" locale: blank, `\t`, `\n`, `\v`, `\f`, `\r`. -/
def isspace (c : Char) : Bool :=
  c.toNat == 32 || (9 ≤ c.toNat && c.toNat ≤ 13)

/-- Library `std::isdigit`. -/
def isdigit (c : Char) : Bool := c.isDigit

/-- Library `std::isalpha` in the "C" locale. -/
def isalpha (c : Char) : Bool := c.isAlpha

/-- Library `std::isalnum` in the "C" locale. -/
def isalnum (c : Char) : Bool := c.isAlphanum

/-- The state of `class Lexer`: the unread text `s_[i_..]`, `line_` and `col_`. -/
structure Lexer where
  s : List Char
  line : Nat
  col : Nat
  deriving DecidableEq

/-- Member `Lexer::eof`. -/
def Lexer.eof (lx : Lexer) : Bool := lx.s.isEmpty

/-- Member `Lexer::peek()`: the next character, `'\0'` at the end of the text. -/
def Lexer.peek (lx : Lexer) : Char := lx.s.headD NUL

/-- Line and column after `get` has consumed the character `c`: a newline starts a line,
any other character moves the column by its number of bytes. -/
def advancePos (c : Char) (line col : Nat) : Nat × Nat :=
  if c = '\n' then (line + 1, 1) else (line, col + c.utf8Size)

/-- Member `Lexer::get`: the next character; it is consumed unless it is `'\0'`. -/
def Lexer.get (lx : Lexer) : Char × Lexer :=
  match lx.s with
  | [] => (NUL, lx)
  | c :: rest =>
    if c = NUL then (c, lx)
    else (c, ⟨rest, (advancePos c lx.line lx.col).1, (advancePos c lx.line lx.col).2⟩)

/-- The loop of `Lexer::skipSpaces` on the unread text; a space is not `'\0'`, so `get`
consumes it. -/
def skipSpacesLoop : List Char → Nat → Nat → Lexer
  | [], line, col => ⟨[], line, col⟩
  | c :: rest, line, col =>
    if isspace c then skipSpacesLoop rest (advancePos c line col).1 (advancePos c line col).2
    else ⟨c :: rest, line, col⟩

/-- Member `Lexer::skipSpaces`. -/
def Lexer.skipSpaces (lx : Lexer) : Lexer := skipSpacesLoop lx.s lx.line lx.col

/-- The loop of `Lexer::readString` for a token that starts at `tline`, `tcol`.  On a
`'\0'` the call `get()` consumes nothing and the loop appends `'\0'` to `out` again and
again: it never ends by itself. -/
def readStringLoop (tline tcol : Nat) :
    List Char → Nat → Nat → List Char → Except ParseError (Token × Lexer)
  | [], _, _, _ => .error (.runtime "Unterminated string literal")
  | c :: rest, line, col, out =>
    if c = NUL then .error .unbounded
    else if c = '"' then
      .ok (⟨.String, String.mk out, tline, tcol⟩,
        ⟨rest, (advancePos c line col).1, (advancePos c line col).2⟩)
    else
      readStringLoop tline tcol rest (advancePos c line col).1 (advancePos c line col).2
        (out ++ [c])

/-- Member `Lexer::readString`, called after the opening quote has been consumed. -/
def Lexer.readString (lx : Lexer) : Except ParseError (Token × Lexer) :=
  readStringLoop lx.line lx.col lx.s lx.line lx.col []

/-- The loops `while (pred(peek())) out.push_back(get())` of `readNumber` and
`readIdent`; a digit or letter is not `'\0'`, so `get` consumes it. -/
def readWhile (pred : Char → Bool) : List Char → Nat → Nat → List Char → List Char × Lexer
  | [], line, col, out => (out, ⟨[], line, col⟩)
  | c :: rest, line, col, out =>
    if pred c then
      readWhile pred rest (advancePos c line col).1 (advancePos c line col).2 (out ++ [c])
    else (out, ⟨c :: rest, line, col⟩)

/-- Member `Lexer::readNumber`; `c0` is `s_[i_ - 1]`, the character `next` has just
consumed. -/
def Lexer.readNumber (lx : Lexer) (c0 : Char) : Except ParseError (Token × Lexer) :=
  let r := readWhile isdigit lx.s lx.line lx.col [c0]
  if r.1 = ['-'] ∨ r.1 = [] then .error (.runtime "Invalid integer literal")
  else .ok (⟨.Number, String.mk r.1, lx.line, lx.col⟩, r.2)

/-- Member `Lexer::readIdent`; `c0` is `s_[i_ - 1]`, the character `next` has just
consumed. -/
def Lexer.readIdent (lx : Lexer) (c0 : Char) : Token × Lexer :=
  let r := readWhile (fun c => isalnum c || c = '_') lx.s lx.line lx.col [c0]
  (⟨.Ident, String.mk r.1, lx.line, lx.col⟩, r.2)

/-- Member `Lexer::next`. -/
def Lexer.next (lx0 : Lexer) : Except ParseError (Token × Lexer) :=
  let lx1 := lx0.skipSpaces
  if lx1.eof then .ok (⟨.End, "", lx1.line, lx1.col⟩, lx1)
  else
    let c := lx1.get.1
    let lx := lx1.get.2
    if c = ',' then .ok (⟨.Comma, ",", lx1.line, lx1.col⟩, lx)
    else if c = '(' then .ok (⟨.LParen, "(", lx1.line, lx1.col⟩, lx)
    else if c = ')' then .ok (⟨.RParen, ")", lx1.line, lx1.col⟩, lx)
    else if c = ';' then .ok (⟨.Semicolon, ";", lx1.line, lx1.col⟩, lx)
    else if c = '*' then .ok (⟨.Star, "*", lx1.line, lx1.col⟩, lx)
    else if c = '"' then lx.readString
    else if c = '=' then .ok (⟨.Equal, "=", lx1.line, lx1.col⟩, lx)
    else if c = '!' ∧ lx.peek = '=' then .ok (⟨.NotEqual, "!=", lx1.line, lx1.col⟩, lx.get.2)
    else if c = '<' then
      if lx.peek = '=' then .ok (⟨.LessEq, "<=", lx1.line, lx1.col⟩, lx.get.2)
      else .ok (⟨.Less, "<", lx1.line, lx1.col⟩, lx)
    else if c = '>' then
      if lx.peek = '=' then .ok (⟨.GreaterEq, ">=", lx1.line, lx1.col⟩, lx.get.2)
      else .ok (⟨.Greater, ">", lx1.line, lx1.col⟩, lx)
    else if isdigit c || (c = '-' && isdigit lx.peek) then lx.readNumber c
    else if isalpha c || c = '_' then .ok (lx.readIdent c)
    else .error (.runtime "Unexpected character")

/-- Static `isUpper` of `lexer.cpp`: non-empty and all characters in `A..Z`. -/
def isUpper (s : String) : Bool :=
  s.data.all (fun c => 'A' ≤ c && c ≤ 'Z') && !s.data.isEmpty

/-- Function `isUpperKeyword`. -/
def isUpperKeyword (w : String) : Bool :=
  if !isUpper w then false
  else w == "CREATE" || w == "TABLE" || w == "INSERT" || w == "INTO" || w == "VALUES" ||
    w == "SELECT" || w == "FROM" || w == "WHERE" || w == "DELETE" || w == "UPDATE" || w == "SET"

/-- Function `isTypeWord`. -/
def isTypeWord (w : String) : Bool := w == "int" || w == "str"

/-! ## Parser (`parser.hpp`, `parser.cpp`)

The parser state is the tokenizer and the current token `cur_`; every member function
returns its result together with the state it leaves.  A `while` or `do ... while` loop is
a function that counts its iterations down from a bound; the bound is the number of unread
characters plus one, and every iteration that is followed by another one consumes a
character. -/

/-- Library `std::stoll(text)` in base 10: leading spaces, an optional sign, the longest
run of digits; `std::invalid_argument` when there is no digit, `std::out_of_range` when
the number is not a `long long`. -/
def stoll (text : String) : Except ParseError Int :=
  let cs := text.data.dropWhile isspace
  let ds := (if cs.head? = some '-' ∨ cs.head? = some '+' then cs.tail else cs).takeWhile isdigit
  if ds = [] then .error .invalid_argument
  else
    let x : Int := if cs.head? = some '-' then -(decimalValue (String.mk ds) : Int)
      else (decimalValue (String.mk ds) : Int)
    if x < -(2 : Int) ^ 63 ∨ (2 : Int) ^ 63 - 1 < x then .error .out_of_range else .ok x

/-- The state of `class Parser`: the tokenizer `lx_` and the current token `cur_`. -/
structure Parser where
  lx : Lexer
  cur : Token
  deriving DecidableEq

/-- Constructor `Parser::Parser(src)`: reads the first token. -/
def Parser.create (src : String) : Except ParseError Parser :=
  match Lexer.next ⟨src.data, 1, 1⟩ with
  | .error e => .error e
  | .ok r => .ok ⟨r.2, r.1⟩

/-- Member `Parser::advance`. -/
def Parser.advance (p : Parser) : Except ParseError Parser :=
  match p.lx.next with
  | .error e => .error e
  | .ok r => .ok ⟨r.2, r.1⟩

/-- Member `Parser::accept`. -/
def Parser.accept (p : Parser) (t : TokType) : Except ParseError (Bool × Parser) :=
  if p.cur.type = t then
    match p.advance with
    | .error e => .error e
    | .ok q => .ok (true, q)
  else .ok (false, p)

/-- Member `Parser::expect`. -/
def Parser.expect (p : Parser) (t : TokType) (msg : String) : Except ParseError Parser :=
  match p.accept t with
  | .error e => .error e
  | .ok r => if r.1 then .ok r.2 else .error (.runtime msg)

/-- Member `Parser::acceptWord`. -/
def Parser.acceptWord (p : Parser) (w : String) : Except ParseError (Bool × Parser) :=
  if p.cur.type = .Ident ∧ p.cur.text = w then
    match p.advance with
    | .error e => .error e
    | .ok q => .ok (true, q)
  else .ok (false, p)

/-- Member `Parser::expectWord`. -/
def Parser.expectWord (p : Parser) (w msg : String) : Except ParseError Parser :=
  match p.acceptWord w with
  | .error e => .error e
  | .ok r => if r.1 then .ok r.2 else .error (.runtime msg)

/-- Member `Parser::parseIdent`. -/
def Parser.parseIdent (p : Parser) (what : String) : Except ParseError (String × Parser) :=
  if p.cur.type = .Ident ∧ isUpperKeyword p.cur.text = false ∧ isTypeWord p.cur.text = false then
    match p.advance with
    | .error e => .error e
    | .ok q => .ok (p.cur.text, q)
  else .error (.runtime ("Expected identifier for " ++ what))

/-- Member `Parser::parseLiteral`. -/
def Parser.parseLiteral (p : Parser) : Except ParseError (Value × Parser) :=
  if p.cur.type = .Number then
    match stoll p.cur.text with
    | .error e => .error e
    | .ok x =>
      match p.advance with
      | .error e => .error e
      | .ok q => .ok (.int x, q)
  else if p.cur.type = .String then
    match p.advance with
    | .error e => .error e
    | .ok q => .ok (.str p.cur.text, q)
  else .error (.runtime "Expected literal (number or \"string\")")

/-- Member `Parser::parseCondition`. -/
def Parser.parseCondition (p0 : Parser) : Except ParseError (Condition × Parser) := do
  let (column, p1) ← p0.parseIdent "WHERE column"
  let (eq, p2) ← p1.accept .Equal
  let (op, p) ←
    (if eq then pure (CmpOp.EQ, p2) else do
      let (ne, p3) ← p2.accept .NotEqual
      if ne then pure (CmpOp.NE, p3) else do
        let (le, p4) ← p3.accept .LessEq
        if le then pure (CmpOp.LE, p4) else do
          let (ge, p5) ← p4.accept .GreaterEq
          if ge then pure (CmpOp.GE, p5) else do
            let (lt, p6) ← p5.accept .Less
            if lt then pure (CmpOp.LT, p6) else do
              let (gt, p7) ← p6.accept .Greater
              if gt then pure (CmpOp.GT, p7)
              else throw (.runtime
                "Expected comparison operator (=, !=, <, <=, >, >=) in WHERE")
      : Except ParseError (CmpOp × Parser))
  let (literal, q) ← p.parseLiteral
  pure (⟨column, op, literal⟩, q)

/-- One column definition of `Parser::parseCreate`: the name, the type word, `advance`.
The source writes these statements twice, for the first column and in the loop. -/
def Parser.parseColumnDef (p0 : Parser) : Except ParseError ((String × ColType) × Parser) := do
  let (cname, p1) ← p0.parseIdent "column"
  if !(p1.cur.type = .Ident && isTypeWord p1.cur.text) then
    throw (.runtime "Expected type int or str after column name")
  else
    let ct := if p1.cur.text = "int" then ColType.INT else ColType.STR
    let p2 ← p1.advance
    pure ((cname, ct), p2)

/-- The loop `while (accept(TokType::Comma)) { ... }` of `Parser::parseCreate`. -/
def Parser.createLoop : Nat → Parser → List (String × ColType) →
    Except ParseError (List (String × ColType) × Parser)
  | 0, _, _ => .error .loopBound
  | bound + 1, p0, columns => do
    let (more, p1) ← p0.accept .Comma
    if more then
      let (c, p2) ← p1.parseColumnDef
      Parser.createLoop bound p2 (columns ++ [c])
    else pure (columns, p1)

/-- Member `Parser::parseCreate`. -/
def Parser.parseCreate (p0 : Parser) : Except ParseError (CreateStmt × Parser) := do
  let p1 ← p0.expectWord "CREATE" "Expected CREATE"
  let p2 ← p1.expectWord "TABLE" "Expected TABLE"
  let (table, p3) ← p2.parseIdent "table"
  let p4 ← p3.expect .LParen "Expected '('"
  let (c, p5) ← p4.parseColumnDef
  let (columns, p6) ← Parser.createLoop (p5.lx.s.length + 1) p5 [c]
  let p7 ← p6.expect .RParen "Expected ')' after column list"
  pure (⟨table, columns⟩, p7)

/-- The loops `do { push_back(parseIdent("column")); } while (accept(TokType::Comma))`
of `parseInsert` and, entered after its first identifier, the loop
`while (accept(TokType::Comma)) push_back(parseIdent("column"))` of `parseSelect`:
here from the test of the loop on. -/
def Parser.identLoop : Nat → Parser → List String → Except ParseError (List String × Parser)
  | 0, _, _ => .error .loopBound
  | bound + 1, p0, cols => do
    let (more, p1) ← p0.accept .Comma
    if more then
      let (c, p2) ← p1.parseIdent "column"
      Parser.identLoop bound p2 (cols ++ [c])
    else pure (cols, p1)

/-- The loop `while (accept(TokType::Comma)) row.push_back(parseLiteral())`. -/
def Parser.literalLoop : Nat → Parser → List Value → Except ParseError (List Value × Parser)
  | 0, _, _ => .error .loopBound
  | bound + 1, p0, row => do
    let (more, p1) ← p0.accept .Comma
    if more then
      let (v, p2) ← p1.parseLiteral
      Parser.literalLoop bound p2 (row ++ [v])
    else pure (row, p1)

/-- The body of the loop over the rows of `parseInsert`: `(`, the literals, `)`. -/
def Parser.parseRow (p0 : Parser) : Except ParseError (List Value × Parser) := do
  let p1 ← p0.expect .LParen "Expected '(' before row"
  let (v, p2) ← p1.parseLiteral
  let (row, p3) ← Parser.literalLoop (p2.lx.s.length + 1) p2 [v]
  let p4 ← p3.expect .RParen "Expected ')'"
  pure (row, p4)

/-- The loop `do { ... } while (accept(TokType::Comma))` over the rows of `parseInsert`. -/
def Parser.rowLoop : Nat → Parser → List (List Value) →
    Except ParseError (List (List Value) × Parser)
  | 0, _, _ => .error .loopBound
  | bound + 1, p0, rows => do
    let (row, p1) ← p0.parseRow
    let (more, p2) ← p1.accept .Comma
    if more then Parser.rowLoop bound p2 (rows ++ [row])
    else pure (rows ++ [row], p2)

/-- Member `Parser::parseInsert`. -/
def Parser.parseInsert (p0 : Parser) : Except ParseError (InsertStmt × Parser) := do
  let p1 ← p0.expectWord "INSERT" "Expected INSERT"
  let p2 ← p1.expectWord "INTO" "Expected INTO"
  let (table, p3) ← p2.parseIdent "table"
  let p4 ← p3.expect .LParen "Expected '(' after table"
  let (c, p5) ← p4.parseIdent "column"
  let (cols, p6) ← Parser.identLoop (p5.lx.s.length + 1) p5 [c]
  let p7 ← p6.expect .RParen "Expected ')'"
  let p8 ← p7.expectWord "VALUES" "Expected VALUES"
  let (rows, p9) ← Parser.rowLoop (p8.lx.s.length + 1) p8 []
  pure (⟨table, cols, rows⟩, p9)

/-- The statement `if (acceptWord("WHERE")) s.where = parseCondition();`. -/
def Parser.parseWhere (p0 : Parser) : Except ParseError (Option Condition × Parser) := do
  let (w, p1) ← p0.acceptWord "WHERE"
  if w then
    let (c, p2) ← p1.parseCondition
    pure (some c, p2)
  else pure (none, p1)

/-- Member `Parser::parseDelete`. -/
def Parser.parseDelete (p0 : Parser) : Except ParseError (DeleteStmt × Parser) := do
  let p1 ← p0.expectWord "DELETE" "Expected DELETE"
  let p2 ← p1.expectWord "FROM" "Expected FROM"
  let (table, p3) ← p2.parseIdent "table"
  let (where_, p4) ← p3.parseWhere
  pure (⟨table, where_⟩, p4)

/-- The loop `do { ... } while (accept(TokType::Comma))` over the assignments of
`parseUpdate`. -/
def Parser.assignLoop : Nat → Parser → List (String × Value) →
    Except ParseError (List (String × Value) × Parser)
  | 0, _, _ => .error .loopBound
  | bound + 1, p0, assignments => do
    let (cname, p1) ← p0.parseIdent "column"
    let p2 ← p1.expect .Equal "Expected '=' in SET"
    let (v, p3) ← p2.parseLiteral
    let (more, p4) ← p3.accept .Comma
    if more then Parser.assignLoop bound p4 (assignments ++ [(cname, v)])
    else pure (assignments ++ [(cname, v)], p4)

/-- Member `Parser::parseUpdate`. -/
def Parser.parseUpdate (p0 : Parser) : Except ParseError (UpdateStmt × Parser) := do
  let p1 ← p0.expectWord "UPDATE" "Expected UPDATE"
  let (table, p2) ← p1.parseIdent "table"
  let p3 ← p2.expectWord "SET" "Expected SET"
  let (assignments, p4) ← Parser.assignLoop (p3.lx.s.length + 1) p3 []
  let (where_, p5) ← p4.parseWhere
  pure (⟨table, assignments, where_⟩, p5)

/-- Member `Parser::parseSelect`. -/
def Parser.parseSelect (p0 : Parser) : Except ParseError (SelectStmt × Parser) := do
  let p1 ← p0.expectWord "SELECT" "Expected SELECT"
  let (star, p2) ← p1.accept .Star
  let (cols, p3) ←
    (if star then pure ([], p2) else do
      let (c, p) ← p2.parseIdent "column"
      Parser.identLoop (p.lx.s.length + 1) p [c]
      : Except ParseError (List String × Parser))
  let p4 ← p3.expectWord "FROM" "Expected FROM"
  let (table, p5) ← p4.parseIdent "table"
  let (where_, p6) ← p5.parseWhere
  pure (⟨star, cols, table, where_⟩, p6)

/-- The body of the loop of `Parser::parseAll` up to `out.push_back`: the test of the
statement keyword and the call of the statement's function. -/
def Parser.parseStatement (p : Parser) : Except ParseError (Statement × Parser) :=
  if p.cur.type ≠ .Ident ∨ isUpperKeyword p.cur.text = false then
    .error (.runtime "Expected a statement keyword (CREATE/INSERT/DELETE/SELECT/UPDATE)")
  else if p.cur.text = "CREATE" then p.parseCreate.map (fun r => (.create r.1, r.2))
  else if p.cur.text = "INSERT" then p.parseInsert.map (fun r => (.insert r.1, r.2))
  else if p.cur.text = "DELETE" then p.parseDelete.map (fun r => (.delete r.1, r.2))
  else if p.cur.text = "UPDATE" then p.parseUpdate.map (fun r => (.update r.1, r.2))
  else if p.cur.text = "SELECT" then p.parseSelect.map (fun r => (.select r.1, r.2))
  else .error (.runtime "Unsupported statement")

/-- The loop `while (cur_.type != TokType::End)` of `Parser::parseAll`. -/
def Parser.parseAllLoop : Nat → Parser → List Statement → Except ParseError (List Statement)
  | 0, _, _ => .error .loopBound
  | bound + 1, p0, out =>
    if p0.cur.type = .End then .ok out
    else do
      let (st, p1) ← p0.parseStatement
      let p2 ← p1.expect .Semicolon "Expected ';' after statement"
      Parser.parseAllLoop bound p2 (out ++ [st])

/-- Construction `Parser p(src)` followed by `p.parseAll()`. -/
def parseAll (src : String) : Except ParseError (List Statement) :=
  match Parser.create src with
  | .error e => .error e
  | .ok p => Parser.parseAllLoop (p.lx.s.length + 1) p []

/-! ## Statements written as text -/

/-- The text a token of kind `t.1` with content `t.2` is written as: a string literal
between double quotes, any other token as its content. -/
def tokenText (t : TokType × String) : List Char :=
  if t.1 = .String then '"' :: t.2.data ++ ['"'] else t.2.data

/-- Tokens written one after the other with one blank between them; `spacedText` puts
the blank before each token. -/
def spacedText (toks : List (TokType × String)) : List Char :=
  toks.flatMap (fun t => ' ' :: tokenText t)

/-- Tokens written with one blank between two of them. -/
def tokensText : List (TokType × String) → List Char
  | [] => []
  | t :: ts => tokenText t ++ spacedText ts

/-- The token of a word: a keyword, a type word or a name. -/
def wordTok (w : String) : TokType × String := (.Ident, w)

/-- The word a column type is written as. -/
def typeWord : ColType → String
  | .INT => "int"
  | .STR => "str"

/-- The token of a literal: an integer in decimal, a string between quotes. -/
def literalTok : Value → TokType × String
  | .int x => (.Number, to_string x)
  | .str s => (.String, s)

/-- The token of a comparison operator. -/
def opTok : CmpOp → TokType × String
  | .EQ => (.Equal, "=")
  | .NE => (.NotEqual, "!=")
  | .LT => (.Less, "<")
  | .LE => (.LessEq, "<=")
  | .GT => (.Greater, ">")
  | .GE => (.GreaterEq, ">=")

/-- The items of a list, each but the first preceded by a comma. -/
def commaSep : List (List (TokType × String)) → List (TokType × String)
  | [] => []
  | x :: rest => x ++ rest.flatMap (fun y => (TokType.Comma, ",") :: y)

/-- The tokens of `cond := IDENT op literal`. -/
def conditionToks (c : Condition) : List (TokType × String) :=
  [wordTok c.column, opTok c.op, literalTok c.literal]

/-- The tokens of `[ 'WHERE' cond ]`. -/
def whereToks : Option Condition → List (TokType × String)
  | none => []
  | some c => wordTok "WHERE" :: conditionToks c

/-- The tokens of a statement in the grammar of the language, keywords in upper case;
a SELECT of all columns is written with `*`. -/
def statementToks : Statement → List (TokType × String)
  | .create s =>
    [wordTok "CREATE", wordTok "TABLE", wordTok s.table, (.LParen, "(")] ++
      commaSep (s.columns.map (fun c => [wordTok c.1, wordTok (typeWord c.2)])) ++
      [(.RParen, ")")]
  | .insert s =>
    [wordTok "INSERT", wordTok "INTO", wordTok s.table, (.LParen, "(")] ++
      commaSep (s.cols.map (fun c => [wordTok c])) ++
      [(.RParen, ")"), wordTok "VALUES"] ++
      commaSep (s.rows.map (fun r =>
        (TokType.LParen, "(") :: commaSep (r.map (fun v => [literalTok v])) ++ [(.RParen, ")")]))
  | .delete s => [wordTok "DELETE", wordTok "FROM", wordTok s.table] ++ whereToks s.where_
  | .update s =>
    [wordTok "UPDATE", wordTok s.table, wordTok "SET"] ++
      commaSep (s.assignments.map (fun a => [wordTok a.1, (.Equal, "="), literalTok a.2])) ++
      whereToks s.where_
  | .select s =>
    wordTok "SELECT" ::
      (if s.selectAll then [(TokType.Star, "*")] else commaSep (s.cols.map (fun c => [wordTok c]))) ++
      [wordTok "FROM", wordTok s.table] ++ whereToks s.where_

/-- The tokens of a sequence of statements, each statement followed by `;`. -/
def programToks (stmts : List Statement) : List (TokType × String) :=
  stmts.flatMap (fun st => statementToks st ++ [(TokType.Semicolon, ";")])

/-- The text of a sequence of statements: its tokens with one blank between two of them. -/
def printStatements (stmts : List Statement) : String :=
  String.mk (tokensText (programToks stmts))

/-- An identifier `[A-Za-z_][A-Za-z0-9_]*`. -/
def isIdentifier (w : String) : Bool :=
  match w.data with
  | [] => false
  | c :: cs => (isalpha c || c = '_') && cs.all (fun d => isalnum d || d = '_')

/-- A table or column name: an identifier that is neither a keyword nor a type word. -/
def isName (w : String) : Bool :=
  isIdentifier w && !isUpperKeyword w && !isTypeWord w

/-- A literal that can be written: an integer in the range of `long long`, or a string
without `"` and without `'\0'`. -/
def literalOk : Value → Bool
  | .int x => decide (-(2 : Int) ^ 63 ≤ x ∧ x ≤ (2 : Int) ^ 63 - 1)
  | .str s => s.data.all (fun c => c ≠ '"' && c ≠ NUL)

/-- A condition that can be written. -/
def conditionOk (c : Condition) : Bool := isName c.column && literalOk c.literal

/-- An optional condition that can be written. -/
def whereOk : Option Condition → Bool
  | none => true
  | some c => conditionOk c

/-- A statement tree that can be written in the grammar: names are names, literals can
be written, the column, assignment, row and literal lists are not empty, and a SELECT
either is of all columns and lists none, or lists at least one. -/
def statementOk : Statement → Bool
  | .create s =>
    isName s.table && !s.columns.isEmpty && s.columns.all (fun c => isName c.1)
  | .insert s =>
    isName s.table && !s.cols.isEmpty && s.cols.all isName && !s.rows.isEmpty &&
      s.rows.all (fun r => !r.isEmpty && r.all literalOk)
  | .delete s => isName s.table && whereOk s.where_
  | .update s =>
    isName s.table && !s.assignments.isEmpty &&
      s.assignments.all (fun a => isName a.1 && literalOk a.2) && whereOk s.where_
  | .select s =>
    (if s.selectAll then s.cols.isEmpty else !s.cols.isEmpty && s.cols.all isName) &&
      isName s.table && whereOk s.where_

/-- The tokenizer reads the token `t` from its text, whatever the position, when the
text is followed by the end of the input or by a blank. -/
def Lexes (t : TokType × String) : Prop :=
  ∀ (rest : List Char) (line col : Nat), (rest = [] ∨ ∃ r, rest = ' ' :: r) →
    ∃ tl tc l2 c2, Lexer.next ⟨tokenText t ++ rest, line, col⟩ =
      .ok (⟨t.1, t.2, tl, tc⟩, ⟨rest, l2, c2⟩)

/-- The parser state `p` has the tokens `toks` before it: the first one is its current
token, the text of the others is unread; with no token left the current token is `End`. -/
def Stream (p : Parser) (toks : List (TokType × String)) : Prop :=
  (∀ t ∈ toks, Lexes t) ∧
  match toks with
  | [] => p.cur.type = .End ∧ p.lx.s = []
  | t :: ts => p.cur.type = t.1 ∧ p.cur.text = t.2 ∧ p.lx.s = spacedText ts

/-- No two columns of the table bear the same name. -/
def Table.distinctColumns (t : Table) : Prop :=
  (t.columns.map (fun col => col.name)).Nodup

/-- The five words a statement can start with. -/
def statementKeywords : List String := ["CREATE", "INSERT", "DELETE", "UPDATE", "SELECT"]

/-- The 1-based line and column of the character that follows `text`, when `text` starts
at `line`, `col`: a newline starts a new line at column 1, any other character moves the
column by its number of bytes. -/
def posAfter (text : List Char) (line col : Nat) : Nat × Nat :=
  text.foldl (fun p c => advancePos c p.1 p.2) (line, col)

/-- The token kinds whose token `Lexer::next` lets `readIdent`, `readNumber` or
`readString` build. -/
def TokType.isRead : TokType → Bool
  | .Ident => true
  | .Number => true
  | .String => true
  | _ => false

/-- The eleven keywords of the language. -/
def keywords : List String :=
  ["CREATE", "TABLE", "INSERT", "INTO", "VALUES", "SELECT", "FROM", "WHERE", "DELETE", "UPDATE",
    "SET"]

/-- The tokens of a column definition followed by a comma. -/
def columnThenComma (c : String × ColType) : List (TokType × String) :=
  [wordTok c.1, wordTok (typeWord c.2), (.Comma, ",")]

/-- A token that `parseIdent` takes for a name. -/
def isNameTok (t : TokType × String) : Bool :=
  decide (t.1 = .Ident) && !isUpperKeyword t.2 && !isTypeWord t.2

/-- A token that `parseCreate` takes for a column type. -/
def isTypeTok (t : TokType × String) : Bool :=
  decide (t.1 = .Ident) && isTypeWord t.2

/-- The name index of a table points at the last declaration of a name: no column after
the indexed position of a name bears that name. -/
def IndexLast (t : Table) : Prop :=
  ∀ (n : String) (j k : Nat) (col : Column),
    t.indexOf n = Int.ofNat j → j < k → t.columns[k]? = some col → col.name ≠ n

/-- Every table of the database indexes the last declaration of each name. -/
def IndexLastDb (db : Database) : Prop :=
  ∀ name t, mapFind db.tables name = some t → IndexLast t

/-- The table `t (a int, b str, a int)`, which declares the name `a` twice, after
`INSERT INTO t (a, b) VALUES (2, "x")`: the row stored is (0, x, 2). -/
def repeatedName : Database :=
  runAll emptyDb [.create ⟨"t", [("a", .INT), ("b", .STR), ("a", .INT)]⟩,
    .insert ⟨"t", ["a", "b"], [[.int 2, .str "x"]]⟩]

/-! ## Interactive driver (`main.cpp`)

The driver reads its input line by line.  Texts are lists of characters, as for the
tokenizer. -/

/-- Function `trim` of `main.cpp`: the text without the spaces at its start and, then,
without the spaces at its end. -/
def trim (s : List Char) : List Char :=
  ((s.dropWhile isspace).reverse.dropWhile isspace).reverse

/-- Function `upper_nowhitespace_nosemi`: the characters other than `;` and spaces, each
through `std::toupper`. -/
def upper_nowhitespace_nosemi (s : List Char) : List Char :=
  s.filterMap (fun ch => if ch = ';' then none else if isspace ch then none else some ch.toUpper)

/-- The lambda `exec_one` of `repl`, as far as the loops of `repl` depend on it: `false`
for an exit command, `true` otherwise.  In the latter case the source parses and executes
the statement and catches every exception, which has no influence on the text that is cut
next. -/
def exec_one (stmt : List Char) : Bool :=
  if upper_nowhitespace_nosemi (trim stmt) = "EXIT".data ∨
      upper_nowhitespace_nosemi (trim stmt) = "QUIT".data ∨
      upper_nowhitespace_nosemi (trim stmt) = ".QUIT".data then false
  else true

/-- The variables of `repl` between two input lines: `inStr`, `buf`, the statements handed
to `exec_one` so far, and whether `repl` has returned after an exit command. -/
structure Repl where
  inStr : Bool
  buf : List Char
  out : List (List Char)
  stopped : Bool
  deriving DecidableEq

/-- The loop `for (size_t i = 0; i < buf.size(); ++i)` of `repl` with the statement
`if (start > 0) buf.erase(0, start)` after it: the argument list is `buf` from `i` on and
`cur` is `buf` from `start` to `i`, which is what `buf` holds after the `erase`. -/
def scanLoop (inStr : Bool) (cur : List Char) (out : List (List Char)) : List Char → Repl
  | [] => ⟨inStr, cur, out, false⟩
  | ch :: rest =>
    if (if ch = '"' then !inStr else inStr) = false ∧ ch = ';' then
      if exec_one (cur ++ [ch]) = false then
        ⟨if ch = '"' then !inStr else inStr, [], out ++ [cur ++ [ch]], true⟩
      else scanLoop (if ch = '"' then !inStr else inStr) [] (out ++ [cur ++ [ch]]) rest
    else scanLoop (if ch = '"' then !inStr else inStr) (cur ++ [ch]) out rest

/-- The loop `for (std::string line; std::getline(std::cin, line);)` of `repl`. -/
def replLoop (st : Repl) : List (List Char) → Repl
  | [] => st
  | line :: lines =>
    if (scanLoop st.inStr [] st.out (st.buf ++ line ++ ['\n'])).stopped then
      scanLoop st.inStr [] st.out (st.buf ++ line ++ ['\n'])
    else replLoop (scanLoop st.inStr [] st.out (st.buf ++ line ++ ['\n'])) lines

/-- Function `repl` on the lines of its input: the statements it hands to `exec_one`, in
order. -/
def repl (lines : List String) : List String :=
  (replLoop ⟨false, [], [], false⟩ (lines.map String.data)).out.map String.mk

/-- The statements of a text cut in one pass as the specification describes it: a `"`
toggles the inside-string state and a `;` met outside a string ends a statement.  `cur`
is the text since the last cut; the result is the statements, the state at the end of the
text and the text after the last cut. -/
def splitRun : Bool → List Char → List Char → List (List Char) × Bool × List Char
  | s, cur, [] => ([], s, cur)
  | s, cur, ch :: rest =>
    if ch = '"' then splitRun (!s) (cur ++ [ch]) rest
    else if ch = ';' ∧ s = false then
      ((cur ++ [ch]) :: (splitRun false [] rest).1, (splitRun false [] rest).2)
    else splitRun s (cur ++ [ch]) rest

/-- The statements of the whole input cut at the `;` outside string literals. -/
def splitStatements (lines : List String) : List (List Char) :=
  (splitRun false [] (lines.flatMap (fun l => l.data ++ ['\n']))).1

/-- The statements up to and including the first exit command. -/
def upToExit : List (List Char) → List (List Char)
  | [] => []
  | s :: rest => if exec_one s = false then [s] else s :: upToExit rest

/-- The text since the last cut, scanned from outside a string, has no `;` outside a
string and ends in the state `s`. -/
def Quiet (s : Bool) (cur : List Char) : Prop :=
  splitRun false [] cur = ([], s, cur)

/-- The weight of a parser state: twice the number of unread characters, plus one when
the current token is not `End`.  A call of `advance` at a token other than `End` lowers
it. -/
def Parser.weight (p : Parser) : Nat :=
  2 * p.lx.s.length + (if p.cur.type = .End then 0 else 1)

/-- An error a call on the state `p` may end with: not the iteration bound of the model,
and the endless loop of `readString` only when the unread text holds a `'\0'`. -/
def ErrOk (p : Parser) (e : ParseError) : Prop :=
  e ≠ .loopBound ∧ (e = .unbounded → NUL ∈ p.lx.s)

/-- A call on the state `p` ends well: with an error as above, or with a result whose
state `π b` has a suffix of the unread text left and a weight lower by `k` at least. -/
def Sound {β : Type} (π : β → Parser) (k : Nat) (p : Parser) (r : Except ParseError β) : Prop :=
  match r with
  | .error e => ErrOk p e
  | .ok b => (π b).lx.s <:+ p.lx.s ∧ (π b).weight + k ≤ p.weight

/-- The CREATE TABLE statement that creates the table `name` when the statements are
executed in order from a database without that table: the first CREATE of that name, as
it finds no table and every later one finds the table present. -/
def creatingStatement (name : String) : List Statement → Option CreateStmt
  | [] => none
  | .create s :: rest => if s.table = name then some s else creatingStatement name rest
  | _ :: rest => creatingStatement name rest

/-! # Lemmas and theorems -/

/-! ## Association lists -/

theorem mapFind_mapAssign_same {α : Type} (m : List (String × α)) (k : String) (v : α) :
    mapFind (mapAssign m k v) k = some v := by
  induction m with
  | nil => simp [mapAssign, mapFind]
  | cons kv m ih =>
    obtain ⟨k0, w⟩ := kv
    by_cases h : k0 = k
    · simp [mapAssign, mapFind, h]
    · simp [mapAssign, mapFind, h, ih]

theorem mapFind_mapAssign_other {α : Type} (m : List (String × α)) (k k2 : String) (v : α)
    (h : k ≠ k2) : mapFind (mapAssign m k v) k2 = mapFind m k2 := by
  induction m with
  | nil => simp [mapAssign, mapFind, h]
  | cons kv m ih =>
    obtain ⟨k0, w⟩ := kv
    by_cases h0 : k0 = k
    · subst h0; simp [mapAssign, mapFind, h]
    · by_cases h1 : k0 = k2
      · subst h1; simp [mapAssign, mapFind, h0]
      · simp [mapAssign, mapFind, h0, h1, ih]

theorem mapAssign_self {α : Type} (m : List (String × α)) (k : String) (v : α)
    (h : mapFind m k = some v) : mapAssign m k v = m := by
  induction m with
  | nil => simp [mapFind] at h
  | cons kv m ih =>
    obtain ⟨k0, w⟩ := kv
    by_cases h0 : k0 = k
    · simp [mapFind, h0] at h; simp [mapAssign, h0, h]
    · simp [mapFind, h0] at h; simp [mapAssign, h0, ih h]

theorem mapFind_append_single {α : Type} (m : List (String × α)) (k k2 : String) (v : α)
    (h : mapFind m k = none) :
    mapFind (m ++ [(k, v)]) k2 = if k = k2 then some v else mapFind m k2 := by
  induction m with
  | nil => simp [mapFind]
  | cons kv m ih =>
    obtain ⟨k0, w⟩ := kv
    by_cases h0 : k0 = k
    · simp [mapFind, h0] at h
    · simp only [mapFind, h0, if_false] at h
      by_cases h1 : k0 = k2
      · subst h1
        have : k ≠ k0 := fun e => h0 e.symm
        simp [mapFind, this]
      · simp [mapFind, h1, ih h]

theorem mapFind_mapEmplace {α : Type} (m : List (String × α)) (k k2 : String) (v : α)
    (h : mapFind m k = none) :
    mapFind (mapEmplace m k v) k2 = if k = k2 then some v else mapFind m k2 := by
  simp [mapEmplace, h, mapFind_append_single]

/-! ## CREATE and the name index -/

theorem createColumns_columns (cols : List (String × ColType)) (i : Nat) (t : Table) :
    (createColumns cols i t).columns = t.columns ++ cols.map (fun c => (⟨c.1, c.2⟩ : Column)) := by
  induction cols generalizing i t with
  | nil => simp [createColumns]
  | cons c rest ih =>
    obtain ⟨n, ty⟩ := c
    simp [createColumns, ih]

theorem createColumns_rows (cols : List (String × ColType)) (i : Nat) (t : Table) :
    (createColumns cols i t).rows = t.rows := by
  induction cols generalizing i t with
  | nil => simp [createColumns]
  | cons c rest ih =>
    obtain ⟨n, ty⟩ := c
    simp [createColumns, ih]

theorem createColumns_name (cols : List (String × ColType)) (i : Nat) (t : Table) :
    (createColumns cols i t).name = t.name := by
  induction cols generalizing i t with
  | nil => simp [createColumns]
  | cons c rest ih =>
    obtain ⟨n, ty⟩ := c
    simp [createColumns, ih]

theorem indexConsistent_push (t : Table) (n : String) (ty : ColType) (h : IndexConsistent t) :
    IndexConsistent { t with columns := t.columns ++ [⟨n, ty⟩],
                             colIndex := mapAssign t.colIndex n (Int.ofNat t.columns.length) } := by
  intro m
  by_cases hm : n = m
  · subst hm
    right
    refine ⟨t.columns.length, ?_, ⟨n, ty⟩, ?_, rfl⟩
    · simp [Table.indexOf, mapFind_mapAssign_same]
    · simp
  · have hidx : Table.indexOf ⟨t.name, t.columns ++ [⟨n, ty⟩],
        mapAssign t.colIndex n (Int.ofNat t.columns.length), t.rows⟩ m = t.indexOf m := by
      simp [Table.indexOf, mapFind_mapAssign_other _ _ _ _ hm]
    rcases h m with ⟨h1, h2⟩ | ⟨j, h1, col, h2, h3⟩
    · left
      refine ⟨by rw [hidx]; exact h1, ?_⟩
      intro col hcol
      simp only [List.mem_append, List.mem_singleton] at hcol
      rcases hcol with hcol | hcol
      · exact h2 col hcol
      · subst hcol; exact hm
    · right
      refine ⟨j, by rw [hidx]; exact h1, col, ?_, h3⟩
      have hj : j < t.columns.length := by
        rcases Nat.lt_or_ge j t.columns.length with hlt | hge
        · exact hlt
        · rw [List.getElem?_eq_none hge] at h2; cases h2
      show (t.columns ++ [⟨n, ty⟩])[j]? = some col
      rw [List.getElem?_append_left hj]; exact h2

theorem createColumns_consistent (cols : List (String × ColType)) (t : Table)
    (h : IndexConsistent t) : IndexConsistent (createColumns cols t.columns.length t) := by
  induction cols generalizing t with
  | nil => simpa [createColumns] using h
  | cons c rest ih =>
    obtain ⟨n, ty⟩ := c
    have h2 := ih _ (indexConsistent_push t n ty h)
    simpa [createColumns] using h2

theorem indexConsistent_blank (name : String) :
    IndexConsistent { name := name, columns := [], colIndex := [], rows := [] } := by
  intro n
  left
  simp [Table.indexOf, mapFind]

theorem indexConsistent_rows (t : Table) (rows : List Row) (h : IndexConsistent t) :
    IndexConsistent { t with rows := rows } := h

theorem indexedDb_assign (db : Database) (name : String) (t : Table)
    (hdb : IndexedDb db) (ht : IndexConsistent t) :
    IndexedDb { tables := mapAssign db.tables name t } := by
  intro n u hu
  by_cases hn : name = n
  · subst hn
    rw [mapFind_mapAssign_same] at hu
    cases hu; exact ht
  · rw [mapFind_mapAssign_other _ _ _ _ hn] at hu
    exact hdb n u hu

theorem optionIsSome_false {α : Type} (o : Option α) (h : ¬ o.isSome = true) : o = none := by
  cases o with
  | none => rfl
  | some a => simp at h

theorem execute_indexed (db : Database) (st : Statement) (hdb : IndexedDb db) :
    IndexedDb (execute db st).db := by
  cases st with
  | create s =>
    simp only [execute, execCreate]
    split
    · exact hdb
    · rename_i hnone
      have hnone2 := optionIsSome_false _ hnone
      intro n u hu
      simp only [createColumns_name] at hu
      rw [mapFind_mapEmplace _ _ _ _ hnone2] at hu
      split at hu
      · cases hu
        exact createColumns_consistent s.columns _ (indexConsistent_blank s.table)
      · exact hdb n u hu
  | insert s =>
    simp only [execute, execInsert]
    split
    · exact hdb
    · rename_i t ht
      split
      · exact hdb
      · exact indexedDb_assign db _ _ hdb (indexConsistent_rows t _ (hdb _ t ht))
  | delete s =>
    simp only [execute, execDelete]
    split
    · exact hdb
    · rename_i t ht
      split
      · exact indexedDb_assign db _ _ hdb (indexConsistent_rows t _ (hdb _ t ht))
      · exact indexedDb_assign db _ _ hdb (indexConsistent_rows t _ (hdb _ t ht))
  | update s =>
    simp only [execute, execUpdate]
    split
    · exact hdb
    · rename_i t ht
      split
      · exact hdb
      · exact indexedDb_assign db _ _ hdb (indexConsistent_rows t _ (hdb _ t ht))
  | select s =>
    simp only [execute, execSelect]
    split
    · exact hdb
    · split
      · exact hdb
      · split <;> exact hdb

theorem runAll_indexed (stmts : List Statement) (db : Database) (hdb : IndexedDb db) :
    IndexedDb (runAll db stmts) := by
  induction stmts generalizing db with
  | nil => exact hdb
  | cons st rest ih => exact ih _ (execute_indexed db st hdb)

theorem reachable_indexed (db : Database) (h : Reachable db) : IndexedDb db := by
  obtain ⟨stmts, rfl⟩ := h
  apply runAll_indexed
  intro n t ht
  simp [emptyDb, mapFind] at ht

theorem reachable_execute (db : Database) (st : Statement) (h : Reachable db) :
    Reachable (execute db st).db := by
  obtain ⟨stmts, rfl⟩ := h
  refine ⟨stmts ++ [st], ?_⟩
  generalize emptyDb = d
  induction stmts generalizing d with
  | nil => rfl
  | cons s rest ih => exact ih _

/-! ## C5: CREATE TABLE -/

/-- C5. Executing CREATE TABLE raises if and only if the database already has a table
bound to exactly that name. When it does not raise, the database afterwards has a table
under that name, bearing that name, whose columns are the declared columns in declared
order and whose row list is empty, and every other name is bound as before; when it
raises, the database is unchanged. Names are compared exactly: on a database holding a
table `t`, creating `T` succeeds and creating `t` raises. -/
theorem create_fails_iff_table_exists (db : Database) (s : CreateStmt) :
    ((∃ e, (execute db (.create s)).result = .error e) ↔ ∃ t, mapFind db.tables s.table = some t) ∧
    ((∃ t, mapFind db.tables s.table = some t) →
      (execute db (.create s)).result = .error (.tableExists s.table) ∧
      (execute db (.create s)).db = db) ∧
    (mapFind db.tables s.table = none →
      (execute db (.create s)).result = .ok none ∧
      (∃ t, mapFind (execute db (.create s)).db.tables s.table = some t ∧
        t.name = s.table ∧
        t.columns = s.columns.map (fun c => (⟨c.1, c.2⟩ : Column)) ∧
        t.rows = []) ∧
      ∀ other, other ≠ s.table →
        mapFind (execute db (.create s)).db.tables other = mapFind db.tables other) ∧
    (execute (execute emptyDb (.create ⟨"t", [("id", .INT)]⟩)).db
        (.create ⟨"T", [("id", .INT)]⟩)).result = .ok none ∧
    (execute (execute emptyDb (.create ⟨"t", [("id", .INT)]⟩)).db
        (.create ⟨"t", [("name", .STR)]⟩)).result = .error (.tableExists "t") := by
  refine ⟨?_, ?_, ?_, by decide, by decide⟩
  · cases h : mapFind db.tables s.table with
    | none => simp [execute, execCreate, h]
    | some t => simp [execute, execCreate, h]
  · rintro ⟨t, ht⟩
    simp [execute, execCreate, ht]
  · intro h
    refine ⟨by simp [execute, execCreate, h], ?_, ?_⟩
    · refine ⟨createColumns s.columns 0 ⟨s.table, [], [], []⟩, ?_, ?_, ?_, ?_⟩
      · simp [execute, execCreate, h, createColumns_name, mapFind_mapEmplace]
      · simp [createColumns_name]
      · simp [createColumns_columns]
      · simp [createColumns_rows]
    · intro other hne
      simp [execute, execCreate, h, createColumns_name, mapFind_mapEmplace, Ne.symm hne]

/-- C5, at a concrete input: creating `users (id int, name str)` on the empty database. -/
theorem create_fails_iff_table_exists_witness :
    (execute emptyDb (.create ⟨"users", [("id", .INT), ("name", .STR)]⟩)).result = .ok none ∧
    (∃ t, mapFind (execute emptyDb (.create ⟨"users", [("id", .INT), ("name", .STR)]⟩)).db.tables
        "users" = some t ∧ t.name = "users" ∧
      t.columns = [("id", ColType.INT), ("name", ColType.STR)].map (fun c => (⟨c.1, c.2⟩ : Column)) ∧
      t.rows = []) :=
  ⟨((create_fails_iff_table_exists emptyDb ⟨"users", [("id", .INT), ("name", .STR)]⟩).2.2.1 rfl).1,
   ((create_fails_iff_table_exists emptyDb ⟨"users", [("id", .INT), ("name", .STR)]⟩).2.2.1 rfl).2.1⟩

/-! ## INSERT -/

theorem typeCheckAssign_ok_iff (col : Column) (v : Value) :
    typeCheckAssign col v = .ok () ↔ v.kind = col.type := by
  obtain ⟨n, ty⟩ := col
  cases ty <;> cases v <;> simp [typeCheckAssign, Value.kind, Value.isInt, Value.isStr]

theorem typeCheckAssign_error (col : Column) (v : Value) (h : v.kind ≠ col.type) :
    ∃ e, typeCheckAssign col v = .error e := by
  obtain ⟨n, ty⟩ := col
  cases ty <;> cases v <;> simp [typeCheckAssign, Value.kind, Value.isInt, Value.isStr] at h ⊢

theorem indexOf_nonneg_of_column (t : Table) (h : IndexConsistent t) (cn : String)
    (hc : ∃ col ∈ t.columns, col.name = cn) :
    ∃ j : Nat, t.indexOf cn = Int.ofNat j ∧ ∃ col, t.columns[j]? = some col ∧ col.name = cn := by
  rcases h cn with ⟨_, h2⟩ | h2
  · obtain ⟨col, hmem, hname⟩ := hc
    exact absurd hname (h2 col hmem)
  · exact h2

theorem indexOf_neg_of_no_column (t : Table) (h : IndexConsistent t) (cn : String)
    (hc : ¬ ∃ col ∈ t.columns, col.name = cn) : t.indexOf cn < 0 := by
  rcases h cn with ⟨h1, _⟩ | ⟨j, _, col, h2, h3⟩
  · rw [h1]; decide
  · exact absurd ⟨col, List.getElem?_mem h2, h3⟩ hc

theorem column_of_indexOf_nonneg (t : Table) (h : IndexConsistent t) (cn : String)
    (hc : ¬ t.indexOf cn < 0) : ∃ col ∈ t.columns, col.name = cn := by
  rcases h cn with ⟨h1, _⟩ | ⟨j, _, col, h2, h3⟩
  · rw [h1] at hc; exact absurd (by decide) hc
  · exact ⟨col, List.getElem?_mem h2, h3⟩

theorem insertPositions_ok (t : Table) (cols : List String)
    (h : ∀ cn ∈ cols, ¬ t.indexOf cn < 0) :
    insertPositions t cols = .ok (cols.map t.indexOf) := by
  induction cols with
  | nil => rfl
  | cons cn rest ih =>
    have h1 := h cn (List.mem_cons_self _ _)
    have h2 := ih (fun c hc => h c (List.mem_cons_of_mem _ hc))
    simp [insertPositions, h1, h2, Except.map]

theorem insertPositions_error (t : Table) (cols : List String)
    (h : ∃ cn ∈ cols, t.indexOf cn < 0) :
    ∃ e, insertPositions t cols = .error e := by
  induction cols with
  | nil => simp at h
  | cons cn rest ih =>
    by_cases h1 : t.indexOf cn < 0
    · exact ⟨.unknownColumn cn, by simp [insertPositions, h1]⟩
    · obtain ⟨c, hc, hneg⟩ := h
      simp only [List.mem_cons] at hc
      rcases hc with rfl | hc
      · exact absurd hneg h1
      · obtain ⟨e, he⟩ := ih ⟨c, hc, hneg⟩
        exact ⟨e, by simp [insertPositions, h1, he, Except.map]⟩

theorem column?_eq_some (t : Table) (cn : String) (col : Column) (h : t.column? cn = some col) :
    ¬ t.indexOf cn < 0 ∧ t.columns[(t.indexOf cn).toNat]? = some col := by
  unfold Table.column? at h
  split at h
  · cases h
  · rename_i hneg; exact ⟨hneg, h⟩

theorem column?_of_nonneg (t : Table) (cn : String) (h : ¬ t.indexOf cn < 0) :
    t.column? cn = t.columns[(t.indexOf cn).toNat]? := by
  simp [Table.column?, h]

theorem column?_some_of_column (t : Table) (h : IndexConsistent t) (cn : String)
    (hc : ∃ col ∈ t.columns, col.name = cn) :
    ∃ col, t.column? cn = some col ∧ col.name = cn ∧ ¬ t.indexOf cn < 0 := by
  obtain ⟨j, hj, col, hcol, hname⟩ := indexOf_nonneg_of_column t h cn hc
  have hnn : ¬ t.indexOf cn < 0 := by rw [hj]; simp
  refine ⟨col, ?_, hname, hnn⟩
  rw [column?_of_nonneg t cn hnn, hj]
  simpa using hcol

theorem fillRow_accept (t : Table) (cols : List String) (values : List Value) (r0 : Row)
    (hacc : ∀ cv ∈ cols.zip values, (t.column? cv.1).map (fun col => col.type) = some cv.2.kind) :
    fillRow t (cols.map t.indexOf) values r0 =
      .ok ((cols.zip values).foldl (fun r cv => r.set (t.indexOf cv.1).toNat cv.2) r0) := by
  induction cols generalizing values r0 with
  | nil => cases values <;> rfl
  | cons cn rest ih =>
    cases values with
    | nil => rfl
    | cons v vs =>
      have h1 := hacc (cn, v) (by simp)
      cases hcol : t.column? cn with
      | none => simp [hcol] at h1
      | some col =>
        simp only [hcol, Option.map_some', Option.some.injEq] at h1
        obtain ⟨_, hget⟩ := column?_eq_some t cn col hcol
        have htc : typeCheckAssign col v = .ok () := (typeCheckAssign_ok_iff col v).2 h1.symm
        have hrest := ih vs (r0.set (t.indexOf cn).toNat v)
          (fun cv hcv => hacc cv (by simp [hcv]))
        simp only [List.map_cons, fillRow, hget, htc, List.zip_cons_cons, List.foldl_cons]
        exact hrest

theorem fillRow_reject (t : Table) (cols : List String) (values : List Value) (r0 : Row)
    (hnn : ∀ cn ∈ cols, ¬ t.indexOf cn < 0)
    (hrej : ∃ cv ∈ cols.zip values, (t.column? cv.1).map (fun col => col.type) ≠ some cv.2.kind) :
    ∃ e, fillRow t (cols.map t.indexOf) values r0 = .error e := by
  induction cols generalizing values r0 with
  | nil => simp at hrej
  | cons cn rest ih =>
    cases values with
    | nil => simp at hrej
    | cons v vs =>
      simp only [List.map_cons, fillRow]
      cases hget : t.columns[(t.indexOf cn).toNat]? with
      | none => exact ⟨.outOfRange, rfl⟩
      | some col =>
        simp only
        by_cases hk : v.kind = col.type
        · have htc : typeCheckAssign col v = .ok () := (typeCheckAssign_ok_iff col v).2 hk
          simp only [htc]
          apply ih _ _ (fun c hc => hnn c (List.mem_cons_of_mem _ hc))
          obtain ⟨cv, hmem, hne⟩ := hrej
          simp only [List.zip_cons_cons, List.mem_cons] at hmem
          rcases hmem with rfl | hmem
          · exfalso
            apply hne
            have hneg := hnn cn (List.mem_cons_self _ _)
            simp [column?_of_nonneg t cn hneg, hget, hk]
          · exact ⟨cv, hmem, hne⟩
        · obtain ⟨e, he⟩ := typeCheckAssign_error col v hk
          exact ⟨e, by simp [he]⟩

theorem foldl_set_getElem? (f : String → Int) (l : List (String × Value)) (r0 : Row) (p : Nat)
    (hnn : ∀ cv ∈ l, ¬ f cv.1 < 0) :
    (l.foldl (fun r cv => r.set (f cv.1).toNat cv.2) r0)[p]? =
      match (l.filter (fun cv => decide (f cv.1 = Int.ofNat p))).getLast? with
      | some cv => if p < r0.length then some cv.2 else none
      | none => r0[p]? := by
  induction l generalizing r0 with
  | nil => simp
  | cons cv rest ih =>
    have hrest := ih (r0.set (f cv.1).toNat cv.2) (fun c hc => hnn c (List.mem_cons_of_mem _ hc))
    have h0 : 0 ≤ f cv.1 := not_lt.mp (hnn cv (List.mem_cons_self _ _))
    have hiff : (f cv.1 = Int.ofNat p) ↔ (f cv.1).toNat = p := by
      constructor
      · intro h; rw [h]; rfl
      · intro h; rw [← h]; exact (Int.toNat_of_nonneg h0).symm
    simp only [List.foldl_cons, hrest, List.length_set, List.filter_cons]
    by_cases hp : f cv.1 = Int.ofNat p
    · have hp2 := hiff.1 hp
      simp only [hp, decide_True, if_true, List.getLast?_cons]
      cases hl : (List.filter (fun cv => decide (f cv.1 = Int.ofNat p)) rest).getLast? with
      | none =>
        simp only [Option.getD_none]
        rw [List.getElem?_set]
        simp [hp2]
      | some x => simp
    · have hp2 : ¬ (f cv.1).toNat = p := fun h => hp (hiff.2 h)
      simp only [hp, decide_False, Bool.false_eq_true, if_false]
      cases hl : (List.filter (fun cv => decide (f cv.1 = Int.ofNat p)) rest).getLast? with
      | none =>
        simp only
        rw [List.getElem?_set]
        simp [hp2]
      | some x => simp

theorem foldl_set_eq_expectedRow (t : Table) (cols : List String) (values : List Value)
    (hacc : ∀ cv ∈ cols.zip values, (t.column? cv.1).map (fun col => col.type) = some cv.2.kind) :
    (cols.zip values).foldl (fun r cv => r.set (t.indexOf cv.1).toNat cv.2)
        (t.columns.map (fun col => defaultFor col.type)) = expectedRow t cols values := by
  apply List.ext_getElem?
  intro p
  have hnn : ∀ cv ∈ cols.zip values, ¬ t.indexOf cv.1 < 0 := by
    intro cv hcv
    have h1 := hacc cv hcv
    cases hcol : t.column? cv.1 with
    | none => simp [hcol] at h1
    | some col => exact (column?_eq_some t cv.1 col hcol).1
  rw [foldl_set_getElem? t.indexOf _ _ p hnn]
  simp only [expectedRow, List.getElem?_mapIdx, suppliedLiteral, List.length_map, List.getElem?_map]
  cases hl : (List.filter (fun cv => decide (t.indexOf cv.1 = Int.ofNat p)) (cols.zip values)).getLast? with
  | none =>
    cases hc : t.columns[p]? <;> simp
  | some x =>
    cases hc : t.columns[p]? with
    | none =>
      have : ¬ p < t.columns.length := by
        intro hlt
        rw [List.getElem?_eq_getElem hlt] at hc
        cases hc
      simp [this]
    | some col =>
      have : p < t.columns.length := by
        rcases Nat.lt_or_ge p t.columns.length with hlt | hge
        · exact hlt
        · rw [List.getElem?_eq_none hge] at hc; cases hc
      simp [this]

theorem insertRows_accept (t : Table) (cols : List String) (rows : List (List Value))
    (acc : List Row) (h : ∀ values ∈ rows, RowAccepted t cols values) :
    insertRows t (cols.map t.indexOf) rows acc = (acc ++ rows.map (expectedRow t cols), .ok ()) := by
  induction rows generalizing acc with
  | nil => simp [insertRows]
  | cons values rest ih =>
    obtain ⟨hlen, hacc⟩ := h values (List.mem_cons_self _ _)
    have hrest := ih (acc ++ [expectedRow t cols values])
      (fun v hv => h v (List.mem_cons_of_mem _ hv))
    simp only [insertRows, List.length_map, hlen, ne_eq, not_true_eq_false, if_false,
      fillRow_accept t cols values _ hacc, foldl_set_eq_expectedRow t cols values hacc, hrest]
    simp

theorem insertRows_reject (t : Table) (cols : List String) (good : List (List Value))
    (bad : List Value) (rest : List (List Value)) (acc : List Row)
    (hnn : ∀ cn ∈ cols, ¬ t.indexOf cn < 0)
    (hgood : ∀ values ∈ good, RowAccepted t cols values) (hbad : ¬ RowAccepted t cols bad) :
    ∃ e, insertRows t (cols.map t.indexOf) (good ++ bad :: rest) acc =
      (acc ++ good.map (expectedRow t cols), .error e) := by
  induction good generalizing acc with
  | nil =>
    by_cases hlen : bad.length = cols.length
    · have hrej : ∃ cv ∈ cols.zip bad,
          (t.column? cv.1).map (fun col => col.type) ≠ some cv.2.kind := by
        by_contra hall
        apply hbad
        refine ⟨hlen, fun cv hcv => ?_⟩
        by_contra hne
        exact hall ⟨cv, hcv, hne⟩
      obtain ⟨e, he⟩ := fillRow_reject t cols bad
        (t.columns.map (fun col => defaultFor col.type)) hnn hrej
      exact ⟨e, by simp [insertRows, hlen, he]⟩
    · exact ⟨.valuesCount, by simp [insertRows, hlen]⟩
  | cons values more ih =>
    obtain ⟨hlen, hacc⟩ := hgood values (List.mem_cons_self _ _)
    obtain ⟨e, he⟩ := ih (acc ++ [expectedRow t cols values])
      (fun v hv => hgood v (List.mem_cons_of_mem _ hv))
    refine ⟨e, ?_⟩
    simp only [List.cons_append, insertRows, List.length_map, hlen, ne_eq, not_true_eq_false,
      if_false, fillRow_accept t cols values _ hacc, foldl_set_eq_expectedRow t cols values hacc,
      List.map_cons]
    exact he.trans (by simp)

theorem first_rejected_row (t : Table) (cols : List String) (rows : List (List Value))
    (h : ¬ ∀ values ∈ rows, RowAccepted t cols values) :
    ∃ good bad rest, rows = good ++ bad :: rest ∧
      (∀ values ∈ good, RowAccepted t cols values) ∧ ¬ RowAccepted t cols bad := by
  induction rows with
  | nil => simp at h
  | cons values more ih =>
    by_cases hv : RowAccepted t cols values
    · have hmore : ¬ ∀ v ∈ more, RowAccepted t cols v := by
        intro hall
        apply h
        intro v hvmem
        simp only [List.mem_cons] at hvmem
        rcases hvmem with rfl | hvmem
        · exact hv
        · exact hall v hvmem
      obtain ⟨good, bad, rest, heq, hgood, hbad⟩ := ih hmore
      refine ⟨values :: good, bad, rest, by simp [heq], ?_, hbad⟩
      intro v hvmem
      simp only [List.mem_cons] at hvmem
      rcases hvmem with rfl | hvmem
      · exact hv
      · exact hgood v hvmem
    · exact ⟨[], values, more, rfl, by simp, hv⟩

theorem execInsert_noTable (db : Database) (s : InsertStmt) (h : mapFind db.tables s.table = none) :
    execInsert db s = ⟨db, .error (.noSuchTable s.table)⟩ := by
  simp [execInsert, h]

theorem execInsert_unknown (db : Database) (s : InsertStmt) (t : Table)
    (ht : mapFind db.tables s.table = some t) (h : ∃ cn ∈ s.cols, t.indexOf cn < 0) :
    ∃ e, execInsert db s = ⟨db, .error e⟩ := by
  obtain ⟨e, he⟩ := insertPositions_error t s.cols h
  exact ⟨e, by simp [execInsert, ht, he]⟩

theorem execInsert_accept (db : Database) (s : InsertStmt) (t : Table)
    (ht : mapFind db.tables s.table = some t) (hnn : ∀ cn ∈ s.cols, ¬ t.indexOf cn < 0)
    (hrows : ∀ values ∈ s.rows, RowAccepted t s.cols values) :
    execInsert db s =
      ⟨{ tables := mapAssign db.tables s.table
          { t with rows := t.rows ++ s.rows.map (expectedRow t s.cols) } }, .ok none⟩ := by
  simp [execInsert, ht, insertPositions_ok t s.cols hnn, insertRows_accept t s.cols s.rows t.rows hrows,
    Except.map]

theorem execInsert_reject (db : Database) (s : InsertStmt) (t : Table)
    (good : List (List Value)) (bad : List Value) (rest : List (List Value))
    (ht : mapFind db.tables s.table = some t) (hnn : ∀ cn ∈ s.cols, ¬ t.indexOf cn < 0)
    (hsplit : s.rows = good ++ bad :: rest)
    (hgood : ∀ values ∈ good, RowAccepted t s.cols values) (hbad : ¬ RowAccepted t s.cols bad) :
    ∃ e, execInsert db s =
      ⟨{ tables := mapAssign db.tables s.table
          { t with rows := t.rows ++ good.map (expectedRow t s.cols) } }, .error e⟩ := by
  obtain ⟨e, he⟩ := insertRows_reject t s.cols good bad rest t.rows hnn hgood hbad
  exact ⟨e, by simp [execInsert, ht, insertPositions_ok t s.cols hnn, hsplit, he, Except.map]⟩

/-- A successful INSERT found its table, resolved every name and accepted every row. -/
theorem execInsert_ok_inv (db : Database) (s : InsertStmt)
    (hok : (execInsert db s).result = .ok none) :
    ∃ t, mapFind db.tables s.table = some t ∧ (∀ cn ∈ s.cols, ¬ t.indexOf cn < 0) ∧
      ∀ values ∈ s.rows, RowAccepted t s.cols values := by
  cases ht : mapFind db.tables s.table with
  | none => rw [execInsert_noTable db s ht] at hok; cases hok
  | some t =>
    refine ⟨t, rfl, ?_⟩
    by_cases hnn : ∀ cn ∈ s.cols, ¬ t.indexOf cn < 0
    · refine ⟨hnn, ?_⟩
      by_contra hrows
      obtain ⟨good, bad, rest, hsplit, hgood, hbad⟩ := first_rejected_row t s.cols s.rows hrows
      obtain ⟨e, he⟩ := execInsert_reject db s t good bad rest ht hnn hsplit hgood hbad
      rw [he] at hok; cases hok
    · exfalso
      have : ∃ cn ∈ s.cols, t.indexOf cn < 0 := by
        by_contra hall
        exact hnn (fun cn hcn hneg => hall ⟨cn, hcn, hneg⟩)
      obtain ⟨e, he⟩ := execInsert_unknown db s t ht this
      rw [he] at hok; cases hok

theorem suppliedLiteral_none (t : Table) (cols : List String) (values : List Value) (p : Nat)
    (h : ∀ cn ∈ cols, t.indexOf cn ≠ Int.ofNat p) : suppliedLiteral t cols values p = none := by
  have hnil : (cols.zip values).filter (fun cv => decide (t.indexOf cv.1 = Int.ofNat p)) = [] := by
    rw [List.filter_eq_nil_iff]
    intro cv hcv hdec
    exact h cv.1 (List.of_mem_zip hcv).1 (of_decide_eq_true hdec)
  simp only [suppliedLiteral, hnil]
  rfl

theorem suppliedLiteral_last (t : Table) (cols : List String) (values : List Value) (k : Nat)
    (cn : String) (v : Value) (p : Nat)
    (hc : cols[k]? = some cn) (hv : values[k]? = some v) (hp : t.indexOf cn = Int.ofNat p)
    (hlater : ∀ k2 cn2, k < k2 → cols[k2]? = some cn2 → t.indexOf cn2 ≠ t.indexOf cn) :
    suppliedLiteral t cols values p = some v := by
  induction cols generalizing values k with
  | nil => simp at hc
  | cons c cs ih =>
    cases values with
    | nil => simp at hv
    | cons w ws =>
      cases k with
      | zero =>
        simp only [List.getElem?_cons_zero, Option.some.injEq] at hc hv
        subst hc; subst hv
        have hrest : (cs.zip ws).filter (fun cv => decide (t.indexOf cv.1 = Int.ofNat p)) = [] := by
          rw [List.filter_eq_nil_iff]
          intro cv hcv hdec
          obtain ⟨k2, hk2⟩ := List.mem_iff_getElem?.1 (List.of_mem_zip hcv).1
          have hne := hlater (k2 + 1) cv.1 (Nat.succ_pos _) (by simpa using hk2)
          rw [hp] at hne
          exact hne (of_decide_eq_true hdec)
        have hdec : decide (t.indexOf c = Int.ofNat p) = true := decide_eq_true hp
        simp only [suppliedLiteral, List.zip_cons_cons, List.filter_cons, hdec, if_true, hrest]
        rfl
      | succ k =>
        simp only [List.getElem?_cons_succ] at hc hv
        have hrest := ih ws k hc hv
          (fun k2 cn2 hk hcn => hlater (k2 + 1) cn2 (Nat.succ_lt_succ hk) (by simpa using hcn))
        simp only [suppliedLiteral] at hrest
        simp only [suppliedLiteral, List.zip_cons_cons, List.filter_cons]
        cases hl : (List.filter (fun cv => decide (t.indexOf cv.1 = Int.ofNat p))
            (cs.zip ws)).getLast? with
        | none => rw [hl] at hrest; cases hrest
        | some x =>
          rw [hl] at hrest
          split
          · rw [List.getLast?_cons, hl]
            exact hrest
          · rw [hl]
            exact hrest

theorem assignedLiteral_some_inv (t : Table) (l : List (String × Value)) (p : Nat) (v : Value)
    (h : assignedLiteral t l p = some v) :
    ∃ (k : Nat) (a : String × Value), l[k]? = some a ∧ t.indexOf a.1 = Int.ofNat p ∧ a.2 = v := by
  simp only [assignedLiteral] at h
  cases hl : (l.filter (fun a => decide (t.indexOf a.1 = Int.ofNat p))).getLast? with
  | none => rw [hl] at h; cases h
  | some a =>
    rw [hl] at h
    simp only [Option.map_some', Option.some.injEq] at h
    have hmem := List.mem_of_getLast?_eq_some hl
    rw [List.mem_filter] at hmem
    obtain ⟨k, hk⟩ := List.mem_iff_getElem?.1 hmem.1
    exact ⟨k, a, hk, of_decide_eq_true hmem.2, h⟩

theorem assignedLiteral_none_inv (t : Table) (l : List (String × Value)) (p : Nat)
    (h : assignedLiteral t l p = none) : ∀ a ∈ l, t.indexOf a.1 ≠ Int.ofNat p := by
  simp only [assignedLiteral, Option.map_eq_none', List.getLast?_eq_none_iff,
    List.filter_eq_nil_iff] at h
  intro a ha heq
  exact h a ha (decide_eq_true heq)

theorem suppliedLiteral_eq_assigned (t : Table) (cols : List String) (values : List Value)
    (p : Nat) : suppliedLiteral t cols values p = assignedLiteral t (cols.zip values) p := rfl

theorem mem_zip_of_length_eq (cols : List String) (values : List Value)
    (hlen : values.length = cols.length) (cn : String) (hcn : cn ∈ cols) :
    ∃ v, (cn, v) ∈ cols.zip values := by
  obtain ⟨k, hk⟩ := List.mem_iff_getElem?.1 hcn
  have hklt : k < cols.length := by
    rcases Nat.lt_or_ge k cols.length with hlt | hge
    · exact hlt
    · rw [List.getElem?_eq_none hge] at hk; cases hk
  have hv : values[k]? = some values[k] := List.getElem?_eq_getElem (by omega)
  exact ⟨values[k], List.getElem?_mem (List.getElem?_zip_eq_some.2 ⟨hk, hv⟩)⟩

/-- Each cell of the row built from a fitting VALUES row is a literal supplied with a name
denoting its column, or the default when no listed name denotes the column. -/
theorem expectedRow_cell (t : Table) (cols : List String) (values : List Value)
    (hlen : values.length = cols.length) (p : Nat) (col : Column) (hcol : t.columns[p]? = some col) :
    (∃ (k : Nat) (cn : String) (v : Value), cols[k]? = some cn ∧ values[k]? = some v ∧
        t.indexOf cn = Int.ofNat p ∧ (expectedRow t cols values)[p]? = some v) ∨
    ((∀ cn ∈ cols, t.indexOf cn ≠ Int.ofNat p) ∧
      (expectedRow t cols values)[p]? = some (defaultFor col.type)) := by
  have hcell : (expectedRow t cols values)[p]? =
      some ((suppliedLiteral t cols values p).getD (defaultFor col.type)) := by
    simp [expectedRow, List.getElem?_mapIdx, hcol]
  cases hs : suppliedLiteral t cols values p with
  | some v =>
    left
    obtain ⟨k, a, hk, hidx, hv⟩ :=
      assignedLiteral_some_inv t (cols.zip values) p v
        ((suppliedLiteral_eq_assigned t cols values p).symm.trans hs)
    obtain ⟨h1, h2⟩ := List.getElem?_zip_eq_some.1 hk
    refine ⟨k, a.1, v, h1, by rw [← hv]; exact h2, hidx, ?_⟩
    rw [hcell, hs]; rfl
  | none =>
    right
    have hnone := assignedLiteral_none_inv t (cols.zip values) p
      ((suppliedLiteral_eq_assigned t cols values p).symm.trans hs)
    refine ⟨?_, by rw [hcell, hs]; rfl⟩
    intro cn hcn
    obtain ⟨v, hv⟩ := mem_zip_of_length_eq cols values hlen cn hcn
    exact hnone (cn, v) hv

/-- Each cell of an updated row is a literal assigned to its column, or the old cell when
no assignment denotes the column. -/
theorem updatedRow_cell (t : Table) (l : List (String × Value)) (r : Row) (p : Nat) (v0 : Value)
    (hv0 : r[p]? = some v0) :
    (∃ (k : Nat) (a : String × Value), l[k]? = some a ∧ t.indexOf a.1 = Int.ofNat p ∧
        (updatedRow t l r)[p]? = some a.2) ∨
    ((∀ a ∈ l, t.indexOf a.1 ≠ Int.ofNat p) ∧ (updatedRow t l r)[p]? = some v0) := by
  have hcell : (updatedRow t l r)[p]? = some ((assignedLiteral t l p).getD v0) := by
    simp [updatedRow, List.getElem?_mapIdx, hv0]
  cases hs : assignedLiteral t l p with
  | some v =>
    left
    obtain ⟨k, a, hk, hidx, hv⟩ := assignedLiteral_some_inv t l p v hs
    refine ⟨k, a, hk, hidx, ?_⟩
    rw [hcell, hs, hv]; rfl
  | none =>
    right
    exact ⟨assignedLiteral_none_inv t l p hs, by rw [hcell, hs]; rfl⟩

/-! ## C2, C3, C4: INSERT -/

theorem execInsert_result_cases (db : Database) (s : InsertStmt) :
    (execInsert db s).result = .ok none ∨ ∃ e, (execInsert db s).result = .error e := by
  unfold execInsert
  split
  · exact Or.inr ⟨_, rfl⟩
  · split
    · exact Or.inr ⟨_, rfl⟩
    · simp only
      cases (insertRows _ _ s.rows _).2 with
      | error e => exact Or.inr ⟨e, rfl⟩
      | ok u => exact Or.inl rfl

/-- C3. On a reachable database, executing an INSERT succeeds if and only if the table
exists, every name of the column list is the name of a column of that table, every VALUES
row has exactly as many literals as there are named columns, and the kind of every literal
is the declared type of the column its name denotes; in every other case it raises. -/
theorem insert_succeeds_iff (db : Database) (s : InsertStmt) (hdb : Reachable db) :
    ((execute db (.insert s)).result = .ok none ↔
      ∃ t, mapFind db.tables s.table = some t ∧
        (∀ cn ∈ s.cols, ∃ col ∈ t.columns, col.name = cn) ∧
        (∀ values ∈ s.rows, RowAccepted t s.cols values)) ∧
    ((∃ e, (execute db (.insert s)).result = .error e) ↔
      ¬ ∃ t, mapFind db.tables s.table = some t ∧
        (∀ cn ∈ s.cols, ∃ col ∈ t.columns, col.name = cn) ∧
        (∀ values ∈ s.rows, RowAccepted t s.cols values)) := by
  have hidx := reachable_indexed db hdb
  have hmain : (execute db (.insert s)).result = .ok none ↔
      ∃ t, mapFind db.tables s.table = some t ∧
        (∀ cn ∈ s.cols, ∃ col ∈ t.columns, col.name = cn) ∧
        (∀ values ∈ s.rows, RowAccepted t s.cols values) := by
    constructor
    · intro hok
      obtain ⟨t, ht, hnn, hrows⟩ := execInsert_ok_inv db s hok
      exact ⟨t, ht, fun cn hcn => column_of_indexOf_nonneg t (hidx _ t ht) cn (hnn cn hcn), hrows⟩
    · rintro ⟨t, ht, hcols, hrows⟩
      have hnn : ∀ cn ∈ s.cols, ¬ t.indexOf cn < 0 := by
        intro cn hcn
        obtain ⟨_, _, _, h⟩ := column?_some_of_column t (hidx _ t ht) cn (hcols cn hcn)
        exact h
      simp [execute, execInsert_accept db s t ht hnn hrows]
  refine ⟨hmain, ?_⟩
  rw [← hmain]
  constructor
  · rintro ⟨e, he⟩ hok
    rw [he] at hok
    cases hok
  · intro hne
    rcases execInsert_result_cases db s with h | h
    · exact absurd h hne
    · exact h

/-- C3, at a concrete input: `INSERT INTO t (id, name) VALUES (1, "Alice")` succeeds on the
fresh table `t (id int, name str)`, and `VALUES ("bad", 3)` raises. -/
theorem insert_succeeds_iff_witness :
    ((execute tableIdName (.insert ⟨"t", ["id", "name"], [[.int 1, .str "Alice"]]⟩)).result =
        .ok none ↔
      ∃ t, mapFind tableIdName.tables "t" = some t ∧
        (∀ cn ∈ ["id", "name"], ∃ col ∈ t.columns, col.name = cn) ∧
        (∀ values ∈ [[Value.int 1, .str "Alice"]], RowAccepted t ["id", "name"] values)) ∧
    ((∃ e, (execute tableIdName (.insert ⟨"t", ["id", "name"], [[.str "bad", .int 3]]⟩)).result =
        .error e) ↔
      ¬ ∃ t, mapFind tableIdName.tables "t" = some t ∧
        (∀ cn ∈ ["id", "name"], ∃ col ∈ t.columns, col.name = cn) ∧
        (∀ values ∈ [[Value.str "bad", .int 3]], RowAccepted t ["id", "name"] values)) :=
  ⟨(insert_succeeds_iff tableIdName ⟨"t", ["id", "name"], [[.int 1, .str "Alice"]]⟩
      ⟨[.create ⟨"t", [("id", .INT), ("name", .STR)]⟩], rfl⟩).1,
   (insert_succeeds_iff tableIdName ⟨"t", ["id", "name"], [[.str "bad", .int 3]]⟩
      ⟨[.create ⟨"t", [("id", .INT), ("name", .STR)]⟩], rfl⟩).2⟩

/-- C4. A failed INSERT is not rolled back: on a reachable database, when the table
exists, every listed name is a column of it, and the VALUES rows are `good ++ bad :: rest`
with every row of `good` fitting and `bad` the first row with an arity or type error,
executing the INSERT raises and leaves in the table its previous rows followed by exactly
the rows built from `good`; every other table is untouched, and when `bad` is the first
VALUES row the whole database is unchanged. -/
theorem failed_insert_keeps_earlier_rows (db : Database) (s : InsertStmt) (t : Table)
    (good : List (List Value)) (bad : List Value) (rest : List (List Value))
    (hdb : Reachable db) (ht : mapFind db.tables s.table = some t)
    (hcols : ∀ cn ∈ s.cols, ∃ col ∈ t.columns, col.name = cn)
    (hsplit : s.rows = good ++ bad :: rest)
    (hgood : ∀ values ∈ good, RowAccepted t s.cols values)
    (hbad : ¬ RowAccepted t s.cols bad) :
    (∃ e, (execute db (.insert s)).result = .error e) ∧
    mapFind (execute db (.insert s)).db.tables s.table =
      some { t with rows := t.rows ++ good.map (expectedRow t s.cols) } ∧
    (∀ other, other ≠ s.table →
      mapFind (execute db (.insert s)).db.tables other = mapFind db.tables other) ∧
    (good = [] → (execute db (.insert s)).db = db) := by
  have hidx := reachable_indexed db hdb
  have hnn : ∀ cn ∈ s.cols, ¬ t.indexOf cn < 0 := by
    intro cn hcn
    obtain ⟨_, _, _, h⟩ := column?_some_of_column t (hidx _ t ht) cn (hcols cn hcn)
    exact h
  obtain ⟨e, he⟩ := execInsert_reject db s t good bad rest ht hnn hsplit hgood hbad
  refine ⟨⟨e, by simp [execute, he]⟩, ?_, ?_, ?_⟩
  · simp [execute, he, mapFind_mapAssign_same]
  · intro other hne
    simp [execute, he, mapFind_mapAssign_other _ _ _ _ (Ne.symm hne)]
  · intro hnil
    subst hnil
    have hself : mapAssign db.tables s.table
        { t with rows := t.rows ++ ([] : List (List Value)).map (expectedRow t s.cols) } = db.tables := by
      apply mapAssign_self
      simpa using ht
    simp only [execute, he, hself]

/-- C4, at a concrete input: on the fresh table `t (id int, name str)`,
`INSERT INTO t (id, name) VALUES (1, "A"), ("bad", 3)` raises and leaves the row built from
`(1, "A")` in the table. -/
theorem failed_insert_keeps_earlier_rows_witness :
    (∃ e, (execute tableIdName (.insert ⟨"t", ["id", "name"],
        [[.int 1, .str "A"], [.str "bad", .int 3]]⟩)).result = .error e) ∧
    mapFind (execute tableIdName (.insert ⟨"t", ["id", "name"],
        [[.int 1, .str "A"], [.str "bad", .int 3]]⟩)).db.tables "t" =
      some { (⟨"t", [⟨"id", .INT⟩, ⟨"name", .STR⟩], [("id", 0), ("name", 1)], []⟩ : Table) with
        rows := [] ++ [[Value.int 1, .str "A"]].map
          (expectedRow ⟨"t", [⟨"id", .INT⟩, ⟨"name", .STR⟩], [("id", 0), ("name", 1)], []⟩
            ["id", "name"]) } :=
  ⟨(failed_insert_keeps_earlier_rows tableIdName
      ⟨"t", ["id", "name"], [[.int 1, .str "A"], [.str "bad", .int 3]]⟩
      ⟨"t", [⟨"id", .INT⟩, ⟨"name", .STR⟩], [("id", 0), ("name", 1)], []⟩
      [[.int 1, .str "A"]] [.str "bad", .int 3] []
      ⟨[.create ⟨"t", [("id", .INT), ("name", .STR)]⟩], rfl⟩ (by decide) (by decide) rfl
      (by unfold RowAccepted; decide) (by unfold RowAccepted; decide)).1,
   (failed_insert_keeps_earlier_rows tableIdName
      ⟨"t", ["id", "name"], [[.int 1, .str "A"], [.str "bad", .int 3]]⟩
      ⟨"t", [⟨"id", .INT⟩, ⟨"name", .STR⟩], [("id", 0), ("name", 1)], []⟩
      [[.int 1, .str "A"]] [.str "bad", .int 3] []
      ⟨[.create ⟨"t", [("id", .INT), ("name", .STR)]⟩], rfl⟩ (by decide) (by decide) rfl
      (by unfold RowAccepted; decide) (by unfold RowAccepted; decide)).2.1⟩

/-! ## C6: DELETE -/

theorem removeIfShift_total (pred : Row → Except Error Bool) (gap rows : List Row)
    (h : ∀ r ∈ rows, ∃ b, pred r = .ok b) :
    removeIfShift pred gap rows =
      (rows.filter (fun r => !decide (pred r = .ok true)), .ok ()) := by
  induction rows generalizing gap with
  | nil => simp [removeIfShift]
  | cons r rest ih =>
    obtain ⟨b, hb⟩ := h r (List.mem_cons_self _ _)
    have hrest := fun g => ih g (fun x hx => h x (List.mem_cons_of_mem _ hx))
    cases b with
    | true => simp [removeIfShift, hb, hrest]
    | false => simp [removeIfShift, hb, hrest]

theorem removeIf_total (pred : Row → Except Error Bool) (rows : List Row)
    (h : ∀ r ∈ rows, ∃ b, pred r = .ok b) :
    removeIf pred rows = (rows.filter (fun r => !decide (pred r = .ok true)), .ok ()) := by
  induction rows with
  | nil => simp [removeIf]
  | cons r rest ih =>
    obtain ⟨b, hb⟩ := h r (List.mem_cons_self _ _)
    have hall : ∀ x ∈ rest, ∃ b, pred x = .ok b := fun x hx => h x (List.mem_cons_of_mem _ hx)
    cases b with
    | true => simp [removeIf, hb, removeIfShift_total pred [r] rest hall]
    | false => simp [removeIf, hb, ih hall]

/-- C6. DELETE raises when the table does not exist (and changes nothing). Without WHERE
it succeeds and leaves the table with no rows and the same name, columns and index. With
a WHERE whose evaluation raises on no row of the table it succeeds and leaves exactly the
rows on which the condition is not true, in their original order: the old row list
filtered by the negated condition. Every other table is untouched. -/
theorem delete_semantics (db : Database) (s : DeleteStmt) :
    (mapFind db.tables s.table = none →
      (execute db (.delete s)).result = .error (.noSuchTable s.table) ∧
      (execute db (.delete s)).db = db) ∧
    (∀ t, mapFind db.tables s.table = some t → s.where_ = none →
      (execute db (.delete s)).result = .ok none ∧
      mapFind (execute db (.delete s)).db.tables s.table = some { t with rows := [] }) ∧
    (∀ t c, mapFind db.tables s.table = some t → s.where_ = some c →
      (∀ r ∈ t.rows, ∃ b, rowMatches t r c = .ok b) →
      (execute db (.delete s)).result = .ok none ∧
      mapFind (execute db (.delete s)).db.tables s.table =
        some { t with rows := t.rows.filter (fun r => !decide (rowMatches t r c = .ok true)) }) ∧
    (∀ other, other ≠ s.table →
      mapFind (execute db (.delete s)).db.tables other = mapFind db.tables other) := by
  refine ⟨?_, ?_, ?_, ?_⟩
  · intro h
    simp [execute, execDelete, h]
  · intro t ht hw
    simp [execute, execDelete, ht, hw, mapFind_mapAssign_same]
  · intro t c ht hw hall
    simp [execute, execDelete, ht, hw, removeIf_total _ t.rows hall, mapFind_mapAssign_same,
      Except.map]
  · intro other hne
    simp only [execute, execDelete]
    split
    · rfl
    · split
      · simp [mapFind_mapAssign_other _ _ _ _ (Ne.symm hne)]
      · simp [mapFind_mapAssign_other _ _ _ _ (Ne.symm hne)]

/-- C6, at a concrete input: on the rows (1, Alice), (2, Bob), (3, Cara),
`DELETE FROM t WHERE id = 2` leaves (1, Alice), (3, Cara) in that order, and `DELETE FROM t`
leaves no row. -/
theorem delete_semantics_witness :
    ((execute threeRows (.delete ⟨"t", some ⟨"id", .EQ, .int 2⟩⟩)).result = .ok none ∧
      mapFind (execute threeRows (.delete ⟨"t", some ⟨"id", .EQ, .int 2⟩⟩)).db.tables "t" =
        some ⟨"t", [⟨"id", .INT⟩, ⟨"name", .STR⟩], [("id", 0), ("name", 1)],
          [[.int 1, .str "Alice"], [.int 3, .str "Cara"]]⟩) ∧
    ((execute threeRows (.delete ⟨"t", none⟩)).result = .ok none ∧
      mapFind (execute threeRows (.delete ⟨"t", none⟩)).db.tables "t" =
        some ⟨"t", [⟨"id", .INT⟩, ⟨"name", .STR⟩], [("id", 0), ("name", 1)], []⟩) :=
  ⟨(delete_semantics threeRows ⟨"t", some ⟨"id", .EQ, .int 2⟩⟩).2.2.1
      ⟨"t", [⟨"id", .INT⟩, ⟨"name", .STR⟩], [("id", 0), ("name", 1)],
        [[.int 1, .str "Alice"], [.int 2, .str "Bob"], [.int 3, .str "Cara"]]⟩
      ⟨"id", .EQ, .int 2⟩ (by decide) rfl (by decide),
   (delete_semantics threeRows ⟨"t", none⟩).2.1
      ⟨"t", [⟨"id", .INT⟩, ⟨"name", .STR⟩], [("id", 0), ("name", 1)],
        [[.int 1, .str "Alice"], [.int 2, .str "Bob"], [.int 3, .str "Cara"]]⟩
      (by decide) rfl⟩

/-! ## UPDATE -/

theorem updateIndexes_accept (t : Table) (l : List (String × Value))
    (h : ∀ a ∈ l, AssignmentAccepted t a) :
    updateIndexes t l = .ok (l.map (fun a => t.indexOf a.1)) := by
  induction l with
  | nil => rfl
  | cons a rest ih =>
    obtain ⟨cn, v⟩ := a
    have h1 : AssignmentAccepted t (cn, v) := h (cn, v) (List.mem_cons_self _ _)
    have hrest := ih (fun x hx => h x (List.mem_cons_of_mem _ hx))
    unfold AssignmentAccepted at h1
    cases hcol : t.column? cn with
    | none => simp [hcol] at h1
    | some col =>
      simp only [hcol, Option.map_some', Option.some.injEq] at h1
      obtain ⟨hneg, hget⟩ := column?_eq_some t cn col hcol
      have htc : typeCheckAssign col v = .ok () := (typeCheckAssign_ok_iff col v).2 h1.symm
      simp [updateIndexes, hneg, hget, htc, hrest, Except.map]

theorem updateIndexes_reject (t : Table) (l : List (String × Value))
    (h : ∃ a ∈ l, ¬ AssignmentAccepted t a) :
    ∃ e, updateIndexes t l = .error e := by
  induction l with
  | nil => simp at h
  | cons a rest ih =>
    obtain ⟨cn, v⟩ := a
    simp only [updateIndexes]
    by_cases hneg : t.indexOf cn < 0
    · exact ⟨.unknownSetColumn cn, by simp [hneg]⟩
    · simp only [hneg, if_false]
      cases hget : t.columns[(t.indexOf cn).toNat]? with
      | none => exact ⟨.outOfRange, rfl⟩
      | some col =>
        simp only
        by_cases hk : v.kind = col.type
        · have htc : typeCheckAssign col v = .ok () := (typeCheckAssign_ok_iff col v).2 hk
          have hrest : ∃ a ∈ rest, ¬ AssignmentAccepted t a := by
            obtain ⟨a, hmem, hna⟩ := h
            simp only [List.mem_cons] at hmem
            rcases hmem with rfl | hmem
            · exfalso
              apply hna
              simp [AssignmentAccepted, column?_of_nonneg t cn hneg, hget, hk]
            · exact ⟨a, hmem, hna⟩
          obtain ⟨e, he⟩ := ih hrest
          exact ⟨e, by simp [htc, he, Except.map]⟩
        · obtain ⟨e, he⟩ := typeCheckAssign_error col v hk
          exact ⟨e, by simp [he]⟩

theorem assignRow_ok (f : String → Int) (l : List (String × Value)) (r r2 : Row)
    (h : assignRow (l.map (fun a => f a.1)) l r = .ok r2) :
    r2 = l.foldl (fun r a => r.set (f a.1).toNat a.2) r := by
  induction l generalizing r with
  | nil => simp [assignRow] at h; exact h.symm
  | cons a rest ih =>
    simp only [List.map_cons, assignRow] at h
    split at h
    · simpa using ih _ h
    · cases h

theorem foldl_set_eq_updatedRow (t : Table) (l : List (String × Value)) (r : Row)
    (hnn : ∀ a ∈ l, ¬ t.indexOf a.1 < 0) :
    l.foldl (fun r a => r.set (t.indexOf a.1).toNat a.2) r = updatedRow t l r := by
  apply List.ext_getElem?
  intro p
  rw [foldl_set_getElem? t.indexOf l r p hnn]
  simp only [updatedRow, List.getElem?_mapIdx, assignedLiteral]
  cases hl : (List.filter (fun a => decide (t.indexOf a.1 = Int.ofNat p)) l).getLast? with
  | none => cases hc : r[p]? <;> simp
  | some x =>
    cases hc : r[p]? with
    | none =>
      have : ¬ p < r.length := by
        intro hlt
        rw [List.getElem?_eq_getElem hlt] at hc
        cases hc
      simp [this]
    | some v =>
      have : p < r.length := by
        rcases Nat.lt_or_ge p r.length with hlt | hge
        · exact hlt
        · rw [List.getElem?_eq_none hge] at hc; cases hc
      simp [this]

theorem updateRows_ok (t : Table) (s : UpdateStmt) (rows out : List Row)
    (hnn : ∀ a ∈ s.assignments, ¬ t.indexOf a.1 < 0)
    (h : updateRows t (s.assignments.map (fun a => t.indexOf a.1)) s rows = (out, .ok ())) :
    out = rows.map (fun r =>
      if selected t r s.where_ = .ok true then updatedRow t s.assignments r else r) := by
  induction rows generalizing out with
  | nil => simp [updateRows] at h; simp [h]
  | cons r rest ih =>
    simp only [updateRows] at h
    cases hsel : selected t r s.where_ with
    | error e => simp [hsel] at h
    | ok b =>
      cases b with
      | false =>
        simp only [hsel, Prod.mk.injEq] at h
        obtain ⟨h1, h2⟩ := h
        have hrest := ih _ (Prod.ext rfl h2)
        subst h1
        simp only [List.map_cons, hsel]
        simpa using hrest
      | true =>
        simp only [hsel] at h
        cases hasg : assignRow (s.assignments.map (fun a => t.indexOf a.1)) s.assignments r with
        | error e => simp [hasg] at h
        | ok r2 =>
          simp only [hasg, Prod.mk.injEq] at h
          obtain ⟨h1, h2⟩ := h
          have hrest := ih _ (Prod.ext rfl h2)
          have hr2 := assignRow_ok t.indexOf s.assignments r r2 hasg
          rw [foldl_set_eq_updatedRow t s.assignments r hnn] at hr2
          subst h1
          simp only [List.map_cons, hsel, if_true, hr2]
          simpa using hrest

theorem assignedLiteral_none (t : Table) (l : List (String × Value)) (p : Nat)
    (h : ∀ a ∈ l, t.indexOf a.1 ≠ Int.ofNat p) : assignedLiteral t l p = none := by
  have hnil : l.filter (fun a => decide (t.indexOf a.1 = Int.ofNat p)) = [] := by
    rw [List.filter_eq_nil_iff]
    intro a ha hdec
    exact h a ha (of_decide_eq_true hdec)
  simp only [assignedLiteral, hnil]
  rfl

theorem assignedLiteral_last (t : Table) (l : List (String × Value)) (k : Nat)
    (a : String × Value) (p : Nat)
    (hk : l[k]? = some a) (hp : t.indexOf a.1 = Int.ofNat p)
    (hlater : ∀ (k2 : Nat) (b : String × Value), k < k2 → l[k2]? = some b →
      t.indexOf b.1 ≠ t.indexOf a.1) :
    assignedLiteral t l p = some a.2 := by
  induction l generalizing k with
  | nil => simp at hk
  | cons c cs ih =>
    cases k with
    | zero =>
      simp only [List.getElem?_cons_zero, Option.some.injEq] at hk
      subst hk
      have hrest : cs.filter (fun b => decide (t.indexOf b.1 = Int.ofNat p)) = [] := by
        rw [List.filter_eq_nil_iff]
        intro b hb hdec
        obtain ⟨k2, hk2⟩ := List.mem_iff_getElem?.1 hb
        have hne := hlater (k2 + 1) b (Nat.succ_pos _) (by simpa using hk2)
        rw [hp] at hne
        exact hne (of_decide_eq_true hdec)
      have hdec : decide (t.indexOf c.1 = Int.ofNat p) = true := decide_eq_true hp
      simp only [assignedLiteral, List.filter_cons, hdec, if_true, hrest]
      rfl
    | succ k =>
      simp only [List.getElem?_cons_succ] at hk
      have hrest := ih k hk
        (fun k2 b hlt hb => hlater (k2 + 1) b (Nat.succ_lt_succ hlt) (by simpa using hb))
      simp only [assignedLiteral] at hrest
      simp only [assignedLiteral, List.filter_cons]
      cases hl : (List.filter (fun b => decide (t.indexOf b.1 = Int.ofNat p)) cs).getLast? with
      | none => rw [hl] at hrest; cases hrest
      | some x =>
        rw [hl] at hrest
        split
        · rw [List.getLast?_cons, hl]
          exact hrest
        · rw [hl]
          exact hrest

theorem assignRow_length (idx : List Int) (l : List (String × Value)) (r r2 : Row)
    (h : assignRow idx l r = .ok r2) : r2.length = r.length := by
  induction idx generalizing l r with
  | nil =>
    cases l <;> simp only [assignRow, Except.ok.injEq] at h <;> rw [← h]
  | cons j idx ih =>
    cases l with
    | nil => simp only [assignRow, Except.ok.injEq] at h; rw [← h]
    | cons a rest =>
      simp only [assignRow] at h
      split at h
      · rw [ih rest _ h, List.length_set]
      · cases h

theorem assignRow_inrange (f : String → Int) (l : List (String × Value)) (r r2 : Row)
    (h : assignRow (l.map (fun a => f a.1)) l r = .ok r2) :
    ∀ a ∈ l, (f a.1).toNat < r.length := by
  induction l generalizing r with
  | nil => simp
  | cons a rest ih =>
    simp only [List.map_cons, assignRow] at h
    split at h
    · rename_i hlt
      intro b hb
      simp only [List.mem_cons] at hb
      rcases hb with rfl | hb
      · exact hlt
      · have := ih _ h b hb
        rwa [List.length_set] at this
    · cases h

theorem updateRows_ok_assign (t : Table) (idx : List Int) (s : UpdateStmt) (rows : List Row)
    (h : (updateRows t idx s rows).2 = .ok ()) :
    ∀ r ∈ rows, selected t r s.where_ = .ok true → ∃ r2, assignRow idx s.assignments r = .ok r2 := by
  induction rows with
  | nil => simp
  | cons r rest ih =>
    simp only [updateRows] at h
    cases hsel : selected t r s.where_ with
    | error e => simp [hsel] at h
    | ok b =>
      cases b with
      | false =>
        simp only [hsel] at h
        intro x hx hxsel
        simp only [List.mem_cons] at hx
        rcases hx with rfl | hx
        · rw [hsel] at hxsel; cases hxsel
        · exact ih h x hx hxsel
      | true =>
        simp only [hsel] at h
        cases hasg : assignRow idx s.assignments r with
        | error e => simp [hasg] at h
        | ok r2 =>
          simp only [hasg] at h
          intro x hx hxsel
          simp only [List.mem_cons] at hx
          rcases hx with rfl | hx
          · exact ⟨r2, hasg⟩
          · exact ih h x hx hxsel

theorem updateRows_ok_selected (t : Table) (idx : List Int) (s : UpdateStmt) (rows : List Row)
    (h : (updateRows t idx s rows).2 = .ok ()) :
    ∀ r ∈ rows, ∃ b, selected t r s.where_ = .ok b := by
  induction rows with
  | nil => simp
  | cons r rest ih =>
    simp only [updateRows] at h
    cases hsel : selected t r s.where_ with
    | error e => simp [hsel] at h
    | ok b =>
      have hrest : (updateRows t idx s rest).2 = .ok () := by
        cases b with
        | false => simpa [hsel] using h
        | true =>
          simp only [hsel] at h
          cases hasg : assignRow idx s.assignments r with
          | error e => simp [hasg] at h
          | ok r2 => simpa [hasg] using h
      intro x hx
      simp only [List.mem_cons] at hx
      rcases hx with rfl | hx
      · exact ⟨b, hsel⟩
      · exact ih hrest x hx

theorem execUpdate_ok_inv (db : Database) (s : UpdateStmt) (t : Table)
    (ht : mapFind db.tables s.table = some t)
    (hok : (execUpdate db s).result = .ok none) :
    (∀ a ∈ s.assignments, AssignmentAccepted t a) ∧
    (updateRows t (s.assignments.map (fun a => t.indexOf a.1)) s t.rows).2 = .ok () ∧
    (execUpdate db s).db =
      ⟨mapAssign db.tables s.table ⟨t.name, t.columns, t.colIndex,
        (updateRows t (s.assignments.map (fun a => t.indexOf a.1)) s t.rows).1⟩⟩ := by
  by_cases hacc : ∀ a ∈ s.assignments, AssignmentAccepted t a
  · refine ⟨hacc, ?_, ?_⟩
    · simp only [execUpdate, ht, updateIndexes_accept t s.assignments hacc] at hok
      cases h2 : (updateRows t (s.assignments.map (fun a => t.indexOf a.1)) s t.rows).2 with
      | error e => simp [h2, Except.map] at hok
      | ok u => rfl
    · simp [execUpdate, ht, updateIndexes_accept t s.assignments hacc]
  · exfalso
    have : ∃ a ∈ s.assignments, ¬ AssignmentAccepted t a := by
      by_contra hall
      exact hacc (fun a ha => by_contra (fun hna => hall ⟨a, ha, hna⟩))
    obtain ⟨e, he⟩ := updateIndexes_reject t s.assignments this
    simp [execUpdate, ht, he] at hok

/-! ## Display text -/

theorem digitChar_value (d : Nat) (h : d < 10) : (Nat.digitChar d).toNat - 48 = d := by
  interval_cases d <;> rfl

theorem digitChar_isDigit (d : Nat) (h : d < 10) : (Nat.digitChar d).isDigit = true := by
  interval_cases d <;> rfl

theorem toDigitsCore_fold (fuel n : Nat) (ds : List Char) (h : n < fuel) :
    (Nat.toDigitsCore 10 fuel n ds).foldl (fun acc c => 10 * acc + (c.toNat - 48)) 0 =
      ds.foldl (fun acc c => 10 * acc + (c.toNat - 48)) n := by
  induction fuel generalizing n ds with
  | zero => omega
  | succ fuel ih =>
    simp only [Nat.toDigitsCore]
    split
    · rename_i h0
      have hn : n < 10 := by omega
      simp [List.foldl_cons, Nat.mod_eq_of_lt hn, digitChar_value n hn]
    · rename_i h0
      have hlt : n / 10 < fuel := by omega
      rw [ih (n / 10) _ hlt]
      simp only [List.foldl_cons, digitChar_value (n % 10) (Nat.mod_lt _ (by decide))]
      congr 1
      omega

theorem toDigitsCore_digits (fuel n : Nat) (ds : List Char) (hds : ∀ c ∈ ds, c.isDigit = true) :
    ∀ c ∈ Nat.toDigitsCore 10 fuel n ds, c.isDigit = true := by
  induction fuel generalizing n ds with
  | zero => simpa [Nat.toDigitsCore] using hds
  | succ fuel ih =>
    have hcons : ∀ c ∈ Nat.digitChar (n % 10) :: ds, c.isDigit = true := by
      intro c hc
      simp only [List.mem_cons] at hc
      rcases hc with rfl | hc
      · exact digitChar_isDigit _ (Nat.mod_lt _ (by decide))
      · exact hds c hc
    simp only [Nat.toDigitsCore]
    split
    · exact hcons
    · exact ih _ _ hcons

theorem decimalValue_repr (n : Nat) : decimalValue (Nat.repr n) = n := by
  simp only [decimalValue, Nat.repr, Nat.toDigits, List.asString]
  rw [toDigitsCore_fold (n + 1) n [] (Nat.lt_succ_self n)]
  rfl

theorem repr_digits (n : Nat) : ∀ c ∈ (Nat.repr n).data, c.isDigit = true := by
  simp only [Nat.repr, Nat.toDigits, List.asString]
  exact toDigitsCore_digits (n + 1) n [] (by simp)

/-! ## SELECT -/

theorem forall₂_getElem? {α β : Type} {R : α → β → Prop} {l1 : List α} {l2 : List β}
    (h : List.Forall₂ R l1 l2) (k : Nat) (a : α) (ha : l1[k]? = some a) :
    ∃ b, l2[k]? = some b ∧ R a b := by
  induction h generalizing k with
  | nil => simp at ha
  | cons hab _ ih =>
    cases k with
    | zero =>
      simp only [List.getElem?_cons_zero, Option.some.injEq] at ha
      subst ha
      exact ⟨_, by simp, hab⟩
    | succ k =>
      simp only [List.getElem?_cons_succ] at ha
      simpa using ih k ha

theorem forall₂_mem_right {α β : Type} {R : α → β → Prop} {l1 : List α} {l2 : List β}
    (h : List.Forall₂ R l1 l2) (b : β) (hb : b ∈ l2) : ∃ a ∈ l1, R a b := by
  induction h with
  | nil => simp at hb
  | cons hab _ ih =>
    simp only [List.mem_cons] at hb
    rcases hb with rfl | hb
    · exact ⟨_, List.mem_cons_self _ _, hab⟩
    · obtain ⟨a, ha, hr⟩ := ih hb
      exact ⟨a, List.mem_cons_of_mem _ ha, hr⟩

theorem column?_name (t : Table) (h : IndexConsistent t) (cn : String) (col : Column)
    (hc : t.column? cn = some col) : col.name = cn := by
  obtain ⟨hneg, hget⟩ := column?_eq_some t cn col hc
  rcases h cn with ⟨h1, _⟩ | ⟨j, hj, col2, h2, h3⟩
  · rw [h1] at hneg; exact absurd (by decide) hneg
  · rw [hj] at hget
    have : t.columns[j]? = some col := by simpa using hget
    rw [h2] at this
    cases this
    exact h3

theorem projectColumns_inv (t : Table) (cols : List String) (proj : List Int)
    (headers : List String) (h : projectColumns t cols = .ok (proj, headers)) :
    proj = cols.map t.indexOf ∧
    List.Forall₂ (fun cn hd => ∃ col, t.column? cn = some col ∧ hd = col.name) cols headers := by
  induction cols generalizing proj headers with
  | nil =>
    simp only [projectColumns, Except.ok.injEq, Prod.mk.injEq] at h
    obtain ⟨h1, h2⟩ := h
    subst h1; subst h2
    exact ⟨rfl, List.Forall₂.nil⟩
  | cons cn rest ih =>
    simp only [projectColumns] at h
    split at h
    · cases h
    · rename_i hneg
      split at h
      · cases h
      · rename_i col hget
        cases hrest : projectColumns t rest with
        | error e => simp [hrest, Except.map] at h
        | ok ph =>
          obtain ⟨p, hs⟩ := ph
          simp only [hrest, Except.map, Except.ok.injEq, Prod.mk.injEq] at h
          obtain ⟨h1, h2⟩ := h
          subst h1; subst h2
          obtain ⟨ih1, ih2⟩ := ih p hs hrest
          refine ⟨by simp [ih1], List.Forall₂.cons ⟨col, ?_, rfl⟩ ih2⟩
          rw [column?_of_nonneg t cn hneg]; exact hget

theorem projectColumns_ok (t : Table) (hidx : IndexConsistent t) (cols : List String)
    (h : ∀ cn ∈ cols, ∃ col ∈ t.columns, col.name = cn) :
    projectColumns t cols = .ok (cols.map t.indexOf, cols) := by
  induction cols with
  | nil => rfl
  | cons cn rest ih =>
    obtain ⟨col, hcol, hname, hneg⟩ :=
      column?_some_of_column t hidx cn (h cn (List.mem_cons_self _ _))
    have hget := (column?_eq_some t cn col hcol).2
    have hrest := ih (fun c hc => h c (List.mem_cons_of_mem _ hc))
    simp [projectColumns, hneg, hget, hrest, Except.map, hname]

theorem projectColumns_error (t : Table) (hidx : IndexConsistent t) (cols : List String)
    (h : ∃ cn ∈ cols, ¬ ∃ col ∈ t.columns, col.name = cn) :
    ∃ e, projectColumns t cols = .error e := by
  induction cols with
  | nil => simp at h
  | cons cn rest ih =>
    simp only [projectColumns]
    by_cases hneg : t.indexOf cn < 0
    · exact ⟨.unknownColumn cn, by simp [hneg]⟩
    · simp only [hneg, if_false]
      cases hget : t.columns[(t.indexOf cn).toNat]? with
      | none => exact ⟨.outOfRange, rfl⟩
      | some col =>
        have hrest : ∃ c ∈ rest, ¬ ∃ col ∈ t.columns, col.name = c := by
          obtain ⟨c, hc, hno⟩ := h
          simp only [List.mem_cons] at hc
          rcases hc with rfl | hc
          · exact absurd (column_of_indexOf_nonneg t hidx c hneg) hno
          · exact ⟨c, hc, hno⟩
        obtain ⟨e, he⟩ := ih hrest
        exact ⟨e, by simp [he, Except.map]⟩

theorem projectRow_inv (r : Row) (proj : List Int) (line : List String)
    (h : projectRow r proj = .ok line) :
    List.Forall₂ (fun j cell => ∃ v, r[j.toNat]? = some v ∧ cell = v.toString) proj line := by
  induction proj generalizing line with
  | nil =>
    simp only [projectRow, Except.ok.injEq] at h
    subst h
    exact List.Forall₂.nil
  | cons j rest ih =>
    simp only [projectRow] at h
    split at h
    · cases h
    · rename_i v hv
      cases hrest : projectRow r rest with
      | error e => simp [hrest, Except.map] at h
      | ok l =>
        simp only [hrest, Except.map, Except.ok.injEq] at h
        subst h
        exact List.Forall₂.cons ⟨v, hv, rfl⟩ (ih l hrest)

theorem selectRows_inv (t : Table) (proj : List Int) (w : Option Condition) (rows : List Row)
    (out : List (List String)) (h : selectRows t proj w rows = .ok out) :
    List.Forall₂ (fun r line => projectRow r proj = .ok line)
      (rows.filter (fun r => decide (selected t r w = .ok true))) out ∧
    ∀ r ∈ rows, ∃ b, selected t r w = .ok b := by
  induction rows generalizing out with
  | nil =>
    simp only [selectRows, Except.ok.injEq] at h
    subst h
    exact ⟨List.Forall₂.nil, by simp⟩
  | cons r rest ih =>
    simp only [selectRows] at h
    cases hsel : selected t r w with
    | error e => simp [hsel] at h
    | ok b =>
      cases b with
      | false =>
        simp only [hsel] at h
        obtain ⟨ih1, ih2⟩ := ih out h
        refine ⟨by simpa [List.filter_cons, hsel] using ih1, ?_⟩
        intro x hx
        simp only [List.mem_cons] at hx
        rcases hx with rfl | hx
        · exact ⟨false, hsel⟩
        · exact ih2 x hx
      | true =>
        simp only [hsel] at h
        cases hline : projectRow r proj with
        | error e => simp [hline] at h
        | ok line =>
          cases hrest : selectRows t proj w rest with
          | error e => simp [hline, hrest, Except.map] at h
          | ok o =>
            simp only [hline, hrest, Except.map, Except.ok.injEq] at h
            subst h
            obtain ⟨ih1, ih2⟩ := ih o hrest
            have hcons : List.Forall₂ (fun r line => projectRow r proj = .ok line)
                (r :: rest.filter (fun r => decide (selected t r w = .ok true))) (line :: o) :=
              List.Forall₂.cons hline ih1
            refine ⟨by simpa [List.filter_cons, hsel] using hcons, ?_⟩
            intro x hx
            simp only [List.mem_cons] at hx
            rcases hx with rfl | hx
            · exact ⟨true, hsel⟩
            · exact ih2 x hx

theorem execSelect_ok_inv (db : Database) (s : SelectStmt) (t : Table) (out : Printed)
    (ht : mapFind db.tables s.table = some t)
    (hok : (execSelect db s).result = .ok (some out)) :
    ∃ proj, selectProjection t s = .ok (proj, out.headers) ∧
      selectRows t proj s.where_ t.rows = .ok out.rows := by
  simp only [execSelect, ht] at hok
  cases hp : selectProjection t s with
  | error e => simp [hp] at hok
  | ok ph =>
    obtain ⟨proj, headers⟩ := ph
    simp only [hp] at hok
    cases hr : selectRows t proj s.where_ t.rows with
    | error e => simp [hr] at hok
    | ok rows =>
      simp only [hr, Except.ok.injEq, Option.some.injEq] at hok
      subst hok
      exact ⟨proj, rfl, hr⟩

theorem execSelect_db (db : Database) (s : SelectStmt) : (execSelect db s).db = db := by
  unfold execSelect
  split
  · rfl
  · split
    · rfl
    · split <;> rfl

theorem projectColumns_headers (t : Table) (hidx : IndexConsistent t) (cols : List String)
    (proj : List Int) (headers : List String) (h : projectColumns t cols = .ok (proj, headers)) :
    headers = cols := by
  have h2 := (projectColumns_inv t cols proj headers h).2
  clear h
  induction h2 with
  | nil => rfl
  | cons hab _ ih =>
    obtain ⟨col, hcol, hname⟩ := hab
    rw [ih, hname, column?_name t hidx _ col hcol]

/-- C8. On a reachable database, SELECT raises when the table does not exist or when a
column of an explicit list is not a column of the table. Otherwise the projection it
computes has as headers, for `*`, the names of all columns of the table in declared
order, and for an explicit list exactly the listed names in the order written,
repetitions included. When SELECT succeeds these are the headers it prints, and every
printed row has as many cells as there are headers and comes from one row of the table,
its k-th cell being the display text of the cell of that row in a column that bears the
k-th header: the k-th column for `*`, the column the name denotes for an explicit list. -/
theorem select_projection (db : Database) (s : SelectStmt) (hdb : Reachable db) :
    (mapFind db.tables s.table = none →
      (execute db (.select s)).result = .error (.noSuchTable s.table)) ∧
    (∀ t, mapFind db.tables s.table = some t → s.selectAll = false →
      (∃ cn ∈ s.cols, ¬ ∃ col ∈ t.columns, col.name = cn) →
      ∃ e, (execute db (.select s)).result = .error e) ∧
    (∀ t, mapFind db.tables s.table = some t → s.selectAll = true →
      selectProjection t s =
        .ok ((List.range t.columns.length).map Int.ofNat, t.columns.map (fun col => col.name))) ∧
    (∀ t, mapFind db.tables s.table = some t → s.selectAll = false →
      (∀ cn ∈ s.cols, ∃ col ∈ t.columns, col.name = cn) →
      selectProjection t s = .ok (s.cols.map t.indexOf, s.cols)) ∧
    (∀ t out, mapFind db.tables s.table = some t →
      (execute db (.select s)).result = .ok (some out) →
      out.headers = (if s.selectAll = true then t.columns.map (fun col => col.name) else s.cols) ∧
      ∀ cells ∈ out.rows, cells.length = out.headers.length ∧
        ∃ r ∈ t.rows, ∀ k hd, out.headers[k]? = some hd →
          ∃ j col v, t.columns[j]? = some col ∧ col.name = hd ∧ r[j]? = some v ∧
            cells[k]? = some v.toString ∧
            (s.selectAll = true → j = k) ∧
            (s.selectAll = false → t.indexOf hd = Int.ofNat j)) := by
  have hidx := reachable_indexed db hdb
  refine ⟨?_, ?_, ?_, ?_, ?_⟩
  · intro h
    simp [execute, execSelect, h]
  · intro t ht hall hbad
    obtain ⟨e, he⟩ := projectColumns_error t (hidx _ t ht) s.cols hbad
    exact ⟨e, by simp [execute, execSelect, ht, selectProjection, hall, he]⟩
  · intro t _ hall
    simp [selectProjection, hall]
  · intro t ht hall hcols
    simp [selectProjection, hall, projectColumns_ok t (hidx _ t ht) s.cols hcols]
  · intro t out ht hok
    obtain ⟨proj, hproj, hrows⟩ := execSelect_ok_inv db s t out ht hok
    obtain ⟨hfor, _⟩ := selectRows_inv t proj s.where_ t.rows out.rows hrows
    have hline : ∀ line ∈ out.rows, ∃ r ∈ t.rows,
        List.Forall₂ (fun j cell => ∃ v, r[j.toNat]? = some v ∧ cell = v.toString) proj line := by
      intro line hl
      obtain ⟨r, hr, hpr⟩ := forall₂_mem_right hfor line hl
      exact ⟨r, (List.mem_filter.1 hr).1, projectRow_inv r proj line hpr⟩
    cases hall : s.selectAll with
    | true =>
      simp only [selectProjection, hall, if_true, Except.ok.injEq, Prod.mk.injEq] at hproj
      obtain ⟨hp, hh⟩ := hproj
      refine ⟨by simp [hh], ?_⟩
      intro line hl
      obtain ⟨r, hr, hf⟩ := hline line hl
      refine ⟨by rw [← hf.length_eq, ← hp, ← hh]; simp, r, hr, ?_⟩
      intro k hd hk
      rw [← hh, List.getElem?_map] at hk
      cases hc : t.columns[k]? with
      | none => simp [hc] at hk
      | some col =>
        simp only [hc, Option.map_some', Option.some.injEq] at hk
        have hklt : k < t.columns.length := by
          rcases Nat.lt_or_ge k t.columns.length with hlt | hge
          · exact hlt
          · rw [List.getElem?_eq_none hge] at hc; cases hc
        have hpk : proj[k]? = some (Int.ofNat k) := by
          rw [← hp, List.getElem?_map, List.getElem?_range hklt]
          rfl
        obtain ⟨cell, hcell, v, hv, hcv⟩ := forall₂_getElem? hf k _ hpk
        exact ⟨k, col, v, hc, hk, by simpa using hv, by rw [hcell, hcv], fun _ => rfl,
          fun h => by cases h⟩
    | false =>
      simp only [selectProjection, hall, Bool.false_eq_true, if_false] at hproj
      have hh := projectColumns_headers t (hidx _ t ht) s.cols proj out.headers hproj
      obtain ⟨hp, hcol⟩ := projectColumns_inv t s.cols proj out.headers hproj
      refine ⟨by simp [hh], ?_⟩
      intro line hl
      obtain ⟨r, hr, hf⟩ := hline line hl
      refine ⟨by rw [← hf.length_eq, hp, hh]; simp, r, hr, ?_⟩
      intro k hd hk
      rw [hh] at hk
      obtain ⟨hd2, hhd2, col, hcolq, hname⟩ := forall₂_getElem? hcol k hd hk
      obtain ⟨hneg, hget⟩ := column?_eq_some t hd col hcolq
      have hpk : proj[k]? = some (t.indexOf hd) := by
        rw [hp, List.getElem?_map, hk]; rfl
      obtain ⟨cell, hcell, v, hv, hcv⟩ := forall₂_getElem? hf k _ hpk
      refine ⟨(t.indexOf hd).toNat, col, v, hget, column?_name t (hidx _ t ht) hd col hcolq, hv,
        by rw [hcell, hcv], fun h => (by cases h), fun _ => ?_⟩
      exact (Int.toNat_of_nonneg (not_lt.mp hneg)).symm

/-- C8, at a concrete input: on the rows (1, Alice), (2, Bob), (3, Cara),
`SELECT name, id, name FROM t` has the headers name, id, name, `SELECT * FROM t` computes
the headers id, name, and `SELECT nope FROM t` raises. -/
theorem select_projection_witness :
    ((∃ e, (execute threeRows (.select ⟨false, ["nope"], "t", none⟩)).result = .error e) ∧
      selectProjection ⟨"t", [⟨"id", .INT⟩, ⟨"name", .STR⟩], [("id", 0), ("name", 1)],
          [[.int 1, .str "Alice"], [.int 2, .str "Bob"], [.int 3, .str "Cara"]]⟩
        ⟨true, [], "t", none⟩ =
        .ok ((List.range 2).map Int.ofNat, ["id", "name"])) ∧
    ((execute threeRows (.select ⟨false, ["name", "id", "name"], "t", none⟩)).result =
      .ok (some ⟨["name", "id", "name"],
        [["Alice", "1", "Alice"], ["Bob", "2", "Bob"], ["Cara", "3", "Cara"]]⟩)) ∧
    ((⟨["name", "id", "name"],
        [["Alice", "1", "Alice"], ["Bob", "2", "Bob"], ["Cara", "3", "Cara"]]⟩ : Printed).headers =
      (if false = true then
        ([⟨"id", .INT⟩, ⟨"name", .STR⟩] : List Column).map (fun col => col.name)
       else ["name", "id", "name"])) :=
  ⟨⟨(select_projection threeRows ⟨false, ["nope"], "t", none⟩
        ⟨[.create ⟨"t", [("id", .INT), ("name", .STR)]⟩,
          .insert ⟨"t", ["id", "name"],
            [[.int 1, .str "Alice"], [.int 2, .str "Bob"], [.int 3, .str "Cara"]]⟩], rfl⟩).2.1
        ⟨"t", [⟨"id", .INT⟩, ⟨"name", .STR⟩], [("id", 0), ("name", 1)],
          [[.int 1, .str "Alice"], [.int 2, .str "Bob"], [.int 3, .str "Cara"]]⟩
        (by decide) rfl ⟨"nope", by simp, by decide⟩,
     (select_projection threeRows ⟨true, [], "t", none⟩
        ⟨[.create ⟨"t", [("id", .INT), ("name", .STR)]⟩,
          .insert ⟨"t", ["id", "name"],
            [[.int 1, .str "Alice"], [.int 2, .str "Bob"], [.int 3, .str "Cara"]]⟩], rfl⟩).2.2.1
        ⟨"t", [⟨"id", .INT⟩, ⟨"name", .STR⟩], [("id", 0), ("name", 1)],
          [[.int 1, .str "Alice"], [.int 2, .str "Bob"], [.int 3, .str "Cara"]]⟩
        (by decide) rfl⟩,
   by decide,
   ((select_projection threeRows ⟨false, ["name", "id", "name"], "t", none⟩
        ⟨[.create ⟨"t", [("id", .INT), ("name", .STR)]⟩,
          .insert ⟨"t", ["id", "name"],
            [[.int 1, .str "Alice"], [.int 2, .str "Bob"], [.int 3, .str "Cara"]]⟩], rfl⟩).2.2.2.2
        ⟨"t", [⟨"id", .INT⟩, ⟨"name", .STR⟩], [("id", 0), ("name", 1)],
          [[.int 1, .str "Alice"], [.int 2, .str "Bob"], [.int 3, .str "Cara"]]⟩
        ⟨["name", "id", "name"],
          [["Alice", "1", "Alice"], ["Bob", "2", "Bob"], ["Cara", "3", "Cara"]]⟩
        (by decide) (by decide)).1⟩

/-- C9. When SELECT succeeds it leaves the database unchanged, the WHERE condition
evaluated without error on every row of the table, and the printed rows are, in table
storage order, exactly the rows on which the condition is true (all rows when WHERE is
absent), one printed row per such row, each cell being the display text of the cell the
projection takes from that row. The display text of a string is the string itself; that
of an integer is an optional `-` followed by decimal digits that denote its absolute
value. The row count `printAscii` reports in its last line is the number of rows on which
the condition is true. -/
theorem select_rows (db : Database) (s : SelectStmt) (t : Table) (out : Printed)
    (ht : mapFind db.tables s.table = some t)
    (hok : (execute db (.select s)).result = .ok (some out)) :
    (execute db (.select s)).db = db ∧
    (∀ r ∈ t.rows, ∃ b, selected t r s.where_ = .ok b) ∧
    (s.where_ = none →
      t.rows.filter (fun r => decide (selected t r s.where_ = .ok true)) = t.rows) ∧
    (∀ c, s.where_ = some c → ∀ r, selected t r s.where_ = rowMatches t r c) ∧
    (∃ proj, selectProjection t s = .ok (proj, out.headers) ∧
      List.Forall₂
        (fun r cells =>
          List.Forall₂ (fun j cell => ∃ v, r[j.toNat]? = some v ∧ cell = v.toString) proj cells)
        (t.rows.filter (fun r => decide (selected t r s.where_ = .ok true))) out.rows) ∧
    out.rows.length =
      (t.rows.filter (fun r => decide (selected t r s.where_ = .ok true))).length ∧
    (∃ grid, printAscii out.headers out.rows = grid ++
      (Nat.repr (t.rows.filter (fun r => decide (selected t r s.where_ = .ok true))).length ++
        " row(s)." ++ "\n")) ∧
    (∀ str : String, (Value.str str).toString = str) ∧
    (∀ x : Int,
      (x < 0 → (Value.int x).toString = "-" ++ Nat.repr x.natAbs) ∧
      (0 ≤ x → (Value.int x).toString = Nat.repr x.natAbs) ∧
      decimalValue (Nat.repr x.natAbs) = x.natAbs ∧
      ∀ c ∈ (Nat.repr x.natAbs).data, c.isDigit = true) := by
  obtain ⟨proj, hproj, hrows⟩ := execSelect_ok_inv db s t out ht hok
  obtain ⟨hfor, hsel⟩ := selectRows_inv t proj s.where_ t.rows out.rows hrows
  have hfor2 : List.Forall₂
      (fun r cells =>
        List.Forall₂ (fun j cell => ∃ v, r[j.toNat]? = some v ∧ cell = v.toString) proj cells)
      (t.rows.filter (fun r => decide (selected t r s.where_ = .ok true))) out.rows :=
    List.Forall₂.imp (fun r cells h => projectRow_inv r proj cells h) hfor
  have hlen := hfor.length_eq
  refine ⟨execSelect_db db s, hsel, ?_, ?_, ⟨proj, hproj, hfor2⟩, hlen.symm, ?_, fun _ => rfl, ?_⟩
  · intro hw
    simp [hw, selected]
  · intro c hw r
    simp [hw, selected]
  · exact ⟨_, by rw [printAscii, hlen]⟩
  · intro x
    refine ⟨?_, ?_, decimalValue_repr _, repr_digits _⟩
    · intro hx
      simp [Value.toString, to_string, hx]
    · intro hx
      simp [Value.toString, to_string, not_lt.mpr hx]

/-- C9, at a concrete input: on the rows (1, Alice), (2, Bob), (3, Cara),
`SELECT id FROM t WHERE id < 3` prints the two rows `1` and `2` and reports 2 rows. -/
theorem select_rows_witness :
    (execute threeRows (.select ⟨false, ["id"], "t", some ⟨"id", .LT, .int 3⟩⟩)).result =
      .ok (some ⟨["id"], [["1"], ["2"]]⟩) ∧
    (execute threeRows (.select ⟨false, ["id"], "t", some ⟨"id", .LT, .int 3⟩⟩)).db = threeRows ∧
    (⟨["id"], [["1"], ["2"]]⟩ : Printed).rows.length =
      (([[.int 1, .str "Alice"], [.int 2, .str "Bob"], [.int 3, .str "Cara"]] : List Row).filter
        (fun r => decide (selected
          ⟨"t", [⟨"id", .INT⟩, ⟨"name", .STR⟩], [("id", 0), ("name", 1)],
            [[.int 1, .str "Alice"], [.int 2, .str "Bob"], [.int 3, .str "Cara"]]⟩
          r (some ⟨"id", .LT, .int 3⟩) = .ok true))).length :=
  ⟨by decide,
   (select_rows threeRows ⟨false, ["id"], "t", some ⟨"id", .LT, .int 3⟩⟩
    ⟨"t", [⟨"id", .INT⟩, ⟨"name", .STR⟩], [("id", 0), ("name", 1)],
      [[.int 1, .str "Alice"], [.int 2, .str "Bob"], [.int 3, .str "Cara"]]⟩
    ⟨["id"], [["1"], ["2"]]⟩ (by decide) (by decide)).1,
   (select_rows threeRows ⟨false, ["id"], "t", some ⟨"id", .LT, .int 3⟩⟩
    ⟨"t", [⟨"id", .INT⟩, ⟨"name", .STR⟩], [("id", 0), ("name", 1)],
      [[.int 1, .str "Alice"], [.int 2, .str "Bob"], [.int 3, .str "Cara"]]⟩
    ⟨["id"], [["1"], ["2"]]⟩ (by decide) (by decide)).2.2.2.2.2.1⟩

/-! ## WHERE predicate -/

theorem bytesCompare_neg_iff (x y : List Nat) :
    bytesCompare x y < 0 ↔ List.Lex (fun a b => a < b) x y := by
  induction x generalizing y with
  | nil =>
    cases y with
    | nil => simp [bytesCompare, List.Lex.not_nil_right]
    | cons b y => simp [bytesCompare, List.Lex.nil]
  | cons a x ih =>
    cases y with
    | nil => simp [bytesCompare, List.Lex.not_nil_right]
    | cons b y =>
      simp only [bytesCompare]
      by_cases hab : a < b
      · simp [hab, List.Lex.rel hab]
      · by_cases hba : b < a
        · simp only [hab, hba, if_false, if_true]
          constructor
          · intro h; exact absurd h (by decide)
          · intro h
            cases h with
            | cons h => exact absurd hba (lt_irrefl _)
            | rel h => exact absurd h hab
        · have heq : a = b := by omega
          subst heq
          simp only [hab, if_false]
          rw [ih y, List.Lex.cons_iff]

theorem bytesCompare_zero_iff (x y : List Nat) : bytesCompare x y = 0 ↔ x = y := by
  induction x generalizing y with
  | nil =>
    cases y with
    | nil => simp [bytesCompare]
    | cons b y => simp [bytesCompare]
  | cons a x ih =>
    cases y with
    | nil => simp [bytesCompare]
    | cons b y =>
      simp only [bytesCompare]
      by_cases hab : a < b
      · have : a ≠ b := by omega
        simp [hab, this]
      · by_cases hba : b < a
        · have : a ≠ b := by omega
          simp [hab, hba, this]
        · have heq : a = b := by omega
          subst heq
          simp [hab, ih y]

theorem bytesCompare_swap (x y : List Nat) : bytesCompare y x = - bytesCompare x y := by
  induction x generalizing y with
  | nil =>
    cases y with
    | nil => simp [bytesCompare]
    | cons b y => simp [bytesCompare]
  | cons a x ih =>
    cases y with
    | nil => simp [bytesCompare]
    | cons b y =>
      simp only [bytesCompare]
      by_cases hab : a < b
      · have hba : ¬ b < a := by omega
        simp [hab, hba]
      · by_cases hba : b < a
        · simp [hab, hba]
        · simp [hab, hba, ih y]

theorem bytesCompare_pos_iff (x y : List Nat) :
    0 < bytesCompare x y ↔ List.Lex (fun a b => a < b) y x := by
  rw [← bytesCompare_neg_iff y x, bytesCompare_swap x y]
  omega

theorem compareValues_str (a b : String) :
    ∃ k, compareValues (.str a) (.str b) = .ok k ∧
      (k < 0 ↔ List.Lex (fun m n => m < n) (bytesOf a) (bytesOf b)) ∧
      (k = 0 ↔ bytesOf a = bytesOf b) ∧
      (0 < k ↔ List.Lex (fun m n => m < n) (bytesOf b) (bytesOf a)) := by
  have hneg := bytesCompare_neg_iff (bytesOf a) (bytesOf b)
  have hpos := bytesCompare_pos_iff (bytesOf a) (bytesOf b)
  have hzero := bytesCompare_zero_iff (bytesOf a) (bytesOf b)
  have hneg2 := bytesCompare_neg_iff (bytesOf b) (bytesOf a)
  by_cases h1 : bytesCompare (bytesOf a) (bytesOf b) < 0
  · refine ⟨-1, by simp [compareValues, stringLess, h1], ?_, ?_, ?_⟩
    · simpa using hneg.1 h1
    · constructor
      · intro h; exact absurd h (by decide)
      · intro h
        have := hzero.2 h
        omega
    · constructor
      · intro h; exact absurd h (by decide)
      · intro h
        have := hneg2.2 h
        have := bytesCompare_swap (bytesOf a) (bytesOf b)
        omega
  · by_cases h2 : bytesCompare (bytesOf b) (bytesOf a) < 0
    · refine ⟨1, by simp [compareValues, stringLess, h1, h2], ?_, ?_, ?_⟩
      · constructor
        · intro h; exact absurd h (by decide)
        · intro h; exact absurd (hneg.2 h) h1
      · constructor
        · intro h; exact absurd h (by decide)
        · intro h
          have := hzero.2 h
          have := bytesCompare_swap (bytesOf a) (bytesOf b)
          omega
      · simpa using hneg2.1 h2
    · have hz : bytesCompare (bytesOf a) (bytesOf b) = 0 := by
        have := bytesCompare_swap (bytesOf a) (bytesOf b)
        omega
      refine ⟨0, by simp [compareValues, stringLess, h1, h2], ?_, ?_, ?_⟩
      · constructor
        · intro h; exact absurd h (by decide)
        · intro h; exact absurd (hneg.2 h) h1
      · simpa using hzero.1 hz
      · constructor
        · intro h; exact absurd h (by decide)
        · intro h; exact absurd (hneg2.2 h) h2

theorem rowMatches_cell (t : Table) (r : Row) (c : Condition) (j : Nat) (cell : Value)
    (hj : t.indexOf c.column = Int.ofNat j) (hcell : r[j]? = some cell) :
    rowMatches t r c =
      match c.op with
      | .EQ => .ok (equalValues cell c.literal)
      | .NE => .ok (!equalValues cell c.literal)
      | .LT => (compareValues cell c.literal).map (fun k => decide (k < 0))
      | .LE => (compareValues cell c.literal).map (fun k => decide (k ≤ 0))
      | .GT => (compareValues cell c.literal).map (fun k => decide (k > 0))
      | .GE => (compareValues cell c.literal).map (fun k => decide (k ≥ 0)) := by
  have hneg : ¬ (Int.ofNat j < 0) := by simp
  have hnat : (Int.ofNat j).toNat = j := rfl
  simp only [rowMatches, hj, hneg, if_false, hnat, hcell]

/-- C10. For a row whose cell in the WHERE column has the kind of the literal, `rowMatches`
returns the truth value of the comparison of the cell with the literal under each of the
six operators: the numeric order for two integers, and for two strings equality and the
lexicographic order of their byte sequences. For `=` and `!=` with a cell and a literal of
different kinds it does not raise and returns false for `=` and true for `!=`. On the rows
(1, Alice), (2, Bob), (3, Cara): `id < 3` matches the rows 1 and 2, `name >= "Bob"` matches
Bob and Cara, and `name != "Bob"` matches exactly the rows that are not Bob. -/
theorem rowMatches_semantics (t : Table) (r : Row) (col : String) (j : Nat) (cell lit : Value)
    (hj : t.indexOf col = Int.ofNat j) (hcell : r[j]? = some cell) :
    (∀ x y : Int, cell = .int x → lit = .int y →
      rowMatches t r ⟨col, .EQ, lit⟩ = .ok (decide (x = y)) ∧
      rowMatches t r ⟨col, .NE, lit⟩ = .ok (decide (x ≠ y)) ∧
      rowMatches t r ⟨col, .LT, lit⟩ = .ok (decide (x < y)) ∧
      rowMatches t r ⟨col, .LE, lit⟩ = .ok (decide (x ≤ y)) ∧
      rowMatches t r ⟨col, .GT, lit⟩ = .ok (decide (x > y)) ∧
      rowMatches t r ⟨col, .GE, lit⟩ = .ok (decide (x ≥ y))) ∧
    (∀ a b : String, cell = .str a → lit = .str b →
      rowMatches t r ⟨col, .EQ, lit⟩ = .ok (decide (a = b)) ∧
      rowMatches t r ⟨col, .NE, lit⟩ = .ok (decide (a ≠ b)) ∧
      rowMatches t r ⟨col, .LT, lit⟩ =
        .ok (decide (List.Lex (fun m n => m < n) (bytesOf a) (bytesOf b))) ∧
      rowMatches t r ⟨col, .LE, lit⟩ =
        .ok (decide (List.Lex (fun m n => m < n) (bytesOf a) (bytesOf b) ∨ bytesOf a = bytesOf b)) ∧
      rowMatches t r ⟨col, .GT, lit⟩ =
        .ok (decide (List.Lex (fun m n => m < n) (bytesOf b) (bytesOf a))) ∧
      rowMatches t r ⟨col, .GE, lit⟩ =
        .ok (decide (List.Lex (fun m n => m < n) (bytesOf b) (bytesOf a) ∨ bytesOf a = bytesOf b))) ∧
    (cell.kind ≠ lit.kind →
      rowMatches t r ⟨col, .EQ, lit⟩ = .ok false ∧
      rowMatches t r ⟨col, .NE, lit⟩ = .ok true) ∧
    ([[Value.int 1, .str "Alice"], [.int 2, .str "Bob"], [.int 3, .str "Cara"]].filter
        (fun row => decide (rowMatches
          ⟨"t", [⟨"id", .INT⟩, ⟨"name", .STR⟩], [("id", 0), ("name", 1)], []⟩ row
          ⟨"id", .LT, .int 3⟩ = .ok true)) =
      [[.int 1, .str "Alice"], [.int 2, .str "Bob"]]) ∧
    ([[Value.int 1, .str "Alice"], [.int 2, .str "Bob"], [.int 3, .str "Cara"]].filter
        (fun row => decide (rowMatches
          ⟨"t", [⟨"id", .INT⟩, ⟨"name", .STR⟩], [("id", 0), ("name", 1)], []⟩ row
          ⟨"name", .GE, .str "Bob"⟩ = .ok true)) =
      [[.int 2, .str "Bob"], [.int 3, .str "Cara"]]) ∧
    ([[Value.int 1, .str "Alice"], [.int 2, .str "Bob"], [.int 3, .str "Cara"]].filter
        (fun row => decide (rowMatches
          ⟨"t", [⟨"id", .INT⟩, ⟨"name", .STR⟩], [("id", 0), ("name", 1)], []⟩ row
          ⟨"name", .NE, .str "Bob"⟩ = .ok true)) =
      [[.int 1, .str "Alice"], [.int 3, .str "Cara"]]) := by
  have hrm := fun op => rowMatches_cell t r ⟨col, op, lit⟩ j cell hj hcell
  refine ⟨?_, ?_, ?_, by decide, by decide, by decide⟩
  · intro x y hx hy
    subst hx; subst hy
    refine ⟨?_, ?_, ?_, ?_, ?_, ?_⟩
    · simp [hrm, equalValues]
    · simp [hrm, equalValues]
    · rw [hrm]
      simp only [compareValues]
      by_cases h1 : x < y
      · simp [h1, Except.map]
      · by_cases h2 : x > y
        · simp [h1, h2, Except.map]
        · simp [h1, h2, Except.map]
    · rw [hrm]
      simp only [compareValues]
      by_cases h1 : x < y
      · simp [h1, Except.map, le_of_lt h1]
      · by_cases h2 : x > y
        · simp [h1, h2, Except.map]
        · simp [h1, h2, Except.map]; omega
    · rw [hrm]
      simp only [compareValues]
      by_cases h1 : x < y
      · simp [h1, Except.map]; omega
      · by_cases h2 : x > y
        · simp [h1, h2, Except.map]
        · simp [h1, h2, Except.map]
    · rw [hrm]
      simp only [compareValues]
      by_cases h1 : x < y
      · simp [h1, Except.map]
      · by_cases h2 : x > y
        · simp [h1, h2, Except.map]; omega
        · simp [h1, h2, Except.map]; omega
  · intro a b ha hb
    subst ha; subst hb
    obtain ⟨k, hk, hlt, hz, hgt⟩ := compareValues_str a b
    refine ⟨?_, ?_, ?_, ?_, ?_, ?_⟩
    · simp [hrm, equalValues]
    · simp [hrm, equalValues]
    · rw [hrm]
      simp only [hk, Except.map]
      exact congrArg Except.ok (decide_eq_decide.2 hlt)
    · rw [hrm]
      simp only [hk, Except.map]
      refine congrArg Except.ok (decide_eq_decide.2 ?_)
      rw [← hlt, ← hz]
      omega
    · rw [hrm]
      simp only [hk, Except.map]
      exact congrArg Except.ok (decide_eq_decide.2 hgt)
    · rw [hrm]
      simp only [hk, Except.map]
      refine congrArg Except.ok (decide_eq_decide.2 ?_)
      rw [← hgt, ← hz]
      omega
  · intro hkind
    cases cell <;> cases lit <;> simp [Value.kind] at hkind <;> simp [hrm, equalValues]

/-- C10, at a concrete input: in the row (2, Bob) of `t (id int, name str)`, the cell of
`name` compared with the string literal `Bob`, and with the integer literal 2. -/
theorem rowMatches_semantics_witness :
    (rowMatches ⟨"t", [⟨"id", .INT⟩, ⟨"name", .STR⟩], [("id", 0), ("name", 1)], []⟩
        [.int 2, .str "Bob"] ⟨"name", .GE, .str "Bob"⟩ =
      .ok (decide (List.Lex (fun m n => m < n) (bytesOf "Bob") (bytesOf "Bob") ∨
        bytesOf "Bob" = bytesOf "Bob"))) ∧
    (rowMatches ⟨"t", [⟨"id", .INT⟩, ⟨"name", .STR⟩], [("id", 0), ("name", 1)], []⟩
        [.int 2, .str "Bob"] ⟨"name", .EQ, .int 2⟩ = .ok false) :=
  ⟨((rowMatches_semantics ⟨"t", [⟨"id", .INT⟩, ⟨"name", .STR⟩], [("id", 0), ("name", 1)], []⟩
      [.int 2, .str "Bob"] "name" 1 (.str "Bob") (.str "Bob") (by decide) (by decide)).2.1
      "Bob" "Bob" rfl rfl).2.2.2.2.2,
   ((rowMatches_semantics ⟨"t", [⟨"id", .INT⟩, ⟨"name", .STR⟩], [("id", 0), ("name", 1)], []⟩
      [.int 2, .str "Bob"] "name" 1 (.str "Bob") (.int 2) (by decide) (by decide)).2.2.1
      (by decide)).1⟩

/-! ## C1: round trip -/

theorem projectRow_range (pre r : Row) :
    projectRow (pre ++ r) ((List.range' pre.length r.length).map Int.ofNat) =
      .ok (r.map Value.toString) := by
  induction r generalizing pre with
  | nil => simp [projectRow]
  | cons v rest ih =>
    have hget : (pre ++ v :: rest)[(Int.ofNat pre.length).toNat]? = some v := by
      show (pre ++ v :: rest)[pre.length]? = some v
      rw [List.getElem?_append_right (le_refl _)]
      simp
    have hrest := ih (pre ++ [v])
    simp only [List.length_append, List.length_singleton, List.append_assoc, List.singleton_append]
      at hrest
    simp only [List.length_cons, List.range'_succ, List.map_cons, projectRow, hget, hrest,
      Except.map]

theorem projectRow_all (r : Row) :
    projectRow r ((List.range r.length).map Int.ofNat) = .ok (r.map Value.toString) := by
  have h := projectRow_range [] r
  simpa [List.range_eq_range'] using h

theorem selectRows_all (t : Table) (rows : List Row) (n : Nat) (h : ∀ r ∈ rows, r.length = n) :
    selectRows t ((List.range n).map Int.ofNat) none rows =
      .ok (rows.map (fun r => r.map Value.toString)) := by
  induction rows with
  | nil => rfl
  | cons r rest ih =>
    have hr := h r (List.mem_cons_self _ _)
    have hrest := ih (fun x hx => h x (List.mem_cons_of_mem _ hx))
    have hp := projectRow_all r
    rw [hr] at hp
    simp [selectRows, selected, hp, hrest, Except.map]

theorem select_star_all (db : Database) (name : String) (t : Table) (cols : List String)
    (ht : mapFind db.tables name = some t) (hlen : ∀ r ∈ t.rows, r.length = t.columns.length) :
    (execute db (.select ⟨true, cols, name, none⟩)).result =
      .ok (some ⟨t.columns.map (fun col => col.name),
        t.rows.map (fun r => r.map Value.toString)⟩) := by
  simp [execute, execSelect, ht, selectProjection, selectRows_all t t.rows _ hlen]

theorem create_round_trip_table (db : Database) (cs : CreateStmt)
    (hnew : mapFind db.tables cs.table = none) :
    mapFind (execute db (.create cs)).db.tables cs.table =
      some (createColumns cs.columns 0 ⟨cs.table, [], [], []⟩) ∧
    (createColumns cs.columns 0 ⟨cs.table, [], [], []⟩).columns =
      cs.columns.map (fun c => (⟨c.1, c.2⟩ : Column)) ∧
    (createColumns cs.columns 0 ⟨cs.table, [], [], []⟩).rows = [] := by
  refine ⟨?_, ?_, ?_⟩
  · simp [execute, execCreate, hnew, createColumns_name, mapFind_mapEmplace]
  · simp [createColumns_columns]
  · simp [createColumns_rows]

theorem inserts_accumulate (name : String) (ins : List InsertStmt) (db : Database) (t : Table)
    (ht : mapFind db.tables name = some t) (htab : ∀ i ∈ ins, i.table = name)
    (hok : allSucceed db (ins.map Statement.insert) = true) :
    mapFind (runAll db (ins.map Statement.insert)).tables name =
      some { t with rows := t.rows ++ ins.flatMap (fun i => i.rows.map (expectedRow t i.cols)) } ∧
    ∀ i ∈ ins, ∀ values ∈ i.rows, values.length = i.cols.length := by
  induction ins generalizing db t with
  | nil => exact ⟨by simpa [runAll] using ht, by simp⟩
  | cons i rest ih =>
    have hi : i.table = name := htab i (List.mem_cons_self _ _)
    simp only [List.map_cons, allSucceed, Bool.and_eq_true] at hok
    obtain ⟨hfirst, hrest⟩ := hok
    have hres : (execInsert db i).result = .ok none := by
      rcases execInsert_result_cases db i with h | ⟨e, h⟩
      · exact h
      · simp [execute, h] at hfirst
    obtain ⟨t2, ht2, hnn, hrows⟩ := execInsert_ok_inv db i hres
    rw [hi, ht] at ht2
    cases ht2
    have hexec := execInsert_accept db i t (by rw [hi]; exact ht) hnn hrows
    have hdb : (execute db (.insert i)).db =
        ⟨mapAssign db.tables name ⟨t.name, t.columns, t.colIndex,
          t.rows ++ i.rows.map (expectedRow t i.cols)⟩⟩ := by
      simp [execute, hexec, hi]
    have hfind : mapFind (execute db (.insert i)).db.tables name =
        some ⟨t.name, t.columns, t.colIndex, t.rows ++ i.rows.map (expectedRow t i.cols)⟩ := by
      rw [hdb]; exact mapFind_mapAssign_same _ _ _
    obtain ⟨hstep, hlens⟩ := ih (execute db (.insert i)).db _ hfind
      (fun x hx => htab x (List.mem_cons_of_mem _ hx)) hrest
    refine ⟨?_, ?_⟩
    · simp only [List.map_cons, runAll]
      rw [hstep]
      simp only [List.flatMap_cons, List.append_assoc]
      rfl
    · intro x hx values hvalues
      simp only [List.mem_cons] at hx
      rcases hx with rfl | hx
      · exact (hrows values hvalues).1
      · exact hlens x hx values hvalues

/-! ## Row well-formedness -/

theorem rowFits_length (cols : List Column) (r : Row) (h : RowFits cols r) :
    r.length = cols.length := (List.Forall₂.length_eq h).symm

theorem rowFits_getElem? (cols : List Column) (r : Row) (h : RowFits cols r) (p : Nat)
    (col : Column) (hcol : cols[p]? = some col) : ∃ v, r[p]? = some v ∧ v.kind = col.type :=
  forall₂_getElem? h p col hcol

theorem rowFits_set (cols : List Column) (r : Row) (h : RowFits cols r) (j : Nat) (col : Column)
    (v : Value) (hcol : cols[j]? = some col) (hv : v.kind = col.type) :
    RowFits cols (r.set j v) := by
  unfold RowFits at h ⊢
  induction h generalizing j with
  | nil => simp at hcol
  | cons hab _ ih =>
    cases j with
    | zero =>
      simp only [List.getElem?_cons_zero, Option.some.injEq] at hcol
      subst hcol
      exact List.Forall₂.cons hv (by assumption)
    | succ j =>
      simp only [List.getElem?_cons_succ] at hcol
      exact List.Forall₂.cons hab (ih j hcol)

theorem rowFits_defaults (cols : List Column) :
    RowFits cols (cols.map (fun col => defaultFor col.type)) := by
  unfold RowFits
  induction cols with
  | nil => exact List.Forall₂.nil
  | cons c rest ih =>
    refine List.Forall₂.cons ?_ ih
    obtain ⟨n, ty⟩ := c
    cases ty <;> rfl

theorem fillRow_fits (t : Table) (pos : List Int) (values : List Value) (r0 r : Row)
    (h0 : RowFits t.columns r0) (h : fillRow t pos values r0 = .ok r) : RowFits t.columns r := by
  induction pos generalizing values r0 with
  | nil =>
    simp only [fillRow, Except.ok.injEq] at h
    subst h; exact h0
  | cons j pos ih =>
    cases values with
    | nil =>
      simp only [fillRow, Except.ok.injEq] at h
      subst h; exact h0
    | cons v vs =>
      simp only [fillRow] at h
      split at h
      · cases h
      · rename_i col hcol
        split at h
        · cases h
        · rename_i htc
          have hk : v.kind = col.type := by
            cases htc2 : typeCheckAssign col v with
            | error e => rw [htc2] at htc; cases htc
            | ok u => exact (typeCheckAssign_ok_iff col v).1 (by cases u; exact htc2)
          exact ih vs _ (rowFits_set _ _ h0 _ col v hcol hk) h

theorem insertRows_fits (t : Table) (pos : List Int) (rows : List (List Value)) (acc : List Row)
    (hacc : ∀ r ∈ acc, RowFits t.columns r) :
    ∀ r ∈ (insertRows t pos rows acc).1, RowFits t.columns r := by
  induction rows generalizing acc with
  | nil => simpa [insertRows] using hacc
  | cons values rest ih =>
    simp only [insertRows]
    split
    · exact hacc
    · split
      · exact hacc
      · rename_i r hr
        apply ih
        intro x hx
        simp only [List.mem_append, List.mem_singleton] at hx
        rcases hx with hx | rfl
        · exact hacc x hx
        · exact fillRow_fits t pos values _ _ (rowFits_defaults t.columns) hr

theorem updateIndexes_ok_inv (t : Table) (l : List (String × Value)) (idx : List Int)
    (h : updateIndexes t l = .ok idx) :
    idx = l.map (fun a => t.indexOf a.1) ∧ ∀ a ∈ l, AssignmentAccepted t a := by
  by_cases hacc : ∀ a ∈ l, AssignmentAccepted t a
  · rw [updateIndexes_accept t l hacc] at h
    cases h
    exact ⟨rfl, hacc⟩
  · exfalso
    have : ∃ a ∈ l, ¬ AssignmentAccepted t a := by
      by_contra hall
      exact hacc (fun a ha => by_contra (fun hna => hall ⟨a, ha, hna⟩))
    obtain ⟨e, he⟩ := updateIndexes_reject t l this
    rw [he] at h
    cases h

theorem assignmentAccepted_column (t : Table) (a : String × Value) (h : AssignmentAccepted t a) :
    ¬ t.indexOf a.1 < 0 ∧
    ∃ col, t.columns[(t.indexOf a.1).toNat]? = some col ∧ a.2.kind = col.type := by
  unfold AssignmentAccepted at h
  cases hcol : t.column? a.1 with
  | none => simp [hcol] at h
  | some col =>
    simp only [hcol, Option.map_some', Option.some.injEq] at h
    obtain ⟨hneg, hget⟩ := column?_eq_some t a.1 col hcol
    exact ⟨hneg, col, hget, h.symm⟩

theorem foldl_set_fits (t : Table) (l : List (String × Value)) (r : Row)
    (hacc : ∀ a ∈ l, AssignmentAccepted t a) (hr : RowFits t.columns r) :
    RowFits t.columns (l.foldl (fun r a => r.set (t.indexOf a.1).toNat a.2) r) := by
  induction l generalizing r with
  | nil => exact hr
  | cons a rest ih =>
    obtain ⟨_, col, hcol, hk⟩ := assignmentAccepted_column t a (hacc a (List.mem_cons_self _ _))
    exact ih _ (fun x hx => hacc x (List.mem_cons_of_mem _ hx))
      (rowFits_set _ _ hr _ col a.2 hcol hk)

theorem assignRow_total (f : String → Int) (l : List (String × Value)) (r : Row)
    (h : ∀ a ∈ l, (f a.1).toNat < r.length) :
    assignRow (l.map (fun a => f a.1)) l r =
      .ok (l.foldl (fun r a => r.set (f a.1).toNat a.2) r) := by
  induction l generalizing r with
  | nil => rfl
  | cons a rest ih =>
    have h1 := h a (List.mem_cons_self _ _)
    simp only [List.map_cons, assignRow, h1, if_true, List.foldl_cons]
    apply ih
    intro x hx
    rw [List.length_set]
    exact h x (List.mem_cons_of_mem _ hx)

theorem assignRow_fitting (t : Table) (l : List (String × Value)) (r : Row)
    (hacc : ∀ a ∈ l, AssignmentAccepted t a) (hr : RowFits t.columns r) :
    ∃ r2, assignRow (l.map (fun a => t.indexOf a.1)) l r = .ok r2 ∧ RowFits t.columns r2 := by
  refine ⟨_, assignRow_total t.indexOf l r ?_, foldl_set_fits t l r hacc hr⟩
  intro a ha
  obtain ⟨_, col, hcol, _⟩ := assignmentAccepted_column t a (hacc a ha)
  rw [rowFits_length _ _ hr]
  rcases Nat.lt_or_ge (t.indexOf a.1).toNat t.columns.length with hlt | hge
  · exact hlt
  · rw [List.getElem?_eq_none hge] at hcol; cases hcol

theorem updateRows_fits (t : Table) (s : UpdateStmt) (rows : List Row)
    (hacc : ∀ a ∈ s.assignments, AssignmentAccepted t a)
    (hrows : ∀ r ∈ rows, RowFits t.columns r) :
    ∀ r ∈ (updateRows t (s.assignments.map (fun a => t.indexOf a.1)) s rows).1,
      RowFits t.columns r := by
  induction rows with
  | nil => simp [updateRows]
  | cons r rest ih =>
    have hr := hrows r (List.mem_cons_self _ _)
    have hrest := ih (fun x hx => hrows x (List.mem_cons_of_mem _ hx))
    obtain ⟨r2, hr2, hfit2⟩ := assignRow_fitting t s.assignments r hacc hr
    simp only [updateRows, hr2]
    cases hsel : selected t r s.where_ with
    | error e => simpa using hrows
    | ok b =>
      cases b with
      | false =>
        intro x hx
        simp only [List.mem_cons] at hx
        rcases hx with rfl | hx
        · exact hr
        · exact hrest x hx
      | true =>
        intro x hx
        simp only [List.mem_cons] at hx
        rcases hx with rfl | hx
        · exact hfit2
        · exact hrest x hx

theorem compareValues_same_kind (a b : Value) (h : a.kind = b.kind) :
    ∃ k, compareValues a b = .ok k := by
  cases a <;> cases b <;> simp [Value.kind] at h
  · simp only [compareValues]
    split
    · exact ⟨_, rfl⟩
    · split <;> exact ⟨_, rfl⟩
  · simp only [compareValues]
    split
    · exact ⟨_, rfl⟩
    · split <;> exact ⟨_, rfl⟩

theorem compareValues_other_kind (a b : Value) (h : a.kind ≠ b.kind) :
    compareValues a b = .error .typeMismatch := by
  cases a <;> cases b <;> simp [Value.kind] at h <;> rfl

/-- On the rows that fit a table with a consistent index, a WHERE condition either raises
the same error on every row or raises on none. -/
theorem rowMatches_uniform (t : Table) (hidx : IndexConsistent t) (c : Condition) :
    (∃ e, ∀ r, RowFits t.columns r → rowMatches t r c = .error e) ∨
    (∀ r, RowFits t.columns r → ∃ b, rowMatches t r c = .ok b) := by
  rcases hidx c.column with ⟨h1, _⟩ | ⟨j, hj, col, hcol, _⟩
  · left
    refine ⟨.unknownWhereColumn c.column, fun r _ => ?_⟩
    have hneg : t.indexOf c.column < 0 := by rw [h1]; decide
    simp [rowMatches, hneg]
  · have hcell : ∀ r, RowFits t.columns r → ∃ cell, r[j]? = some cell ∧ cell.kind = col.type :=
      fun r hr => rowFits_getElem? _ _ hr j col hcol
    cases hop : c.op with
    | EQ =>
      right; intro r hr
      obtain ⟨cell, h1, _⟩ := hcell r hr
      exact ⟨_, by rw [rowMatches_cell t r c j cell hj h1, hop]⟩
    | NE =>
      right; intro r hr
      obtain ⟨cell, h1, _⟩ := hcell r hr
      exact ⟨_, by rw [rowMatches_cell t r c j cell hj h1, hop]⟩
    | LT =>
      by_cases hk : col.type = c.literal.kind
      · right; intro r hr
        obtain ⟨cell, h1, h2⟩ := hcell r hr
        obtain ⟨k, hk2⟩ := compareValues_same_kind cell c.literal (h2.trans hk)
        exact ⟨_, by rw [rowMatches_cell t r c j cell hj h1, hop]; simp only [hk2, Except.map]; rfl⟩
      · left
        refine ⟨.typeMismatch, fun r hr => ?_⟩
        obtain ⟨cell, h1, h2⟩ := hcell r hr
        have := compareValues_other_kind cell c.literal (fun h => hk (h2.symm.trans h))
        rw [rowMatches_cell t r c j cell hj h1, hop]; simp only [this, Except.map]
    | LE =>
      by_cases hk : col.type = c.literal.kind
      · right; intro r hr
        obtain ⟨cell, h1, h2⟩ := hcell r hr
        obtain ⟨k, hk2⟩ := compareValues_same_kind cell c.literal (h2.trans hk)
        exact ⟨_, by rw [rowMatches_cell t r c j cell hj h1, hop]; simp only [hk2, Except.map]; rfl⟩
      · left
        refine ⟨.typeMismatch, fun r hr => ?_⟩
        obtain ⟨cell, h1, h2⟩ := hcell r hr
        have := compareValues_other_kind cell c.literal (fun h => hk (h2.symm.trans h))
        rw [rowMatches_cell t r c j cell hj h1, hop]; simp only [this, Except.map]
    | GT =>
      by_cases hk : col.type = c.literal.kind
      · right; intro r hr
        obtain ⟨cell, h1, h2⟩ := hcell r hr
        obtain ⟨k, hk2⟩ := compareValues_same_kind cell c.literal (h2.trans hk)
        exact ⟨_, by rw [rowMatches_cell t r c j cell hj h1, hop]; simp only [hk2, Except.map]; rfl⟩
      · left
        refine ⟨.typeMismatch, fun r hr => ?_⟩
        obtain ⟨cell, h1, h2⟩ := hcell r hr
        have := compareValues_other_kind cell c.literal (fun h => hk (h2.symm.trans h))
        rw [rowMatches_cell t r c j cell hj h1, hop]; simp only [this, Except.map]
    | GE =>
      by_cases hk : col.type = c.literal.kind
      · right; intro r hr
        obtain ⟨cell, h1, h2⟩ := hcell r hr
        obtain ⟨k, hk2⟩ := compareValues_same_kind cell c.literal (h2.trans hk)
        exact ⟨_, by rw [rowMatches_cell t r c j cell hj h1, hop]; simp only [hk2, Except.map]; rfl⟩
      · left
        refine ⟨.typeMismatch, fun r hr => ?_⟩
        obtain ⟨cell, h1, h2⟩ := hcell r hr
        have := compareValues_other_kind cell c.literal (fun h => hk (h2.symm.trans h))
        rw [rowMatches_cell t r c j cell hj h1, hop]; simp only [this, Except.map]

theorem removeIf_raise_first (pred : Row → Except Error Bool) (r : Row) (rest : List Row)
    (e : Error) (h : pred r = .error e) : removeIf pred (r :: rest) = (r :: rest, .error e) := by
  simp [removeIf, h]

/-- Outcome of DELETE's row removal on a well-formed table: either the condition raises on
no row and the rows are filtered, or it raises on the first row and the rows are kept. -/
theorem removeIf_wellFormed (t : Table) (hwf : TableWellFormed t) (c : Condition) :
    (removeIf (fun r => rowMatches t r c) t.rows =
        (t.rows.filter (fun r => !decide (rowMatches t r c = .ok true)), .ok ()) ∧
      ∀ r ∈ t.rows, ∃ b, rowMatches t r c = .ok b) ∨
    (∃ e, removeIf (fun r => rowMatches t r c) t.rows = (t.rows, .error e) ∧ t.rows ≠ [] ∧
      ∀ r ∈ t.rows, rowMatches t r c = .error e) := by
  rcases rowMatches_uniform t hwf.1 c with ⟨e, he⟩ | hok
  · cases hrows : t.rows with
    | nil => left; simp [removeIf]
    | cons r rest =>
      right
      have hr : rowMatches t r c = .error e := he r (hwf.2 r (by rw [hrows]; simp))
      refine ⟨e, removeIf_raise_first _ r rest e hr, by simp, ?_⟩
      intro x hx
      exact he x (hwf.2 x (by rw [hrows]; exact hx))
  · left
    have hall : ∀ r ∈ t.rows, ∃ b, rowMatches t r c = .ok b := fun r hr => hok r (hwf.2 r hr)
    exact ⟨removeIf_total _ t.rows hall, hall⟩

theorem selected_uniform (t : Table) (hidx : IndexConsistent t) (w : Option Condition) :
    (∃ e, ∀ r, RowFits t.columns r → selected t r w = .error e) ∨
    (∀ r, RowFits t.columns r → ∃ b, selected t r w = .ok b) := by
  cases w with
  | none => right; intro r _; exact ⟨true, rfl⟩
  | some c => exact rowMatches_uniform t hidx c

theorem updateRows_total (t : Table) (s : UpdateStmt) (rows : List Row)
    (hacc : ∀ a ∈ s.assignments, AssignmentAccepted t a)
    (hrows : ∀ r ∈ rows, RowFits t.columns r)
    (hsel : ∀ r, RowFits t.columns r → ∃ b, selected t r s.where_ = .ok b) :
    (updateRows t (s.assignments.map (fun a => t.indexOf a.1)) s rows).2 = .ok () := by
  induction rows with
  | nil => rfl
  | cons r rest ih =>
    have hr := hrows r (List.mem_cons_self _ _)
    have hrest := ih (fun x hx => hrows x (List.mem_cons_of_mem _ hx))
    obtain ⟨r2, hr2, _⟩ := assignRow_fitting t s.assignments r hacc hr
    obtain ⟨b, hb⟩ := hsel r hr
    cases b with
    | false => simpa [updateRows, hb] using hrest
    | true => simpa [updateRows, hb, hr2] using hrest

theorem updateRows_raise_first (t : Table) (idx : List Int) (s : UpdateStmt) (r : Row)
    (rest : List Row) (e : Error) (h : selected t r s.where_ = .error e) :
    updateRows t idx s (r :: rest) = (r :: rest, .error e) := by
  simp [updateRows, h]

theorem tableWellFormed_rows (t : Table) (rows : List Row) (h : TableWellFormed t)
    (hrows : ∀ r ∈ rows, RowFits t.columns r) : TableWellFormed { t with rows := rows } :=
  ⟨h.1, hrows⟩

theorem wellFormedDb_assign (db : Database) (name : String) (t : Table)
    (hdb : WellFormedDb db) (ht : TableWellFormed t) :
    WellFormedDb { tables := mapAssign db.tables name t } := by
  intro n u hu
  by_cases hn : name = n
  · subst hn
    rw [mapFind_mapAssign_same] at hu
    cases hu; exact ht
  · rw [mapFind_mapAssign_other _ _ _ _ hn] at hu
    exact hdb n u hu

theorem execute_wellFormed (db : Database) (st : Statement) (hdb : WellFormedDb db) :
    WellFormedDb (execute db st).db := by
  cases st with
  | create s =>
    simp only [execute, execCreate]
    split
    · exact hdb
    · rename_i hnone
      have hnone2 := optionIsSome_false _ hnone
      intro n u hu
      simp only [createColumns_name] at hu
      rw [mapFind_mapEmplace _ _ _ _ hnone2] at hu
      split at hu
      · cases hu
        refine ⟨createColumns_consistent s.columns _ (indexConsistent_blank s.table), ?_⟩
        intro r hr
        rw [createColumns_rows] at hr
        cases hr
      · exact hdb n u hu
  | insert s =>
    simp only [execute, execInsert]
    split
    · exact hdb
    · rename_i t ht
      split
      · exact hdb
      · rename_i pos _
        exact wellFormedDb_assign db _ _ hdb
          (tableWellFormed_rows t _ (hdb _ t ht) (insertRows_fits t pos s.rows t.rows (hdb _ t ht).2))
  | delete s =>
    simp only [execute, execDelete]
    split
    · exact hdb
    · rename_i t ht
      split
      · exact wellFormedDb_assign db _ _ hdb (tableWellFormed_rows t _ (hdb _ t ht) (by simp))
      · rename_i c _
        apply wellFormedDb_assign db _ _ hdb
        apply tableWellFormed_rows t _ (hdb _ t ht)
        rcases removeIf_wellFormed t (hdb _ t ht) c with ⟨h, _⟩ | ⟨e, h, _⟩
        · rw [h]
          intro r hr
          exact (hdb _ t ht).2 r (List.mem_filter.1 hr).1
        · rw [h]
          exact (hdb _ t ht).2
  | update s =>
    simp only [execute, execUpdate]
    split
    · exact hdb
    · rename_i t ht
      split
      · exact hdb
      · rename_i idx hidx
        obtain ⟨hmap, hacc⟩ := updateIndexes_ok_inv t s.assignments idx hidx
        subst hmap
        exact wellFormedDb_assign db _ _ hdb
          (tableWellFormed_rows t _ (hdb _ t ht) (updateRows_fits t s t.rows hacc (hdb _ t ht).2))
  | select s =>
    rw [show (execute db (.select s)) = execSelect db s from rfl, execSelect_db]
    exact hdb

theorem runAll_wellFormed (stmts : List Statement) (db : Database) (hdb : WellFormedDb db) :
    WellFormedDb (runAll db stmts) := by
  induction stmts generalizing db with
  | nil => exact hdb
  | cons st rest ih => exact ih _ (execute_wellFormed db st hdb)

theorem reachable_wellFormed (db : Database) (h : Reachable db) : WellFormedDb db := by
  obtain ⟨stmts, rfl⟩ := h
  apply runAll_wellFormed
  intro n t ht
  simp [emptyDb, mapFind] at ht

/-! ## C11, C12: errors of the WHERE clause -/

theorem rowMatches_unknown (t : Table) (r : Row) (c : Condition) (h : t.indexOf c.column < 0) :
    rowMatches t r c = .error (.unknownWhereColumn c.column) := by
  simp [rowMatches, h]

theorem rowMatches_mismatch (t : Table) (r : Row) (c : Condition) (col : Column)
    (hr : RowFits t.columns r) (hcol : t.column? c.column = some col)
    (hkind : col.type ≠ c.literal.kind)
    (hop : c.op = .LT ∨ c.op = .LE ∨ c.op = .GT ∨ c.op = .GE) :
    rowMatches t r c = .error .typeMismatch := by
  obtain ⟨hneg, hget⟩ := column?_eq_some t c.column col hcol
  obtain ⟨cell, hcell, hk⟩ := rowFits_getElem? _ _ hr _ col hget
  have hj : t.indexOf c.column = Int.ofNat (t.indexOf c.column).toNat :=
    (Int.toNat_of_nonneg (not_lt.mp hneg)).symm
  have hcmp := compareValues_other_kind cell c.literal (fun h => hkind (hk.symm.trans h))
  rw [rowMatches_cell t r c _ cell hj hcell]
  rcases hop with h | h | h | h <;> rw [h] <;> simp only [hcmp, Except.map]

/-- When the WHERE condition raises `e` on the first row, SELECT, DELETE and UPDATE raise. -/
theorem where_raises_on_first_row (db : Database) (name : String) (t : Table) (c : Condition)
    (r : Row) (rest : List Row) (e : Error)
    (ht : mapFind db.tables name = some t) (hrows : t.rows = r :: rest)
    (hr : rowMatches t r c = .error e) (selectAll : Bool) (cols : List String)
    (assignments : List (String × Value)) :
    (∃ e2, (execute db (.select ⟨selectAll, cols, name, some c⟩)).result = .error e2) ∧
    (∃ e2, (execute db (.delete ⟨name, some c⟩)).result = .error e2) ∧
    (∃ e2, (execute db (.update ⟨name, assignments, some c⟩)).result = .error e2) := by
  refine ⟨?_, ?_, ?_⟩
  · simp only [execute, execSelect, ht]
    cases hp : selectProjection t ⟨selectAll, cols, name, some c⟩ with
    | error e2 => exact ⟨e2, rfl⟩
    | ok ph => exact ⟨e, by simp [hrows, selectRows, selected, hr]⟩
  · exact ⟨e, by simp [execute, execDelete, ht, hrows, removeIf, hr, Except.map]⟩
  · simp only [execute, execUpdate, ht]
    cases hp : updateIndexes t assignments with
    | error e2 => exact ⟨e2, rfl⟩
    | ok idx => exact ⟨e, by simp [hrows, updateRows, selected, hr, Except.map]⟩

/-- C11. The code checks the WHERE column only while it evaluates the condition on a row.
On the freshly created table `t (id int, name str)`, which has no row, `SELECT`, `DELETE`
and `UPDATE` with `WHERE nope = 1` all succeed although `t` has no column `nope`. On a
reachable database whose table holds at least one row, the three statements raise when
the WHERE column is not a column of the table. -/
theorem unknown_where_column_unchecked_without_rows :
    (execute tableIdName (.select ⟨true, [], "t", some ⟨"nope", .EQ, .int 1⟩⟩)).result =
      .ok (some ⟨["id", "name"], []⟩) ∧
    (execute tableIdName (.delete ⟨"t", some ⟨"nope", .EQ, .int 1⟩⟩)).result = .ok none ∧
    (execute tableIdName (.update ⟨"t", [("id", .int 5)], some ⟨"nope", .EQ, .int 1⟩⟩)).result =
      .ok none ∧
    (∀ (db : Database) (name : String) (t : Table) (c : Condition) (selectAll : Bool)
      (cols : List String) (assignments : List (String × Value)),
      Reachable db → mapFind db.tables name = some t → t.rows ≠ [] →
      (¬ ∃ col ∈ t.columns, col.name = c.column) →
      (∃ e, (execute db (.select ⟨selectAll, cols, name, some c⟩)).result = .error e) ∧
      (∃ e, (execute db (.delete ⟨name, some c⟩)).result = .error e) ∧
      (∃ e, (execute db (.update ⟨name, assignments, some c⟩)).result = .error e)) := by
  refine ⟨by decide, by decide, by decide, ?_⟩
  intro db name t c selectAll cols assignments hdb ht hne hno
  have hidx := reachable_indexed db hdb
  have hneg := indexOf_neg_of_no_column t (hidx _ t ht) c.column hno
  cases hrows : t.rows with
  | nil => exact absurd hrows hne
  | cons r rest =>
    exact where_raises_on_first_row db name t c r rest _ ht hrows
      (rowMatches_unknown t r c hneg) selectAll cols assignments

/-- C12. The code compares kinds only while it evaluates the condition on a row. On the
freshly created table `t (id int, name str)`, which has no row, `SELECT`, `DELETE` and
`UPDATE` with `WHERE id < "x"` (and `WHERE name >= 3`) all succeed. On a reachable database
whose table holds at least one row, the three statements raise when the WHERE compares,
under `<`, `<=`, `>` or `>=`, a column with a literal whose kind is not the declared type
of the column. -/
theorem where_kind_mismatch_unchecked_without_rows :
    (execute tableIdName (.select ⟨true, [], "t", some ⟨"id", .LT, .str "x"⟩⟩)).result =
      .ok (some ⟨["id", "name"], []⟩) ∧
    (execute tableIdName (.delete ⟨"t", some ⟨"id", .LT, .str "x"⟩⟩)).result = .ok none ∧
    (execute tableIdName (.update ⟨"t", [("id", .int 5)], some ⟨"id", .LT, .str "x"⟩⟩)).result =
      .ok none ∧
    (execute tableIdName (.select ⟨true, [], "t", some ⟨"name", .GE, .int 3⟩⟩)).result =
      .ok (some ⟨["id", "name"], []⟩) ∧
    (∀ (db : Database) (name : String) (t : Table) (c : Condition) (col : Column)
      (selectAll : Bool) (cols : List String) (assignments : List (String × Value)),
      Reachable db → mapFind db.tables name = some t → t.rows ≠ [] →
      t.column? c.column = some col → col.type ≠ c.literal.kind →
      (c.op = .LT ∨ c.op = .LE ∨ c.op = .GT ∨ c.op = .GE) →
      (∃ e, (execute db (.select ⟨selectAll, cols, name, some c⟩)).result = .error e) ∧
      (∃ e, (execute db (.delete ⟨name, some c⟩)).result = .error e) ∧
      (∃ e, (execute db (.update ⟨name, assignments, some c⟩)).result = .error e)) := by
  refine ⟨by decide, by decide, by decide, by decide, ?_⟩
  intro db name t c col selectAll cols assignments hdb ht hne hcol hkind hop
  have hwf := reachable_wellFormed db hdb
  cases hrows : t.rows with
  | nil => exact absurd hrows hne
  | cons r rest =>
    have hr : RowFits t.columns r := (hwf _ t ht).2 r (by rw [hrows]; simp)
    exact where_raises_on_first_row db name t c r rest _ ht hrows
      (rowMatches_mismatch t r c col hr hcol hkind hop) selectAll cols assignments

/-! ## C13, C14: atomicity and the row invariant -/

theorem tableIdName_reachable : Reachable tableIdName :=
  ⟨[.create ⟨"t", [("id", .INT), ("name", .STR)]⟩], rfl⟩

theorem threeRows_reachable : Reachable threeRows :=
  ⟨[.create ⟨"t", [("id", .INT), ("name", .STR)]⟩,
    .insert ⟨"t", ["id", "name"],
      [[.int 1, .str "Alice"], [.int 2, .str "Bob"], [.int 3, .str "Cara"]]⟩], rfl⟩

/-- C13. On a database reachable from the empty one, a CREATE, DELETE, UPDATE or SELECT
whose execution raises leaves the database exactly as it was before the call. -/
theorem failed_statement_leaves_database (db : Database) (st : Statement) (e : Error)
    (hdb : Reachable db) (hst : ∀ s, st ≠ .insert s)
    (herr : (execute db st).result = .error e) :
    (execute db st).db = db := by
  have hwf := reachable_wellFormed db hdb
  cases st with
  | insert s => exact absurd rfl (hst s)
  | select s => exact execSelect_db db s
  | create s =>
    simp only [execute, execCreate] at herr ⊢
    split at herr
    · split
      · rfl
      · rename_i h1 h2; exact absurd h1 h2
    · cases herr
  | delete s =>
    simp only [execute, execDelete] at herr ⊢
    cases ht : mapFind db.tables s.table with
    | none => simp [ht]
    | some t =>
      simp only [ht] at herr ⊢
      cases hw : s.where_ with
      | none => simp [hw] at herr
      | some c =>
        simp only [hw] at herr ⊢
        rcases removeIf_wellFormed t (hwf _ t ht) c with ⟨h1, -⟩ | ⟨e2, h1, -, -⟩
        · rw [h1] at herr; simp [Except.map] at herr
        · rw [h1]
          show Database.mk (mapAssign db.tables s.table _) = db
          have : ({ t with rows := t.rows } : Table) = t := rfl
          rw [this, mapAssign_self _ _ _ ht]
  | update s =>
    simp only [execute, execUpdate] at herr ⊢
    cases ht : mapFind db.tables s.table with
    | none => simp [ht]
    | some t =>
      simp only [ht] at herr ⊢
      cases hi : updateIndexes t s.assignments with
      | error e2 => simp [hi]
      | ok idx =>
        simp only [hi] at herr ⊢
        obtain ⟨hidx, hacc⟩ := updateIndexes_ok_inv t s.assignments idx hi
        subst hidx
        rcases selected_uniform t (hwf _ t ht).1 s.where_ with ⟨e2, he⟩ | hok
        · cases hrows : t.rows with
          | nil => rw [hrows] at herr; simp [updateRows, Except.map] at herr
          | cons r rest =>
            have hr := he r ((hwf _ t ht).2 r (by rw [hrows]; simp))
            rw [updateRows_raise_first t _ s r rest e2 hr, ← hrows]
            show Database.mk (mapAssign db.tables s.table _) = db
            have : ({ t with rows := t.rows } : Table) = t := rfl
            rw [this, mapAssign_self _ _ _ ht]
        · rw [updateRows_total t s t.rows hacc (hwf _ t ht).2 hok] at herr
          simp [Except.map] at herr

/-- C13 instance: on the table with rows (1, Alice), (2, Bob), (3, Cara) the statement
`DELETE FROM t WHERE name < 5` raises and leaves all three rows. -/
theorem failed_statement_leaves_database_witness :
    (execute threeRows (.delete ⟨"t", some ⟨"name", .LT, .int 5⟩⟩)).result =
        .error .typeMismatch ∧
      (execute threeRows (.delete ⟨"t", some ⟨"name", .LT, .int 5⟩⟩)).db = threeRows :=
  ⟨by decide, failed_statement_leaves_database threeRows
    (.delete ⟨"t", some ⟨"name", .LT, .int 5⟩⟩) .typeMismatch
    threeRows_reachable (fun s h => by cases h) (by decide)⟩

/-- C14. In a database reachable from the empty one by any statements, failed ones
included, every row has as many cells as its table has columns and every cell has the
kind declared for the column at its position. -/
theorem rows_well_formed (db : Database) (hdb : Reachable db) (name : String) (t : Table)
    (ht : mapFind db.tables name = some t) (r : Row) (hr : r ∈ t.rows) :
    r.length = t.columns.length ∧
      ∀ (p : Nat) (col : Column) (v : Value),
        t.columns[p]? = some col → r[p]? = some v → v.kind = col.type := by
  have hfit := (reachable_wellFormed db hdb _ t ht).2 r hr
  refine ⟨rowFits_length _ _ hfit, ?_⟩
  intro p col v hc hv
  obtain ⟨cell, hcell, hk⟩ := rowFits_getElem? _ _ hfit p col hc
  rw [hcell] at hv
  cases hv
  exact hk


/-- C14 instance: after an INSERT that stored `(7, "ok")` and then raised on the row
`("bad", "x")`, the stored row has two cells, an int and a str. -/
theorem rows_well_formed_witness :
    (execute tableIdName (.insert ⟨"t", ["id", "name"],
        [[.int 7, .str "ok"], [.str "bad", .str "x"]]⟩)).result = .error (.expectedInt "id") ∧
    ([Value.int 7, .str "ok"].length = 2 ∧
      ∀ (p : Nat) (col : Column) (v : Value),
        [Column.mk "id" .INT, ⟨"name", .STR⟩][p]? = some col →
        [Value.int 7, .str "ok"][p]? = some v → v.kind = col.type) :=
  ⟨by decide, rows_well_formed
    (execute tableIdName (.insert ⟨"t", ["id", "name"],
        [[.int 7, .str "ok"], [.str "bad", .str "x"]]⟩)).db
    (reachable_execute _ _ tableIdName_reachable) "t"
    ⟨"t", [⟨"id", .INT⟩, ⟨"name", .STR⟩], [("id", 0), ("name", 1)], [[.int 7, .str "ok"]]⟩
    (by decide) [.int 7, .str "ok"] (by simp)⟩

/-! ## C16, C17: re-query and frame -/

/-- C16. Executing a SELECT leaves the database unchanged, so executing the same SELECT
again on the resulting database gives the same outcome: the same headers and row strings,
or the same error. -/
theorem select_idempotent (db : Database) (s : SelectStmt) :
    (execute db (.select s)).db = db ∧
    execute (execute db (.select s)).db (.select s) = execute db (.select s) := by
  have h : (execute db (.select s)).db = db := execSelect_db db s
  exact ⟨h, by rw [h]⟩

/-- A row statement on an existing table replaces its row list and nothing else; on a
missing table it changes nothing. -/
theorem rowStatement_db (db : Database) (st : Statement) (T : String)
    (hst : st.rowTable = some T) :
    (mapFind db.tables T = none → (execute db st).db = db) ∧
    (∀ t, mapFind db.tables T = some t →
      ∃ rows, (execute db st).db = ⟨mapAssign db.tables T { t with rows := rows }⟩) := by
  cases st with
  | create s => cases hst
  | select s => cases hst
  | insert s =>
    cases hst
    refine ⟨fun h => by simp [execute, execInsert, h], fun t ht => ?_⟩
    simp only [execute, execInsert, ht]
    cases hp : insertPositions t s.cols with
    | error e => exact ⟨t.rows, by simp [mapAssign_self _ _ _ ht]⟩
    | ok pos => exact ⟨_, rfl⟩
  | delete s =>
    cases hst
    refine ⟨fun h => by simp [execute, execDelete, h], fun t ht => ?_⟩
    simp only [execute, execDelete, ht]
    cases hw : s.where_ with
    | none => exact ⟨[], rfl⟩
    | some c => exact ⟨_, rfl⟩
  | update s =>
    cases hst
    refine ⟨fun h => by simp [execute, execUpdate, h], fun t ht => ?_⟩
    simp only [execute, execUpdate, ht]
    cases hp : updateIndexes t s.assignments with
    | error e => exact ⟨t.rows, by simp [mapAssign_self _ _ _ ht]⟩
    | ok idx => exact ⟨_, rfl⟩


/-- C17. Executing a statement keeps every existing table with the column list it had.
A row statement (INSERT, DELETE, UPDATE) on table `T` leaves every other table as it was,
changes nothing when `T` is missing, and otherwise the database after it is the database
before it with the row list of `T` replaced. -/
theorem frame_of_execute (db : Database) (st : Statement) :
    (∀ name t, mapFind db.tables name = some t →
      ∃ t2, mapFind (execute db st).db.tables name = some t2 ∧ t2.columns = t.columns) ∧
    (∀ T, st.rowTable = some T →
      (∀ name, name ≠ T →
        mapFind (execute db st).db.tables name = mapFind db.tables name) ∧
      (mapFind db.tables T = none → (execute db st).db = db) ∧
      (∀ t, mapFind db.tables T = some t →
        ∃ rows, (execute db st).db = ⟨mapAssign db.tables T { t with rows := rows }⟩)) := by
  have hrow : ∀ T, st.rowTable = some T →
      (∀ name, name ≠ T →
        mapFind (execute db st).db.tables name = mapFind db.tables name) ∧
      (mapFind db.tables T = none → (execute db st).db = db) ∧
      (∀ t, mapFind db.tables T = some t →
        ∃ rows, (execute db st).db = ⟨mapAssign db.tables T { t with rows := rows }⟩) := by
    intro T hT
    obtain ⟨h1, h2⟩ := rowStatement_db db st T hT
    refine ⟨fun name hne => ?_, h1, h2⟩
    cases hf : mapFind db.tables T with
    | none => rw [h1 hf]
    | some t =>
      obtain ⟨rows, hrows⟩ := h2 t hf
      rw [hrows]
      exact mapFind_mapAssign_other _ _ _ _ (Ne.symm hne)
  refine ⟨fun name t ht => ?_, hrow⟩
  cases hT : st.rowTable with
  | some T =>
    obtain ⟨h1, h2, h3⟩ := hrow T hT
    by_cases hn : name = T
    · subst hn
      obtain ⟨rows, hrows⟩ := h3 t ht
      exact ⟨{ t with rows := rows }, by rw [hrows]; exact mapFind_mapAssign_same _ _ _, rfl⟩
    · exact ⟨t, by rw [h1 name hn]; exact ht, rfl⟩
  | none =>
    cases st with
    | insert s => cases hT
    | delete s => cases hT
    | update s => cases hT
    | select s => exact ⟨t, by rw [show (execute db (.select s)).db = db from execSelect_db db s]; exact ht, rfl⟩
    | create s =>
      refine ⟨t, ?_, rfl⟩
      simp only [execute, execCreate]
      split
      · exact ht
      · rename_i hnone
        have hnone2 : mapFind db.tables s.table = none := by
          cases h : mapFind db.tables s.table with
          | none => rfl
          | some x => rw [h] at hnone; exact absurd rfl hnone
        show mapFind (mapEmplace db.tables _ _) name = some t
        rw [createColumns_name]
        rw [mapFind_mapEmplace _ _ _ _ hnone2]
        have hne : s.table ≠ name := by
          intro h; rw [h] at hnone2; rw [hnone2] at ht; cases ht
        simp [hne, ht]

/-! ## Tokenizer: character classes -/

theorem isdigit_iff (c : Char) : isdigit c = true ↔ 48 ≤ c.toNat ∧ c.toNat ≤ 57 := by
  simp only [isdigit, Char.isDigit, Bool.and_eq_true, decide_eq_true_eq, ge_iff_le]
  exact Iff.rfl

theorem isalpha_iff (c : Char) : isalpha c = true ↔
    (65 ≤ c.toNat ∧ c.toNat ≤ 90) ∨ (97 ≤ c.toNat ∧ c.toNat ≤ 122) := by
  simp only [isalpha, Char.isAlpha, Char.isUpper, Char.isLower, Bool.or_eq_true,
    Bool.and_eq_true, decide_eq_true_eq, ge_iff_le]
  exact Iff.rfl

theorem isalnum_iff (c : Char) : isalnum c = true ↔
    (65 ≤ c.toNat ∧ c.toNat ≤ 90) ∨ (97 ≤ c.toNat ∧ c.toNat ≤ 122) ∨
      (48 ≤ c.toNat ∧ c.toNat ≤ 57) := by
  simp only [isalnum, Char.isAlphanum, Char.isAlpha, Char.isDigit, Char.isUpper, Char.isLower,
    Bool.or_eq_true, Bool.and_eq_true, decide_eq_true_eq, ge_iff_le, or_assoc]
  exact Iff.rfl

theorem isspace_iff (c : Char) :
    isspace c = true ↔ c.toNat = 32 ∨ (9 ≤ c.toNat ∧ c.toNat ≤ 13) := by
  simp [isspace]

theorem char_eq_iff (c d : Char) : c = d ↔ c.toNat = d.toNat := by
  constructor
  · intro h; rw [h]
  · intro h
    apply Char.ext
    apply UInt32.ext
    exact h

theorem char_ne_of_toNat (c d : Char) (h : c.toNat ≠ d.toNat) : c ≠ d :=
  fun e => h (by rw [e])

theorem isspace_false_of (c : Char) (h : c.toNat ≠ 32 ∧ ¬ (9 ≤ c.toNat ∧ c.toNat ≤ 13)) :
    isspace c = false := by
  cases hs : isspace c with
  | false => rfl
  | true =>
    rcases (isspace_iff c).mp hs with h1 | h1
    · exact absurd h1 h.1
    · exact absurd h1 h.2

theorem isdigit_false_of (c : Char) (h : ¬ (48 ≤ c.toNat ∧ c.toNat ≤ 57)) :
    isdigit c = false := by
  cases hs : isdigit c with
  | false => rfl
  | true => exact absurd ((isdigit_iff c).mp hs) h

/-- The code of the first character of a word: a letter or `_`. -/
theorem wordStart_code (c : Char) (h : (isalpha c || decide (c = '_')) = true) :
    (65 ≤ c.toNat ∧ c.toNat ≤ 90) ∨ (97 ≤ c.toNat ∧ c.toNat ≤ 122) ∨ c.toNat = 95 := by
  simp only [Bool.or_eq_true, decide_eq_true_eq] at h
  rcases h with h | h
  · rcases (isalpha_iff c).mp h with h1 | h1
    · exact Or.inl h1
    · exact Or.inr (Or.inl h1)
  · exact Or.inr (Or.inr (by rw [h]; rfl))

/-! ## Tokenizer: one token -/

theorem next_blank (x : List Char) (l c : Nat) :
    Lexer.next ⟨' ' :: x, l, c⟩ =
      Lexer.next ⟨x, (advancePos ' ' l c).1, (advancePos ' ' l c).2⟩ := rfl

theorem next_end (l c : Nat) :
    Lexer.next ⟨[], l, c⟩ = .ok (⟨.End, "", l, c⟩, ⟨[], l, c⟩) := rfl

theorem readWhile_run (pred : Char → Bool) (cs rest : List Char)
    (hcs : ∀ d ∈ cs, pred d = true)
    (hrest : rest = [] ∨ ∃ d r, rest = d :: r ∧ pred d = false) :
    ∀ (line col : Nat) (out : List Char), ∃ l2 c2,
      readWhile pred (cs ++ rest) line col out = (out ++ cs, ⟨rest, l2, c2⟩) := by
  induction cs with
  | nil =>
    intro line col out
    rcases hrest with h | ⟨d, r, h, hd⟩
    · subst h; exact ⟨line, col, by simp [readWhile]⟩
    · subst h; exact ⟨line, col, by simp [readWhile, hd]⟩
  | cons c cs ih =>
    intro line col out
    have hc := hcs c (List.mem_cons_self _ _)
    obtain ⟨l2, c2, h⟩ := ih (fun d hd => hcs d (List.mem_cons_of_mem _ hd))
      (advancePos c line col).1 (advancePos c line col).2 (out ++ [c])
    exact ⟨l2, c2, by simp [readWhile, hc, h]⟩

theorem readStringLoop_run (tl tc : Nat) (cs rest : List Char)
    (hcs : ∀ d ∈ cs, d ≠ '"' ∧ d ≠ NUL) :
    ∀ (line col : Nat) (out : List Char), ∃ l2 c2,
      readStringLoop tl tc (cs ++ '"' :: rest) line col out =
        .ok (⟨.String, String.mk (out ++ cs), tl, tc⟩, ⟨rest, l2, c2⟩) := by
  induction cs with
  | nil =>
    intro line col out
    refine ⟨(advancePos '"' line col).1, (advancePos '"' line col).2, ?_⟩
    simp [readStringLoop, NUL]
  | cons c cs ih =>
    intro line col out
    have hc := hcs c (List.mem_cons_self _ _)
    obtain ⟨l2, c2, h⟩ := ih (fun d hd => hcs d (List.mem_cons_of_mem _ hd))
      (advancePos c line col).1 (advancePos c line col).2 (out ++ [c])
    exact ⟨l2, c2, by simp [readStringLoop, hc.1, hc.2, h]⟩

theorem lexes_word (w : String) (h : isIdentifier w = true) : Lexes (wordTok w) := by
  obtain ⟨data⟩ := w
  cases data with
  | nil => simp [isIdentifier] at h
  | cons c0 cs =>
    simp only [isIdentifier, Bool.and_eq_true, List.all_eq_true] at h
    obtain ⟨h0, hcs⟩ := h
    have hcode := wordStart_code c0 h0
    intro rest line col hrest
    have hs : isspace c0 = false := isspace_false_of c0 (by omega)
    have hd : isdigit c0 = false := isdigit_false_of c0 (by omega)
    have n0 : c0 ≠ NUL := char_ne_of_toNat _ _ (by show c0.toNat ≠ 0; omega)
    have n1 : c0 ≠ ',' := char_ne_of_toNat _ _ (by show c0.toNat ≠ 44; omega)
    have n2 : c0 ≠ '(' := char_ne_of_toNat _ _ (by show c0.toNat ≠ 40; omega)
    have n3 : c0 ≠ ')' := char_ne_of_toNat _ _ (by show c0.toNat ≠ 41; omega)
    have n4 : c0 ≠ ';' := char_ne_of_toNat _ _ (by show c0.toNat ≠ 59; omega)
    have n5 : c0 ≠ '*' := char_ne_of_toNat _ _ (by show c0.toNat ≠ 42; omega)
    have n6 : c0 ≠ '"' := char_ne_of_toNat _ _ (by show c0.toNat ≠ 34; omega)
    have n7 : c0 ≠ '=' := char_ne_of_toNat _ _ (by show c0.toNat ≠ 61; omega)
    have n8 : c0 ≠ '!' := char_ne_of_toNat _ _ (by show c0.toNat ≠ 33; omega)
    have n9 : c0 ≠ '<' := char_ne_of_toNat _ _ (by show c0.toNat ≠ 60; omega)
    have n10 : c0 ≠ '>' := char_ne_of_toNat _ _ (by show c0.toNat ≠ 62; omega)
    have n11 : c0 ≠ '-' := char_ne_of_toNat _ _ (by show c0.toNat ≠ 45; omega)
    have hsep : rest = [] ∨ ∃ d r, rest = d :: r ∧
        (fun c => isalnum c || decide (c = '_')) d = false := by
      rcases hrest with h | ⟨r, h⟩
      · exact Or.inl h
      · exact Or.inr ⟨' ', r, h, by decide⟩
    obtain ⟨l2, c2, hrun⟩ := readWhile_run (fun c => isalnum c || decide (c = '_')) cs rest hcs hsep
      (advancePos c0 line col).1 (advancePos c0 line col).2 [c0]
    refine ⟨(advancePos c0 line col).1, (advancePos c0 line col).2, l2, c2, ?_⟩
    have htext : tokenText (wordTok ⟨c0 :: cs⟩) = c0 :: cs := rfl
    rw [htext]
    show Lexer.next ⟨c0 :: (cs ++ rest), line, col⟩ = _
    simp only [Lexer.next, Lexer.skipSpaces, skipSpacesLoop, hs, Lexer.eof,
      Lexer.get, n0, n1, n2, n3, n4, n5, n6, n7, n8, n9, n10, n11, hd, h0, Lexer.readIdent, hrun,
      if_false, if_true, false_and, List.isEmpty_cons, Bool.false_eq_true, Bool.false_or,
      Bool.false_and, decide_False]
    simp only [wordTok, Except.ok.injEq, Prod.mk.injEq, Token.mk.injEq, true_and]
    simp


theorem toDigitsCore_ne_nil (fuel n : Nat) (ds : List Char) (h : 0 < fuel ∨ ds ≠ []) :
    Nat.toDigitsCore 10 fuel n ds ≠ [] := by
  induction fuel generalizing n ds with
  | zero =>
    rcases h with h | h
    · omega
    · simpa [Nat.toDigitsCore] using h
  | succ fuel ih =>
    simp only [Nat.toDigitsCore]
    split
    · simp
    · exact ih _ _ (Or.inr (by simp))

theorem repr_ne_nil (n : Nat) : (Nat.repr n).data ≠ [] := by
  simp only [Nat.repr, Nat.toDigits, List.asString]
  exact toDigitsCore_ne_nil (n + 1) n [] (Or.inl (Nat.succ_pos n))

theorem lexes_digits (d0 : Char) (ds : List Char) (minus : Bool)
    (h0 : isdigit d0 = true) (hds : ∀ d ∈ ds, isdigit d = true) :
    Lexes (.Number, String.mk ((if minus then ['-'] else []) ++ d0 :: ds)) := by
  intro rest line col hrest
  have hcode := (isdigit_iff d0).mp h0
  have hsep : rest = [] ∨ ∃ d r, rest = d :: r ∧ isdigit d = false := by
    rcases hrest with h | ⟨r, h⟩
    · exact Or.inl h
    · exact Or.inr ⟨' ', r, h, by decide⟩
  cases minus with
  | false =>
    have hs : isspace d0 = false := isspace_false_of d0 (by omega)
    have n0 : d0 ≠ NUL := char_ne_of_toNat _ _ (by show d0.toNat ≠ 0; omega)
    have n1 : d0 ≠ ',' := char_ne_of_toNat _ _ (by show d0.toNat ≠ 44; omega)
    have n2 : d0 ≠ '(' := char_ne_of_toNat _ _ (by show d0.toNat ≠ 40; omega)
    have n3 : d0 ≠ ')' := char_ne_of_toNat _ _ (by show d0.toNat ≠ 41; omega)
    have n4 : d0 ≠ ';' := char_ne_of_toNat _ _ (by show d0.toNat ≠ 59; omega)
    have n5 : d0 ≠ '*' := char_ne_of_toNat _ _ (by show d0.toNat ≠ 42; omega)
    have n6 : d0 ≠ '"' := char_ne_of_toNat _ _ (by show d0.toNat ≠ 34; omega)
    have n7 : d0 ≠ '=' := char_ne_of_toNat _ _ (by show d0.toNat ≠ 61; omega)
    have n8 : d0 ≠ '!' := char_ne_of_toNat _ _ (by show d0.toNat ≠ 33; omega)
    have n9 : d0 ≠ '<' := char_ne_of_toNat _ _ (by show d0.toNat ≠ 60; omega)
    have n10 : d0 ≠ '>' := char_ne_of_toNat _ _ (by show d0.toNat ≠ 62; omega)
    have n11 : d0 ≠ '-' := char_ne_of_toNat _ _ (by show d0.toNat ≠ 45; omega)
    obtain ⟨l2, c2, hrun⟩ := readWhile_run isdigit ds rest hds hsep
      (advancePos d0 line col).1 (advancePos d0 line col).2 [d0]
    refine ⟨(advancePos d0 line col).1, (advancePos d0 line col).2, l2, c2, ?_⟩
    show Lexer.next ⟨d0 :: (ds ++ rest), line, col⟩ = _
    simp only [Lexer.next, Lexer.skipSpaces, skipSpacesLoop, hs, Lexer.eof,
      Lexer.get, n0, n1, n2, n3, n4, n5, n6, n7, n8, n9, n10, n11, h0, Lexer.readNumber, hrun,
      if_false, if_true, false_and, List.isEmpty_cons, Bool.false_eq_true, Bool.true_or,
      Bool.false_and, decide_False]
    simp [n11]
  | true =>
    obtain ⟨l2, c2, hrun⟩ := readWhile_run isdigit (d0 :: ds) rest
      (by intro d hd; rcases List.mem_cons.mp hd with h | h; exact h ▸ h0; exact hds d h) hsep
      (advancePos '-' line col).1 (advancePos '-' line col).2 ['-']
    refine ⟨(advancePos '-' line col).1, (advancePos '-' line col).2, l2, c2, ?_⟩
    show Lexer.next ⟨'-' :: (d0 :: ds ++ rest), line, col⟩ = _
    have hsp : isspace '-' = false := by decide
    have hnul : '-' ≠ NUL := by decide
    simp only [Lexer.next, Lexer.skipSpaces, skipSpacesLoop, hsp, Lexer.eof, Lexer.get, hnul,
      if_false, List.isEmpty_cons, Bool.false_eq_true]
    have hrun2 : readWhile isdigit (d0 :: (ds ++ rest)) (advancePos '-' line col).1
        (advancePos '-' line col).2 ['-'] = ('-' :: d0 :: ds, ⟨rest, l2, c2⟩) := hrun
    simp [Lexer.readNumber, hrun2, Lexer.peek, h0]


theorem to_string_data (x : Int) :
    ∃ d0 ds, isdigit d0 = true ∧ (∀ d ∈ ds, isdigit d = true) ∧
      (Nat.repr x.natAbs).data = d0 :: ds ∧
      to_string x = String.mk ((if decide (x < 0) then ['-'] else []) ++ d0 :: ds) := by
  have hd := repr_digits x.natAbs
  have hne := repr_ne_nil x.natAbs
  cases hr : (Nat.repr x.natAbs).data with
  | nil => exact absurd hr hne
  | cons d0 ds =>
    rw [hr] at hd
    refine ⟨d0, ds, hd d0 (List.mem_cons_self _ _),
      fun d h => hd d (List.mem_cons_of_mem _ h), rfl, ?_⟩
    unfold to_string
    by_cases hx : x < 0
    · simp only [hx, if_true, decide_True]
      apply String.ext
      simp [hr]
    · simp only [hx, if_false, decide_False]
      apply String.ext
      simp [hr]

theorem lexes_number (x : Int) : Lexes (literalTok (.int x)) := by
  obtain ⟨d0, ds, h0, hds, -, hx⟩ := to_string_data x
  have h := lexes_digits d0 ds (decide (x < 0)) h0 hds
  rw [← hx] at h
  exact h

theorem lexes_string (s : String) (h : ∀ d ∈ s.data, d ≠ '"' ∧ d ≠ NUL) :
    Lexes (literalTok (.str s)) := by
  intro rest line col _
  obtain ⟨l2, c2, hrun⟩ := readStringLoop_run (advancePos '"' line col).1
    (advancePos '"' line col).2 s.data rest h (advancePos '"' line col).1
    (advancePos '"' line col).2 []
  refine ⟨(advancePos '"' line col).1, (advancePos '"' line col).2, l2, c2, ?_⟩
  have htext : tokenText (literalTok (.str s)) ++ rest = '"' :: (s.data ++ '"' :: rest) := by
    simp [tokenText, literalTok]
  rw [htext]
  have hsp : isspace '"' = false := by decide
  have hnul : '"' ≠ NUL := by decide
  simp only [Lexer.next, Lexer.skipSpaces, skipSpacesLoop, hsp, Lexer.eof, Lexer.get, hnul,
    if_false, List.isEmpty_cons, Bool.false_eq_true]
  simp [Lexer.readString, hrun, literalTok]

theorem lexes_comma : Lexes (.Comma, ",") := fun _ _ _ _ => ⟨_, _, _, _, rfl⟩

theorem lexes_lparen : Lexes (.LParen, "(") := fun _ _ _ _ => ⟨_, _, _, _, rfl⟩

theorem lexes_rparen : Lexes (.RParen, ")") := fun _ _ _ _ => ⟨_, _, _, _, rfl⟩

theorem lexes_semicolon : Lexes (.Semicolon, ";") := fun _ _ _ _ => ⟨_, _, _, _, rfl⟩

theorem lexes_star : Lexes (.Star, "*") := fun _ _ _ _ => ⟨_, _, _, _, rfl⟩

theorem lexes_equal : Lexes (.Equal, "=") := fun _ _ _ _ => ⟨_, _, _, _, rfl⟩

theorem lexes_op (op : CmpOp) : Lexes (opTok op) := by
  intro rest line col hrest
  cases op <;> rcases hrest with h | ⟨r, h⟩ <;> subst h <;> exact ⟨_, _, _, _, rfl⟩

/-! ## Parser: integer literals -/

theorem takeWhile_all (p : Char → Bool) (l : List Char) (h : ∀ d ∈ l, p d = true) :
    l.takeWhile p = l := by
  induction l with
  | nil => rfl
  | cons c l ih =>
    simp [List.takeWhile, h c (List.mem_cons_self _ _),
      ih (fun d hd => h d (List.mem_cons_of_mem _ hd))]

theorem stoll_to_string (x : Int) (hlo : -(2 : Int) ^ 63 ≤ x) (hhi : x ≤ (2 : Int) ^ 63 - 1) :
    stoll (to_string x) = .ok x := by
  obtain ⟨d0, ds, h0, hds, hrepr, hx⟩ := to_string_data x
  have hcode := (isdigit_iff d0).mp h0
  have hs : isspace d0 = false := isspace_false_of d0 (by omega)
  have hm : d0 ≠ '-' := char_ne_of_toNat _ _ (by show d0.toNat ≠ 45; omega)
  have hp : d0 ≠ '+' := char_ne_of_toNat _ _ (by show d0.toNat ≠ 43; omega)
  have hall : ∀ d ∈ d0 :: ds, isdigit d = true := by
    intro d hd
    rcases List.mem_cons.mp hd with h | h
    · exact h ▸ h0
    · exact hds d h
  have htake := takeWhile_all isdigit (d0 :: ds) hall
  have hval : decimalValue (String.mk (d0 :: ds)) = x.natAbs := by
    have : String.mk (d0 :: ds) = Nat.repr x.natAbs := by
      apply String.ext; exact hrepr.symm
    rw [this, decimalValue_repr]
  rw [hx]
  by_cases hneg : x < 0
  · have hsm : isspace '-' = false := by decide
    simp only [stoll, hneg, decide_True, if_true, List.singleton_append, List.dropWhile, hsm,
      List.head?, List.tail, true_or, htake, hval]
    have : -((x.natAbs : Nat) : Int) = x := by omega
    simp only [this, reduceCtorEq, if_false]
    rw [if_neg (by omega)]
  · simp only [stoll, hneg, decide_False, if_false, List.nil_append, List.dropWhile, hs,
      List.head?, Option.some.injEq, hm, hp, or_self, htake, hval]
    have : ((x.natAbs : Nat) : Int) = x := by omega
    simp only [this, reduceCtorEq, if_false]
    rw [if_neg (by omega)]

/-! ## Parser: states with known tokens before them -/

theorem spacedText_cons (t : TokType × String) (ts : List (TokType × String)) :
    spacedText (t :: ts) = ' ' :: (tokenText t ++ spacedText ts) := by
  simp [spacedText]

theorem spacedText_sep (ts : List (TokType × String)) :
    spacedText ts = [] ∨ ∃ r, spacedText ts = ' ' :: r := by
  cases ts with
  | nil => exact Or.inl rfl
  | cons t ts => exact Or.inr ⟨_, spacedText_cons t ts⟩

theorem stream_advance (p : Parser) (t : TokType × String) (ts : List (TokType × String))
    (h : Stream p (t :: ts)) : ∃ q, p.advance = .ok q ∧ Stream q ts := by
  obtain ⟨⟨s, l, c⟩, cur⟩ := p
  obtain ⟨hlex, -, -, hs⟩ := h
  simp only at hs
  subst hs
  have htail : ∀ u ∈ ts, Lexes u := fun u hu => hlex u (List.mem_cons_of_mem _ hu)
  cases ts with
  | nil =>
    exact ⟨⟨⟨[], l, c⟩, ⟨.End, "", l, c⟩⟩, rfl, htail, rfl, rfl⟩
  | cons u us =>
    obtain ⟨tl, tc, l2, c2, hn⟩ := hlex u (by simp) (spacedText us)
      (advancePos ' ' l c).1 (advancePos ' ' l c).2 (spacedText_sep us)
    refine ⟨⟨⟨spacedText us, l2, c2⟩, ⟨u.1, u.2, tl, tc⟩⟩, ?_, htail, rfl, rfl, rfl⟩
    simp only [Parser.advance, spacedText_cons, next_blank, hn]

theorem stream_accept (p : Parser) (t : TokType × String) (ts : List (TokType × String))
    (h : Stream p (t :: ts)) :
    ∃ q, p.accept t.1 = .ok (true, q) ∧ Stream q ts := by
  obtain ⟨q, hq, hs⟩ := stream_advance p t ts h
  exact ⟨q, by simp [Parser.accept, h.2.1, hq], hs⟩

theorem stream_accept_other (p : Parser) (toks : List (TokType × String)) (ty : TokType)
    (h : Stream p toks) (hty : ty ≠ .End) (hhead : ∀ t, toks.head? = some t → t.1 ≠ ty) :
    p.accept ty = .ok (false, p) := by
  cases toks with
  | nil => simp [Parser.accept, h.2.1, Ne.symm hty]
  | cons t ts => simp [Parser.accept, h.2.1, hhead t rfl]

theorem stream_expect (p : Parser) (t : TokType × String) (ts : List (TokType × String))
    (msg : String) (h : Stream p (t :: ts)) :
    ∃ q, p.expect t.1 msg = .ok q ∧ Stream q ts := by
  obtain ⟨q, hq, hs⟩ := stream_accept p t ts h
  exact ⟨q, by simp [Parser.expect, hq], hs⟩

theorem stream_acceptWord (p : Parser) (w : String) (ts : List (TokType × String))
    (h : Stream p (wordTok w :: ts)) :
    ∃ q, p.acceptWord w = .ok (true, q) ∧ Stream q ts := by
  obtain ⟨q, hq, hs⟩ := stream_advance p _ ts h
  exact ⟨q, by simp [Parser.acceptWord, h.2.1, h.2.2.1, hq, wordTok], hs⟩

theorem stream_acceptWord_other (p : Parser) (toks : List (TokType × String)) (w : String)
    (h : Stream p toks) (hhead : ∀ t, toks.head? = some t → t ≠ wordTok w) :
    p.acceptWord w = .ok (false, p) := by
  cases toks with
  | nil => simp [Parser.acceptWord, h.2.1]
  | cons t ts =>
    have hne := hhead t rfl
    have : ¬ (p.cur.type = .Ident ∧ p.cur.text = w) := by
      rintro ⟨h1, h2⟩
      apply hne
      rw [h.2.1] at h1
      rw [h.2.2.1] at h2
      exact Prod.ext h1 h2
    simp [Parser.acceptWord, this]

theorem stream_expectWord (p : Parser) (w msg : String) (ts : List (TokType × String))
    (h : Stream p (wordTok w :: ts)) :
    ∃ q, p.expectWord w msg = .ok q ∧ Stream q ts := by
  obtain ⟨q, hq, hs⟩ := stream_acceptWord p w ts h
  exact ⟨q, by simp [Parser.expectWord, hq], hs⟩

theorem stream_parseIdent (p : Parser) (w what : String) (ts : List (TokType × String))
    (h : Stream p (wordTok w :: ts)) (hw : isName w = true) :
    ∃ q, p.parseIdent what = .ok (w, q) ∧ Stream q ts := by
  obtain ⟨q, hq, hs⟩ := stream_advance p _ ts h
  simp only [isName, Bool.and_eq_true, Bool.not_eq_true'] at hw
  have h1 : p.cur.type = .Ident := h.2.1
  have h2 : p.cur.text = w := h.2.2.1
  exact ⟨q, by simp [Parser.parseIdent, h1, h2, hw.1.2, hw.2, hq], hs⟩

theorem stream_parseLiteral (p : Parser) (v : Value) (ts : List (TokType × String))
    (h : Stream p (literalTok v :: ts)) (hv : literalOk v = true) :
    ∃ q, p.parseLiteral = .ok (v, q) ∧ Stream q ts := by
  obtain ⟨q, hq, hs⟩ := stream_advance p _ ts h
  have h1 := h.2.1
  have h2 := h.2.2.1
  cases v with
  | int x =>
    simp only [literalOk, decide_eq_true_eq] at hv
    simp only [literalTok] at h1 h2
    exact ⟨q, by simp [Parser.parseLiteral, h1, h2, stoll_to_string x hv.1 hv.2, hq], hs⟩
  | str s =>
    simp only [literalTok] at h1 h2
    exact ⟨q, by simp [Parser.parseLiteral, h1, h2, hq], hs⟩

theorem stream_parseCondition (p : Parser) (c : Condition) (rest : List (TokType × String))
    (h : Stream p (conditionToks c ++ rest)) (hc : conditionOk c = true) :
    ∃ q, p.parseCondition = .ok (c, q) ∧ Stream q rest := by
  simp only [conditionOk, Bool.and_eq_true] at hc
  obtain ⟨p1, h1, s1⟩ := stream_parseIdent p c.column "WHERE column" _ h hc.1
  replace s1 : Stream p1 (opTok c.op :: literalTok c.literal :: rest) := s1
  obtain ⟨p2, h2, s2⟩ := stream_accept p1 _ _ s1
  obtain ⟨q, h3, s3⟩ := stream_parseLiteral p2 c.literal rest s2 hc.2
  refine ⟨q, ?_, s3⟩
  have hmiss : ∀ ty, ty ≠ .End → (opTok c.op).1 ≠ ty → p1.accept ty = .ok (false, p1) :=
    fun ty hty hne => stream_accept_other p1 _ ty s1 hty (by
      intro t ht; cases ht; exact hne)
  obtain ⟨column, op, literal⟩ := c
  cases op <;> simp only [opTok] at h2 hmiss <;>
    simp [Parser.parseCondition, bind, Except.bind, h1, h2, h3, pure, Except.pure,
      hmiss .Equal, hmiss .NotEqual, hmiss .LessEq, hmiss .GreaterEq, hmiss .Less]

theorem stream_parseWhere (p : Parser) (w : Option Condition) (rest : List (TokType × String))
    (h : Stream p (whereToks w ++ rest)) (hw : whereOk w = true)
    (hrest : ∀ t, rest.head? = some t → t ≠ wordTok "WHERE") :
    ∃ q, p.parseWhere = .ok (w, q) ∧ Stream q rest := by
  cases w with
  | none =>
    have := stream_acceptWord_other p rest "WHERE" h hrest
    exact ⟨p, by simp [Parser.parseWhere, bind, Except.bind, this, pure, Except.pure], h⟩
  | some c =>
    obtain ⟨p1, h1, s1⟩ := stream_acceptWord p "WHERE" _ h
    obtain ⟨q, h2, s2⟩ := stream_parseCondition p1 c rest s1 hw
    exact ⟨q, by simp [Parser.parseWhere, bind, Except.bind, h1, h2, pure, Except.pure], s2⟩

theorem stream_length (p : Parser) (toks : List (TokType × String)) (h : Stream p toks) :
    toks.length ≤ p.lx.s.length + 1 := by
  cases toks with
  | nil => simp
  | cons t ts =>
    rw [h.2.2.2]
    have : ∀ us : List (TokType × String), us.length ≤ (spacedText us).length := by
      intro us
      induction us with
      | nil => simp
      | cons u us ih => rw [spacedText_cons]; simp; omega
    have := this ts
    simp
    omega

/-! ## Parser: comma-separated lists -/

theorem commaItems_length (items : List (List (TokType × String))) :
    items.length ≤ (items.flatMap (fun y => (TokType.Comma, ",") :: y)).length := by
  induction items with
  | nil => simp
  | cons x xs ih => simp only [List.flatMap_cons, List.length_append, List.length_cons]; omega

theorem stream_identLoop (names : List String) (hn : ∀ n ∈ names, isName n = true) :
    ∀ (bound : Nat) (p : Parser) (acc : List String) (rest : List (TokType × String)),
      names.length < bound →
      Stream p ((names.map (fun c => [wordTok c])).flatMap
        (fun y => (TokType.Comma, ",") :: y) ++ rest) →
      (∀ t, rest.head? = some t → t.1 ≠ .Comma) →
      ∃ q, Parser.identLoop bound p acc = .ok (acc ++ names, q) ∧ Stream q rest := by
  induction names with
  | nil =>
    intro bound p acc rest hb hs hrest
    cases bound with
    | zero => simp at hb
    | succ bound =>
      replace hs : Stream p rest := hs
      have := stream_accept_other p rest .Comma hs (by decide) hrest
      exact ⟨p, by simp [Parser.identLoop, bind, Except.bind, this, pure, Except.pure], hs⟩
  | cons n ns ih =>
    intro bound p acc rest hb hs hrest
    cases bound with
    | zero => simp at hb
    | succ bound =>
      replace hs : Stream p ((TokType.Comma, ",") :: wordTok n ::
          ((ns.map (fun c => [wordTok c])).flatMap (fun y => (TokType.Comma, ",") :: y) ++ rest)) := by
        simpa using hs
      obtain ⟨p1, h1, s1⟩ := stream_accept p _ _ hs
      obtain ⟨p2, h2, s2⟩ := stream_parseIdent p1 n "column" _ s1 (hn n (List.mem_cons_self _ _))
      obtain ⟨q, h3, s3⟩ := ih (fun m hm => hn m (List.mem_cons_of_mem _ hm)) bound p2
        (acc ++ [n]) rest (by simpa using hb) s2 hrest
      exact ⟨q, by simp [Parser.identLoop, bind, Except.bind, h1, h2, h3], s3⟩

theorem stream_literalLoop (vs : List Value) (hv : ∀ v ∈ vs, literalOk v = true) :
    ∀ (bound : Nat) (p : Parser) (acc : List Value) (rest : List (TokType × String)),
      vs.length < bound →
      Stream p ((vs.map (fun v => [literalTok v])).flatMap
        (fun y => (TokType.Comma, ",") :: y) ++ rest) →
      (∀ t, rest.head? = some t → t.1 ≠ .Comma) →
      ∃ q, Parser.literalLoop bound p acc = .ok (acc ++ vs, q) ∧ Stream q rest := by
  induction vs with
  | nil =>
    intro bound p acc rest hb hs hrest
    cases bound with
    | zero => simp at hb
    | succ bound =>
      replace hs : Stream p rest := hs
      have := stream_accept_other p rest .Comma hs (by decide) hrest
      exact ⟨p, by simp [Parser.literalLoop, bind, Except.bind, this, pure, Except.pure], hs⟩
  | cons v vs ih =>
    intro bound p acc rest hb hs hrest
    cases bound with
    | zero => simp at hb
    | succ bound =>
      replace hs : Stream p ((TokType.Comma, ",") :: literalTok v ::
          ((vs.map (fun v => [literalTok v])).flatMap (fun y => (TokType.Comma, ",") :: y) ++ rest)) := by
        simpa using hs
      obtain ⟨p1, h1, s1⟩ := stream_accept p _ _ hs
      obtain ⟨p2, h2, s2⟩ := stream_parseLiteral p1 v _ s1 (hv v (List.mem_cons_self _ _))
      obtain ⟨q, h3, s3⟩ := ih (fun m hm => hv m (List.mem_cons_of_mem _ hm)) bound p2
        (acc ++ [v]) rest (by simpa using hb) s2 hrest
      exact ⟨q, by simp [Parser.literalLoop, bind, Except.bind, h1, h2, h3], s3⟩

theorem stream_parseColumnDef (p : Parser) (c : String × ColType)
    (rest : List (TokType × String))
    (h : Stream p (wordTok c.1 :: wordTok (typeWord c.2) :: rest)) (hc : isName c.1 = true) :
    ∃ q, p.parseColumnDef = .ok (c, q) ∧ Stream q rest := by
  obtain ⟨p1, h1, s1⟩ := stream_parseIdent p c.1 "column" _ h hc
  obtain ⟨q, h2, s2⟩ := stream_advance p1 _ _ s1
  have ht : p1.cur.type = .Ident := s1.2.1
  have hx : p1.cur.text = typeWord c.2 := s1.2.2.1
  obtain ⟨name, ty⟩ := c
  refine ⟨q, ?_, s2⟩
  cases ty <;>
    simp [Parser.parseColumnDef, bind, Except.bind, h1, h2, ht, hx, typeWord, isTypeWord, pure,
      Except.pure]

theorem stream_createLoop (cols : List (String × ColType))
    (hn : ∀ c ∈ cols, isName c.1 = true) :
    ∀ (bound : Nat) (p : Parser) (acc : List (String × ColType))
      (rest : List (TokType × String)),
      cols.length < bound →
      Stream p ((cols.map (fun c => [wordTok c.1, wordTok (typeWord c.2)])).flatMap
        (fun y => (TokType.Comma, ",") :: y) ++ rest) →
      (∀ t, rest.head? = some t → t.1 ≠ .Comma) →
      ∃ q, Parser.createLoop bound p acc = .ok (acc ++ cols, q) ∧ Stream q rest := by
  induction cols with
  | nil =>
    intro bound p acc rest hb hs hrest
    cases bound with
    | zero => simp at hb
    | succ bound =>
      replace hs : Stream p rest := hs
      have := stream_accept_other p rest .Comma hs (by decide) hrest
      exact ⟨p, by simp [Parser.createLoop, bind, Except.bind, this, pure, Except.pure], hs⟩
  | cons c cs ih =>
    intro bound p acc rest hb hs hrest
    cases bound with
    | zero => simp at hb
    | succ bound =>
      replace hs : Stream p ((TokType.Comma, ",") :: wordTok c.1 :: wordTok (typeWord c.2) ::
          ((cs.map (fun c => [wordTok c.1, wordTok (typeWord c.2)])).flatMap
            (fun y => (TokType.Comma, ",") :: y) ++ rest)) := by
        simpa using hs
      obtain ⟨p1, h1, s1⟩ := stream_accept p _ _ hs
      obtain ⟨p2, h2, s2⟩ := stream_parseColumnDef p1 c _ s1 (hn c (List.mem_cons_self _ _))
      obtain ⟨q, h3, s3⟩ := ih (fun m hm => hn m (List.mem_cons_of_mem _ hm)) bound p2
        (acc ++ [c]) rest (by simpa using hb) s2 hrest
      exact ⟨q, by simp [Parser.createLoop, bind, Except.bind, h1, h2, h3], s3⟩

theorem stream_parseRow (p : Parser) (v : Value) (vs : List Value)
    (rest : List (TokType × String)) (hv : ∀ x ∈ v :: vs, literalOk x = true)
    (h : Stream p ((TokType.LParen, "(") :: literalTok v ::
      ((vs.map (fun v => [literalTok v])).flatMap (fun y => (TokType.Comma, ",") :: y) ++
        (TokType.RParen, ")") :: rest))) :
    ∃ q, p.parseRow = .ok (v :: vs, q) ∧ Stream q rest := by
  obtain ⟨p1, h1, s1⟩ := stream_expect p _ _ "Expected '(' before row" h
  obtain ⟨p2, h2, s2⟩ := stream_parseLiteral p1 v _ s1 (hv v (List.mem_cons_self _ _))
  have hlen := stream_length p2 _ s2
  have hitems := commaItems_length (vs.map (fun v => [literalTok v]))
  obtain ⟨p3, h3, s3⟩ := stream_literalLoop vs (fun x hx => hv x (List.mem_cons_of_mem _ hx))
    (p2.lx.s.length + 1) p2 [v] _ (by
      simp only [List.length_append, List.length_cons, List.length_map] at hlen hitems
      omega) s2 (by intro t ht; cases ht; decide)
  obtain ⟨q, h4, s4⟩ := stream_expect p3 _ _ "Expected ')'" s3
  exact ⟨q, by simp [Parser.parseRow, bind, Except.bind, h1, h2, h3, h4, pure, Except.pure], s4⟩

theorem stream_rowLoop (rs : List (List Value)) :
    ∀ (r : List Value) (bound : Nat) (p : Parser) (acc : List (List Value))
      (rest : List (TokType × String)),
      rs.length < bound →
      (∀ x ∈ r :: rs, x.isEmpty = false ∧ ∀ v ∈ x, literalOk v = true) →
      Stream p (commaSep ((r :: rs).map (fun r =>
        (TokType.LParen, "(") :: commaSep (r.map (fun v => [literalTok v])) ++
          [(TokType.RParen, ")")])) ++ rest) →
      (∀ t, rest.head? = some t → t.1 ≠ .Comma) →
      ∃ q, Parser.rowLoop bound p acc = .ok (acc ++ r :: rs, q) ∧ Stream q rest := by
  induction rs with
  | nil =>
    intro r bound p acc rest hb hok hs hrest
    cases bound with
    | zero => simp at hb
    | succ bound =>
      obtain ⟨hne, hv⟩ := hok r (List.mem_cons_self _ _)
      cases r with
      | nil => simp at hne
      | cons v vs =>
        replace hs : Stream p ((TokType.LParen, "(") :: literalTok v ::
            ((vs.map (fun v => [literalTok v])).flatMap (fun y => (TokType.Comma, ",") :: y) ++
              (TokType.RParen, ")") :: rest)) := by
          simpa [commaSep] using hs
        obtain ⟨p1, h1, s1⟩ := stream_parseRow p v vs rest hv hs
        have := stream_accept_other p1 rest .Comma s1 (by decide) hrest
        exact ⟨p1, by simp [Parser.rowLoop, bind, Except.bind, h1, this, pure, Except.pure], s1⟩
  | cons r2 rs ih =>
    intro r bound p acc rest hb hok hs hrest
    cases bound with
    | zero => simp at hb
    | succ bound =>
      obtain ⟨hne, hv⟩ := hok r (List.mem_cons_self _ _)
      cases r with
      | nil => simp at hne
      | cons v vs =>
        replace hs : Stream p ((TokType.LParen, "(") :: literalTok v ::
            ((vs.map (fun v => [literalTok v])).flatMap (fun y => (TokType.Comma, ",") :: y) ++
              (TokType.RParen, ")") :: (TokType.Comma, ",") ::
                (commaSep ((r2 :: rs).map (fun r =>
                  (TokType.LParen, "(") :: commaSep (r.map (fun v => [literalTok v])) ++
                    [(TokType.RParen, ")")])) ++ rest))) := by
          simpa [commaSep] using hs
        obtain ⟨p1, h1, s1⟩ := stream_parseRow p v vs _ hv hs
        obtain ⟨p2, h2, s2⟩ := stream_accept p1 _ _ s1
        obtain ⟨q, h3, s3⟩ := ih r2 bound p2 (acc ++ [v :: vs]) rest (by simpa using hb)
          (fun x hx => hok x (List.mem_cons_of_mem _ hx)) s2 hrest
        exact ⟨q, by simp [Parser.rowLoop, bind, Except.bind, h1, h2, h3], s3⟩

theorem stream_assignLoop (as : List (String × Value)) :
    ∀ (a : String × Value) (bound : Nat) (p : Parser) (acc : List (String × Value))
      (rest : List (TokType × String)),
      as.length < bound →
      (∀ x ∈ a :: as, isName x.1 = true ∧ literalOk x.2 = true) →
      Stream p (commaSep ((a :: as).map (fun a =>
        [wordTok a.1, (TokType.Equal, "="), literalTok a.2])) ++ rest) →
      (∀ t, rest.head? = some t → t.1 ≠ .Comma) →
      ∃ q, Parser.assignLoop bound p acc = .ok (acc ++ a :: as, q) ∧ Stream q rest := by
  induction as with
  | nil =>
    intro a bound p acc rest hb hok hs hrest
    cases bound with
    | zero => simp at hb
    | succ bound =>
      obtain ⟨hn, hv⟩ := hok a (List.mem_cons_self _ _)
      replace hs : Stream p (wordTok a.1 :: (TokType.Equal, "=") :: literalTok a.2 :: rest) := by
        simpa [commaSep] using hs
      obtain ⟨p1, h1, s1⟩ := stream_parseIdent p a.1 "column" _ hs hn
      obtain ⟨p2, h2, s2⟩ := stream_expect p1 _ _ "Expected '=' in SET" s1
      obtain ⟨p3, h3, s3⟩ := stream_parseLiteral p2 a.2 _ s2 hv
      have := stream_accept_other p3 rest .Comma s3 (by decide) hrest
      exact ⟨p3, by simp [Parser.assignLoop, bind, Except.bind, h1, h2, h3, this, pure,
        Except.pure], s3⟩
  | cons a2 as ih =>
    intro a bound p acc rest hb hok hs hrest
    cases bound with
    | zero => simp at hb
    | succ bound =>
      obtain ⟨hn, hv⟩ := hok a (List.mem_cons_self _ _)
      replace hs : Stream p (wordTok a.1 :: (TokType.Equal, "=") :: literalTok a.2 ::
          (TokType.Comma, ",") :: (commaSep ((a2 :: as).map (fun a =>
            [wordTok a.1, (TokType.Equal, "="), literalTok a.2])) ++ rest)) := by
        simpa [commaSep] using hs
      obtain ⟨p1, h1, s1⟩ := stream_parseIdent p a.1 "column" _ hs hn
      obtain ⟨p2, h2, s2⟩ := stream_expect p1 _ _ "Expected '=' in SET" s1
      obtain ⟨p3, h3, s3⟩ := stream_parseLiteral p2 a.2 _ s2 hv
      obtain ⟨p4, h4, s4⟩ := stream_accept p3 _ _ s3
      obtain ⟨q, h5, s5⟩ := ih a2 bound p4 (acc ++ [a]) rest (by simpa using hb)
        (fun x hx => hok x (List.mem_cons_of_mem _ hx)) s4 hrest
      exact ⟨q, by simp [Parser.assignLoop, bind, Except.bind, h1, h2, h3, h4, h5], s5⟩

/-! ## Parser: statements -/

theorem stream_parseCreate (p : Parser) (s : CreateStmt) (rest : List (TokType × String))
    (h : Stream p (statementToks (.create s) ++ rest))
    (hok : statementOk (.create s) = true) :
    ∃ q, p.parseCreate = .ok (s, q) ∧ Stream q rest := by
  obtain ⟨table, columns⟩ := s
  simp only [statementOk, Bool.and_eq_true, Bool.not_eq_true', List.all_eq_true] at hok
  obtain ⟨⟨ht, hne⟩, hcols⟩ := hok
  cases columns with
  | nil => simp at hne
  | cons c cs =>
    replace h : Stream p (wordTok "CREATE" :: wordTok "TABLE" :: wordTok table ::
        (TokType.LParen, "(") :: wordTok c.1 :: wordTok (typeWord c.2) ::
        ((cs.map (fun c => [wordTok c.1, wordTok (typeWord c.2)])).flatMap
          (fun y => (TokType.Comma, ",") :: y) ++
          (TokType.RParen, ")") :: rest)) := by
      simpa [statementToks, commaSep] using h
    obtain ⟨p1, h1, s1⟩ := stream_expectWord p "CREATE" "Expected CREATE" _ h
    obtain ⟨p2, h2, s2⟩ := stream_expectWord p1 "TABLE" "Expected TABLE" _ s1
    obtain ⟨p3, h3, s3⟩ := stream_parseIdent p2 table "table" _ s2 ht
    obtain ⟨p4, h4, s4⟩ := stream_expect p3 _ _ "Expected '('" s3
    obtain ⟨p5, h5, s5⟩ := stream_parseColumnDef p4 c _ s4 (hcols c (List.mem_cons_self _ _))
    have hlen := stream_length p5 _ s5
    have hitems := commaItems_length (cs.map (fun c => [wordTok c.1, wordTok (typeWord c.2)]))
    obtain ⟨p6, h6, s6⟩ := stream_createLoop cs
      (fun x hx => hcols x (List.mem_cons_of_mem _ hx)) (p5.lx.s.length + 1) p5 [c] _ (by
        simp only [List.length_append, List.length_cons, List.length_map] at hlen hitems
        omega) s5 (by intro t ht; cases ht; decide)
    obtain ⟨q, h7, s7⟩ := stream_expect p6 _ _ "Expected ')' after column list" s6
    exact ⟨q, by simp [Parser.parseCreate, bind, Except.bind, h1, h2, h3, h4, h5, h6, h7, pure,
      Except.pure], s7⟩

theorem stream_parseInsert (p : Parser) (s : InsertStmt) (rest : List (TokType × String))
    (h : Stream p (statementToks (.insert s) ++ rest))
    (hok : statementOk (.insert s) = true)
    (hrest : ∀ t, rest.head? = some t → t.1 ≠ .Comma ∧ t ≠ wordTok "WHERE") :
    ∃ q, p.parseInsert = .ok (s, q) ∧ Stream q rest := by
  obtain ⟨table, cols, rows⟩ := s
  simp only [statementOk, Bool.and_eq_true, Bool.not_eq_true', List.all_eq_true] at hok
  obtain ⟨⟨⟨⟨ht, hne⟩, hcols⟩, hrne⟩, hrows⟩ := hok
  cases cols with
  | nil => simp at hne
  | cons c cs =>
  cases rows with
  | nil => simp at hrne
  | cons r rs =>
    replace h : Stream p (wordTok "INSERT" :: wordTok "INTO" :: wordTok table ::
        (TokType.LParen, "(") :: wordTok c ::
        ((cs.map (fun c => [wordTok c])).flatMap (fun y => (TokType.Comma, ",") :: y) ++
          (TokType.RParen, ")") :: wordTok "VALUES" ::
          (commaSep ((r :: rs).map (fun r =>
            (TokType.LParen, "(") :: commaSep (r.map (fun v => [literalTok v])) ++
              [(TokType.RParen, ")")])) ++ rest))) := by
      simpa [statementToks, commaSep] using h
    obtain ⟨p1, h1, s1⟩ := stream_expectWord p "INSERT" "Expected INSERT" _ h
    obtain ⟨p2, h2, s2⟩ := stream_expectWord p1 "INTO" "Expected INTO" _ s1
    obtain ⟨p3, h3, s3⟩ := stream_parseIdent p2 table "table" _ s2 ht
    obtain ⟨p4, h4, s4⟩ := stream_expect p3 _ _ "Expected '(' after table" s3
    obtain ⟨p5, h5, s5⟩ := stream_parseIdent p4 c "column" _ s4 (hcols c (List.mem_cons_self _ _))
    have hlen := stream_length p5 _ s5
    have hitems := commaItems_length (cs.map (fun c => [wordTok c]))
    obtain ⟨p6, h6, s6⟩ := stream_identLoop cs
      (fun x hx => hcols x (List.mem_cons_of_mem _ hx)) (p5.lx.s.length + 1) p5 [c] _ (by
        simp only [List.length_append, List.length_cons, List.length_map] at hlen hitems
        omega) s5 (by intro t ht; cases ht; decide)
    obtain ⟨p7, h7, s7⟩ := stream_expect p6 _ _ "Expected ')'" s6
    obtain ⟨p8, h8, s8⟩ := stream_expectWord p7 "VALUES" "Expected VALUES" _ s7
    have hlen8 := stream_length p8 _ s8
    have hrowlen : rs.length + 1 ≤ (commaSep ((r :: rs).map (fun r =>
        (TokType.LParen, "(") :: commaSep (r.map (fun v => [literalTok v])) ++
          [(TokType.RParen, ")")]))).length := by
      have := commaItems_length (rs.map (fun r =>
        (TokType.LParen, "(") :: commaSep (r.map (fun v => [literalTok v])) ++
          [(TokType.RParen, ")")]))
      simp only [commaSep, List.map_cons, List.length_append, List.length_cons, List.length_map] at this ⊢
      omega
    obtain ⟨q, h9, s9⟩ := stream_rowLoop rs r (p8.lx.s.length + 1) p8 [] _ (by
        simp only [List.length_append, List.length_cons] at hlen8
        omega)
      (fun x hx => by
        have := hrows x hx
        simp only [Bool.and_eq_true, Bool.not_eq_true', List.all_eq_true] at this
        exact this) s8 (fun t ht => (hrest t ht).1)
    exact ⟨q, by simp [Parser.parseInsert, bind, Except.bind, h1, h2, h3, h4, h5, h6, h7, h8, h9,
      pure, Except.pure], s9⟩

theorem stream_parseDelete (p : Parser) (s : DeleteStmt) (rest : List (TokType × String))
    (h : Stream p (statementToks (.delete s) ++ rest))
    (hok : statementOk (.delete s) = true)
    (hrest : ∀ t, rest.head? = some t → t.1 ≠ .Comma ∧ t ≠ wordTok "WHERE") :
    ∃ q, p.parseDelete = .ok (s, q) ∧ Stream q rest := by
  obtain ⟨table, where_⟩ := s
  simp only [statementOk, Bool.and_eq_true] at hok
  replace h : Stream p (wordTok "DELETE" :: wordTok "FROM" :: wordTok table ::
      (whereToks where_ ++ rest)) := by
    simpa [statementToks] using h
  obtain ⟨p1, h1, s1⟩ := stream_expectWord p "DELETE" "Expected DELETE" _ h
  obtain ⟨p2, h2, s2⟩ := stream_expectWord p1 "FROM" "Expected FROM" _ s1
  obtain ⟨p3, h3, s3⟩ := stream_parseIdent p2 table "table" _ s2 hok.1
  obtain ⟨q, h4, s4⟩ := stream_parseWhere p3 where_ rest s3 hok.2 (fun t ht => (hrest t ht).2)
  exact ⟨q, by simp [Parser.parseDelete, bind, Except.bind, h1, h2, h3, h4, pure, Except.pure],
    s4⟩

theorem stream_parseUpdate (p : Parser) (s : UpdateStmt) (rest : List (TokType × String))
    (h : Stream p (statementToks (.update s) ++ rest))
    (hok : statementOk (.update s) = true)
    (hrest : ∀ t, rest.head? = some t → t.1 ≠ .Comma ∧ t ≠ wordTok "WHERE") :
    ∃ q, p.parseUpdate = .ok (s, q) ∧ Stream q rest := by
  obtain ⟨table, assignments, where_⟩ := s
  simp only [statementOk, Bool.and_eq_true, Bool.not_eq_true', List.all_eq_true] at hok
  obtain ⟨⟨⟨ht, hne⟩, has⟩, hw⟩ := hok
  cases assignments with
  | nil => simp at hne
  | cons a as =>
    replace h : Stream p (wordTok "UPDATE" :: wordTok table :: wordTok "SET" ::
        (commaSep ((a :: as).map (fun a =>
          [wordTok a.1, (TokType.Equal, "="), literalTok a.2])) ++
          (whereToks where_ ++ rest))) := by
      simpa [statementToks] using h
    obtain ⟨p1, h1, s1⟩ := stream_expectWord p "UPDATE" "Expected UPDATE" _ h
    obtain ⟨p2, h2, s2⟩ := stream_parseIdent p1 table "table" _ s1 ht
    obtain ⟨p3, h3, s3⟩ := stream_expectWord p2 "SET" "Expected SET" _ s2
    have hlen := stream_length p3 _ s3
    have hitems : as.length + 1 ≤ (commaSep ((a :: as).map (fun a =>
        [wordTok a.1, (TokType.Equal, "="), literalTok a.2]))).length := by
      have := commaItems_length (as.map (fun a =>
        [wordTok a.1, (TokType.Equal, "="), literalTok a.2]))
      simp only [commaSep, List.map_cons, List.length_append, List.length_cons, List.length_map] at this ⊢
      omega
    obtain ⟨p4, h4, s4⟩ := stream_assignLoop as a (p3.lx.s.length + 1) p3 [] _ (by
        simp only [List.length_append, List.length_cons] at hlen
        omega)
      (fun x hx => by simpa using has x hx) s3 (by
        intro t ht
        cases where_ with
        | none => exact (hrest t ht).1
        | some c => cases ht; decide)
    obtain ⟨q, h5, s5⟩ := stream_parseWhere p4 where_ rest s4 hw (fun t ht => (hrest t ht).2)
    exact ⟨q, by simp [Parser.parseUpdate, bind, Except.bind, h1, h2, h3, h4, h5, pure,
      Except.pure], s5⟩

theorem stream_parseSelect (p : Parser) (s : SelectStmt) (rest : List (TokType × String))
    (h : Stream p (statementToks (.select s) ++ rest))
    (hok : statementOk (.select s) = true)
    (hrest : ∀ t, rest.head? = some t → t.1 ≠ .Comma ∧ t ≠ wordTok "WHERE") :
    ∃ q, p.parseSelect = .ok (s, q) ∧ Stream q rest := by
  obtain ⟨selectAll, cols, table, where_⟩ := s
  simp only [statementOk, Bool.and_eq_true] at hok
  obtain ⟨⟨hcols, ht⟩, hw⟩ := hok
  cases selectAll with
  | true =>
    simp only [if_true, List.isEmpty_iff] at hcols
    subst hcols
    replace h : Stream p (wordTok "SELECT" :: (TokType.Star, "*") :: wordTok "FROM" ::
        wordTok table :: (whereToks where_ ++ rest)) := by
      simpa [statementToks] using h
    obtain ⟨p1, h1, s1⟩ := stream_expectWord p "SELECT" "Expected SELECT" _ h
    obtain ⟨p2, h2, s2⟩ := stream_accept p1 _ _ s1
    obtain ⟨p3, h3, s3⟩ := stream_expectWord p2 "FROM" "Expected FROM" _ s2
    obtain ⟨p4, h4, s4⟩ := stream_parseIdent p3 table "table" _ s3 ht
    obtain ⟨q, h5, s5⟩ := stream_parseWhere p4 where_ rest s4 hw (fun t ht => (hrest t ht).2)
    exact ⟨q, by simp [Parser.parseSelect, bind, Except.bind, h1, h2, h3, h4, h5, pure,
      Except.pure], s5⟩
  | false =>
    simp only [Bool.false_eq_true, if_false, Bool.and_eq_true, Bool.not_eq_true',
      List.all_eq_true] at hcols
    obtain ⟨hne, hnames⟩ := hcols
    cases cols with
    | nil => simp at hne
    | cons c cs =>
      replace h : Stream p (wordTok "SELECT" :: wordTok c ::
          ((cs.map (fun c => [wordTok c])).flatMap (fun y => (TokType.Comma, ",") :: y) ++
            wordTok "FROM" :: wordTok table ::
              (whereToks where_ ++ rest))) := by
        simpa [statementToks, commaSep] using h
      obtain ⟨p1, h1, s1⟩ := stream_expectWord p "SELECT" "Expected SELECT" _ h
      have h2 := stream_accept_other p1 _ .Star s1 (by decide)
        (by intro t ht; cases ht; simp [wordTok])
      obtain ⟨p3, h3, s3⟩ := stream_parseIdent p1 c "column" _ s1
        (hnames c (List.mem_cons_self _ _))
      have hlen := stream_length p3 _ s3
      have hitems := commaItems_length (cs.map (fun c => [wordTok c]))
      obtain ⟨p4, h4, s4⟩ := stream_identLoop cs
        (fun x hx => hnames x (List.mem_cons_of_mem _ hx)) (p3.lx.s.length + 1) p3 [c] _ (by
          simp only [List.length_append, List.length_cons, List.length_map] at hlen hitems
          omega) s3 (by intro t ht; cases ht; decide)
      obtain ⟨p5, h5, s5⟩ := stream_expectWord p4 "FROM" "Expected FROM" _ s4
      obtain ⟨p6, h6, s6⟩ := stream_parseIdent p5 table "table" _ s5 ht
      obtain ⟨q, h7, s7⟩ := stream_parseWhere p6 where_ rest s6 hw (fun t ht => (hrest t ht).2)
      exact ⟨q, by simp [Parser.parseSelect, bind, Except.bind, h1, h2, h3, h4, h5, h6, h7, pure,
        Except.pure], s7⟩

/-- The keyword a statement starts with. -/
theorem statementToks_head (st : Statement) :
    ∃ kw more, statementToks st = wordTok kw :: more ∧ isUpperKeyword kw = true ∧
      (kw = "CREATE" ↔ ∃ s, st = .create s) ∧ (kw = "INSERT" ↔ ∃ s, st = .insert s) ∧
      (kw = "DELETE" ↔ ∃ s, st = .delete s) ∧ (kw = "UPDATE" ↔ ∃ s, st = .update s) ∧
      (kw = "SELECT" ↔ ∃ s, st = .select s) := by
  cases st with
  | create s => exact ⟨"CREATE", _, rfl, by decide, by simp, by simp, by simp, by simp, by simp⟩
  | insert s => exact ⟨"INSERT", _, rfl, by decide, by simp, by simp, by simp, by simp, by simp⟩
  | delete s => exact ⟨"DELETE", _, rfl, by decide, by simp, by simp, by simp, by simp, by simp⟩
  | update s => exact ⟨"UPDATE", _, rfl, by decide, by simp, by simp, by simp, by simp, by simp⟩
  | select s => exact ⟨"SELECT", _, rfl, by decide, by simp, by simp, by simp, by simp, by simp⟩

theorem stream_parseStatement (p : Parser) (st : Statement) (rest : List (TokType × String))
    (h : Stream p (statementToks st ++ rest))
    (hok : statementOk st = true)
    (hrest : ∀ t, rest.head? = some t → t.1 ≠ .Comma ∧ t ≠ wordTok "WHERE") :
    ∃ q, p.parseStatement = .ok (st, q) ∧ Stream q rest := by
  have hcur : p.cur.type = .Ident ∧ ∃ kw, p.cur.text = kw ∧
      (statementToks st).head? = some (wordTok kw) := by
    obtain ⟨kw, more, hkw, -⟩ := statementToks_head st
    rw [hkw] at h
    exact ⟨h.2.1, kw, h.2.2.1, by rw [hkw]; rfl⟩
  obtain ⟨hty, kw, htext, hhead⟩ := hcur
  cases st with
  | create s =>
    obtain ⟨q, hq, hs⟩ := stream_parseCreate p s rest h hok
    cases hhead
    exact ⟨q, by simp [Parser.parseStatement, hty, htext, hq, Except.map,
      show isUpperKeyword "CREATE" = true by decide], hs⟩
  | insert s =>
    obtain ⟨q, hq, hs⟩ := stream_parseInsert p s rest h hok hrest
    cases hhead
    exact ⟨q, by simp [Parser.parseStatement, hty, htext, hq, Except.map,
      show isUpperKeyword "INSERT" = true by decide], hs⟩
  | delete s =>
    obtain ⟨q, hq, hs⟩ := stream_parseDelete p s rest h hok hrest
    cases hhead
    exact ⟨q, by simp [Parser.parseStatement, hty, htext, hq, Except.map,
      show isUpperKeyword "DELETE" = true by decide], hs⟩
  | update s =>
    obtain ⟨q, hq, hs⟩ := stream_parseUpdate p s rest h hok hrest
    cases hhead
    exact ⟨q, by simp [Parser.parseStatement, hty, htext, hq, Except.map,
      show isUpperKeyword "UPDATE" = true by decide], hs⟩
  | select s =>
    obtain ⟨q, hq, hs⟩ := stream_parseSelect p s rest h hok hrest
    cases hhead
    exact ⟨q, by simp [Parser.parseStatement, hty, htext, hq, Except.map,
      show isUpperKeyword "SELECT" = true by decide], hs⟩

theorem programToks_cons (st : Statement) (ts : List Statement) :
    programToks (st :: ts) = statementToks st ++ (TokType.Semicolon, ";") :: programToks ts := by
  simp [programToks]

theorem stream_parseAllLoop (ts : List Statement) (hok : ∀ st ∈ ts, statementOk st = true) :
    ∀ (bound : Nat) (p : Parser) (out : List Statement),
      ts.length < bound → Stream p (programToks ts) →
      Parser.parseAllLoop bound p out = .ok (out ++ ts) := by
  induction ts with
  | nil =>
    intro bound p out hb hs
    cases bound with
    | zero => simp at hb
    | succ bound =>
      have : p.cur.type = .End := hs.2.1
      simp [Parser.parseAllLoop, this]
  | cons st ts ih =>
    intro bound p out hb hs
    cases bound with
    | zero => simp at hb
    | succ bound =>
      rw [programToks_cons] at hs
      have hne : p.cur.type ≠ .End := by
        obtain ⟨kw, more, hkw, -⟩ := statementToks_head st
        rw [hkw] at hs
        rw [show p.cur.type = .Ident from hs.2.1]
        decide
      obtain ⟨p1, h1, s1⟩ := stream_parseStatement p st _ hs (hok st (List.mem_cons_self _ _))
        (by intro t ht; cases ht; exact ⟨by decide, by decide⟩)
      obtain ⟨p2, h2, s2⟩ := stream_expect p1 _ _ "Expected ';' after statement" s1
      have h3 := ih (fun x hx => hok x (List.mem_cons_of_mem _ hx)) bound p2 (out ++ [st])
        (by simpa using hb) s2
      simp [Parser.parseAllLoop, hne, bind, Except.bind, h1, h2, h3]

/-! ## The tokens of a written statement -/

theorem mem_commaSep (xs : List (List (TokType × String))) (t : TokType × String)
    (h : t ∈ commaSep xs) : t = (TokType.Comma, ",") ∨ ∃ x ∈ xs, t ∈ x := by
  cases xs with
  | nil => simp [commaSep] at h
  | cons x rest =>
    simp only [commaSep, List.mem_append, List.mem_flatMap, List.mem_cons] at h
    rcases h with h | ⟨y, hy, h | h⟩
    · exact Or.inr ⟨x, List.mem_cons_self _ _, h⟩
    · exact Or.inl h
    · exact Or.inr ⟨y, List.mem_cons_of_mem _ hy, h⟩

theorem lexes_name (w : String) (h : isName w = true) : Lexes (wordTok w) := by
  simp only [isName, Bool.and_eq_true] at h
  exact lexes_word w h.1.1

theorem lexes_literal (v : Value) (h : literalOk v = true) : Lexes (literalTok v) := by
  cases v with
  | int x => exact lexes_number x
  | str s =>
    apply lexes_string
    intro d hd
    simp only [literalOk, List.all_eq_true, Bool.and_eq_true, decide_eq_true_eq] at h
    simpa using h d hd

theorem whereToks_lexes (w : Option Condition) (h : whereOk w = true) :
    ∀ t ∈ whereToks w, Lexes t := by
  cases w with
  | none => intro t ht; simp [whereToks] at ht
  | some c =>
    simp only [whereOk, conditionOk, Bool.and_eq_true] at h
    intro t ht
    simp only [whereToks, conditionToks, List.mem_cons, List.mem_singleton, List.mem_nil_iff,
      or_false] at ht
    rcases ht with rfl | rfl | rfl | rfl
    · exact lexes_word _ (by decide)
    · exact lexes_name _ h.1
    · exact lexes_op _
    · exact lexes_literal _ h.2

theorem statementToks_lexes (st : Statement) (h : statementOk st = true) :
    ∀ t ∈ statementToks st, Lexes t := by
  intro t ht
  cases st with
  | create s =>
    simp only [statementOk, Bool.and_eq_true, Bool.not_eq_true', List.all_eq_true] at h
    simp only [statementToks, List.mem_append, List.mem_cons, List.mem_singleton,
      List.mem_nil_iff, or_false] at ht
    rcases ht with ((rfl | rfl | rfl | rfl) | ht) | rfl
    · exact lexes_word _ (by decide)
    · exact lexes_word _ (by decide)
    · exact lexes_name _ h.1.1
    · exact lexes_lparen
    · rcases mem_commaSep _ _ ht with rfl | ⟨x, hx, htx⟩
      · exact lexes_comma
      · obtain ⟨c, hc, rfl⟩ := List.mem_map.mp hx
        simp only [List.mem_cons, List.mem_singleton, List.mem_nil_iff, or_false] at htx
        rcases htx with rfl | rfl
        · exact lexes_name _ (h.2 c hc)
        · exact lexes_word _ (by cases c.2 <;> decide)
    · exact lexes_rparen
  | insert s =>
    simp only [statementOk, Bool.and_eq_true, Bool.not_eq_true', List.all_eq_true] at h
    simp only [statementToks, List.mem_append, List.mem_cons, List.mem_singleton,
      List.mem_nil_iff, or_false] at ht
    rcases ht with (((rfl | rfl | rfl | rfl) | ht) | (rfl | rfl)) | ht
    · exact lexes_word _ (by decide)
    · exact lexes_word _ (by decide)
    · exact lexes_name _ h.1.1.1.1
    · exact lexes_lparen
    · rcases mem_commaSep _ _ ht with rfl | ⟨x, hx, htx⟩
      · exact lexes_comma
      · obtain ⟨c, hc, rfl⟩ := List.mem_map.mp hx
        simp only [List.mem_singleton] at htx
        subst htx
        exact lexes_name _ (h.1.1.2 c hc)
    · exact lexes_rparen
    · exact lexes_word _ (by decide)
    · rcases mem_commaSep _ _ ht with rfl | ⟨x, hx, htx⟩
      · exact lexes_comma
      · obtain ⟨r, hr, rfl⟩ := List.mem_map.mp hx
        simp only [List.mem_append, List.mem_cons, List.mem_singleton, List.mem_nil_iff,
          or_false] at htx
        rcases htx with (rfl | htx) | rfl
        · exact lexes_lparen
        · rcases mem_commaSep _ _ htx with rfl | ⟨y, hy, hty⟩
          · exact lexes_comma
          · obtain ⟨v, hv, rfl⟩ := List.mem_map.mp hy
            simp only [List.mem_singleton] at hty
            subst hty
            have := h.2 r hr
            simp only [Bool.and_eq_true, List.all_eq_true] at this
            exact lexes_literal _ (this.2 v hv)
        · exact lexes_rparen
  | delete s =>
    simp only [statementOk, Bool.and_eq_true] at h
    simp only [statementToks, List.mem_append, List.mem_cons, List.mem_singleton,
      List.mem_nil_iff, or_false] at ht
    rcases ht with (rfl | rfl | rfl) | ht
    · exact lexes_word _ (by decide)
    · exact lexes_word _ (by decide)
    · exact lexes_name _ h.1
    · exact whereToks_lexes _ h.2 t ht
  | update s =>
    simp only [statementOk, Bool.and_eq_true, Bool.not_eq_true', List.all_eq_true] at h
    simp only [statementToks, List.mem_append, List.mem_cons, List.mem_singleton,
      List.mem_nil_iff, or_false] at ht
    rcases ht with ((rfl | rfl | rfl) | ht) | ht
    · exact lexes_word _ (by decide)
    · exact lexes_name _ h.1.1.1
    · exact lexes_word _ (by decide)
    · rcases mem_commaSep _ _ ht with rfl | ⟨x, hx, htx⟩
      · exact lexes_comma
      · obtain ⟨a, ha, rfl⟩ := List.mem_map.mp hx
        simp only [List.mem_cons, List.mem_singleton, List.mem_nil_iff, or_false] at htx
        rcases htx with rfl | rfl | rfl
        · exact lexes_name _ (h.1.2 a ha).1
        · exact lexes_equal
        · exact lexes_literal _ (h.1.2 a ha).2
    · exact whereToks_lexes _ h.2 t ht
  | select s =>
    simp only [statementOk, Bool.and_eq_true] at h
    simp only [statementToks, List.mem_append, List.mem_cons, List.mem_singleton,
      List.mem_nil_iff, or_false] at ht
    rcases ht with ((rfl | ht) | rfl | rfl) | ht
    · exact lexes_word _ (by decide)
    · cases hall : s.selectAll with
      | true =>
        rw [hall] at ht
        simp only [if_true, List.mem_singleton] at ht
        subst ht
        exact lexes_star
      | false =>
        rw [hall] at ht h
        simp only [Bool.false_eq_true, if_false, Bool.and_eq_true, List.all_eq_true] at ht h
        rcases mem_commaSep _ _ ht with rfl | ⟨x, hx, htx⟩
        · exact lexes_comma
        · obtain ⟨c, hc, rfl⟩ := List.mem_map.mp hx
          simp only [List.mem_singleton] at htx
          subst htx
          exact lexes_name _ (h.1.1.2 c hc)
    · exact lexes_word _ (by decide)
    · exact lexes_name _ h.1.2
    · exact whereToks_lexes _ h.2 t ht

theorem programToks_lexes (ts : List Statement) (h : ∀ st ∈ ts, statementOk st = true) :
    ∀ t ∈ programToks ts, Lexes t := by
  intro t ht
  simp only [programToks, List.mem_flatMap, List.mem_append, List.mem_singleton] at ht
  obtain ⟨st, hst, ht | rfl⟩ := ht
  · exact statementToks_lexes st (h st hst) t ht
  · exact lexes_semicolon

theorem programToks_length (ts : List Statement) : 2 * ts.length ≤ (programToks ts).length := by
  induction ts with
  | nil => simp [programToks]
  | cons st ts ih =>
    rw [programToks_cons]
    obtain ⟨kw, more, hkw, -⟩ := statementToks_head st
    rw [hkw]
    simp only [List.length_append, List.length_cons]
    omega

/-- The parser built on the text of a token list has these tokens before it. -/
theorem create_stream (toks : List (TokType × String)) (h : ∀ t ∈ toks, Lexes t) :
    ∃ p, Parser.create (String.mk (tokensText toks)) = .ok p ∧ Stream p toks := by
  cases toks with
  | nil => exact ⟨⟨⟨[], 1, 1⟩, ⟨.End, "", 1, 1⟩⟩, rfl, h, rfl, rfl⟩
  | cons t ts =>
    obtain ⟨tl, tc, l2, c2, hn⟩ := h t (List.mem_cons_self _ _) (spacedText ts) 1 1
      (spacedText_sep ts)
    refine ⟨⟨⟨spacedText ts, l2, c2⟩, ⟨t.1, t.2, tl, tc⟩⟩, ?_, h, rfl, rfl, rfl⟩
    simp only [Parser.create, tokensText, hn]

/-! ## C15: column names of a table -/

/-- Where a table of the database after a statement comes from: it was there before with
the same columns, or the statement is the CREATE that made it. -/
theorem execute_table_origin (db : Database) (st : Statement) (name : String) (t2 : Table)
    (h : mapFind (execute db st).db.tables name = some t2) :
    (∃ t, mapFind db.tables name = some t ∧ t2.columns = t.columns) ∨
    (∃ s, st = .create s ∧ t2.columns = s.columns.map (fun c => (⟨c.1, c.2⟩ : Column))) := by
  cases hT : st.rowTable with
  | some T =>
    obtain ⟨h1, h2⟩ := rowStatement_db db st T hT
    cases hf : mapFind db.tables T with
    | none =>
      rw [h1 hf] at h
      exact Or.inl ⟨t2, h, rfl⟩
    | some t =>
      obtain ⟨rows, hrows⟩ := h2 t hf
      rw [hrows] at h
      by_cases hn : T = name
      · subst hn
        rw [show (Database.mk (mapAssign db.tables T { t with rows := rows })).tables =
          mapAssign db.tables T { t with rows := rows } from rfl, mapFind_mapAssign_same] at h
        cases h
        exact Or.inl ⟨t, hf, rfl⟩
      · rw [show (Database.mk (mapAssign db.tables T { t with rows := rows })).tables =
          mapAssign db.tables T { t with rows := rows } from rfl,
          mapFind_mapAssign_other _ _ _ _ hn] at h
        exact Or.inl ⟨t2, h, rfl⟩
  | none =>
    cases st with
    | insert s => cases hT
    | delete s => cases hT
    | update s => cases hT
    | select s =>
      rw [show (execute db (.select s)).db = db from execSelect_db db s] at h
      exact Or.inl ⟨t2, h, rfl⟩
    | create s =>
      simp only [execute, execCreate] at h
      split at h
      · exact Or.inl ⟨t2, h, rfl⟩
      · rename_i hnone
        have hnone2 := optionIsSome_false _ hnone
        simp only [createColumns_name] at h
        rw [mapFind_mapEmplace _ _ _ _ hnone2] at h
        split at h
        · cases h
          exact Or.inr ⟨s, rfl, by simp [createColumns_columns]⟩
        · exact Or.inl ⟨t2, h, rfl⟩

theorem runAll_distinctColumns (stmts : List Statement) :
    ∀ db : Database,
      (∀ name t, mapFind db.tables name = some t → t.distinctColumns) →
      (∀ s, Statement.create s ∈ stmts → (s.columns.map (fun c => c.1)).Nodup) →
      ∀ name t, mapFind (runAll db stmts).tables name = some t → t.distinctColumns := by
  induction stmts with
  | nil => intro db hdb _ name t ht; exact hdb name t ht
  | cons st rest ih =>
    intro db hdb hcreate
    apply ih (execute db st).db
    · intro name t2 ht2
      rcases execute_table_origin db st name t2 ht2 with ⟨t, ht, hcols⟩ | ⟨s, hs, hcols⟩
      · have := hdb name t ht
        unfold Table.distinctColumns at this ⊢
        rw [hcols]; exact this
      · have := hcreate s (by rw [hs]; exact List.mem_cons_self _ _)
        unfold Table.distinctColumns
        rw [hcols, List.map_map]
        exact this
    · intro s hs
      exact hcreate s (List.mem_cons_of_mem _ hs)

/-- C15, counterexample. The text `CREATE TABLE t (a int, a int);` parses, and executing
it on the empty database gives a table `t` whose two columns are both named `a`. -/
theorem repeated_column_name_accepted :
    (parseAll "CREATE TABLE t (a int, a int);").map
        (fun stmts => mapFind (runAll emptyDb stmts).tables "t") =
      .ok (some ⟨"t", [⟨"a", .INT⟩, ⟨"a", .INT⟩], [("a", 1)], []⟩) ∧
    ¬ (Table.mk "t" [⟨"a", .INT⟩, ⟨"a", .INT⟩] [("a", 1)] []).distinctColumns := by
  refine ⟨by decide, ?_⟩
  unfold Table.distinctColumns
  decide

/-! ## C18, C19, C20: statements in a text -/

/-- The loop of `parseAll` parses the written statements before it and goes on with the
tokens after them. -/
theorem stream_parseAllLoop_prefix (ts : List Statement)
    (hok : ∀ st ∈ ts, statementOk st = true) :
    ∀ (p : Parser) (rest : List (TokType × String)),
      Stream p (programToks ts ++ rest) →
      ∃ q, Stream q rest ∧ ∀ (bound : Nat) (out : List Statement),
        Parser.parseAllLoop (ts.length + bound) p out = Parser.parseAllLoop bound q (out ++ ts) := by
  induction ts with
  | nil =>
    intro p rest hs
    exact ⟨p, hs, by simp⟩
  | cons st ts ih =>
    intro p rest hs
    rw [programToks_cons] at hs
    replace hs : Stream p (statementToks st ++
        (TokType.Semicolon, ";") :: (programToks ts ++ rest)) := by simpa using hs
    have hne : p.cur.type ≠ .End := by
      obtain ⟨kw, more, hkw, -⟩ := statementToks_head st
      rw [hkw] at hs
      rw [show p.cur.type = .Ident from hs.2.1]
      decide
    obtain ⟨p1, h1, s1⟩ := stream_parseStatement p st _ hs (hok st (List.mem_cons_self _ _))
      (by intro t ht; cases ht; exact ⟨by decide, by decide⟩)
    obtain ⟨p2, h2, s2⟩ := stream_expect p1 _ _ "Expected ';' after statement" s1
    obtain ⟨q, hq, h3⟩ := ih (fun x hx => hok x (List.mem_cons_of_mem _ hx)) p2 rest s2
    refine ⟨q, hq, ?_⟩
    intro bound out
    rw [show (st :: ts).length + bound = (ts.length + bound) + 1 by simp; omega]
    simp [Parser.parseAllLoop, hne, bind, Except.bind, h1, h2, h3]

/-- At a word that is not a statement keyword the loop of `parseAll` raises. -/
theorem parseAllLoop_other_word (bound : Nat) (p : Parser) (out : List Statement)
    (hty : p.cur.type = .Ident) (hw : p.cur.text ∉ statementKeywords) :
    Parser.parseAllLoop (bound + 1) p out = .error (.runtime
      (if isUpperKeyword p.cur.text then "Unsupported statement"
        else "Expected a statement keyword (CREATE/INSERT/DELETE/SELECT/UPDATE)")) := by
  simp only [statementKeywords, List.mem_cons, List.mem_singleton, List.mem_nil_iff, or_false,
    not_or] at hw
  obtain ⟨h1, h2, h3, h4, h5⟩ := hw
  cases hk : isUpperKeyword p.cur.text <;>
    simp [Parser.parseAllLoop, Parser.parseStatement, hty, hk, h1, h2, h3, h4, h5, bind,
      Except.bind]

/-- When the token after a parsed statement is not `;` the loop of `parseAll` raises. -/
theorem parseAllLoop_no_semicolon (bound : Nat) (p p1 : Parser) (out : List Statement)
    (st : Statement) (hne : p.cur.type ≠ .End) (hst : p.parseStatement = .ok (st, p1))
    (hsemi : p1.cur.type ≠ .Semicolon) :
    Parser.parseAllLoop (bound + 1) p out =
      .error (.runtime "Expected ';' after statement") := by
  simp [Parser.parseAllLoop, hne, bind, Except.bind, hst, Parser.expect, Parser.accept, hsemi]

theorem skipSpacesLoop_spaces (cs : List Char) (h : ∀ c ∈ cs, isspace c = true) :
    ∀ line col : Nat, ∃ l2 c2, skipSpacesLoop cs line col = ⟨[], l2, c2⟩ := by
  induction cs with
  | nil => intro line col; exact ⟨line, col, rfl⟩
  | cons c cs ih =>
    intro line col
    obtain ⟨l2, c2, h2⟩ := ih (fun d hd => h d (List.mem_cons_of_mem _ hd))
      (advancePos c line col).1 (advancePos c line col).2
    exact ⟨l2, c2, by simp [skipSpacesLoop, h c (List.mem_cons_self _ _), h2]⟩

theorem parseAll_spaces (src : String) (h : ∀ c ∈ src.data, isspace c = true) :
    parseAll src = .ok [] := by
  obtain ⟨l2, c2, h2⟩ := skipSpacesLoop_spaces src.data h 1 1
  simp [parseAll, Parser.create, Lexer.next, Lexer.skipSpaces, h2, Lexer.eof,
    Parser.parseAllLoop]

/-- The parse of a text of written statements followed by further tokens is the loop of
`parseAll`, with iterations left, at these further tokens. -/
theorem parseAll_prefix (ts : List Statement) (hok : ∀ st ∈ ts, statementOk st = true)
    (t : TokType × String) (more : List (TokType × String))
    (hmore : ∀ u ∈ t :: more, Lexes u) :
    ∃ q bound, Stream q (t :: more) ∧
      parseAll (String.mk (tokensText (programToks ts ++ t :: more))) =
        Parser.parseAllLoop (bound + 1) q ts := by
  have hlex : ∀ u ∈ programToks ts ++ t :: more, Lexes u := by
    intro u hu
    rcases List.mem_append.mp hu with h | h
    · exact programToks_lexes ts hok u h
    · exact hmore u h
  obtain ⟨p, hp, hs⟩ := create_stream _ hlex
  have hlen := stream_length p _ hs
  have h2 := programToks_length ts
  simp only [List.length_append, List.length_cons] at hlen
  obtain ⟨q, hq, h3⟩ := stream_parseAllLoop_prefix ts hok p (t :: more) hs
  refine ⟨q, p.lx.s.length - ts.length, hq, ?_⟩
  simp only [parseAll, hp]
  rw [show p.lx.s.length + 1 = ts.length + (p.lx.s.length - ts.length + 1) by omega, h3]
  simp


/-- C18. Where a statement starts with a word that is not exactly `CREATE`, `INSERT`,
`DELETE`, `UPDATE` or `SELECT`, `parseAll` raises: so does its loop at every such word,
and so does `parseAll` on every text of written statements followed by such a word and
any further tokens. The lower-case, mixed-case and misspelt keywords of the examples are
rejected, and `SELECT * FROM t;` parses to one Select statement. -/
theorem keywords_are_case_sensitive :
    (∀ (bound : Nat) (p : Parser) (out : List Statement),
      p.cur.type = .Ident → p.cur.text ∉ statementKeywords →
      Parser.parseAllLoop (bound + 1) p out = .error (.runtime
        (if isUpperKeyword p.cur.text then "Unsupported statement"
          else "Expected a statement keyword (CREATE/INSERT/DELETE/SELECT/UPDATE)"))) ∧
    (∀ (ts : List Statement) (w : String) (more : List (TokType × String)),
      (∀ st ∈ ts, statementOk st = true) → isIdentifier w = true → w ∉ statementKeywords →
      (∀ t ∈ more, Lexes t) →
      parseAll (String.mk (tokensText (programToks ts ++ wordTok w :: more))) =
        .error (.runtime
          (if isUpperKeyword w then "Unsupported statement"
            else "Expected a statement keyword (CREATE/INSERT/DELETE/SELECT/UPDATE)"))) ∧
    parseAll "select * from t;" = .error (.runtime
      "Expected a statement keyword (CREATE/INSERT/DELETE/SELECT/UPDATE)") ∧
    parseAll "select * FROM t;" = .error (.runtime
      "Expected a statement keyword (CREATE/INSERT/DELETE/SELECT/UPDATE)") ∧
    parseAll "Select * FROM t;" = .error (.runtime
      "Expected a statement keyword (CREATE/INSERT/DELETE/SELECT/UPDATE)") ∧
    parseAll "SELCT * FROM t;" = .error (.runtime
      "Expected a statement keyword (CREATE/INSERT/DELETE/SELECT/UPDATE)") ∧
    parseAll "SELECT * FROM t; select * from t;" = .error (.runtime
      "Expected a statement keyword (CREATE/INSERT/DELETE/SELECT/UPDATE)") ∧
    parseAll "FROM t;" = .error (.runtime "Unsupported statement") ∧
    parseAll "SELECT * FROM t;" = .ok [.select ⟨true, [], "t", none⟩] := by
  refine ⟨parseAllLoop_other_word, ?_, by decide, by decide, by decide, by decide, by decide,
    by decide, by decide⟩
  intro ts w more hok hw hkw hmore
  obtain ⟨q, bound, hq, hparse⟩ := parseAll_prefix ts hok (wordTok w) more (by
    intro u hu
    rcases List.mem_cons.mp hu with h | h
    · rw [h]; exact lexes_word w hw
    · exact hmore u h)
  have hty : q.cur.type = .Ident := hq.2.1
  have htext : q.cur.text = w := hq.2.2.1
  rw [hparse, parseAllLoop_other_word bound q ts hty (by rw [htext]; exact hkw), htext]

/-- C19. On a text of spaces only, or an empty text, `parseAll` returns no statement.
When the token after a parsed statement is not `;`, the end of the text included,
`parseAll` raises: so does its loop after every statement, and so does `parseAll` on
every text of written statements followed by one more written statement and tokens
that neither start with `;` nor continue the statement. -/
theorem statements_end_with_semicolon :
    (∀ src : String, (∀ c ∈ src.data, isspace c = true) → parseAll src = .ok []) ∧
    (∀ (bound : Nat) (p p1 : Parser) (out : List Statement) (st : Statement),
      p.cur.type ≠ .End → p.parseStatement = .ok (st, p1) → p1.cur.type ≠ .Semicolon →
      Parser.parseAllLoop (bound + 1) p out =
        .error (.runtime "Expected ';' after statement")) ∧
    (∀ (ts : List Statement) (st : Statement) (more : List (TokType × String)),
      (∀ x ∈ ts, statementOk x = true) → statementOk st = true → (∀ t ∈ more, Lexes t) →
      (∀ t, more.head? = some t →
        t.1 ≠ .Semicolon ∧ t.1 ≠ .Comma ∧ t ≠ wordTok "WHERE") →
      parseAll (String.mk (tokensText (programToks ts ++ (statementToks st ++ more)))) =
        .error (.runtime "Expected ';' after statement")) ∧
    parseAll "" = .ok [] ∧
    parseAll "  \n\t \r\n" = .ok [] ∧
    parseAll "SELECT * FROM t" = .error (.runtime "Expected ';' after statement") ∧
    parseAll "CREATE TABLE t (a int); SELECT * FROM t" =
      .error (.runtime "Expected ';' after statement") ∧
    parseAll "DELETE FROM t SELECT * FROM t;" =
      .error (.runtime "Expected ';' after statement") := by
  refine ⟨parseAll_spaces, ?_, ?_, by decide, by decide, by decide, by decide, by decide⟩
  · intro bound p p1 out st hne hst hsemi
    exact parseAllLoop_no_semicolon bound p p1 out st hne hst hsemi
  · intro ts st more hok hst hmore hhead
    obtain ⟨kw, body, hkw, -⟩ := statementToks_head st
    have hlex : ∀ u ∈ wordTok kw :: (body ++ more), Lexes u := by
      intro u hu
      rw [← List.cons_append, ← hkw] at hu
      rcases List.mem_append.mp hu with h | h
      · exact statementToks_lexes st hst u h
      · exact hmore u h
    obtain ⟨q, bound, hq, hparse⟩ := parseAll_prefix ts hok (wordTok kw) (body ++ more) hlex
    have hq2 : Stream q (statementToks st ++ more) := by rw [hkw]; exact hq
    obtain ⟨p1, h1, s1⟩ := stream_parseStatement q st more hq2 hst
      (fun t ht => ⟨(hhead t ht).2.1, (hhead t ht).2.2⟩)
    have hne : q.cur.type ≠ .End := by
      rw [show q.cur.type = .Ident from hq.2.1]; decide
    have hsemi : p1.cur.type ≠ .Semicolon := by
      cases more with
      | nil => rw [show p1.cur.type = .End from s1.2.1]; decide
      | cons t more =>
        rw [show p1.cur.type = t.1 from s1.2.1]
        exact (hhead t rfl).1
    rw [hkw, List.cons_append, hparse]
    exact parseAllLoop_no_semicolon bound q p1 ts st hne h1 hsemi

/-- C20. Parsing the text of a sequence of statement trees that can be written in the
grammar returns exactly that sequence. -/
theorem parser_round_trip (ts : List Statement) (hok : ∀ st ∈ ts, statementOk st = true) :
    parseAll (printStatements ts) = .ok ts := by
  obtain ⟨p, hp, hs⟩ := create_stream (programToks ts) (programToks_lexes ts hok)
  have hlen := stream_length p _ hs
  have h2 := programToks_length ts
  have := stream_parseAllLoop ts hok (p.lx.s.length + 1) p [] (by omega) hs
  simp only [parseAll, printStatements, hp, this, List.nil_append]

/-- C20 instance: a CREATE, an INSERT of two rows, a SELECT with a condition and a
DELETE, written as
`CREATE TABLE t ( id int , name str ) ; INSERT INTO t ( id , name ) VALUES ( 1 , "a;b" ) , ( -2 , "Bob" ) ; SELECT name FROM t WHERE id <= 2 ; DELETE FROM t ;`. -/
theorem parser_round_trip_witness :
    printStatements [.create ⟨"t", [("id", .INT), ("name", .STR)]⟩,
        .insert ⟨"t", ["id", "name"], [[.int 1, .str "a;b"], [.int (-2), .str "Bob"]]⟩,
        .select ⟨false, ["name"], "t", some ⟨"id", .LE, .int 2⟩⟩,
        .delete ⟨"t", none⟩] =
      "CREATE TABLE t ( id int , name str ) ; INSERT INTO t ( id , name ) VALUES ( 1 , \"a;b\" ) , ( -2 , \"Bob\" ) ; SELECT name FROM t WHERE id <= 2 ; DELETE FROM t ;" ∧
    parseAll (printStatements [.create ⟨"t", [("id", .INT), ("name", .STR)]⟩,
        .insert ⟨"t", ["id", "name"], [[.int 1, .str "a;b"], [.int (-2), .str "Bob"]]⟩,
        .select ⟨false, ["name"], "t", some ⟨"id", .LE, .int 2⟩⟩,
        .delete ⟨"t", none⟩]) =
      .ok [.create ⟨"t", [("id", .INT), ("name", .STR)]⟩,
        .insert ⟨"t", ["id", "name"], [[.int 1, .str "a;b"], [.int (-2), .str "Bob"]]⟩,
        .select ⟨false, ["name"], "t", some ⟨"id", .LE, .int 2⟩⟩,
        .delete ⟨"t", none⟩] :=
  ⟨by decide, parser_round_trip _ (by decide)⟩

/-! ## Tokenizer: the character a token starts with -/

theorem skipSpacesLoop_idem (s : List Char) :
    ∀ line col : Nat, (skipSpacesLoop s line col).skipSpaces = skipSpacesLoop s line col := by
  induction s with
  | nil => intro line col; rfl
  | cons c s ih =>
    intro line col
    cases hc : isspace c with
    | true => simp only [skipSpacesLoop, hc, if_true]; exact ih _ _
    | false => simp [skipSpacesLoop, Lexer.skipSpaces, hc]

theorem next_skipSpaces (lx : Lexer) : lx.skipSpaces.next = lx.next := by
  simp only [Lexer.next]
  rw [show lx.skipSpaces.skipSpaces = lx.skipSpaces from skipSpacesLoop_idem _ _ _]

/-- What `skipSpaces` passes over: a run of `isspace` characters, up to a character that is
not one or to the end of the text. -/
theorem skipSpacesLoop_spec (s : List Char) :
    ∀ line col : Nat, ∃ ws, s = ws ++ (skipSpacesLoop s line col).s ∧
      (∀ c ∈ ws, isspace c = true) ∧
      ∀ c, (skipSpacesLoop s line col).s.head? = some c → isspace c = false := by
  induction s with
  | nil => intro line col; exact ⟨[], rfl, by simp, by simp [skipSpacesLoop]⟩
  | cons c s ih =>
    intro line col
    cases hc : isspace c with
    | true =>
      obtain ⟨ws, h1, h2, h3⟩ := ih (advancePos c line col).1 (advancePos c line col).2
      refine ⟨c :: ws, ?_, ?_, ?_⟩
      · simp only [skipSpacesLoop, hc, if_true, List.cons_append]; rw [← h1]
      · intro d hd
        rcases List.mem_cons.mp hd with h | h
        · rw [h]; exact hc
        · exact h2 d h
      · simpa only [skipSpacesLoop, hc, if_true] using h3
    | false =>
      refine ⟨[], ?_, by simp, ?_⟩
      · simp [skipSpacesLoop, hc]
      · intro d hd
        simp only [skipSpacesLoop, hc, Bool.false_eq_true, if_false, List.head?,
          Option.some.injEq] at hd
        rw [← hd]; exact hc

/-- The body of `Lexer::next` after `skipSpaces` has stopped before the character `c`. -/
theorem next_unfold (lx0 : Lexer) (c : Char) (rest : List Char) (l col : Nat)
    (h : lx0.skipSpaces = ⟨c :: rest, l, col⟩) (hnul : c ≠ NUL) :
    lx0.next =
      (if c = ',' then .ok (⟨.Comma, ",", l, col⟩, ⟨rest, (advancePos c l col).1, (advancePos c l col).2⟩)
      else if c = '(' then .ok (⟨.LParen, "(", l, col⟩, ⟨rest, (advancePos c l col).1, (advancePos c l col).2⟩)
      else if c = ')' then .ok (⟨.RParen, ")", l, col⟩, ⟨rest, (advancePos c l col).1, (advancePos c l col).2⟩)
      else if c = ';' then .ok (⟨.Semicolon, ";", l, col⟩, ⟨rest, (advancePos c l col).1, (advancePos c l col).2⟩)
      else if c = '*' then .ok (⟨.Star, "*", l, col⟩, ⟨rest, (advancePos c l col).1, (advancePos c l col).2⟩)
      else if c = '"' then
        Lexer.readString ⟨rest, (advancePos c l col).1, (advancePos c l col).2⟩
      else if c = '=' then .ok (⟨.Equal, "=", l, col⟩, ⟨rest, (advancePos c l col).1, (advancePos c l col).2⟩)
      else if c = '!' ∧ rest.headD NUL = '=' then
        .ok (⟨.NotEqual, "!=", l, col⟩,
          (Lexer.get ⟨rest, (advancePos c l col).1, (advancePos c l col).2⟩).2)
      else if c = '<' then
        if rest.headD NUL = '=' then
          .ok (⟨.LessEq, "<=", l, col⟩,
            (Lexer.get ⟨rest, (advancePos c l col).1, (advancePos c l col).2⟩).2)
        else .ok (⟨.Less, "<", l, col⟩, ⟨rest, (advancePos c l col).1, (advancePos c l col).2⟩)
      else if c = '>' then
        if rest.headD NUL = '=' then
          .ok (⟨.GreaterEq, ">=", l, col⟩,
            (Lexer.get ⟨rest, (advancePos c l col).1, (advancePos c l col).2⟩).2)
        else .ok (⟨.Greater, ">", l, col⟩, ⟨rest, (advancePos c l col).1, (advancePos c l col).2⟩)
      else if isdigit c || (c = '-' && isdigit (rest.headD NUL)) then
        Lexer.readNumber ⟨rest, (advancePos c l col).1, (advancePos c l col).2⟩ c
      else if isalpha c || c = '_' then
        .ok (Lexer.readIdent ⟨rest, (advancePos c l col).1, (advancePos c l col).2⟩ c)
      else .error (.runtime "Unexpected character")) := by
  simp only [Lexer.next, h, Lexer.eof, Lexer.get, Lexer.peek, List.isEmpty_cons, hnul, if_false,
    Bool.false_eq_true]

theorem next_nul (lx0 : Lexer) (rest : List Char) (l col : Nat)
    (h : lx0.skipSpaces = ⟨NUL :: rest, l, col⟩) :
    lx0.next = .error (.runtime "Unexpected character") := by
  simp only [Lexer.next, h, Lexer.eof, Lexer.get, List.isEmpty_cons, if_true, Bool.false_eq_true,
    if_false]
  rfl

theorem next_eof (lx0 : Lexer) (l col : Nat) (h : lx0.skipSpaces = ⟨[], l, col⟩) :
    lx0.next = .ok (⟨.End, "", l, col⟩, ⟨[], l, col⟩) := by
  simp only [Lexer.next, h, Lexer.eof, List.isEmpty_nil, if_true]

theorem readStringLoop_unterminated (tl tc : Nat) (body : List Char)
    (h : ∀ d ∈ body, d ≠ '"' ∧ d ≠ NUL) :
    ∀ (line col : Nat) (out : List Char),
      readStringLoop tl tc body line col out =
        .error (.runtime "Unterminated string literal") := by
  induction body with
  | nil => intro line col out; rfl
  | cons c cs ih =>
    intro line col out
    have hc := h c (List.mem_cons_self _ _)
    simp only [readStringLoop, hc.1, hc.2, if_false]
    exact ih (fun d hd => h d (List.mem_cons_of_mem _ hd)) _ _ _

theorem utf8Size_ascii (c : Char) (h : c.toNat ≤ 127) : c.utf8Size = 1 := by
  have : c.val ≤ 127 := h
  simp [Char.utf8Size, this]

theorem advancePos_ascii (c : Char) (l col : Nat) (h : c.toNat ≤ 127) (hn : c ≠ '\n') :
    advancePos c l col = (l, col + 1) := by
  simp [advancePos, hn, utf8Size_ascii c h]

theorem next_string (lx0 : Lexer) (body rest : List Char) (l col : Nat)
    (h : lx0.skipSpaces = ⟨'"' :: (body ++ '"' :: rest), l, col⟩)
    (hbody : ∀ d ∈ body, d ≠ '"' ∧ d ≠ NUL) :
    ∃ l2 c2, lx0.next = .ok (⟨.String, String.mk body, l, col + 1⟩, ⟨rest, l2, c2⟩) := by
  obtain ⟨l2, c2, hrun⟩ := readStringLoop_run l (col + 1) body rest hbody l (col + 1) []
  refine ⟨l2, c2, ?_⟩
  rw [next_unfold lx0 _ _ _ _ h (by decide)]
  simp only [show ('"' : Char) ≠ ',' by decide, show ('"' : Char) ≠ '(' by decide,
    show ('"' : Char) ≠ ')' by decide, show ('"' : Char) ≠ ';' by decide,
    show ('"' : Char) ≠ '*' by decide, if_false, if_true, Lexer.readString,
    advancePos_ascii '"' l col (by decide) (by decide)]
  rw [hrun]; rfl

theorem next_string_unterminated (lx0 : Lexer) (body : List Char) (l col : Nat)
    (h : lx0.skipSpaces = ⟨'"' :: body, l, col⟩)
    (hbody : ∀ d ∈ body, d ≠ '"' ∧ d ≠ NUL) :
    lx0.next = .error (.runtime "Unterminated string literal") := by
  rw [next_unfold lx0 _ _ _ _ h (by decide)]
  simp only [show ('"' : Char) ≠ ',' by decide, show ('"' : Char) ≠ '(' by decide,
    show ('"' : Char) ≠ ')' by decide, show ('"' : Char) ≠ ';' by decide,
    show ('"' : Char) ≠ '*' by decide, if_false, if_true, Lexer.readString]
  exact readStringLoop_unterminated _ _ body hbody _ _ _

/-- C24. When `skipSpaces` stops before a `"`, the tokenizer returns the String token
whose text is the characters up to the next `"`, none of them `'\0'`, whatever else they
are, and goes on right after that `"`; when no `"` follows it raises
`Unterminated string literal`. -/
theorem string_literal_token :
    (∀ (lx0 : Lexer) (body rest : List Char) (l col : Nat),
      lx0.skipSpaces = ⟨'"' :: (body ++ '"' :: rest), l, col⟩ →
      (∀ d ∈ body, d ≠ '"' ∧ d ≠ NUL) →
      ∃ tl tc l2 c2,
        lx0.next = .ok (⟨.String, String.mk body, tl, tc⟩, ⟨rest, l2, c2⟩)) ∧
    (∀ (lx0 : Lexer) (body : List Char) (l col : Nat),
      lx0.skipSpaces = ⟨'"' :: body, l, col⟩ → (∀ d ∈ body, d ≠ '"' ∧ d ≠ NUL) →
      lx0.next = .error (.runtime "Unterminated string literal")) ∧
    Lexer.next ⟨"  \"a\\n;\nb\" , 1".data, 1, 1⟩ =
      .ok (⟨.String, "a\\n;\nb", 1, 4⟩, ⟨" , 1".data, 2, 3⟩) ∧
    Lexer.next ⟨"\"\"x".data, 1, 1⟩ = .ok (⟨.String, "", 1, 2⟩, ⟨"x".data, 1, 3⟩) ∧
    Lexer.next ⟨" \"abc".data, 1, 1⟩ = .error (.runtime "Unterminated string literal") := by
  refine ⟨?_, next_string_unterminated, by decide, by decide, by decide⟩
  intro lx0 body rest l col h hbody
  obtain ⟨l2, c2, hn⟩ := next_string lx0 body rest l col h hbody
  exact ⟨_, _, l2, c2, hn⟩

theorem digit_not_special (d : Char) (h : isdigit d = true) :
    d ≠ NUL ∧ d ≠ ',' ∧ d ≠ '(' ∧ d ≠ ')' ∧ d ≠ ';' ∧ d ≠ '*' ∧ d ≠ '"' ∧ d ≠ '=' ∧
      d ≠ '!' ∧ d ≠ '<' ∧ d ≠ '>' ∧ d ≠ '-' ∧ d ≠ '\n' ∧ d.toNat ≤ 127 := by
  have hcode := (isdigit_iff d).mp h
  refine ⟨?_, ?_, ?_, ?_, ?_, ?_, ?_, ?_, ?_, ?_, ?_, ?_, ?_, by omega⟩
  · exact char_ne_of_toNat _ _ (by show d.toNat ≠ 0; omega)
  · exact char_ne_of_toNat _ _ (by show d.toNat ≠ 44; omega)
  · exact char_ne_of_toNat _ _ (by show d.toNat ≠ 40; omega)
  · exact char_ne_of_toNat _ _ (by show d.toNat ≠ 41; omega)
  · exact char_ne_of_toNat _ _ (by show d.toNat ≠ 59; omega)
  · exact char_ne_of_toNat _ _ (by show d.toNat ≠ 42; omega)
  · exact char_ne_of_toNat _ _ (by show d.toNat ≠ 34; omega)
  · exact char_ne_of_toNat _ _ (by show d.toNat ≠ 61; omega)
  · exact char_ne_of_toNat _ _ (by show d.toNat ≠ 33; omega)
  · exact char_ne_of_toNat _ _ (by show d.toNat ≠ 60; omega)
  · exact char_ne_of_toNat _ _ (by show d.toNat ≠ 62; omega)
  · exact char_ne_of_toNat _ _ (by show d.toNat ≠ 45; omega)
  · exact char_ne_of_toNat _ _ (by show d.toNat ≠ 10; omega)

theorem next_digits (lx0 : Lexer) (d : Char) (ds rest : List Char) (l col : Nat)
    (h : lx0.skipSpaces = ⟨d :: (ds ++ rest), l, col⟩)
    (hd : isdigit d = true) (hds : ∀ x ∈ ds, isdigit x = true)
    (hrest : ∀ x, rest.head? = some x → isdigit x = false) :
    ∃ l2 c2, lx0.next = .ok (⟨.Number, String.mk (d :: ds), l, col + 1⟩, ⟨rest, l2, c2⟩) := by
  obtain ⟨n0, n1, n2, n3, n4, n5, n6, n7, n8, n9, n10, n11, n12, hascii⟩ := digit_not_special d hd
  have hsep : rest = [] ∨ ∃ x r, rest = x :: r ∧ isdigit x = false := by
    cases rest with
    | nil => exact Or.inl rfl
    | cons x r => exact Or.inr ⟨x, r, rfl, hrest x rfl⟩
  obtain ⟨l2, c2, hrun⟩ := readWhile_run isdigit ds rest hds hsep l (col + 1) [d]
  refine ⟨l2, c2, ?_⟩
  rw [next_unfold lx0 _ _ _ _ h n0]
  simp only [n1, n2, n3, n4, n5, n6, n7, n8, n9, n10, if_false, false_and, hd, Bool.true_or,
    if_true, Lexer.readNumber, advancePos_ascii d l col hascii n12, hrun]
  simp [n11]

theorem next_minus_digits (lx0 : Lexer) (d : Char) (ds rest : List Char) (l col : Nat)
    (h : lx0.skipSpaces = ⟨'-' :: d :: (ds ++ rest), l, col⟩)
    (hd : isdigit d = true) (hds : ∀ x ∈ ds, isdigit x = true)
    (hrest : ∀ x, rest.head? = some x → isdigit x = false) :
    ∃ l2 c2, lx0.next =
      .ok (⟨.Number, String.mk ('-' :: d :: ds), l, col + 1⟩, ⟨rest, l2, c2⟩) := by
  have hsep : rest = [] ∨ ∃ x r, rest = x :: r ∧ isdigit x = false := by
    cases rest with
    | nil => exact Or.inl rfl
    | cons x r => exact Or.inr ⟨x, r, rfl, hrest x rfl⟩
  obtain ⟨l2, c2, hrun⟩ := readWhile_run isdigit (d :: ds) rest
    (by intro x hx; rcases List.mem_cons.mp hx with h | h; exact h ▸ hd; exact hds x h) hsep
    l (col + 1) ['-']
  refine ⟨l2, c2, ?_⟩
  rw [next_unfold lx0 _ _ _ _ h (by decide)]
  have hrun2 : readWhile isdigit (d :: (ds ++ rest)) l (col + 1) ['-'] =
      ('-' :: d :: ds, ⟨rest, l2, c2⟩) := hrun
  simp only [show ('-' : Char) ≠ ',' by decide, show ('-' : Char) ≠ '(' by decide,
    show ('-' : Char) ≠ ')' by decide, show ('-' : Char) ≠ ';' by decide,
    show ('-' : Char) ≠ '*' by decide, show ('-' : Char) ≠ '"' by decide,
    show ('-' : Char) ≠ '=' by decide, show ('-' : Char) ≠ '!' by decide,
    show ('-' : Char) ≠ '<' by decide, show ('-' : Char) ≠ '>' by decide,
    if_false, false_and, List.headD_cons, hd, decide_True, Bool.and_self, Bool.or_true,
    if_true, Lexer.readNumber, advancePos_ascii '-' l col (by decide) (by decide), hrun2]
  simp

theorem next_minus_alone (lx0 : Lexer) (rest : List Char) (l col : Nat)
    (h : lx0.skipSpaces = ⟨'-' :: rest, l, col⟩)
    (hrest : ∀ x, rest.head? = some x → isdigit x = false) :
    lx0.next = .error (.runtime "Unexpected character") := by
  have hpeek : isdigit (rest.headD NUL) = false := by
    cases rest with
    | nil => decide
    | cons x r => exact hrest x rfl
  rw [next_unfold lx0 _ _ _ _ h (by decide)]
  simp only [show ('-' : Char) ≠ ',' by decide, show ('-' : Char) ≠ '(' by decide,
    show ('-' : Char) ≠ ')' by decide, show ('-' : Char) ≠ ';' by decide,
    show ('-' : Char) ≠ '*' by decide, show ('-' : Char) ≠ '"' by decide,
    show ('-' : Char) ≠ '=' by decide, show ('-' : Char) ≠ '!' by decide,
    show ('-' : Char) ≠ '<' by decide, show ('-' : Char) ≠ '>' by decide,
    if_false, false_and, hpeek, Bool.and_false, Bool.or_false,
    show isdigit '-' = false by decide, show isalpha '-' = false by decide,
    show ¬ (('-' : Char) = '_') by decide, decide_False, Bool.false_eq_true]

/-- C25. When `skipSpaces` stops before a digit, or before a `-` with a digit right after
it, the tokenizer returns the Number token whose text is the optional `-` and the digits
up to the first character that is not a digit, and goes on at that character; a `-` with
no digit right after it makes it raise. -/
theorem integer_literal_token :
    (∀ (lx0 : Lexer) (d : Char) (ds rest : List Char) (l col : Nat),
      lx0.skipSpaces = ⟨d :: (ds ++ rest), l, col⟩ →
      isdigit d = true → (∀ x ∈ ds, isdigit x = true) →
      (∀ x, rest.head? = some x → isdigit x = false) →
      ∃ tl tc l2 c2,
        lx0.next = .ok (⟨.Number, String.mk (d :: ds), tl, tc⟩, ⟨rest, l2, c2⟩)) ∧
    (∀ (lx0 : Lexer) (d : Char) (ds rest : List Char) (l col : Nat),
      lx0.skipSpaces = ⟨'-' :: d :: (ds ++ rest), l, col⟩ →
      isdigit d = true → (∀ x ∈ ds, isdigit x = true) →
      (∀ x, rest.head? = some x → isdigit x = false) →
      ∃ tl tc l2 c2,
        lx0.next = .ok (⟨.Number, String.mk ('-' :: d :: ds), tl, tc⟩, ⟨rest, l2, c2⟩)) ∧
    (∀ (lx0 : Lexer) (rest : List Char) (l col : Nat),
      lx0.skipSpaces = ⟨'-' :: rest, l, col⟩ →
      (∀ x, rest.head? = some x → isdigit x = false) →
      lx0.next = .error (.runtime "Unexpected character")) ∧
    Lexer.next ⟨" 0042abc".data, 1, 1⟩ = .ok (⟨.Number, "0042", 1, 3⟩, ⟨"abc".data, 1, 6⟩) ∧
    Lexer.next ⟨"-7-8".data, 1, 1⟩ = .ok (⟨.Number, "-7", 1, 2⟩, ⟨"-8".data, 1, 3⟩) ∧
    Lexer.next ⟨"- 7".data, 1, 1⟩ = .error (.runtime "Unexpected character") ∧
    Lexer.next ⟨"-".data, 1, 1⟩ = .error (.runtime "Unexpected character") ∧
    Lexer.next ⟨"--1".data, 1, 1⟩ = .error (.runtime "Unexpected character") := by
  refine ⟨?_, ?_, next_minus_alone, by decide, by decide, by decide, by decide, by decide⟩
  · intro lx0 d ds rest l col h hd hds hrest
    obtain ⟨l2, c2, hn⟩ := next_digits lx0 d ds rest l col h hd hds hrest
    exact ⟨_, _, l2, c2, hn⟩
  · intro lx0 d ds rest l col h hd hds hrest
    obtain ⟨l2, c2, hn⟩ := next_minus_digits lx0 d ds rest l col h hd hds hrest
    exact ⟨_, _, l2, c2, hn⟩

theorem headD_ne_of_head? (rest : List Char) (c : Char) (hc : c ≠ NUL)
    (h : rest.head? ≠ some c) : rest.headD NUL ≠ c := by
  cases rest with
  | nil => exact fun e => hc e.symm
  | cons x r => exact fun e => h (by rw [List.head?_cons, ← show x = c from e])

theorem next_two_chars (lx0 : Lexer) (rest : List Char) (l col : Nat) :
    (lx0.skipSpaces = ⟨'<' :: '=' :: rest, l, col⟩ →
      lx0.next = .ok (⟨.LessEq, "<=", l, col⟩, ⟨rest, l, col + 2⟩)) ∧
    (lx0.skipSpaces = ⟨'>' :: '=' :: rest, l, col⟩ →
      lx0.next = .ok (⟨.GreaterEq, ">=", l, col⟩, ⟨rest, l, col + 2⟩)) ∧
    (lx0.skipSpaces = ⟨'!' :: '=' :: rest, l, col⟩ →
      lx0.next = .ok (⟨.NotEqual, "!=", l, col⟩, ⟨rest, l, col + 2⟩)) := by
  refine ⟨fun h => ?_, fun h => ?_, fun h => ?_⟩ <;>
    rw [next_unfold lx0 _ _ _ _ h (by decide)] <;> rfl

theorem next_one_char (lx0 : Lexer) (rest : List Char) (l col : Nat)
    (hrest : rest.head? ≠ some '=') :
    (lx0.skipSpaces = ⟨'<' :: rest, l, col⟩ →
      lx0.next = .ok (⟨.Less, "<", l, col⟩, ⟨rest, l, col + 1⟩)) ∧
    (lx0.skipSpaces = ⟨'>' :: rest, l, col⟩ →
      lx0.next = .ok (⟨.Greater, ">", l, col⟩, ⟨rest, l, col + 1⟩)) ∧
    (lx0.skipSpaces = ⟨'!' :: rest, l, col⟩ →
      lx0.next = .error (.runtime "Unexpected character")) := by
  have hpeek := headD_ne_of_head? rest '=' (by decide) hrest
  refine ⟨fun h => ?_, fun h => ?_, fun h => ?_⟩
  · rw [next_unfold lx0 _ _ _ _ h (by decide)]
    simp only [show ('<' : Char) ≠ ',' by decide, show ('<' : Char) ≠ '(' by decide,
      show ('<' : Char) ≠ ')' by decide, show ('<' : Char) ≠ ';' by decide,
      show ('<' : Char) ≠ '*' by decide, show ('<' : Char) ≠ '"' by decide,
      show ('<' : Char) ≠ '=' by decide, show ('<' : Char) ≠ '!' by decide,
      if_false, false_and, if_true, hpeek]
    rfl
  · rw [next_unfold lx0 _ _ _ _ h (by decide)]
    simp only [show ('>' : Char) ≠ ',' by decide, show ('>' : Char) ≠ '(' by decide,
      show ('>' : Char) ≠ ')' by decide, show ('>' : Char) ≠ ';' by decide,
      show ('>' : Char) ≠ '*' by decide, show ('>' : Char) ≠ '"' by decide,
      show ('>' : Char) ≠ '=' by decide, show ('>' : Char) ≠ '!' by decide,
      show ('>' : Char) ≠ '<' by decide, if_false, false_and, if_true, hpeek]
    rfl
  · rw [next_unfold lx0 _ _ _ _ h (by decide)]
    simp only [show ('!' : Char) ≠ ',' by decide, show ('!' : Char) ≠ '(' by decide,
      show ('!' : Char) ≠ ')' by decide, show ('!' : Char) ≠ ';' by decide,
      show ('!' : Char) ≠ '*' by decide, show ('!' : Char) ≠ '"' by decide,
      show ('!' : Char) ≠ '=' by decide, show ('!' : Char) ≠ '<' by decide,
      show ('!' : Char) ≠ '>' by decide, if_false, and_false, true_and, hpeek,
      show isdigit '!' = false by decide, show isalpha '!' = false by decide,
      show ¬ (('!' : Char) = '-') by decide, show ¬ (('!' : Char) = '_') by decide,
      decide_False, Bool.false_and, Bool.or_false, Bool.false_eq_true]

/-- C23. The tokenizer reads `<=`, `>=` and `!=` as one token each, reads `<` or `>`
alone when the next character is not `=`, and raises on a `!` that `=` does not follow.
A condition written `col OP literal` parses to the Condition with the operator of `OP`:
EQ for `=`, NE for `!=`, LT for `<`, LE for `<=`, GT for `>`, GE for `>=`. -/
theorem operators_are_greedy :
    (∀ (lx0 : Lexer) (rest : List Char) (l col : Nat),
      (lx0.skipSpaces = ⟨'<' :: '=' :: rest, l, col⟩ →
        lx0.next = .ok (⟨.LessEq, "<=", l, col⟩, ⟨rest, l, col + 2⟩)) ∧
      (lx0.skipSpaces = ⟨'>' :: '=' :: rest, l, col⟩ →
        lx0.next = .ok (⟨.GreaterEq, ">=", l, col⟩, ⟨rest, l, col + 2⟩)) ∧
      (lx0.skipSpaces = ⟨'!' :: '=' :: rest, l, col⟩ →
        lx0.next = .ok (⟨.NotEqual, "!=", l, col⟩, ⟨rest, l, col + 2⟩))) ∧
    (∀ (lx0 : Lexer) (rest : List Char) (l col : Nat), rest.head? ≠ some '=' →
      (lx0.skipSpaces = ⟨'<' :: rest, l, col⟩ →
        lx0.next = .ok (⟨.Less, "<", l, col⟩, ⟨rest, l, col + 1⟩)) ∧
      (lx0.skipSpaces = ⟨'>' :: rest, l, col⟩ →
        lx0.next = .ok (⟨.Greater, ">", l, col⟩, ⟨rest, l, col + 1⟩)) ∧
      (lx0.skipSpaces = ⟨'!' :: rest, l, col⟩ →
        lx0.next = .error (.runtime "Unexpected character"))) ∧
    (∀ (p : Parser) (c : Condition) (rest : List (TokType × String)),
      Stream p (conditionToks c ++ rest) → conditionOk c = true →
      ∃ q, p.parseCondition = .ok (c, q) ∧ Stream q rest) ∧
    (opTok .EQ = (.Equal, "=") ∧ opTok .NE = (.NotEqual, "!=") ∧ opTok .LT = (.Less, "<") ∧
      opTok .LE = (.LessEq, "<=") ∧ opTok .GT = (.Greater, ">") ∧
      opTok .GE = (.GreaterEq, ">=")) ∧
    parseAll "DELETE FROM t WHERE a=1;" = .ok [.delete ⟨"t", some ⟨"a", .EQ, .int 1⟩⟩] ∧
    parseAll "DELETE FROM t WHERE a!=1;" = .ok [.delete ⟨"t", some ⟨"a", .NE, .int 1⟩⟩] ∧
    parseAll "DELETE FROM t WHERE a<1;" = .ok [.delete ⟨"t", some ⟨"a", .LT, .int 1⟩⟩] ∧
    parseAll "DELETE FROM t WHERE a<=1;" = .ok [.delete ⟨"t", some ⟨"a", .LE, .int 1⟩⟩] ∧
    parseAll "DELETE FROM t WHERE a>1;" = .ok [.delete ⟨"t", some ⟨"a", .GT, .int 1⟩⟩] ∧
    parseAll "DELETE FROM t WHERE a>=1;" = .ok [.delete ⟨"t", some ⟨"a", .GE, .int 1⟩⟩] ∧
    parseAll "DELETE FROM t WHERE a < = 1;" =
      .error (.runtime "Expected literal (number or \"string\")") ∧
    parseAll "DELETE FROM t WHERE a ! 1;" = .error (.runtime "Unexpected character") := by
  refine ⟨next_two_chars, next_one_char, stream_parseCondition,
    ⟨rfl, rfl, rfl, rfl, rfl, rfl⟩, by decide, by decide, by decide, by decide, by decide,
    by decide, by decide, by decide⟩

theorem isspace_chars (c : Char) :
    isspace c = true ↔
      c = ' ' ∨ c = '\t' ∨ c = '\n' ∨ c = Char.ofNat 11 ∨ c = Char.ofNat 12 ∨ c = '\r' := by
  rw [isspace_iff]
  constructor
  · intro h
    have h2 : c.toNat = 32 ∨ c.toNat = 9 ∨ c.toNat = 10 ∨ c.toNat = 11 ∨ c.toNat = 12 ∨
        c.toNat = 13 := by omega
    rcases h2 with h | h | h | h | h | h
    · exact Or.inl ((char_eq_iff _ _).mpr h)
    · exact Or.inr (Or.inl ((char_eq_iff _ _).mpr h))
    · exact Or.inr (Or.inr (Or.inl ((char_eq_iff _ _).mpr h)))
    · exact Or.inr (Or.inr (Or.inr (Or.inl ((char_eq_iff _ _).mpr h))))
    · exact Or.inr (Or.inr (Or.inr (Or.inr (Or.inl ((char_eq_iff _ _).mpr h)))))
    · exact Or.inr (Or.inr (Or.inr (Or.inr (Or.inr ((char_eq_iff _ _).mpr h)))))
  · rintro (h | h | h | h | h | h) <;> subst h <;> decide

theorem next_other_char (lx0 : Lexer) (c : Char) (rest : List Char) (l col : Nat)
    (h : lx0.skipSpaces = ⟨c :: rest, l, col⟩) (ha : isalpha c = false) (hd : isdigit c = false)
    (hc : c ∉ ['_', '"', ',', '(', ')', ';', '*', '=', '<', '>'])
    (hbang : ¬ (c = '!' ∧ rest.head? = some '='))
    (hminus : ¬ (c = '-' ∧ ∃ d, rest.head? = some d ∧ isdigit d = true)) :
    lx0.next = .error (.runtime "Unexpected character") := by
  by_cases hnul : c = NUL
  · subst hnul; exact next_nul lx0 rest l col h
  · simp only [List.mem_cons, List.mem_singleton, List.mem_nil_iff, or_false, not_or] at hc
    obtain ⟨h1, h2, h3, h4, h5, h6, h7, h8, h9, h10⟩ := hc
    have hb : ¬ (c = '!' ∧ rest.headD NUL = '=') := by
      rintro ⟨e1, e2⟩
      apply hbang
      refine ⟨e1, ?_⟩
      cases rest with
      | nil => exact absurd e2 (by decide)
      | cons x r => rw [List.head?_cons, show x = '=' from e2]
    have hm : (decide (c = '-') && isdigit (rest.headD NUL)) = false := by
      cases hcm : decide (c = '-') && isdigit (rest.headD NUL) with
      | false => rfl
      | true =>
        simp only [Bool.and_eq_true, decide_eq_true_eq] at hcm
        exfalso
        apply hminus
        refine ⟨hcm.1, ?_⟩
        cases rest with
        | nil => exact absurd hcm.2 (by decide)
        | cons x r => exact ⟨x, rfl, hcm.2⟩
    rw [next_unfold lx0 _ _ _ _ h hnul]
    simp only [h1, h2, h3, h4, h5, h6, h7, h8, h9, h10, hb, ha, hd, hm, if_false, decide_False,
      Bool.or_false, Bool.false_eq_true]

/-- C26, counterexample. A vertical tab and a form feed before a token are skipped
silently, like a blank: `\v\f;` is read as the token `;`, and a SELECT written with them
between its tokens parses. -/
theorem vertical_tab_and_form_feed_skipped :
    Lexer.next ⟨"\x0b\x0c;".data, 1, 1⟩ = .ok (⟨.Semicolon, ";", 1, 3⟩, ⟨[], 1, 4⟩) ∧
    parseAll "SELECT\x0b*\x0cFROM t;" = .ok [.select ⟨true, [], "t", none⟩] := by
  exact ⟨by decide, by decide⟩

/-- C26, amended. The characters skipped silently between tokens are the six `isspace`
characters: space, tab, newline, vertical tab, form feed and carriage return. When the
character after them is not a letter, a digit, an underscore, `"`, one of `, ( ) ; *`,
one of `= < >`, a `!` followed by `=` or a `-` followed by a digit, the tokenizer raises
`Unexpected character`. -/
theorem tokenizer_character_classes :
    (∀ c : Char, isspace c = true ↔
      c = ' ' ∨ c = '\t' ∨ c = '\n' ∨ c = Char.ofNat 11 ∨ c = Char.ofNat 12 ∨ c = '\r') ∧
    (∀ lx0 : Lexer, lx0.skipSpaces.next = lx0.next ∧
      ∃ ws, lx0.s = ws ++ lx0.skipSpaces.s ∧ (∀ c ∈ ws, isspace c = true) ∧
        ∀ c, lx0.skipSpaces.s.head? = some c → isspace c = false) ∧
    (∀ (lx0 : Lexer) (c : Char) (rest : List Char) (l col : Nat),
      lx0.skipSpaces = ⟨c :: rest, l, col⟩ → isalpha c = false → isdigit c = false →
      c ∉ ['_', '"', ',', '(', ')', ';', '*', '=', '<', '>'] →
      ¬ (c = '!' ∧ rest.head? = some '=') →
      ¬ (c = '-' ∧ ∃ d, rest.head? = some d ∧ isdigit d = true) →
      lx0.next = .error (.runtime "Unexpected character")) ∧
    Lexer.next ⟨" \t\r\n\x0b\x0c".data, 1, 1⟩ = .ok (⟨.End, "", 2, 3⟩, ⟨[], 2, 3⟩) ∧
    Lexer.next ⟨" @".data, 1, 1⟩ = .error (.runtime "Unexpected character") ∧
    Lexer.next ⟨"é".data, 1, 1⟩ = .error (.runtime "Unexpected character") ∧
    Lexer.next ⟨[NUL, ';'], 1, 1⟩ = .error (.runtime "Unexpected character") := by
  refine ⟨isspace_chars, ?_, next_other_char, by decide, by decide, by decide, by decide⟩
  intro lx0
  exact ⟨next_skipSpaces lx0, skipSpacesLoop_spec lx0.s lx0.line lx0.col⟩

/-! ## Tokenizer: what a call consumes, and positions -/

theorem posAfter_cons (c : Char) (text : List Char) (line col : Nat) :
    posAfter (c :: text) line col =
      posAfter text (advancePos c line col).1 (advancePos c line col).2 := rfl

theorem posAfter_append (a b : List Char) (line col : Nat) :
    posAfter (a ++ b) line col = posAfter b (posAfter a line col).1 (posAfter a line col).2 := by
  simp [posAfter, List.foldl_append]

theorem skipSpacesLoop_consumed (s : List Char) :
    ∀ line col : Nat, ∃ ws, s = ws ++ (skipSpacesLoop s line col).s ∧
      ((skipSpacesLoop s line col).line, (skipSpacesLoop s line col).col) =
        posAfter ws line col := by
  induction s with
  | nil => intro line col; exact ⟨[], rfl, rfl⟩
  | cons c s ih =>
    intro line col
    cases hc : isspace c with
    | true =>
      obtain ⟨ws, h1, h2⟩ := ih (advancePos c line col).1 (advancePos c line col).2
      refine ⟨c :: ws, ?_, ?_⟩
      · simp only [skipSpacesLoop, hc, if_true, List.cons_append]; rw [← h1]
      · simp only [skipSpacesLoop, hc, if_true, posAfter_cons]; exact h2
    | false => exact ⟨[], by simp [skipSpacesLoop, hc], by simp [skipSpacesLoop, hc, posAfter]⟩

theorem readWhile_consumed (pred : Char → Bool) (s : List Char) :
    ∀ (line col : Nat) (out : List Char), ∃ cs,
      s = cs ++ (readWhile pred s line col out).2.s ∧
      (readWhile pred s line col out).1 = out ++ cs ∧
      ((readWhile pred s line col out).2.line, (readWhile pred s line col out).2.col) =
        posAfter cs line col := by
  induction s with
  | nil => intro line col out; exact ⟨[], rfl, by simp [readWhile], rfl⟩
  | cons c s ih =>
    intro line col out
    cases hc : pred c with
    | true =>
      obtain ⟨cs, h1, h2, h3⟩ := ih (advancePos c line col).1 (advancePos c line col).2
        (out ++ [c])
      refine ⟨c :: cs, ?_, ?_, ?_⟩
      · simp only [readWhile, hc, if_true, List.cons_append]; rw [← h1]
      · simp only [readWhile, hc, if_true]; rw [h2]; simp
      · simp only [readWhile, hc, if_true, posAfter_cons]; exact h3
    | false =>
      exact ⟨[], by simp [readWhile, hc], by simp [readWhile, hc], by simp [readWhile, hc, posAfter]⟩

theorem readStringLoop_consumed (tl tc : Nat) (s : List Char) :
    ∀ (line col : Nat) (out : List Char) (t : Token) (lx : Lexer),
      readStringLoop tl tc s line col out = .ok (t, lx) →
      ∃ body, s = body ++ '"' :: lx.s ∧ (∀ d ∈ body, d ≠ '"' ∧ d ≠ NUL) ∧
        t = ⟨.String, String.mk (out ++ body), tl, tc⟩ ∧
        (lx.line, lx.col) = posAfter (body ++ ['"']) line col := by
  induction s with
  | nil => intro line col out t lx h; simp [readStringLoop] at h
  | cons c s ih =>
    intro line col out t lx h
    simp only [readStringLoop] at h
    split at h
    · cases h
    · rename_i hnul
      split at h
      · rename_i hq
        simp only [Except.ok.injEq, Prod.mk.injEq] at h
        obtain ⟨ht, hlx⟩ := h
        subst ht hlx hq
        exact ⟨[], rfl, by simp, by simp, rfl⟩
      · rename_i hq
        obtain ⟨body, h1, h2, h3, h4⟩ := ih _ _ _ t lx h
        refine ⟨c :: body, ?_, ?_, ?_, ?_⟩
        · rw [List.cons_append, ← h1]
        · intro d hd
          rcases List.mem_cons.mp hd with e | e
          · rw [e]; exact ⟨hq, hnul⟩
          · exact h2 d e
        · rw [h3]; simp
        · rw [h4]; rfl

theorem readStringLoop_not_bound (tl tc : Nat) (s : List Char) :
    ∀ (line col : Nat) (out : List Char),
      readStringLoop tl tc s line col out ≠ .error .loopBound := by
  induction s with
  | nil => intro line col out; simp [readStringLoop]
  | cons c s ih =>
    intro line col out
    simp only [readStringLoop]
    split
    · simp
    · split
      · simp
      · exact ih _ _ _

theorem readStringLoop_bounded (tl tc : Nat) (s : List Char) (hs : NUL ∉ s) :
    ∀ (line col : Nat) (out : List Char),
      readStringLoop tl tc s line col out ≠ .error .unbounded := by
  induction s with
  | nil => intro line col out; simp [readStringLoop]
  | cons c s ih =>
    intro line col out
    have hc : c ≠ NUL := fun e => hs (by rw [e]; exact List.mem_cons_self _ _)
    simp only [readStringLoop, hc, if_false]
    split
    · simp
    · exact ih (fun h => hs (List.mem_cons_of_mem _ h)) _ _ _

theorem wordStart_ascii (c : Char) (h : (isalpha c || decide (c = '_')) = true) :
    c.toNat ≤ 127 ∧ c ≠ '\n' := by
  have hcode := wordStart_code c h
  exact ⟨by omega, char_ne_of_toNat _ _ (by show c.toNat ≠ 10; omega)⟩

theorem numberStart_ascii (c : Char) (rest : List Char)
    (h : (isdigit c || (decide (c = '-') && isdigit (rest.headD NUL))) = true) :
    c.toNat ≤ 127 ∧ c ≠ '\n' := by
  simp only [Bool.or_eq_true, Bool.and_eq_true, decide_eq_true_eq] at h
  rcases h with h | ⟨h, -⟩
  · have := digit_not_special c h
    exact ⟨this.2.2.2.2.2.2.2.2.2.2.2.2.2, this.2.2.2.2.2.2.2.2.2.2.2.2.1⟩
  · subst h; exact ⟨by decide, by decide⟩

theorem get_second (c : Char) (rest : List Char) (l col : Nat) (hc : c ≠ NUL)
    (h : rest.headD NUL = c) :
    ∃ r, rest = c :: r ∧
      (Lexer.get ⟨rest, l, col⟩).2 = ⟨r, (advancePos c l col).1, (advancePos c l col).2⟩ := by
  cases rest with
  | nil => exact absurd h (fun e => hc e.symm)
  | cons x r =>
    have hx : x = c := h
    subst hx
    exact ⟨r, rfl, by simp [Lexer.get, hc]⟩

/-- What a call of `next` that returns a token other than `End` has read: the characters
of the token, at least one, from the character `skipSpaces` stopped at; and the line and
column the token carries. -/
theorem next_cons_consumed (lx0 : Lexer) (c : Char) (rest : List Char) (l col : Nat)
    (hsk : lx0.skipSpaces = ⟨c :: rest, l, col⟩) (t : Token) (lx : Lexer)
    (h : lx0.next = .ok (t, lx)) :
    ∃ tok, c :: rest = tok ++ lx.s ∧ tok ≠ [] ∧ (lx.line, lx.col) = posAfter tok l col ∧
      t.type ≠ .End ∧ t.line = l ∧ t.col = col + (if t.type.isRead then 1 else 0) := by
  by_cases hnul : c = NUL
  · subst hnul; rw [next_nul lx0 rest l col hsk] at h; cases h
  rw [next_unfold lx0 c rest l col hsk hnul] at h
  by_cases h1 : c = ','
  · rw [if_pos h1] at h; cases h; exact ⟨[c], rfl, by simp, rfl, by simp, rfl, rfl⟩
  rw [if_neg h1] at h
  by_cases h2 : c = '('
  · rw [if_pos h2] at h; cases h; exact ⟨[c], rfl, by simp, rfl, by simp, rfl, rfl⟩
  rw [if_neg h2] at h
  by_cases h3 : c = ')'
  · rw [if_pos h3] at h; cases h; exact ⟨[c], rfl, by simp, rfl, by simp, rfl, rfl⟩
  rw [if_neg h3] at h
  by_cases h4 : c = ';'
  · rw [if_pos h4] at h; cases h; exact ⟨[c], rfl, by simp, rfl, by simp, rfl, rfl⟩
  rw [if_neg h4] at h
  by_cases h5 : c = '*'
  · rw [if_pos h5] at h; cases h; exact ⟨[c], rfl, by simp, rfl, by simp, rfl, rfl⟩
  rw [if_neg h5] at h
  by_cases h6 : c = '"'
  · rw [if_pos h6] at h
    obtain ⟨body, hb1, -, hb3, hb4⟩ := readStringLoop_consumed _ _ _ _ _ _ t lx h
    subst h6
    rw [advancePos_ascii '"' l col (by decide) (by decide)] at hb3 hb4
    have hb1b : rest = body ++ '"' :: lx.s := hb1
    refine ⟨'"' :: (body ++ ['"']), ?_, by simp, ?_, ?_, ?_, ?_⟩
    · rw [hb1b]; simp
    · rw [posAfter_cons, advancePos_ascii '"' l col (by decide) (by decide)]; exact hb4
    · rw [hb3]; simp
    · rw [hb3]
    · rw [hb3]; rfl
  rw [if_neg h6] at h
  by_cases h7 : c = '='
  · rw [if_pos h7] at h; cases h; exact ⟨[c], rfl, by simp, rfl, by simp, rfl, rfl⟩
  rw [if_neg h7] at h
  by_cases h8 : c = '!' ∧ rest.headD NUL = '='
  · rw [if_pos h8] at h
    obtain ⟨r, hr, hg⟩ := get_second '=' rest (advancePos c l col).1 (advancePos c l col).2
      (by decide) h8.2
    cases h
    subst hr
    exact ⟨[c, '='], by rw [hg]; rfl, by simp, by rw [hg]; rfl, by simp, rfl, rfl⟩
  rw [if_neg h8] at h
  by_cases h9 : c = '<'
  · rw [if_pos h9] at h
    by_cases h10 : rest.headD NUL = '='
    · rw [if_pos h10] at h
      obtain ⟨r, hr, hg⟩ := get_second '=' rest (advancePos c l col).1 (advancePos c l col).2
        (by decide) h10
      cases h
      subst hr
      exact ⟨[c, '='], by rw [hg]; rfl, by simp, by rw [hg]; rfl, by simp, rfl, rfl⟩
    · rw [if_neg h10] at h; cases h
      exact ⟨[c], rfl, by simp, rfl, by simp, rfl, rfl⟩
  rw [if_neg h9] at h
  by_cases h11 : c = '>'
  · rw [if_pos h11] at h
    by_cases h10 : rest.headD NUL = '='
    · rw [if_pos h10] at h
      obtain ⟨r, hr, hg⟩ := get_second '=' rest (advancePos c l col).1 (advancePos c l col).2
        (by decide) h10
      cases h
      subst hr
      exact ⟨[c, '='], by rw [hg]; rfl, by simp, by rw [hg]; rfl, by simp, rfl, rfl⟩
    · rw [if_neg h10] at h; cases h
      exact ⟨[c], rfl, by simp, rfl, by simp, rfl, rfl⟩
  rw [if_neg h11] at h
  by_cases h12 : (isdigit c || (decide (c = '-') && isdigit (rest.headD NUL))) = true
  · rw [if_pos h12] at h
    obtain ⟨hascii, hnl⟩ := numberStart_ascii c rest h12
    obtain ⟨cs, hc1, hc2, hc3⟩ := readWhile_consumed isdigit rest (advancePos c l col).1
      (advancePos c l col).2 [c]
    simp only [Lexer.readNumber] at h
    split at h
    · cases h
    · cases h
      refine ⟨c :: cs, ?_, by simp, ?_, by simp, ?_, ?_⟩
      · rw [List.cons_append, ← hc1]
      · rw [posAfter_cons]; exact hc3
      · show (advancePos c l col).1 = l
        rw [advancePos_ascii c l col hascii hnl]
      · show (advancePos c l col).2 = col + 1
        rw [advancePos_ascii c l col hascii hnl]
  rw [if_neg h12] at h
  by_cases h13 : (isalpha c || decide (c = '_')) = true
  · rw [if_pos h13] at h
    obtain ⟨hascii, hnl⟩ := wordStart_ascii c h13
    obtain ⟨cs, hc1, hc2, hc3⟩ := readWhile_consumed (fun c => isalnum c || decide (c = '_')) rest
      (advancePos c l col).1 (advancePos c l col).2 [c]
    cases h
    refine ⟨c :: cs, ?_, by simp, ?_, by simp, ?_, ?_⟩
    · rw [List.cons_append]; exact congrArg _ hc1
    · rw [posAfter_cons]; exact hc3
    · show (advancePos c l col).1 = l
      rw [advancePos_ascii c l col hascii hnl]
    · show (advancePos c l col).2 = col + 1
      rw [advancePos_ascii c l col hascii hnl]
  rw [if_neg h13] at h
  cases h

theorem skipSpacesLoop_run (ws more : List Char) (hws : ∀ c ∈ ws, isspace c = true)
    (hmore : ∀ c, more.head? = some c → isspace c = false) :
    ∀ line col : Nat, skipSpacesLoop (ws ++ more) line col =
      ⟨more, (posAfter ws line col).1, (posAfter ws line col).2⟩ := by
  induction ws with
  | nil =>
    intro line col
    cases more with
    | nil => rfl
    | cons c r => simp [skipSpacesLoop, hmore c rfl, posAfter]
  | cons c ws ih =>
    intro line col
    simp only [List.cons_append, skipSpacesLoop, hws c (List.mem_cons_self _ _), if_true,
      posAfter_cons]
    exact ih (fun d hd => hws d (List.mem_cons_of_mem _ hd)) _ _

/-- What a call of `next` that returns has read, and where it stands afterwards. -/
theorem next_consumed (lx0 : Lexer) (t : Token) (lx : Lexer) (h : lx0.next = .ok (t, lx)) :
    ∃ consumed, lx0.s = consumed ++ lx.s ∧
      (lx.line, lx.col) = posAfter consumed lx0.line lx0.col ∧
      (t.type ≠ .End → consumed ≠ []) ∧ (t.type = .End → lx.s = []) := by
  obtain ⟨ws, hws1, hws2⟩ := skipSpacesLoop_consumed lx0.s lx0.line lx0.col
  cases hsk : (skipSpacesLoop lx0.s lx0.line lx0.col) with
  | mk s l col =>
    rw [hsk] at hws1 hws2
    replace hws2 : (l, col) = posAfter ws lx0.line lx0.col := hws2
    cases s with
    | nil =>
      rw [next_eof lx0 l col hsk] at h
      cases h
      exact ⟨ws, by simpa using hws1, hws2, fun hne => absurd rfl hne, fun _ => rfl⟩
    | cons c rest =>
      obtain ⟨tok, h1, h2, h3, h4, -, -⟩ := next_cons_consumed lx0 c rest l col hsk t lx h
      refine ⟨ws ++ tok, ?_, ?_, fun _ => by simp [h2], fun he => absurd he h4⟩
      · rw [List.append_assoc, ← h1]; exact hws1
      · rw [posAfter_append, h3]
        rw [← hws2]

/-- C29. The tokens built by `readIdent`, `readNumber` and `readString` carry the column
after their first character, not the column of it: `ab` at line 1, column 1 is stamped
column 2, `42` at line 2, column 3 is stamped column 4, and the string `"x"` at column 1
is stamped column 2. Punctuation, operator and end tokens carry the line and column of
their first character. In general a token returned after the spaces `ws` carries the
line of the character after `ws`, and its column, plus one for the three kinds above. -/
theorem token_column_of_read_tokens :
    Lexer.next ⟨"ab".data, 1, 1⟩ = .ok (⟨.Ident, "ab", 1, 2⟩, ⟨[], 1, 3⟩) ∧
    Lexer.next ⟨"\n  42;".data, 1, 1⟩ = .ok (⟨.Number, "42", 2, 4⟩, ⟨";".data, 2, 5⟩) ∧
    Lexer.next ⟨"\"x\"".data, 1, 1⟩ = .ok (⟨.String, "x", 1, 2⟩, ⟨[], 1, 4⟩) ∧
    Lexer.next ⟨"\n  ;".data, 1, 1⟩ = .ok (⟨.Semicolon, ";", 2, 3⟩, ⟨[], 2, 4⟩) ∧
    Lexer.next ⟨" <= 1".data, 1, 1⟩ = .ok (⟨.LessEq, "<=", 1, 2⟩, ⟨" 1".data, 1, 4⟩) ∧
    Lexer.next ⟨"a\n ".data, 3, 7⟩ = .ok (⟨.Ident, "a", 3, 8⟩, ⟨"\n ".data, 3, 8⟩) ∧
    Lexer.next ⟨"\n ".data, 3, 8⟩ = .ok (⟨.End, "", 4, 2⟩, ⟨[], 4, 2⟩) ∧
    (∀ (ws more : List Char) (line col : Nat) (t : Token) (lx : Lexer),
      (∀ c ∈ ws, isspace c = true) → (∀ c, more.head? = some c → isspace c = false) →
      Lexer.next ⟨ws ++ more, line, col⟩ = .ok (t, lx) →
      t.line = (posAfter ws line col).1 ∧
        t.col = (posAfter ws line col).2 + (if t.type.isRead then 1 else 0)) := by
  refine ⟨by decide, by decide, by decide, by decide, by decide, by decide, by decide, ?_⟩
  intro ws more line col t lx hws hmore h
  have hsk : (Lexer.mk (ws ++ more) line col).skipSpaces =
      ⟨more, (posAfter ws line col).1, (posAfter ws line col).2⟩ :=
    skipSpacesLoop_run ws more hws hmore line col
  cases more with
  | nil =>
    rw [next_eof _ _ _ hsk] at h
    cases h
    exact ⟨rfl, rfl⟩
  | cons c rest =>
    obtain ⟨tok, -, -, -, -, h5, h6⟩ := next_cons_consumed _ c rest _ _ hsk t lx h
    exact ⟨h5, h6⟩

/-! ## C22: names, keywords and type words -/

theorem isUpperKeyword_iff (w : String) : isUpperKeyword w = true ↔ w ∈ keywords := by
  constructor
  · intro h
    simp only [isUpperKeyword] at h
    split at h
    · cases h
    · simpa [keywords, or_assoc] using h
  · intro h
    simp only [keywords, List.mem_cons, List.mem_singleton, List.mem_nil_iff, or_false] at h
    rcases h with h | h | h | h | h | h | h | h | h | h | h <;> subst h <;> decide

theorem isTypeWord_iff (w : String) : isTypeWord w = true ↔ w = "int" ∨ w = "str" := by
  simp [isTypeWord]

theorem parseIdent_reject (p : Parser) (what : String)
    (h : p.cur.type ≠ .Ident ∨ p.cur.text ∈ keywords ∨ p.cur.text = "int" ∨ p.cur.text = "str") :
    p.parseIdent what = .error (.runtime ("Expected identifier for " ++ what)) := by
  have : ¬ (p.cur.type = .Ident ∧ isUpperKeyword p.cur.text = false ∧
      isTypeWord p.cur.text = false) := by
    rintro ⟨h1, h2, h3⟩
    rcases h with h | h | h
    · exact h h1
    · rw [(isUpperKeyword_iff _).mpr h] at h2; cases h2
    · rw [(isTypeWord_iff _).mpr h] at h3; cases h3
  simp only [Parser.parseIdent, this, if_false]

theorem parseIdent_accept (p : Parser) (what : String) (h1 : p.cur.type = .Ident)
    (h2 : p.cur.text ∉ keywords) (h3 : p.cur.text ≠ "int") (h4 : p.cur.text ≠ "str") :
    p.parseIdent what =
      match p.advance with
      | .error e => .error e
      | .ok q => .ok (p.cur.text, q) := by
  have k : isUpperKeyword p.cur.text = false := by
    cases hk : isUpperKeyword p.cur.text with
    | false => rfl
    | true => exact absurd ((isUpperKeyword_iff _).mp hk) h2
  have t : isTypeWord p.cur.text = false := by
    cases ht : isTypeWord p.cur.text with
    | false => rfl
    | true =>
      rcases (isTypeWord_iff _).mp ht with e | e
      · exact absurd e h3
      · exact absurd e h4
  simp only [Parser.parseIdent, h1, k, t, and_self, if_true]

theorem parseColumnDef_type (p p1 : Parser) (name : String)
    (h : p.parseIdent "column" = .ok (name, p1)) :
    (p1.cur.type = .Ident ∧ (p1.cur.text = "int" ∨ p1.cur.text = "str") →
      p.parseColumnDef =
        match p1.advance with
        | .error e => .error e
        | .ok q => .ok ((name, if p1.cur.text = "int" then .INT else .STR), q)) ∧
    (¬ (p1.cur.type = .Ident ∧ (p1.cur.text = "int" ∨ p1.cur.text = "str")) →
      p.parseColumnDef = .error (.runtime "Expected type int or str after column name")) := by
  constructor
  · rintro ⟨h1, h2⟩
    have ht := (isTypeWord_iff _).mpr h2
    simp only [Parser.parseColumnDef, bind, Except.bind, h, h1, ht, decide_True, Bool.and_self,
      Bool.not_true, Bool.false_eq_true, if_false]
    cases p1.advance <;> rfl
  · intro hn
    have : (decide (p1.cur.type = .Ident) && isTypeWord p1.cur.text) = false := by
      cases hc : decide (p1.cur.type = .Ident) && isTypeWord p1.cur.text with
      | false => rfl
      | true =>
        simp only [Bool.and_eq_true, decide_eq_true_eq] at hc
        exact absurd ⟨hc.1, (isTypeWord_iff _).mp hc.2⟩ hn
    simp only [Parser.parseColumnDef, bind, Except.bind, h, this, Bool.not_false, if_true]
    rfl

/-- C22. Where the grammar requires a name, `parseIdent` takes the current token exactly
when it is an identifier token that is none of the eleven keywords and neither `int` nor
`str`: it then returns the text and reads on, and otherwise raises. After the name of a
column the current token is taken as the type exactly when it is the identifier `int` or
`str`; `INT`, `Str` or any other word raises. -/
theorem names_keywords_and_type_words :
    (∀ w : String, isUpperKeyword w = true ↔ w ∈ keywords) ∧
    (∀ w : String, isTypeWord w = true ↔ w = "int" ∨ w = "str") ∧
    (∀ (p : Parser) (what : String),
      (p.cur.type ≠ .Ident ∨ p.cur.text ∈ keywords ∨ p.cur.text = "int" ∨ p.cur.text = "str") →
      p.parseIdent what = .error (.runtime ("Expected identifier for " ++ what))) ∧
    (∀ (p : Parser) (what : String),
      p.cur.type = .Ident → p.cur.text ∉ keywords → p.cur.text ≠ "int" → p.cur.text ≠ "str" →
      p.parseIdent what =
        match p.advance with
        | .error e => .error e
        | .ok q => .ok (p.cur.text, q)) ∧
    (∀ (p p1 : Parser) (name : String), p.parseIdent "column" = .ok (name, p1) →
      (p1.cur.type = .Ident ∧ (p1.cur.text = "int" ∨ p1.cur.text = "str") →
        p.parseColumnDef =
          match p1.advance with
          | .error e => .error e
          | .ok q => .ok ((name, if p1.cur.text = "int" then .INT else .STR), q)) ∧
      (¬ (p1.cur.type = .Ident ∧ (p1.cur.text = "int" ∨ p1.cur.text = "str")) →
        p.parseColumnDef = .error (.runtime "Expected type int or str after column name"))) ∧
    parseAll "CREATE TABLE t (a INT);" =
      .error (.runtime "Expected type int or str after column name") ∧
    parseAll "CREATE TABLE t (a Str);" =
      .error (.runtime "Expected type int or str after column name") ∧
    parseAll "CREATE TABLE SELECT (a int);" =
      .error (.runtime "Expected identifier for table") ∧
    parseAll "CREATE TABLE t (int int);" =
      .error (.runtime "Expected identifier for column") ∧
    parseAll "SELECT a FROM str;" = .error (.runtime "Expected identifier for table") ∧
    parseAll "SELECT a FROM t WHERE SET = 1;" =
      .error (.runtime "Expected identifier for WHERE column") ∧
    parseAll "CREATE TABLE select (Int int, STR str);" =
      .ok [.create ⟨"select", [("Int", .INT), ("STR", .STR)]⟩] := by
  exact ⟨isUpperKeyword_iff, isTypeWord_iff, parseIdent_reject, parseIdent_accept,
    parseColumnDef_type, by decide, by decide, by decide, by decide, by decide, by decide,
    by decide⟩

/-! ## C33: the value of an integer literal -/

/-- The library call `std::stoll` on the text of a Number token: the optional `-` and the
digits give the number they denote, or `std::out_of_range`. -/
theorem stoll_digits (minus : Bool) (d0 : Char) (ds : List Char) (x : Int)
    (h0 : isdigit d0 = true) (hds : ∀ d ∈ ds, isdigit d = true)
    (hx : x = if minus then -(decimalValue (String.mk (d0 :: ds)) : Int)
      else (decimalValue (String.mk (d0 :: ds)) : Int)) :
    stoll (String.mk ((if minus then ['-'] else []) ++ d0 :: ds)) =
      if x < -(2 : Int) ^ 63 ∨ (2 : Int) ^ 63 - 1 < x then .error .out_of_range else .ok x := by
  have hcode := (isdigit_iff d0).mp h0
  have hs : isspace d0 = false := isspace_false_of d0 (by omega)
  have hm : d0 ≠ '-' := char_ne_of_toNat _ _ (by show d0.toNat ≠ 45; omega)
  have hp : d0 ≠ '+' := char_ne_of_toNat _ _ (by show d0.toNat ≠ 43; omega)
  have hall : ∀ d ∈ d0 :: ds, isdigit d = true := by
    intro d hd
    rcases List.mem_cons.mp hd with h | h
    · exact h ▸ h0
    · exact hds d h
  have htake := takeWhile_all isdigit (d0 :: ds) hall
  have htake2 : List.takeWhile isdigit ([].append (d0 :: ds)) = d0 :: ds := htake
  cases minus with
  | true =>
    have hsm : isspace '-' = false := by decide
    simp only [if_true] at hx
    simp only [stoll, if_true, List.singleton_append, List.dropWhile, hsm, List.head?,
      List.tail, true_or, htake, htake2, reduceCtorEq, if_false, ← hx]
  | false =>
    simp only [Bool.false_eq_true, if_false] at hx
    simp only [stoll, Bool.false_eq_true, if_false, List.nil_append, List.dropWhile, hs,
      List.head?, Option.some.injEq, hm, hp, or_self, htake, htake2, reduceCtorEq, ← hx]

/-- C33. On a Number token whose text is an optional `-` and digits, `parseLiteral` gives
the int value the digits denote, negated after `-`, when it lies in
`[-2^63, 2^63 - 1]`, and then reads the next token; leading zeros and `-0` make no
difference, and the display text of the value is its decimal form. When the number lies
outside that range `parseLiteral` raises `std::out_of_range`. -/
theorem integer_literal_value (p : Parser) (minus : Bool) (d0 : Char) (ds : List Char)
    (x : Int) (h0 : isdigit d0 = true) (hds : ∀ d ∈ ds, isdigit d = true)
    (hty : p.cur.type = .Number)
    (htext : p.cur.text = String.mk ((if minus then ['-'] else []) ++ d0 :: ds))
    (hx : x = if minus then -(decimalValue (String.mk (d0 :: ds)) : Int)
      else (decimalValue (String.mk (d0 :: ds)) : Int)) :
    (-(2 : Int) ^ 63 ≤ x ∧ x ≤ (2 : Int) ^ 63 - 1 →
      p.parseLiteral =
        (match p.advance with
        | .error e => .error e
        | .ok q => .ok (.int x, q)) ∧
      (Value.int x).toString = to_string x) ∧
    (¬ (-(2 : Int) ^ 63 ≤ x ∧ x ≤ (2 : Int) ^ 63 - 1) →
      p.parseLiteral = .error .out_of_range) := by
  have hst := stoll_digits minus d0 ds x h0 hds hx
  constructor
  · intro hr
    rw [if_neg (not_or.mpr ⟨not_lt.mpr hr.1, not_lt.mpr hr.2⟩)] at hst
    refine ⟨?_, rfl⟩
    simp only [Parser.parseLiteral, hty, if_true, htext, hst]
  · intro hr
    have hout : x < -(2 : Int) ^ 63 ∨ (2 : Int) ^ 63 - 1 < x := by
      by_contra hc
      exact hr ⟨not_lt.mp (fun h => hc (Or.inl h)), not_lt.mp (fun h => hc (Or.inr h))⟩
    rw [if_pos hout] at hst
    simp only [Parser.parseLiteral, hty, if_true, htext, hst]

/-- C33 instances: `-007` on the token, followed by `;`, gives the value -7, displayed
`-7`; `-0` gives 0; the bounds of `long long` are accepted and the numbers next to them
raise. -/
theorem integer_literal_value_witness :
    ((-(2 : Int) ^ 63 ≤ -7 ∧ (-7 : Int) ≤ (2 : Int) ^ 63 - 1 →
      Parser.parseLiteral ⟨⟨" ;".data, 1, 5⟩, ⟨.Number, "-007", 1, 2⟩⟩ =
        (match Parser.advance ⟨⟨" ;".data, 1, 5⟩, ⟨.Number, "-007", 1, 2⟩⟩ with
        | .error e => .error e
        | .ok q => .ok (.int (-7), q)) ∧
      (Value.int (-7)).toString = to_string (-7)) ∧
    (¬ (-(2 : Int) ^ 63 ≤ -7 ∧ (-7 : Int) ≤ (2 : Int) ^ 63 - 1) →
      Parser.parseLiteral ⟨⟨" ;".data, 1, 5⟩, ⟨.Number, "-007", 1, 2⟩⟩ =
        .error .out_of_range)) ∧
    to_string (-7) = "-7" ∧
    parseAll "INSERT INTO t (a) VALUES (-007, -0, 9223372036854775807, -9223372036854775808);" =
      .ok [.insert ⟨"t", ["a"],
        [[.int (-7), .int 0, .int 9223372036854775807, .int (-9223372036854775808)]]⟩] ∧
    parseAll "INSERT INTO t (a) VALUES (9223372036854775808);" = .error .out_of_range ∧
    parseAll "INSERT INTO t (a) VALUES (-9223372036854775809);" = .error .out_of_range ∧
    parseAll "INSERT INTO t (a) VALUES (00000000000000000000000000000012);" =
      .ok [.insert ⟨"t", ["a"], [[.int 12]]⟩] :=
  ⟨integer_literal_value ⟨⟨" ;".data, 1, 5⟩, ⟨.Number, "-007", 1, 2⟩⟩ true '0' ['0', '7'] (-7)
      (by decide) (by decide) rfl rfl (by decide),
    by decide, by decide, by decide, by decide, by decide⟩

/-! ## C31: a second execution of an UPDATE -/

theorem rowMatches_rows (n : String) (cols : List Column) (idx : List (String × Int))
    (rows rows2 : List Row) (r : Row) (c : Condition) :
    rowMatches ⟨n, cols, idx, rows⟩ r c = rowMatches ⟨n, cols, idx, rows2⟩ r c := rfl

theorem selected_rows (n : String) (cols : List Column) (idx : List (String × Int))
    (rows rows2 : List Row) (r : Row) (w : Option Condition) :
    selected ⟨n, cols, idx, rows⟩ r w = selected ⟨n, cols, idx, rows2⟩ r w := by
  cases w with
  | none => rfl
  | some c => rfl

theorem updateRows_rows (n : String) (cols : List Column) (idx : List (String × Int))
    (rows rows2 : List Row) (pos : List Int) (s : UpdateStmt) (l : List Row) :
    updateRows ⟨n, cols, idx, rows⟩ pos s l = updateRows ⟨n, cols, idx, rows2⟩ pos s l := by
  induction l with
  | nil => rfl
  | cons r rest ih =>
    simp only [updateRows, ih, selected_rows n cols idx rows rows2]

theorem updateIndexes_rows (n : String) (cols : List Column) (idx : List (String × Int))
    (rows rows2 : List Row) (l : List (String × Value)) :
    updateIndexes ⟨n, cols, idx, rows⟩ l = updateIndexes ⟨n, cols, idx, rows2⟩ l := by
  induction l with
  | nil => rfl
  | cons a rest ih =>
    obtain ⟨cn, v⟩ := a
    simp only [updateIndexes, ih]
    rfl

theorem updatedRow_idem (t : Table) (l : List (String × Value)) (r : Row) :
    updatedRow t l (updatedRow t l r) = updatedRow t l r := by
  apply List.ext_getElem?
  intro p
  simp only [updatedRow, List.getElem?_mapIdx]
  cases r[p]? with
  | none => rfl
  | some v => cases assignedLiteral t l p <;> rfl

theorem mapAssign_mapAssign {α : Type} (m : List (String × α)) (k : String) (v : α) :
    mapAssign (mapAssign m k v) k v = mapAssign m k v :=
  mapAssign_self _ _ _ (mapFind_mapAssign_same m k v)


/-- A second pass of the row loop of UPDATE over the rows the first pass left changes
nothing. -/
theorem updateRows_twice (t : Table) (hwf : TableWellFormed t) (s : UpdateStmt)
    (hacc : ∀ a ∈ s.assignments, AssignmentAccepted t a)
    (h1 : (updateRows t (s.assignments.map (fun a => t.indexOf a.1)) s t.rows).2 = .ok ()) :
    updateRows t (s.assignments.map (fun a => t.indexOf a.1)) s
        (updateRows t (s.assignments.map (fun a => t.indexOf a.1)) s t.rows).1 =
      ((updateRows t (s.assignments.map (fun a => t.indexOf a.1)) s t.rows).1, .ok ()) := by
  have hnn : ∀ a ∈ s.assignments, ¬ t.indexOf a.1 < 0 :=
    fun a ha => (assignmentAccepted_column t a (hacc a ha)).1
  have hfirst := updateRows_ok t s t.rows _ hnn (Prod.ext rfl h1)
  have hfit := updateRows_fits t s t.rows hacc hwf.2
  cases hrows : t.rows with
  | nil => simp [updateRows]
  | cons r0 rest =>
    have hsel : ∀ r, RowFits t.columns r → ∃ b, selected t r s.where_ = .ok b := by
      rcases selected_uniform t hwf.1 s.where_ with ⟨e, he⟩ | hall
      · exfalso
        obtain ⟨b, hb⟩ := updateRows_ok_selected t _ s t.rows h1 r0 (by rw [hrows]; simp)
        rw [he r0 (hwf.2 r0 (by rw [hrows]; simp))] at hb
        cases hb
      · exact hall
    rw [← hrows]
    have h2 := updateRows_total t s _ hacc hfit hsel
    have hsecond := updateRows_ok t s _ _ hnn (Prod.ext rfl h2)
    refine Prod.ext (hsecond.trans ?_) h2
    have hR : ∀ R : List Row,
        R = t.rows.map (fun r =>
          if selected t r s.where_ = .ok true then updatedRow t s.assignments r else r) →
        R.map (fun r =>
          if selected t r s.where_ = .ok true then updatedRow t s.assignments r else r) = R := by
      intro R hR
      rw [hR, List.map_map]
      apply List.map_congr_left
      intro r _
      simp only [Function.comp]
      by_cases hr : selected t r s.where_ = .ok true
      · simp only [hr, if_true]
        split
        · exact updatedRow_idem t s.assignments r
        · rfl
      · simp only [hr, if_false]
    exact hR _ hfirst


/-- C31. On a database reachable from the empty one, an UPDATE that succeeds succeeds
again when it is executed a second time, and the second execution leaves the database as
the first one left it. -/
theorem update_is_idempotent (db : Database) (s : UpdateStmt) (hdb : Reachable db)
    (hok : ∃ v, (execute db (.update s)).result = .ok v) :
    execute (execute db (.update s)).db (.update s) = execute db (.update s) := by
  obtain ⟨v, hv⟩ := hok
  have hwf := reachable_wellFormed db hdb
  simp only [execute] at hv ⊢
  cases ht : mapFind db.tables s.table with
  | none => simp [execUpdate, ht] at hv
  | some t =>
    cases hi : updateIndexes t s.assignments with
    | error e => simp [execUpdate, ht, hi] at hv
    | ok idx =>
      obtain ⟨hidx, hacc⟩ := updateIndexes_ok_inv t s.assignments idx hi
      subst hidx
      have h1 : (updateRows t (s.assignments.map (fun a => t.indexOf a.1)) s t.rows).2 =
          .ok () := by
        cases h : (updateRows t (s.assignments.map (fun a => t.indexOf a.1)) s t.rows).2 with
        | error e => simp [execUpdate, ht, hi, h, Except.map] at hv
        | ok u => rfl
      have htwice := updateRows_twice t (hwf _ t ht) s hacc h1
      obtain ⟨n, cols, cidx, rows⟩ := t
      have hfirst : execUpdate db s =
          ⟨⟨mapAssign db.tables s.table ⟨n, cols, cidx,
            (updateRows ⟨n, cols, cidx, rows⟩
              (s.assignments.map (fun a => Table.indexOf ⟨n, cols, cidx, rows⟩ a.1)) s rows).1⟩⟩,
            .ok none⟩ := by
        simp only [execUpdate, ht, hi]
        rw [h1]; rfl
      rw [hfirst]
      have hi2 := updateIndexes_rows n cols cidx rows
        (updateRows ⟨n, cols, cidx, rows⟩
          (s.assignments.map (fun a => Table.indexOf ⟨n, cols, cidx, rows⟩ a.1)) s rows).1
        s.assignments
      have hr2 := updateRows_rows n cols cidx rows
        (updateRows ⟨n, cols, cidx, rows⟩
          (s.assignments.map (fun a => Table.indexOf ⟨n, cols, cidx, rows⟩ a.1)) s rows).1
        (s.assignments.map (fun a => Table.indexOf ⟨n, cols, cidx, rows⟩ a.1)) s
        (updateRows ⟨n, cols, cidx, rows⟩
          (s.assignments.map (fun a => Table.indexOf ⟨n, cols, cidx, rows⟩ a.1)) s rows).1
      simp only [execUpdate, mapFind_mapAssign_same, ← hi2, hi, ← hr2, htwice,
        mapAssign_mapAssign]
      rfl

/-- C31 instance: `UPDATE t SET id = 2, id = 1 WHERE id = 1` on the rows (1, Alice),
(2, Bob), (3, Cara) succeeds and a second execution changes nothing. -/
theorem update_is_idempotent_witness :
    (execute threeRows (.update ⟨"t", [("id", .int 2), ("id", .int 1)],
        some ⟨"id", .EQ, .int 1⟩⟩)).result = .ok none ∧
    execute (execute threeRows (.update ⟨"t", [("id", .int 2), ("id", .int 1)],
        some ⟨"id", .EQ, .int 1⟩⟩)).db
      (.update ⟨"t", [("id", .int 2), ("id", .int 1)], some ⟨"id", .EQ, .int 1⟩⟩) =
    execute threeRows (.update ⟨"t", [("id", .int 2), ("id", .int 1)],
        some ⟨"id", .EQ, .int 1⟩⟩) :=
  ⟨by decide, update_is_idempotent threeRows
    ⟨"t", [("id", .int 2), ("id", .int 1)], some ⟨"id", .EQ, .int 1⟩⟩ threeRows_reachable
    ⟨none, by decide⟩⟩

/-! ## C32: the name index and accesses within bounds -/

theorem indexLast_push (t : Table) (n : String) (ty : ColType) (h : IndexLast t) :
    IndexLast { t with columns := t.columns ++ [⟨n, ty⟩],
                       colIndex := mapAssign t.colIndex n (Int.ofNat t.columns.length) } := by
  intro m j k col hj hjk hk
  replace hk : (t.columns ++ [(⟨n, ty⟩ : Column)])[k]? = some col := hk
  by_cases hm : n = m
  · subst hm
    have hidx : Table.indexOf ⟨t.name, t.columns ++ [⟨n, ty⟩],
        mapAssign t.colIndex n (Int.ofNat t.columns.length), t.rows⟩ n =
        Int.ofNat t.columns.length := by
      simp [Table.indexOf, mapFind_mapAssign_same]
    rw [hidx] at hj
    have hj2 : t.columns.length = j := Int.ofNat.inj hj
    rw [List.getElem?_eq_none (by simp; omega)] at hk
    cases hk
  · have hidx : Table.indexOf ⟨t.name, t.columns ++ [⟨n, ty⟩],
        mapAssign t.colIndex n (Int.ofNat t.columns.length), t.rows⟩ m = t.indexOf m := by
      simp [Table.indexOf, mapFind_mapAssign_other _ _ _ _ hm]
    rw [hidx] at hj
    rcases Nat.lt_or_ge k t.columns.length with hlt | hge
    · rw [List.getElem?_append_left hlt] at hk
      exact h m j k col hj hjk hk
    · rw [List.getElem?_append_right hge] at hk
      cases hkk : k - t.columns.length with
      | zero =>
        rw [hkk] at hk
        simp at hk
        subst hk
        exact hm
      | succ q =>
        rw [hkk] at hk
        simp at hk

theorem createColumns_last (cols : List (String × ColType)) (t : Table)
    (h : IndexLast t) : IndexLast (createColumns cols t.columns.length t) := by
  induction cols generalizing t with
  | nil => simpa [createColumns] using h
  | cons c rest ih =>
    obtain ⟨n, ty⟩ := c
    have h2 := ih _ (indexLast_push t n ty h)
    simpa [createColumns] using h2

theorem indexLast_blank (name : String) :
    IndexLast { name := name, columns := [], colIndex := [], rows := [] } := by
  intro n j k col hj
  simp [Table.indexOf, mapFind] at hj

theorem execute_indexLast (db : Database) (st : Statement) (hdb : IndexLastDb db) :
    IndexLastDb (execute db st).db := by
  intro name t2 h
  cases hT : st.rowTable with
  | some T =>
    obtain ⟨h1, h2⟩ := rowStatement_db db st T hT
    cases hf : mapFind db.tables T with
    | none =>
      rw [h1 hf] at h
      exact hdb name t2 h
    | some t =>
      obtain ⟨rows, hrows⟩ := h2 t hf
      rw [hrows] at h
      by_cases hn : T = name
      · subst hn
        rw [show (Database.mk (mapAssign db.tables T { t with rows := rows })).tables =
          mapAssign db.tables T { t with rows := rows } from rfl, mapFind_mapAssign_same] at h
        cases h
        exact hdb T t hf
      · rw [show (Database.mk (mapAssign db.tables T { t with rows := rows })).tables =
          mapAssign db.tables T { t with rows := rows } from rfl,
          mapFind_mapAssign_other _ _ _ _ hn] at h
        exact hdb name t2 h
  | none =>
    cases st with
    | insert s => cases hT
    | delete s => cases hT
    | update s => cases hT
    | select s =>
      rw [show (execute db (.select s)).db = db from execSelect_db db s] at h
      exact hdb name t2 h
    | create s =>
      simp only [execute, execCreate] at h
      split at h
      · exact hdb name t2 h
      · rename_i hnone
        have hnone2 := optionIsSome_false _ hnone
        simp only [createColumns_name] at h
        rw [mapFind_mapEmplace _ _ _ _ hnone2] at h
        split at h
        · cases h
          exact createColumns_last s.columns _ (indexLast_blank s.table)
        · exact hdb name t2 h

theorem reachable_indexLast (db : Database) (h : Reachable db) : IndexLastDb db := by
  obtain ⟨stmts, rfl⟩ := h
  have key : ∀ (l : List Statement) (d : Database), IndexLastDb d → IndexLastDb (runAll d l) := by
    intro l
    induction l with
    | nil => intro d hd; exact hd
    | cons st rest ih => intro d hd; exact ih _ (execute_indexLast d st hd)
  apply key
  intro n t ht
  simp [emptyDb, mapFind] at ht


theorem insertPositions_inv (t : Table) (cols : List String) (pos : List Int)
    (h : insertPositions t cols = .ok pos) :
    pos = cols.map t.indexOf ∧ ∀ cn ∈ cols, ¬ t.indexOf cn < 0 := by
  induction cols generalizing pos with
  | nil =>
    simp [insertPositions] at h
    subst h
    simp
  | cons cn rest ih =>
    simp only [insertPositions] at h
    by_cases hj : t.indexOf cn < 0
    · rw [if_pos hj] at h; cases h
    · rw [if_neg hj] at h
      cases hr : insertPositions t rest with
      | error e => rw [hr] at h; cases h
      | ok p2 =>
        rw [hr] at h
        obtain ⟨h1, h2⟩ := ih p2 hr
        cases h
        refine ⟨by simp [h1], ?_⟩
        intro c hc
        rcases List.mem_cons.1 hc with rfl | hc
        · exact hj
        · exact h2 c hc

theorem insertPositions_raises (t : Table) (cols : List String) (e : Error)
    (h : insertPositions t cols = .error e) : ∃ cn, e = .unknownColumn cn := by
  induction cols with
  | nil => simp [insertPositions] at h
  | cons cn rest ih =>
    simp only [insertPositions] at h
    by_cases hj : t.indexOf cn < 0
    · rw [if_pos hj] at h; cases h; exact ⟨cn, rfl⟩
    · rw [if_neg hj] at h
      cases hr : insertPositions t rest with
      | error e2 =>
        rw [hr] at h
        cases h
        exact ih hr
      | ok p2 => rw [hr] at h; cases h

theorem typeCheckAssign_raises (col : Column) (v : Value) (e : Error)
    (h : typeCheckAssign col v = .error e) : e ≠ .outOfRange := by
  unfold typeCheckAssign at h
  split_ifs at h <;> cases h <;> simp

theorem fillRow_in_bounds (t : Table) (pos : List Int) (values : List Value) (r : Row)
    (hpos : ∀ j ∈ pos, ∃ col, t.columns[j.toNat]? = some col) :
    fillRow t pos values r ≠ .error .outOfRange := by
  induction pos generalizing values r with
  | nil => simp [fillRow]
  | cons j pos ih =>
    cases values with
    | nil => simp [fillRow]
    | cons v values =>
      obtain ⟨col, hcol⟩ := hpos j (List.mem_cons_self _ _)
      simp only [fillRow, hcol]
      cases hc : typeCheckAssign col v with
      | error e =>
        intro h
        simp only at h
        cases h
        exact typeCheckAssign_raises col v _ hc rfl
      | ok u => exact ih values _ (fun j2 hj2 => hpos j2 (List.mem_cons_of_mem _ hj2))

theorem insertRows_in_bounds (t : Table) (pos : List Int) (rows : List (List Value))
    (acc : List Row) (hpos : ∀ j ∈ pos, ∃ col, t.columns[j.toNat]? = some col) :
    (insertRows t pos rows acc).2 ≠ .error .outOfRange := by
  induction rows generalizing acc with
  | nil => simp [insertRows]
  | cons values rest ih =>
    simp only [insertRows]
    by_cases hl : values.length ≠ pos.length
    · rw [if_pos hl]; simp
    · rw [if_neg hl]
      cases hf : fillRow t pos values (t.columns.map (fun col => defaultFor col.type)) with
      | error e =>
        intro h
        simp only at h
        cases h
        exact fillRow_in_bounds t pos values _ hpos hf
      | ok r => exact ih _

theorem indexed_position (t : Table) (hidx : IndexConsistent t) (cn : String)
    (h : ¬ t.indexOf cn < 0) : ∃ col, t.columns[(t.indexOf cn).toNat]? = some col := by
  rcases hidx cn with ⟨h1, _⟩ | ⟨j, h1, col, h2, _⟩
  · rw [h1] at h; exact absurd (by decide) h
  · rw [h1]; exact ⟨col, h2⟩

theorem compareValues_raises (a b : Value) (e : Error) (h : compareValues a b = .error e) :
    e ≠ .outOfRange := by
  cases a <;> cases b <;> simp only [compareValues] at h
  · split_ifs at h
  · cases h; simp
  · cases h; simp
  · split_ifs at h

theorem compareValues_map_raises (a b : Value) (f : Int → Bool) :
    (compareValues a b).map f ≠ .error .outOfRange := by
  cases hc : compareValues a b with
  | error e =>
    intro h
    simp only [Except.map] at h
    cases h
    exact compareValues_raises _ _ _ hc rfl
  | ok k => simp [Except.map]

theorem rowMatches_in_bounds (t : Table) (hidx : IndexConsistent t) (r : Row)
    (hr : RowFits t.columns r) (c : Condition) : rowMatches t r c ≠ .error .outOfRange := by
  unfold rowMatches
  simp only
  by_cases hj : t.indexOf c.column < 0
  · rw [if_pos hj]; simp
  · rw [if_neg hj]
    obtain ⟨col, hcol⟩ := indexed_position t hidx c.column hj
    obtain ⟨v, hv, _⟩ := rowFits_getElem? t.columns r hr _ col hcol
    rw [hv]
    simp only
    cases c.op <;> simp only <;>
      first
        | exact compareValues_map_raises _ _ _
        | simp

theorem selected_in_bounds (t : Table) (hidx : IndexConsistent t) (r : Row)
    (hr : RowFits t.columns r) (w : Option Condition) : selected t r w ≠ .error .outOfRange := by
  cases w with
  | none => simp [selected]
  | some c => exact rowMatches_in_bounds t hidx r hr c

theorem updateIndexes_in_bounds (t : Table) (hidx : IndexConsistent t)
    (l : List (String × Value)) : updateIndexes t l ≠ .error .outOfRange := by
  induction l with
  | nil => simp [updateIndexes]
  | cons a rest ih =>
    obtain ⟨cn, v⟩ := a
    simp only [updateIndexes]
    by_cases hj : t.indexOf cn < 0
    · rw [if_pos hj]; simp
    · rw [if_neg hj]
      obtain ⟨col, hcol⟩ := indexed_position t hidx cn hj
      rw [hcol]
      simp only
      cases hc : typeCheckAssign col v with
      | error e =>
        intro h
        simp only at h
        cases h
        exact typeCheckAssign_raises col v _ hc rfl
      | ok u =>
        simp only
        cases hr : updateIndexes t rest with
        | error e =>
          intro h
          simp only [Except.map] at h
          cases h
          exact ih hr
        | ok idx => simp [Except.map]

theorem projectColumns_in_bounds (t : Table) (hidx : IndexConsistent t) (cols : List String) :
    projectColumns t cols ≠ .error .outOfRange := by
  induction cols with
  | nil => simp [projectColumns]
  | cons cn rest ih =>
    simp only [projectColumns]
    by_cases hj : t.indexOf cn < 0
    · rw [if_pos hj]; simp
    · rw [if_neg hj]
      obtain ⟨col, hcol⟩ := indexed_position t hidx cn hj
      rw [hcol]
      simp only
      cases hr : projectColumns t rest with
      | error e =>
        intro h
        simp only [Except.map] at h
        cases h
        exact ih hr
      | ok ph => simp [Except.map]

theorem projectColumns_positions (t : Table) (hidx : IndexConsistent t) (cols : List String)
    (ph : List Int × List String) (h : projectColumns t cols = .ok ph) :
    ∀ j ∈ ph.1, j.toNat < t.columns.length := by
  induction cols generalizing ph with
  | nil =>
    simp [projectColumns] at h
    subst h
    simp
  | cons cn rest ih =>
    simp only [projectColumns] at h
    by_cases hj : t.indexOf cn < 0
    · rw [if_pos hj] at h; cases h
    · rw [if_neg hj] at h
      obtain ⟨col, hcol⟩ := indexed_position t hidx cn hj
      rw [hcol] at h
      simp only at h
      cases hr : projectColumns t rest with
      | error e => rw [hr] at h; cases h
      | ok ph2 =>
        rw [hr] at h
        simp only [Except.map] at h
        cases h
        intro j hjm
        rcases List.mem_cons.1 hjm with rfl | hjm
        · rcases Nat.lt_or_ge (t.indexOf cn).toNat t.columns.length with hlt | hge
          · exact hlt
          · rw [List.getElem?_eq_none hge] at hcol; cases hcol
        · exact ih ph2 hr j hjm

theorem selectProjection_positions (t : Table) (hidx : IndexConsistent t) (s : SelectStmt)
    (ph : List Int × List String) (h : selectProjection t s = .ok ph) :
    ∀ j ∈ ph.1, j.toNat < t.columns.length := by
  unfold selectProjection at h
  by_cases hall : s.selectAll = true
  · rw [if_pos hall] at h
    cases h
    intro j hj
    simp only [List.mem_map, List.mem_range] at hj
    obtain ⟨k, hk, rfl⟩ := hj
    exact hk
  · rw [if_neg hall] at h
    exact projectColumns_positions t hidx s.cols ph h

theorem projectRow_in_bounds (r : Row) (proj : List Int) (h : ∀ j ∈ proj, j.toNat < r.length) :
    projectRow r proj ≠ .error .outOfRange := by
  induction proj with
  | nil => simp [projectRow]
  | cons j proj ih =>
    simp only [projectRow]
    have hj := h j (List.mem_cons_self _ _)
    rw [List.getElem?_eq_getElem hj]
    simp only
    cases hr : projectRow r proj with
    | error e =>
      intro h2
      simp only [Except.map] at h2
      cases h2
      exact ih (fun j2 hj2 => h j2 (List.mem_cons_of_mem _ hj2)) hr
    | ok line => simp [Except.map]

theorem selectRows_in_bounds (t : Table) (hidx : IndexConsistent t) (proj : List Int)
    (hproj : ∀ j ∈ proj, j.toNat < t.columns.length) (w : Option Condition) (rows : List Row)
    (hrows : ∀ r ∈ rows, RowFits t.columns r) :
    selectRows t proj w rows ≠ .error .outOfRange := by
  induction rows with
  | nil => simp [selectRows]
  | cons r rest ih =>
    have hr := hrows r (List.mem_cons_self _ _)
    have ih2 := ih (fun r2 hr2 => hrows r2 (List.mem_cons_of_mem _ hr2))
    simp only [selectRows]
    cases hs : selected t r w with
    | error e =>
      intro h
      simp only at h
      cases h
      exact selected_in_bounds t hidx r hr w hs
    | ok b =>
      cases b with
      | false => exact ih2
      | true =>
        simp only
        cases hp : projectRow r proj with
        | error e =>
          intro h
          simp only at h
          cases h
          exact projectRow_in_bounds r proj
            (fun j hj => by rw [rowFits_length t.columns r hr]; exact hproj j hj) hp
        | ok line =>
          simp only
          cases hrest : selectRows t proj w rest with
          | error e =>
            intro h
            simp only [Except.map] at h
            cases h
            exact ih2 hrest
          | ok out => simp [Except.map]

theorem execute_in_bounds (db : Database) (hdb : WellFormedDb db) (st : Statement) :
    (execute db st).result ≠ .error .outOfRange := by
  cases st with
  | create s =>
    simp only [execute, execCreate]
    split <;> simp
  | insert s =>
    simp only [execute, execInsert]
    cases ht : mapFind db.tables s.table with
    | none => simp
    | some t =>
      simp only
      cases hp : insertPositions t s.cols with
      | error e =>
        obtain ⟨cn, rfl⟩ := insertPositions_raises t s.cols e hp
        simp
      | ok pos =>
        simp only
        obtain ⟨hpos, hnn⟩ := insertPositions_inv t s.cols pos hp
        have hb := insertRows_in_bounds t pos s.rows t.rows (by
          intro j hj
          rw [hpos] at hj
          obtain ⟨cn, hcn, rfl⟩ := List.mem_map.1 hj
          exact indexed_position t (hdb _ t ht).1 cn (hnn cn hcn))
        cases hres : (insertRows t pos s.rows t.rows).2 with
        | error e =>
          intro h
          simp only [Except.map] at h
          cases h
          exact hb hres
        | ok u => simp [Except.map]
  | delete s =>
    simp only [execute, execDelete]
    cases ht : mapFind db.tables s.table with
    | none => simp
    | some t =>
      simp only
      cases hw : s.where_ with
      | none => simp
      | some c =>
        simp only
        rcases removeIf_wellFormed t (hdb _ t ht) c with ⟨h, _⟩ | ⟨e, h, hne, hall⟩
        · rw [h]; simp [Except.map]
        · rw [h]
          intro h2
          simp only [Except.map] at h2
          cases h2
          cases hrows : t.rows with
          | nil => exact hne hrows
          | cons r rest =>
            have hr : r ∈ t.rows := by rw [hrows]; exact List.mem_cons_self _ _
            exact rowMatches_in_bounds t (hdb _ t ht).1 r ((hdb _ t ht).2 r hr) c (hall r hr)
  | update s =>
    simp only [execute, execUpdate]
    cases ht : mapFind db.tables s.table with
    | none => simp
    | some t =>
      simp only
      cases hi : updateIndexes t s.assignments with
      | error e =>
        intro h
        simp only at h
        cases h
        exact updateIndexes_in_bounds t (hdb _ t ht).1 s.assignments hi
      | ok idx =>
        simp only
        obtain ⟨hmap, hacc⟩ := updateIndexes_ok_inv t s.assignments idx hi
        subst hmap
        rcases selected_uniform t (hdb _ t ht).1 s.where_ with ⟨e, he⟩ | hsel
        · cases hrows : t.rows with
          | nil => simp [updateRows, Except.map]
          | cons r rest =>
            have hr : r ∈ t.rows := by rw [hrows]; exact List.mem_cons_self _ _
            have hre := he r ((hdb _ t ht).2 r hr)
            rw [updateRows_raise_first t _ s r rest e hre]
            intro h2
            simp only [Except.map] at h2
            cases h2
            exact selected_in_bounds t (hdb _ t ht).1 r ((hdb _ t ht).2 r hr) s.where_ hre
        · rw [updateRows_total t s t.rows hacc (hdb _ t ht).2 hsel]
          simp [Except.map]
  | select s =>
    simp only [execute, execSelect]
    cases ht : mapFind db.tables s.table with
    | none => simp
    | some t =>
      simp only
      cases hp : selectProjection t s with
      | error e =>
        intro h
        simp only at h
        cases h
        unfold selectProjection at hp
        by_cases hall : s.selectAll = true
        · rw [if_pos hall] at hp; cases hp
        · rw [if_neg hall] at hp
          exact projectColumns_in_bounds t (hdb _ t ht).1 s.cols hp
      | ok ph =>
        simp only
        cases hr : selectRows t ph.1 s.where_ t.rows with
        | error e =>
          intro h
          simp only at h
          cases h
          exact selectRows_in_bounds t (hdb _ t ht).1 ph.1
            (selectProjection_positions t (hdb _ t ht).1 s ph hp) s.where_ t.rows
            (hdb _ t ht).2 hr
        | ok out => simp


/-- C32. In every table of a database reachable from the empty one, `indexOf` returns
`-1` exactly for the names no column bears, and for every other name a position `j` below
the number of columns at which a column of that name stands, no later column bearing the
name; every stored row has one cell per column; and no statement executed on such a
database reads or writes a vector outside its bounds. -/
theorem index_consistent_and_in_bounds (db : Database) (hdb : Reachable db) :
    (∀ name t, mapFind db.tables name = some t →
      (∀ n : String,
        (t.indexOf n = -1 ↔ ∀ col ∈ t.columns, col.name ≠ n) ∧
        (t.indexOf n ≠ -1 → ∃ j : Nat, t.indexOf n = Int.ofNat j ∧ j < t.columns.length ∧
          (∃ col, t.columns[j]? = some col ∧ col.name = n) ∧
          ∀ k col, j < k → t.columns[k]? = some col → col.name ≠ n)) ∧
      ∀ r ∈ t.rows, r.length = t.columns.length) ∧
    ∀ st, (execute db st).result ≠ .error .outOfRange := by
  have hwf := reachable_wellFormed db hdb
  have hlast := reachable_indexLast db hdb
  refine ⟨?_, fun st => execute_in_bounds db hwf st⟩
  intro name t ht
  refine ⟨?_, fun r hr => rowFits_length t.columns r ((hwf name t ht).2 r hr)⟩
  intro n
  rcases (hwf name t ht).1 n with ⟨h1, h2⟩ | ⟨j, h1, col, h2, h3⟩
  · exact ⟨⟨fun _ => h2, fun _ => h1⟩, fun h => absurd h1 h⟩
  · have hne : t.indexOf n ≠ -1 := by
      rw [h1]
      intro h
      cases h
    have hj : j < t.columns.length := by
      rcases Nat.lt_or_ge j t.columns.length with hlt | hge
      · exact hlt
      · rw [List.getElem?_eq_none hge] at h2; cases h2
    refine ⟨⟨fun h => absurd h hne, fun h => absurd h3 (h col (List.getElem?_mem h2))⟩, ?_⟩
    intro _
    exact ⟨j, h1, hj, ⟨col, h2, h3⟩, fun k col2 hk hc => hlast name t ht n j k col2 h1 hk hc⟩

/-- C32 instance: the table `t (a int, b str, a int)` with one row, where `a` is indexed
at its last declaration. -/
theorem index_consistent_and_in_bounds_witness :
    (∀ name t, mapFind repeatedName.tables name = some t →
      (∀ n : String,
        (t.indexOf n = -1 ↔ ∀ col ∈ t.columns, col.name ≠ n) ∧
        (t.indexOf n ≠ -1 → ∃ j : Nat, t.indexOf n = Int.ofNat j ∧ j < t.columns.length ∧
          (∃ col, t.columns[j]? = some col ∧ col.name = n) ∧
          ∀ k col, j < k → t.columns[k]? = some col → col.name ≠ n)) ∧
      ∀ r ∈ t.rows, r.length = t.columns.length) ∧
    ∀ st, (execute repeatedName st).result ≠ .error .outOfRange :=
  index_consistent_and_in_bounds repeatedName
    ⟨[.create ⟨"t", [("a", .INT), ("b", .STR), ("a", .INT)]⟩,
      .insert ⟨"t", ["a", "b"], [[.int 2, .str "x"]]⟩], rfl⟩

theorem repeatedName_table :
    mapFind repeatedName.tables "t" =
      some ⟨"t", [⟨"a", .INT⟩, ⟨"b", .STR⟩, ⟨"a", .INT⟩], [("a", 2), ("b", 1)],
        [[.int 0, .str "x", .int 2]]⟩ := by decide

/-! ## C21: the column list of CREATE TABLE -/

theorem stream_columnDef_noName (p : Parser) (rest : List (TokType × String))
    (hs : Stream p rest) (hhead : ∀ t, rest.head? = some t → isNameTok t = false) :
    p.parseColumnDef = .error (.runtime "Expected identifier for column") := by
  have : ¬ (p.cur.type = .Ident ∧ isUpperKeyword p.cur.text = false ∧
      isTypeWord p.cur.text = false) := by
    rintro ⟨h1, h2, h3⟩
    cases rest with
    | nil =>
      rw [show p.cur.type = .End from hs.2.1] at h1
      cases h1
    | cons t ts =>
      have ht := hhead t rfl
      rw [show p.cur.type = t.1 from hs.2.1] at h1
      rw [show p.cur.text = t.2 from hs.2.2.1] at h2 h3
      simp [isNameTok, h1, h2, h3] at ht
  simp [Parser.parseColumnDef, Parser.parseIdent, this, bind, Except.bind]

theorem stream_columnDef_noType (p : Parser) (c : String) (rest : List (TokType × String))
    (hs : Stream p (wordTok c :: rest)) (hc : isName c = true)
    (hhead : ∀ t, rest.head? = some t → isTypeTok t = false) :
    p.parseColumnDef = .error (.runtime "Expected type int or str after column name") := by
  obtain ⟨p1, h1, s1⟩ := stream_parseIdent p c "column" _ hs hc
  have : (decide (p1.cur.type = .Ident) && isTypeWord p1.cur.text) = false := by
    cases rest with
    | nil =>
      rw [show p1.cur.type = .End from s1.2.1]
      rfl
    | cons t ts =>
      have ht := hhead t rfl
      rw [show p1.cur.type = t.1 from s1.2.1, show p1.cur.text = t.2 from s1.2.2.1]
      exact ht
  simp [Parser.parseColumnDef, bind, Except.bind, h1, this]
  rfl

theorem commaColumns_length (cs : List (String × ColType)) :
    ((cs.map (fun c => [wordTok c.1, wordTok (typeWord c.2)])).flatMap
      (fun y => (TokType.Comma, ",") :: y)).length = 3 * cs.length := by
  induction cs with
  | nil => rfl
  | cons c cs ih =>
    simp only [List.map_cons, List.flatMap_cons, List.length_append, ih, List.length_cons,
      List.length_nil]
    omega

theorem columnThenComma_length (cs : List (String × ColType)) :
    (cs.flatMap columnThenComma).length = 3 * cs.length := by
  induction cs with
  | nil => rfl
  | cons c cs ih =>
    simp only [List.flatMap_cons, List.length_append, ih, columnThenComma, List.length_cons,
      List.length_nil]
    omega

theorem stream_createLoop_error (e : ParseError) (rest : List (TokType × String))
    (hrest : ∀ q, Stream q rest → q.parseColumnDef = .error e)
    (cs : List (String × ColType)) (hn : ∀ c ∈ cs, isName c.1 = true) :
    ∀ (bound : Nat) (p : Parser) (acc : List (String × ColType)),
      cs.length < bound →
      Stream p ((TokType.Comma, ",") :: (cs.flatMap columnThenComma ++ rest)) →
      Parser.createLoop bound p acc = .error e := by
  induction cs with
  | nil =>
    intro bound p acc hb hs
    cases bound with
    | zero => simp at hb
    | succ bound =>
      obtain ⟨p1, h1, s1⟩ := stream_accept p _ _ hs
      replace s1 : Stream p1 rest := s1
      simp [Parser.createLoop, bind, Except.bind, h1, hrest p1 s1]
  | cons c cs ih =>
    intro bound p acc hb hs
    cases bound with
    | zero => simp at hb
    | succ bound =>
      obtain ⟨p1, h1, s1⟩ := stream_accept p _ _ hs
      replace s1 : Stream p1 (wordTok c.1 :: wordTok (typeWord c.2) ::
          ((TokType.Comma, ",") :: (cs.flatMap columnThenComma ++ rest))) := by
        simpa [columnThenComma] using s1
      obtain ⟨p2, h2, s2⟩ := stream_parseColumnDef p1 c _ s1 (hn c (List.mem_cons_self _ _))
      have h3 := ih (fun m hm => hn m (List.mem_cons_of_mem _ hm)) bound p2 (acc ++ [c])
        (by simpa using hb) s2
      simp [Parser.createLoop, bind, Except.bind, h1, h2, h3]

theorem stream_parseCreate_error (e : ParseError) (rest : List (TokType × String))
    (hrest : ∀ q, Stream q rest → q.parseColumnDef = .error e)
    (n : String) (hname : isName n = true)
    (cs : List (String × ColType)) (hn : ∀ c ∈ cs, isName c.1 = true) (p : Parser)
    (hs : Stream p (wordTok "CREATE" :: wordTok "TABLE" :: wordTok n :: (TokType.LParen, "(") ::
      (cs.flatMap columnThenComma ++ rest))) :
    p.parseCreate = .error e := by
  obtain ⟨p1, h1, s1⟩ := stream_expectWord p "CREATE" "Expected CREATE" _ hs
  obtain ⟨p2, h2, s2⟩ := stream_expectWord p1 "TABLE" "Expected TABLE" _ s1
  obtain ⟨p3, h3, s3⟩ := stream_parseIdent p2 n "table" _ s2 hname
  obtain ⟨p4, h4, s4⟩ := stream_expect p3 _ _ "Expected '('" s3
  cases cs with
  | nil =>
    replace s4 : Stream p4 rest := s4
    simp [Parser.parseCreate, bind, Except.bind, h1, h2, h3, h4, hrest p4 s4]
  | cons c cs =>
    replace s4 : Stream p4 (wordTok c.1 :: wordTok (typeWord c.2) ::
        ((TokType.Comma, ",") :: (cs.flatMap columnThenComma ++ rest))) := by
      simpa [columnThenComma] using s4
    obtain ⟨p5, h5, s5⟩ := stream_parseColumnDef p4 c _ s4 (hn c (List.mem_cons_self _ _))
    have hlen := stream_length p5 _ s5
    have h6 := stream_createLoop_error e rest hrest cs
      (fun m hm => hn m (List.mem_cons_of_mem _ hm)) (p5.lx.s.length + 1) p5 [c] (by
        simp only [List.length_cons, List.length_append, columnThenComma_length] at hlen
        omega) s5
    simp [Parser.parseCreate, bind, Except.bind, h1, h2, h3, h4, h5, h6]

theorem stream_parseCreate_unclosed (n : String) (hname : isName n = true)
    (c : String × ColType) (cs : List (String × ColType))
    (hn : ∀ x ∈ c :: cs, isName x.1 = true) (rest : List (TokType × String))
    (hhead : ∀ t, rest.head? = some t → t.1 ≠ .Comma ∧ t.1 ≠ .RParen) (p : Parser)
    (hs : Stream p (wordTok "CREATE" :: wordTok "TABLE" :: wordTok n :: (TokType.LParen, "(") ::
      (commaSep ((c :: cs).map (fun x => [wordTok x.1, wordTok (typeWord x.2)])) ++ rest))) :
    p.parseCreate = .error (.runtime "Expected ')' after column list") := by
  replace hs : Stream p (wordTok "CREATE" :: wordTok "TABLE" :: wordTok n ::
      (TokType.LParen, "(") :: wordTok c.1 :: wordTok (typeWord c.2) ::
      ((cs.map (fun c => [wordTok c.1, wordTok (typeWord c.2)])).flatMap
        (fun y => (TokType.Comma, ",") :: y) ++ rest)) := by
    simpa [commaSep] using hs
  obtain ⟨p1, h1, s1⟩ := stream_expectWord p "CREATE" "Expected CREATE" _ hs
  obtain ⟨p2, h2, s2⟩ := stream_expectWord p1 "TABLE" "Expected TABLE" _ s1
  obtain ⟨p3, h3, s3⟩ := stream_parseIdent p2 n "table" _ s2 hname
  obtain ⟨p4, h4, s4⟩ := stream_expect p3 _ _ "Expected '('" s3
  obtain ⟨p5, h5, s5⟩ := stream_parseColumnDef p4 c _ s4 (hn c (List.mem_cons_self _ _))
  have hlen := stream_length p5 _ s5
  obtain ⟨p6, h6, s6⟩ := stream_createLoop cs
    (fun x hx => hn x (List.mem_cons_of_mem _ hx)) (p5.lx.s.length + 1) p5 [c] _ (by
      simp only [List.length_append, commaColumns_length] at hlen
      omega) s5 (fun t ht => (hhead t ht).1)
  have h7 : p6.cur.type ≠ .RParen := by
    cases rest with
    | nil => rw [show p6.cur.type = .End from s6.2.1]; decide
    | cons t ts => rw [show p6.cur.type = t.1 from s6.2.1]; exact (hhead t rfl).2
  have h8 : p6.expect .RParen "Expected ')' after column list" =
      .error (.runtime "Expected ')' after column list") := by
    simp [Parser.expect, Parser.accept, h7]
  simp [Parser.parseCreate, bind, Except.bind, h1, h2, h3, h4, h5, h6, h8]

theorem parseAllLoop_create_error (bound : Nat) (p : Parser) (out : List Statement)
    (e : ParseError) (h1 : p.cur.type = .Ident) (h2 : p.cur.text = "CREATE")
    (h : p.parseCreate = .error e) :
    Parser.parseAllLoop (bound + 1) p out = .error e := by
  have hk : isUpperKeyword "CREATE" = true := by decide
  simp [Parser.parseAllLoop, Parser.parseStatement, h1, h2, hk, h, bind, Except.bind,
    Except.map]


/-- C21. `parseAll` raises on a CREATE TABLE whose column list is empty or ends with a
comma (the token where a column name is due is not a name), has a column without a type
(the token after a column name is not `int` or `str`), or is not closed (the token after
the last column definition is neither `,` nor `)`), wherever the statement stands after
written statements; the four examples raise and a CREATE with one column parses. -/
theorem create_column_list_shape :
    (∀ (ts : List Statement) (n : String) (cs : List (String × ColType))
        (rest : List (TokType × String)),
      (∀ st ∈ ts, statementOk st = true) → isName n = true → (∀ c ∈ cs, isName c.1 = true) →
      (∀ t ∈ rest, Lexes t) → (∀ t, rest.head? = some t → isNameTok t = false) →
      parseAll (String.mk (tokensText (programToks ts ++
          (wordTok "CREATE" :: wordTok "TABLE" :: wordTok n :: (TokType.LParen, "(") ::
            (cs.flatMap columnThenComma ++ rest))))) =
        .error (.runtime "Expected identifier for column")) ∧
    (∀ (ts : List Statement) (n : String) (cs : List (String × ColType)) (c : String)
        (rest : List (TokType × String)),
      (∀ st ∈ ts, statementOk st = true) → isName n = true → (∀ c ∈ cs, isName c.1 = true) →
      isName c = true →
      (∀ t ∈ rest, Lexes t) → (∀ t, rest.head? = some t → isTypeTok t = false) →
      parseAll (String.mk (tokensText (programToks ts ++
          (wordTok "CREATE" :: wordTok "TABLE" :: wordTok n :: (TokType.LParen, "(") ::
            (cs.flatMap columnThenComma ++ wordTok c :: rest))))) =
        .error (.runtime "Expected type int or str after column name")) ∧
    (∀ (ts : List Statement) (n : String) (c : String × ColType) (cs : List (String × ColType))
        (rest : List (TokType × String)),
      (∀ st ∈ ts, statementOk st = true) → isName n = true →
      (∀ x ∈ c :: cs, isName x.1 = true) →
      (∀ t ∈ rest, Lexes t) →
      (∀ t, rest.head? = some t → t.1 ≠ .Comma ∧ t.1 ≠ .RParen) →
      parseAll (String.mk (tokensText (programToks ts ++
          (wordTok "CREATE" :: wordTok "TABLE" :: wordTok n :: (TokType.LParen, "(") ::
            (commaSep ((c :: cs).map (fun x => [wordTok x.1, wordTok (typeWord x.2)])) ++
              rest))))) =
        .error (.runtime "Expected ')' after column list")) ∧
    parseAll "CREATE TABLE t ();" = .error (.runtime "Expected identifier for column") ∧
    parseAll "CREATE TABLE t (a int,);" = .error (.runtime "Expected identifier for column") ∧
    parseAll "CREATE TABLE t (a int, b str,);" =
      .error (.runtime "Expected identifier for column") ∧
    parseAll "CREATE TABLE t (a);" =
      .error (.runtime "Expected type int or str after column name") ∧
    parseAll "CREATE TABLE t (a int, b);" =
      .error (.runtime "Expected type int or str after column name") ∧
    parseAll "CREATE TABLE t (id int, name str;" =
      .error (.runtime "Expected ')' after column list") ∧
    parseAll "CREATE TABLE t (a int);" = .ok [.create ⟨"t", [("a", .INT)]⟩] := by
  have hcreate : Lexes (wordTok "CREATE") := lexes_word "CREATE" (by decide)
  have htable : Lexes (wordTok "TABLE") := lexes_word "TABLE" (by decide)
  have hcols : ∀ cs : List (String × ColType), (∀ c ∈ cs, isName c.1 = true) →
      ∀ u ∈ cs.flatMap columnThenComma, Lexes u := by
    intro cs hcs u hu
    obtain ⟨c, hc, hu⟩ := List.mem_flatMap.1 hu
    simp only [columnThenComma, List.mem_cons, List.mem_singleton, List.mem_nil_iff,
      or_false] at hu
    rcases hu with rfl | rfl | rfl
    · exact lexes_name _ (hcs c hc)
    · exact lexes_word _ (by cases c.2 <;> decide)
    · exact lexes_comma
  refine ⟨?_, ?_, ?_, by decide, by decide, by decide, by decide, by decide, by decide,
    by decide⟩
  · intro ts n cs rest hok hname hcs hrest hhead
    obtain ⟨q, bound, hq, hparse⟩ := parseAll_prefix ts hok (wordTok "CREATE")
      (wordTok "TABLE" :: wordTok n :: (TokType.LParen, "(") ::
        (cs.flatMap columnThenComma ++ rest)) (by
      intro u hu
      simp only [List.mem_cons, List.mem_append] at hu
      rcases hu with rfl | rfl | rfl | rfl | hu | hu
      · exact hcreate
      · exact htable
      · exact lexes_name _ hname
      · exact lexes_lparen
      · exact hcols cs hcs u hu
      · exact hrest u hu)
    rw [hparse]
    exact parseAllLoop_create_error bound q ts _ hq.2.1 hq.2.2.1
      (stream_parseCreate_error _ rest
        (fun p hp => stream_columnDef_noName p rest hp hhead) n hname cs hcs q hq)
  · intro ts n cs c rest hok hname hcs hc hrest hhead
    obtain ⟨q, bound, hq, hparse⟩ := parseAll_prefix ts hok (wordTok "CREATE")
      (wordTok "TABLE" :: wordTok n :: (TokType.LParen, "(") ::
        (cs.flatMap columnThenComma ++ wordTok c :: rest)) (by
      intro u hu
      simp only [List.mem_cons, List.mem_append] at hu
      rcases hu with rfl | rfl | rfl | rfl | hu | rfl | hu
      · exact hcreate
      · exact htable
      · exact lexes_name _ hname
      · exact lexes_lparen
      · exact hcols cs hcs u hu
      · exact lexes_name _ hc
      · exact hrest u hu)
    rw [hparse]
    exact parseAllLoop_create_error bound q ts _ hq.2.1 hq.2.2.1
      (stream_parseCreate_error _ (wordTok c :: rest)
        (fun p hp => stream_columnDef_noType p c rest hp hc hhead) n hname cs hcs q hq)
  · intro ts n c cs rest hok hname hcs hrest hhead
    obtain ⟨q, bound, hq, hparse⟩ := parseAll_prefix ts hok (wordTok "CREATE")
      (wordTok "TABLE" :: wordTok n :: (TokType.LParen, "(") ::
        (commaSep ((c :: cs).map (fun x => [wordTok x.1, wordTok (typeWord x.2)])) ++ rest)) (by
      have hstmt := statementToks_lexes (.create ⟨n, c :: cs⟩) (by
        simp only [statementOk, Bool.and_eq_true, Bool.not_eq_true', List.all_eq_true]
        exact ⟨⟨hname, rfl⟩, hcs⟩)
      intro u hu
      simp only [List.mem_cons, List.mem_append] at hu
      rcases hu with rfl | rfl | rfl | rfl | hu | hu
      · exact hcreate
      · exact htable
      · exact lexes_name _ hname
      · exact lexes_lparen
      · apply hstmt u
        simp only [statementToks, List.mem_append]
        exact Or.inl (Or.inr hu)
      · exact hrest u hu)
    rw [hparse]
    exact parseAllLoop_create_error bound q ts _ hq.2.1 hq.2.2.1
      (stream_parseCreate_unclosed n hname c cs hcs rest hhead q hq)

/-! ## C27: the grid of `printAscii` -/

theorem byteSize_data (s : String) : s.utf8ByteSize = String.utf8Len s.data := by
  cases s; rfl

theorem byteSize_append (a b : String) :
    (a ++ b).utf8ByteSize = a.utf8ByteSize + b.utf8ByteSize := by
  simp [byteSize_data, String.data_append]

theorem byteSize_replicate (n : Nat) (c : Char) (hc : c.utf8Size = 1) :
    (String.mk (List.replicate n c)).utf8ByteSize = n := by
  induction n with
  | zero => rfl
  | succ n ih =>
    simp only [String.utf8ByteSize_mk] at ih
    simp [List.replicate_succ, String.utf8ByteSize_mk, ih, hc]

theorem foldl_append_byteSize (l : List String) (acc : String) :
    (l.foldl (fun r s => r ++ s) acc).utf8ByteSize =
      acc.utf8ByteSize + (l.map String.utf8ByteSize).sum := by
  induction l generalizing acc with
  | nil => simp
  | cons s l ih => simp [ih, byteSize_append]; omega

theorem byteSize_join (l : List String) :
    (String.join l).utf8ByteSize = (l.map String.utf8ByteSize).sum := by
  have := foldl_append_byteSize l ""
  rw [show ("" : String).utf8ByteSize = 0 from rfl, Nat.zero_add] at this
  exact this

theorem leftJustified_byteSize (width : Nat) (cell : String) (h : cell.utf8ByteSize ≤ width) :
    (leftJustified width cell).utf8ByteSize = width := by
  unfold leftJustified
  rw [byteSize_append, byteSize_replicate _ _ (by decide)]
  omega

theorem printBorder_byteSize (w : List Nat) :
    (printBorder w).utf8ByteSize = 1 + (w.map (fun wj => wj + 3)).sum + 1 := by
  unfold printBorder
  rw [byteSize_append, byteSize_append, byteSize_join, List.map_map]
  have : (String.utf8ByteSize ∘ fun width => String.mk (List.replicate (width + 2) '-') ++ "+") =
      fun wj => wj + 3 := by
    funext wj
    simp only [Function.comp, byteSize_append, byteSize_replicate _ _ (by decide : '-'.utf8Size = 1)]
    rfl
  rw [this]
  rfl


theorem colWidths_fold (rows : List (List String)) :
    ∀ w0 : List Nat,
      (rows.foldl
        (fun w r => w.mapIdx (fun j wj =>
          match r[j]? with
          | some cell => max wj cell.utf8ByteSize
          | none => wj)) w0).length = w0.length ∧
      ∀ j : Nat, (rows.foldl
        (fun w r => w.mapIdx (fun j wj =>
          match r[j]? with
          | some cell => max wj cell.utf8ByteSize
          | none => wj)) w0)[j]? =
        w0[j]?.map (fun x => rows.foldl (fun m r => max m (r.getD j "").utf8ByteSize) x) := by
  induction rows with
  | nil => intro w0; simp
  | cons r rows ih =>
    intro w0
    obtain ⟨h1, h2⟩ := ih (w0.mapIdx (fun j wj =>
      match r[j]? with
      | some cell => max wj cell.utf8ByteSize
      | none => wj))
    refine ⟨by simpa using h1, ?_⟩
    intro j
    simp only [List.foldl_cons]
    rw [h2 j, List.getElem?_mapIdx]
    cases w0[j]? with
    | none => rfl
    | some x =>
      simp only [Option.map_some', List.getD_eq_getElem?_getD]
      cases hr : r[j]? with
      | none =>
        simp only [Option.getD_none]
        rw [show ("" : String).utf8ByteSize = 0 from rfl, Nat.max_zero]
      | some cell => simp only [Option.getD_some]

theorem foldl_max_spec {α : Type} (f : α → Nat) (l : List α) :
    ∀ x : Nat,
      x ≤ l.foldl (fun m r => max m (f r)) x ∧
      (∀ r ∈ l, f r ≤ l.foldl (fun m r => max m (f r)) x) ∧
      (l.foldl (fun m r => max m (f r)) x = x ∨
        ∃ r ∈ l, l.foldl (fun m r => max m (f r)) x = f r) := by
  induction l with
  | nil => intro x; simp
  | cons a l ih =>
    intro x
    obtain ⟨h1, h2, h3⟩ := ih (max x (f a))
    simp only [List.foldl_cons]
    refine ⟨le_trans (Nat.le_max_left _ _) h1, ?_, ?_⟩
    · intro r hr
      rcases List.mem_cons.1 hr with rfl | hr
      · exact le_trans (Nat.le_max_right _ _) h1
      · exact h2 r hr
    · rcases h3 with h3 | ⟨r, hr, h3⟩
      · rcases Nat.le_total x (f a) with hle | hle
        · right
          exact ⟨a, List.mem_cons_self _ _, by rw [h3, Nat.max_eq_right hle]⟩
        · left
          rw [h3, Nat.max_eq_left hle]
      · right
        exact ⟨r, List.mem_cons_of_mem _ hr, h3⟩

theorem colWidths_length (headers : List String) (rows : List (List String)) :
    (colWidths headers rows).length = headers.length := by
  have := (colWidths_fold rows (headers.map (fun h => h.utf8ByteSize))).1
  simpa [colWidths] using this

theorem colWidths_getElem? (headers : List String) (rows : List (List String)) (j : Nat) :
    (colWidths headers rows)[j]? =
      headers[j]?.map (fun h =>
        rows.foldl (fun m r => max m (r.getD j "").utf8ByteSize) h.utf8ByteSize) := by
  have := (colWidths_fold rows (headers.map (fun h => h.utf8ByteSize))).2 j
  unfold colWidths
  rw [this, List.getElem?_map]
  cases headers[j]? <;> rfl

theorem colWidths_bounds (headers : List String) (rows : List (List String)) (j wj : Nat)
    (h : (colWidths headers rows)[j]? = some wj) :
    ∀ r ∈ headers :: rows, (r.getD j "").utf8ByteSize ≤ wj := by
  rw [colWidths_getElem?] at h
  cases hh : headers[j]? with
  | none => rw [hh] at h; cases h
  | some hd =>
    rw [hh] at h
    simp only [Option.map_some', Option.some.injEq] at h
    obtain ⟨h1, h2, -⟩ := foldl_max_spec (fun r : List String => (r.getD j "").utf8ByteSize)
      rows hd.utf8ByteSize
    intro r hr
    rw [← h]
    rcases List.mem_cons.1 hr with rfl | hr
    · rw [List.getD_eq_getElem?_getD, hh]
      exact h1
    · exact h2 r hr

theorem printOneRow_byteSize (row : List String) (w : List Nat)
    (h : ∀ j wj, w[j]? = some wj → (row.getD j "").utf8ByteSize ≤ wj) :
    (printOneRow row w).utf8ByteSize = 1 + (w.map (fun wj => wj + 3)).sum + 1 := by
  unfold printOneRow
  rw [byteSize_append, byteSize_append, byteSize_join]
  have : (w.mapIdx (fun j wj => " " ++ leftJustified wj (row.getD j "") ++ " " ++ "|")).map
      String.utf8ByteSize = w.map (fun wj => wj + 3) := by
    apply List.ext_getElem?
    intro j
    rw [List.getElem?_map, List.getElem?_mapIdx, List.getElem?_map]
    cases hw : w[j]? with
    | none => rfl
    | some wj =>
      simp only [Option.map_some', byteSize_append, leftJustified_byteSize wj _ (h j wj hw)]
      congr 1
      rw [show (" " : String).utf8ByteSize = 1 from rfl,
        show ("|" : String).utf8ByteSize = 1 from rfl]
      omega
  rw [this]
  rfl

theorem printOneRow_cells (row : List String) (w : List Nat) (h : row.length = w.length) :
    printOneRow row w =
      "|" ++ String.join (List.zipWith (fun cell wj =>
        " " ++ (cell ++ String.mk (List.replicate (wj - cell.utf8ByteSize) ' ')) ++ " " ++ "|")
        row w) ++ "\n" := by
  unfold printOneRow
  congr 3
  apply List.ext_getElem?
  intro j
  rw [List.getElem?_mapIdx, List.getElem?_zipWith]
  cases hw : w[j]? with
  | none => cases row[j]? <;> rfl
  | some wj =>
    have hj : j < row.length := by
      rw [h]
      rcases Nat.lt_or_ge j w.length with hlt | hge
      · exact hlt
      · rw [List.getElem?_eq_none hge] at hw; cases hw
    rw [List.getElem?_eq_getElem hj]
    simp only [Option.map_some', leftJustified, List.getD_eq_getElem?_getD,
      List.getElem?_eq_getElem hj, Option.getD_some]


theorem join_data (l : List String) :
    (String.join l).data = l.flatMap (fun s => s.data) := by
  have key : ∀ (l : List String) (acc : String),
      (l.foldl (fun r s => r ++ s) acc).data = acc.data ++ l.flatMap (fun s => s.data) := by
    intro l
    induction l with
    | nil => intro acc; simp
    | cons s l ih => intro acc; simp [ih, String.data_append]
  have := key l ""
  simpa [String.join] using this

theorem borderLine_chars (w : List Nat) :
    ∀ c ∈ ("+" ++ String.join (w.map (fun width =>
      String.mk (List.replicate (width + 2) '-') ++ "+"))).data, c ≠ '\n' := by
  intro c hc
  simp only [String.data_append, join_data, List.mem_append, List.mem_flatMap, List.mem_map] at hc
  rcases hc with hc | ⟨s, ⟨wj, -, rfl⟩, hc⟩
  · have : c = '+' := by simpa using hc
    rw [this]; decide
  · simp only [String.data_append, List.mem_append] at hc
    rcases hc with hc | hc
    · rw [(List.mem_replicate.1 hc).2]; decide
    · have : c = '+' := by simpa using hc
      rw [this]; decide

theorem rowLine_chars (row : List String) (w : List Nat) :
    ∀ c ∈ ("|" ++ String.join (List.zipWith (fun cell wj =>
        " " ++ (cell ++ String.mk (List.replicate (wj - cell.utf8ByteSize) ' ')) ++ " " ++ "|")
        row w)).data, c = '\n' → ∃ cell ∈ row, c ∈ cell.data := by
  intro c hc hnl
  simp only [String.data_append, join_data, List.mem_append, List.mem_flatMap] at hc
  rcases hc with hc | ⟨s, hs, hc⟩
  · have : c = '|' := by simpa using hc
    rw [this] at hnl; cases hnl
  · obtain ⟨j, hj⟩ := List.getElem?_of_mem hs
    rw [List.getElem?_zipWith] at hj
    cases hr : row[j]? with
    | none => rw [hr] at hj; cases hj
    | some cell =>
      cases hw : w[j]? with
      | none => rw [hr, hw] at hj; cases hj
      | some wj =>
        rw [hr, hw] at hj
        simp only [Option.some.injEq] at hj
        subst hj
        simp only [String.data_append, List.mem_append] at hc
        rcases hc with ((hc | hc | hc) | hc) | hc
        · have : c = ' ' := by simpa using hc
          rw [this] at hnl; cases hnl
        · exact ⟨cell, List.getElem?_mem hr, hc⟩
        · rw [(List.mem_replicate.1 hc).2] at hnl; cases hnl
        · have : c = ' ' := by simpa using hc
          rw [this] at hnl; cases hnl
        · have : c = '|' := by simpa using hc
          rw [this] at hnl; cases hnl


/-- C27. For headers and rows of the same arity, `printAscii` writes the top border, the
header line, the separator border, one line per row, the bottom border and the line
`<N> row(s).`; there is one width per column, the largest size among the header and the
cells of the column; every border and every row line has `1 + Σ (w_j + 3)` bytes before
its newline; a border is `+` and per column `w_j + 2` dashes and `+`; a row line is `|` and
per column a blank, the cell padded with blanks on the right to exactly `w_j` bytes, a
blank and `|`; and a newline inside a line can only come from a cell. -/
theorem renderer_grid (headers : List String) (rows : List (List String))
    (hrows : ∀ r ∈ rows, r.length = headers.length) :
    printAscii headers rows =
      printBorder (colWidths headers rows) ++ printOneRow headers (colWidths headers rows) ++
      printBorder (colWidths headers rows) ++
      String.join (rows.map (fun r => printOneRow r (colWidths headers rows))) ++
      printBorder (colWidths headers rows) ++ (Nat.repr rows.length ++ " row(s)." ++ "\n") ∧
    (colWidths headers rows).length = headers.length ∧
    (∀ (j : Nat) (h : String), headers[j]? = some h →
      ∃ wj, (colWidths headers rows)[j]? = some wj ∧ h.utf8ByteSize ≤ wj ∧
        (∀ r ∈ rows, (r.getD j "").utf8ByteSize ≤ wj) ∧
        (wj = h.utf8ByteSize ∨ ∃ r ∈ rows, wj = (r.getD j "").utf8ByteSize)) ∧
    (printBorder (colWidths headers rows) =
        ("+" ++ String.join ((colWidths headers rows).map (fun wj =>
          String.mk (List.replicate (wj + 2) '-') ++ "+"))) ++ "\n" ∧
      ("+" ++ String.join ((colWidths headers rows).map (fun wj =>
          String.mk (List.replicate (wj + 2) '-') ++ "+"))).utf8ByteSize =
        1 + ((colWidths headers rows).map (fun wj => wj + 3)).sum ∧
      ∀ c ∈ ("+" ++ String.join ((colWidths headers rows).map (fun wj =>
          String.mk (List.replicate (wj + 2) '-') ++ "+"))).data, c ≠ '\n') ∧
    (∀ r ∈ headers :: rows,
      printOneRow r (colWidths headers rows) =
        ("|" ++ String.join (List.zipWith (fun cell wj =>
          " " ++ (cell ++ String.mk (List.replicate (wj - cell.utf8ByteSize) ' ')) ++ " " ++ "|")
          r (colWidths headers rows))) ++ "\n" ∧
      ("|" ++ String.join (List.zipWith (fun cell wj =>
          " " ++ (cell ++ String.mk (List.replicate (wj - cell.utf8ByteSize) ' ')) ++ " " ++ "|")
          r (colWidths headers rows))).utf8ByteSize =
        1 + ((colWidths headers rows).map (fun wj => wj + 3)).sum ∧
      (∀ c ∈ ("|" ++ String.join (List.zipWith (fun cell wj =>
          " " ++ (cell ++ String.mk (List.replicate (wj - cell.utf8ByteSize) ' ')) ++ " " ++ "|")
          r (colWidths headers rows))).data, c = '\n' → ∃ cell ∈ r, c ∈ cell.data) ∧
      ∀ (j : Nat) (cell : String) (wj : Nat), r[j]? = some cell →
        (colWidths headers rows)[j]? = some wj →
        (cell ++ String.mk (List.replicate (wj - cell.utf8ByteSize) ' ')).utf8ByteSize = wj) := by
  refine ⟨rfl, colWidths_length headers rows, ?_, ⟨rfl, ?_, borderLine_chars _⟩, ?_⟩
  · intro j h hh
    have hw := colWidths_getElem? headers rows j
    rw [hh] at hw
    obtain ⟨h1, h2, h3⟩ := foldl_max_spec (fun r : List String => (r.getD j "").utf8ByteSize)
      rows h.utf8ByteSize
    exact ⟨_, hw, h1, h2, h3⟩
  · have := printBorder_byteSize (colWidths headers rows)
    unfold printBorder at this
    rw [byteSize_append _ "\n", show ("\n" : String).utf8ByteSize = 1 from rfl] at this
    omega
  · intro r hr
    have hlen : r.length = (colWidths headers rows).length := by
      rw [colWidths_length]
      rcases List.mem_cons.1 hr with rfl | hr
      · rfl
      · exact hrows r hr
    have hb : ∀ j wj, (colWidths headers rows)[j]? = some wj →
        (r.getD j "").utf8ByteSize ≤ wj :=
      fun j wj hw => colWidths_bounds headers rows j wj hw r hr
    have hcells := printOneRow_cells r (colWidths headers rows) hlen
    refine ⟨hcells, ?_, rowLine_chars r _, ?_⟩
    · have := printOneRow_byteSize r (colWidths headers rows) hb
      rw [hcells, byteSize_append _ "\n", show ("\n" : String).utf8ByteSize = 1 from rfl] at this
      omega
    · intro j cell wj hcell hw
      have := leftJustified_byteSize wj cell (by
        have := hb j wj hw
        rwa [List.getD_eq_getElem?_getD, hcell] at this)
      exact this

/-- C27 instance: the grid of the headers `id`, `name` with the rows (1, Alice), (2, Bob). -/
theorem renderer_grid_witness :
    printAscii ["id", "name"] [["1", "Alice"], ["2", "Bob"]] =
      printBorder (colWidths ["id", "name"] [["1", "Alice"], ["2", "Bob"]]) ++
      printOneRow ["id", "name"] (colWidths ["id", "name"] [["1", "Alice"], ["2", "Bob"]]) ++
      printBorder (colWidths ["id", "name"] [["1", "Alice"], ["2", "Bob"]]) ++
      String.join ([["1", "Alice"], ["2", "Bob"]].map (fun r =>
        printOneRow r (colWidths ["id", "name"] [["1", "Alice"], ["2", "Bob"]]))) ++
      printBorder (colWidths ["id", "name"] [["1", "Alice"], ["2", "Bob"]]) ++
      (Nat.repr [["1", "Alice"], ["2", "Bob"]].length ++ " row(s)." ++ "\n") ∧
    (colWidths ["id", "name"] [["1", "Alice"], ["2", "Bob"]]).length = ["id", "name"].length :=
  ⟨(renderer_grid ["id", "name"] [["1", "Alice"], ["2", "Bob"]] (by decide)).1,
    (renderer_grid ["id", "name"] [["1", "Alice"], ["2", "Bob"]] (by decide)).2.1⟩

theorem printAscii_two_rows :
    printAscii ["id", "name"] [["1", "Alice"], ["2", "Bob"]] =
      "+----+-------+\n| id | name  |\n+----+-------+\n| 1  | Alice |\n| 2  | Bob   |\n" ++
      "+----+-------+\n2 row(s).\n" := by decide

theorem printAscii_no_rows :
    printAscii ["id", "name"] [] =
      "+----+------+\n| id | name |\n+----+------+\n+----+------+\n0 row(s).\n" := by
  decide

/-! ## C30: statement splitting in the interactive driver -/

theorem splitRun_append (a b : List Char) :
    ∀ (s : Bool) (cur : List Char),
      splitRun s cur (a ++ b) =
        ((splitRun s cur a).1 ++ (splitRun (splitRun s cur a).2.1 (splitRun s cur a).2.2 b).1,
          (splitRun (splitRun s cur a).2.1 (splitRun s cur a).2.2 b).2) := by
  induction a with
  | nil => intro s cur; rfl
  | cons ch a ih =>
    intro s cur
    simp only [List.cons_append, splitRun]
    by_cases hq : ch = '"'
    · simp only [hq, if_true]
      exact ih _ _
    · simp only [hq, if_false]
      by_cases hc : ch = ';' ∧ s = false
      · simp only [hc, and_self, if_true]
        rw [show a.append b = a ++ b from rfl, ih false []]
        rfl
      · rw [if_neg hc, if_neg hc]
        exact ih _ _

theorem splitRun_state (a : List Char) :
    ∀ (s : Bool) (cur : List Char),
      (splitRun s cur a).2.1 = (if a.count '"' % 2 = 0 then s else !s) := by
  induction a with
  | nil => intro s cur; simp [splitRun]
  | cons ch a ih =>
    intro s cur
    simp only [splitRun]
    by_cases hq : ch = '"'
    · subst hq
      simp only [if_true, List.count_cons_self]
      rw [ih]
      by_cases he : a.count '"' % 2 = 0
      · have : ¬ (a.count '"' + 1) % 2 = 0 := by omega
        simp [he, this]
      · have : (a.count '"' + 1) % 2 = 0 := by omega
        simp [he, this]
    · have hcount : (ch :: a).count '"' = a.count '"' := by
        rw [List.count_cons]
        simp [hq]
      simp only [hq, if_false, hcount]
      by_cases hc : ch = ';' ∧ s = false
      · simp only [hc, and_self, if_true]
        rw [ih]
      · rw [if_neg hc]
        exact ih _ _

theorem quiet_nil : Quiet false [] := rfl

theorem quiet_run (a : List Char) :
    ∀ (s : Bool) (cur : List Char), Quiet s cur →
      Quiet (splitRun s cur a).2.1 (splitRun s cur a).2.2 := by
  induction a with
  | nil => intro s cur h; exact h
  | cons ch a ih =>
    intro s cur h
    simp only [splitRun]
    by_cases hq : ch = '"'
    · simp only [hq, if_true]
      apply ih
      unfold Quiet at h ⊢
      rw [splitRun_append, h]
      simp [splitRun]
    · simp only [hq, if_false]
      by_cases hc : ch = ';' ∧ s = false
      · simp only [hc, and_self, if_true]
        exact ih false [] quiet_nil
      · rw [if_neg hc]
        apply ih
        unfold Quiet at h ⊢
        rw [splitRun_append, h]
        simp [splitRun, hq, hc]

theorem quiet_rescan (s : Bool) (buf x : List Char) (h : Quiet s buf) :
    splitRun false [] (buf ++ x) = splitRun s buf x := by
  unfold Quiet at h
  rw [splitRun_append, h]
  simp

theorem upToExit_append (a b : List (List Char)) :
    upToExit (a ++ b) =
      if a.any (fun x => !exec_one x) then upToExit a else a ++ upToExit b := by
  induction a with
  | nil => simp
  | cons x a ih =>
    cases hx : exec_one x with
    | false => simp [upToExit, hx]
    | true =>
      have e1 : upToExit (x :: (a ++ b)) = x :: upToExit (a ++ b) := by simp [upToExit, hx]
      have e2 : upToExit (x :: a) = x :: upToExit a := by simp [upToExit, hx]
      rw [List.cons_append, e1, e2, ih, List.any_cons, hx]
      simp only [Bool.not_true, Bool.false_or]
      split <;> rfl

theorem upToExit_none (a : List (List Char)) (h : a.any (fun x => !exec_one x) = false) :
    upToExit a = a := by
  have := upToExit_append a []
  rw [h] at this
  simpa [upToExit] using this

theorem scanLoop_spec (rest : List Char) :
    ∀ (s : Bool) (cur : List Char) (out : List (List Char)),
      (scanLoop s cur out rest).out = out ++ upToExit (splitRun s cur rest).1 ∧
      (scanLoop s cur out rest).stopped = (splitRun s cur rest).1.any (fun x => !exec_one x) ∧
      ((scanLoop s cur out rest).stopped = false →
        (scanLoop s cur out rest).inStr = (splitRun s cur rest).2.1 ∧
        (scanLoop s cur out rest).buf = (splitRun s cur rest).2.2) := by
  induction rest with
  | nil => intro s cur out; simp [scanLoop, splitRun, upToExit]
  | cons ch rest ih =>
    intro s cur out
    by_cases hq : ch = '"'
    · subst hq
      have hne : ¬ ('"' = ';') := by decide
      simp only [scanLoop, splitRun, if_true, hne, and_false, if_false]
      exact ih _ _ _
    · by_cases hc : ch = ';' ∧ s = false
      · obtain ⟨rfl, rfl⟩ := hc
        simp only [scanLoop, splitRun, hq, if_false, and_self, if_true]
        cases hx : exec_one (cur ++ [';']) with
        | false => simp [upToExit, hx]
        | true =>
          simp only [Bool.true_eq_false, if_false, upToExit, hx, List.any_cons, Bool.not_true,
            Bool.false_or]
          obtain ⟨h1, h2, h3⟩ := ih false [] (out ++ [cur ++ [';']])
          refine ⟨by rw [h1]; simp, h2, h3⟩
      · have hc2 : ¬ (s = false ∧ ch = ';') := fun h => hc ⟨h.2, h.1⟩
        simp only [scanLoop, splitRun, hq, if_false, hc, hc2]
        exact ih _ _ _

theorem replLoop_spec (lines : List (List Char))
    (heven : ∀ l ∈ lines, l.count '"' % 2 = 0) :
    ∀ (buf : List Char) (out : List (List Char)), Quiet false buf →
      (replLoop ⟨false, buf, out, false⟩ lines).out =
        out ++ upToExit (splitRun false buf (lines.flatMap (fun l => l ++ ['\n']))).1 := by
  induction lines with
  | nil => intro buf out _; simp [replLoop, splitRun, upToExit]
  | cons l lines ih =>
    intro buf out hq
    have hl := heven l (List.mem_cons_self _ _)
    obtain ⟨h1, h2, h3⟩ := scanLoop_spec (buf ++ l ++ ['\n']) false [] out
    have hre : splitRun false [] (buf ++ l ++ ['\n']) = splitRun false buf (l ++ ['\n']) := by
      rw [List.append_assoc]
      exact quiet_rescan false buf _ hq
    rw [hre] at h1 h2 h3
    have hsplit := splitRun_append (l ++ ['\n']) (lines.flatMap (fun l => l ++ ['\n'])) false buf
    simp only [List.flatMap_cons, replLoop]
    rw [hsplit]
    simp only
    rw [upToExit_append]
    cases hstop : (scanLoop false [] out (buf ++ l ++ ['\n'])).stopped with
    | true =>
      rw [hstop] at h2
      simp only [if_true, ← h2, h1]
    | false =>
      rw [hstop] at h2
      obtain ⟨h4, h5⟩ := h3 hstop
      have hstate : (splitRun false buf (l ++ ['\n'])).2.1 = false := by
        rw [splitRun_state]
        have : (l ++ ['\n']).count '"' = l.count '"' := by
          rw [List.count_append]
          simp [List.count_cons]
        rw [this, if_pos hl]
      have hquiet := quiet_run (l ++ ['\n']) false buf hq
      rw [hstate] at hquiet
      have hr : scanLoop false [] out (buf ++ l ++ ['\n']) =
          ⟨false, (splitRun false buf (l ++ ['\n'])).2.2,
            out ++ upToExit (splitRun false buf (l ++ ['\n'])).1, false⟩ := by
        cases hs : scanLoop false [] out (buf ++ l ++ ['\n']) with
        | mk a b c d =>
          rw [hs] at h1 h4 h5 hstop
          simp only at h1 h4 h5 hstop
          rw [h1, h4, h5, hstop, hstate]
      simp only [Bool.false_eq_true, if_false, ← h2, hr, hstate]
      rw [ih (fun x hx => heven x (List.mem_cons_of_mem _ hx)) _ _ hquiet,
        upToExit_none _ h2.symm, List.append_assoc]


/-- C30. The interactive driver scans the text kept from earlier lines again, starting
with the quote state those lines left.  A string literal that spans two input lines is
therefore scanned the second time with the state inverted: the `;` inside the literal ends
a statement, and the `;` after the literal does not.  When every input line holds an even
number of `"`, the statements handed on are exactly those cut at the `;` outside string
literals, up to the first exit command. -/
theorem repl_rescans_with_stale_quote_state :
    repl ["INSERT INTO t (s) VALUES (\"a", ";b\");"] = ["INSERT INTO t (s) VALUES (\"a\n;"] ∧
    (upToExit (splitStatements ["INSERT INTO t (s) VALUES (\"a", ";b\");"])).map String.mk =
      ["INSERT INTO t (s) VALUES (\"a\n;b\");"] ∧
    parseAll "INSERT INTO t (s) VALUES (\"a\n;" =
      .error (.runtime "Unterminated string literal") ∧
    repl ["SELECT \"a", "b\" FROM t;"] = [] ∧
    (upToExit (splitStatements ["SELECT \"a", "b\" FROM t;"])).map String.mk =
      ["SELECT \"a\nb\" FROM t;"] ∧
    repl ["INSERT INTO t (s) VALUES (\"a;b\");"] = ["INSERT INTO t (s) VALUES (\"a;b\");"] ∧
    (∀ lines : List String, (∀ l ∈ lines, l.data.count '"' % 2 = 0) →
      repl lines = (upToExit (splitStatements lines)).map String.mk) := by
  refine ⟨by decide, by decide, by decide, by decide, by decide, by decide, ?_⟩
  intro lines heven
  have h := replLoop_spec (lines.map String.data) (by
    intro l hl
    obtain ⟨x, hx, rfl⟩ := List.mem_map.1 hl
    exact heven x hx) [] [] quiet_nil
  have hflat : ∀ ls : List String, (ls.map String.data).flatMap (fun l => l ++ ['\n']) =
      ls.flatMap (fun l => l.data ++ ['\n']) := by
    intro ls
    induction ls with
    | nil => rfl
    | cons l ls ih => simp only [List.map_cons, List.flatMap_cons, ih]
  unfold repl splitStatements
  rw [h, hflat, List.nil_append]

/-! ## C28: termination of the tokenizer and of the parser -/

theorem next_error (lx0 : Lexer) (e : ParseError) (h : lx0.next = .error e) :
    e ≠ .loopBound ∧ (e = .unbounded → NUL ∈ lx0.s) := by
  obtain ⟨ws, hws1, -⟩ := skipSpacesLoop_spec lx0.s lx0.line lx0.col
  cases hsk : (skipSpacesLoop lx0.s lx0.line lx0.col) with
  | mk s l col =>
    rw [hsk] at hws1
    cases s with
    | nil => rw [next_eof lx0 l col hsk] at h; cases h
    | cons c rest =>
      replace hws1 : lx0.s = ws ++ c :: rest := hws1
      by_cases hnul : c = NUL
      · subst hnul
        rw [next_nul lx0 rest l col hsk] at h
        cases h
        exact ⟨by simp, by simp⟩
      rw [next_unfold lx0 c rest l col hsk hnul] at h
      by_cases h1 : c = ','
      · rw [if_pos h1] at h; cases h
      rw [if_neg h1] at h
      by_cases h2 : c = '('
      · rw [if_pos h2] at h; cases h
      rw [if_neg h2] at h
      by_cases h3 : c = ')'
      · rw [if_pos h3] at h; cases h
      rw [if_neg h3] at h
      by_cases h4 : c = ';'
      · rw [if_pos h4] at h; cases h
      rw [if_neg h4] at h
      by_cases h5 : c = '*'
      · rw [if_pos h5] at h; cases h
      rw [if_neg h5] at h
      by_cases h6 : c = '"'
      · rw [if_pos h6] at h
        refine ⟨?_, ?_⟩
        · intro he
          subst he
          exact readStringLoop_not_bound _ _ _ _ _ _ h
        · intro he
          subst he
          by_contra hn
          have hrest : NUL ∉ rest := by
            intro hm
            apply hn
            rw [hws1]
            simp [hm]
          exact readStringLoop_bounded _ _ rest hrest _ _ _ h
      rw [if_neg h6] at h
      by_cases h7 : c = '='
      · rw [if_pos h7] at h; cases h
      rw [if_neg h7] at h
      by_cases h8 : c = '!' ∧ rest.headD NUL = '='
      · rw [if_pos h8] at h; cases h
      rw [if_neg h8] at h
      by_cases h9 : c = '<'
      · rw [if_pos h9] at h
        by_cases h10 : rest.headD NUL = '='
        · rw [if_pos h10] at h; cases h
        · rw [if_neg h10] at h; cases h
      rw [if_neg h9] at h
      by_cases h11 : c = '>'
      · rw [if_pos h11] at h
        by_cases h10 : rest.headD NUL = '='
        · rw [if_pos h10] at h; cases h
        · rw [if_neg h10] at h; cases h
      rw [if_neg h11] at h
      by_cases h12 : (isdigit c || (decide (c = '-') && isdigit (rest.headD NUL))) = true
      · rw [if_pos h12] at h
        simp only [Lexer.readNumber] at h
        split at h
        · cases h; exact ⟨by simp, by simp⟩
        · cases h
      rw [if_neg h12] at h
      by_cases h13 : (isalpha c || decide (c = '_')) = true
      · rw [if_pos h13] at h; cases h
      rw [if_neg h13] at h
      cases h
      exact ⟨by simp, by simp⟩

theorem weight_bound (p : Parser) : p.weight < 2 * (p.lx.s.length + 1) := by
  unfold Parser.weight
  split <;> omega

theorem errOk_runtime (p : Parser) (msg : String) : ErrOk p (.runtime msg) :=
  ⟨by simp, by simp⟩

theorem errOk_of_suffix (p q : Parser) (e : ParseError) (hs : q.lx.s <:+ p.lx.s)
    (h : ErrOk q e) : ErrOk p e :=
  ⟨h.1, fun he => hs.subset (h.2 he)⟩

theorem sound_weaken {β : Type} (π : β → Parser) (k k2 : Nat) (p : Parser)
    (r : Except ParseError β) (hk : k2 ≤ k) (h : Sound π k p r) : Sound π k2 p r := by
  cases r with
  | error e => exact h
  | ok b => exact ⟨h.1, by have := h.2; omega⟩

theorem sound_pure {β : Type} (π : β → Parser) (p : Parser) (b : β) (h : π b = p) :
    Sound π 0 p (pure b) := by
  show (π b).lx.s <:+ p.lx.s ∧ (π b).weight + 0 ≤ p.weight
  rw [h]
  exact ⟨List.suffix_refl _, Nat.le_refl _⟩

theorem sound_bind {α β : Type} (k1 k2 k : Nat) (πa : α → Parser) (πb : β → Parser)
    (p : Parser) (x : Except ParseError α) (g : α → Except ParseError β)
    (hk : k ≤ k1 + k2) (hx : Sound πa k1 p x)
    (hg : ∀ a, x = .ok a → (πa a).weight + k1 ≤ p.weight → Sound πb k2 (πa a) (g a)) :
    Sound πb k p (x >>= g) := by
  cases x with
  | error e => exact hx
  | ok a =>
    have h2 := hg a rfl hx.2
    show Sound πb k p (g a)
    cases hr : g a with
    | error e =>
      rw [hr] at h2
      exact errOk_of_suffix p (πa a) e hx.1 h2
    | ok b =>
      rw [hr] at h2
      exact ⟨h2.1.trans hx.1, by have := h2.2; have := hx.2; omega⟩

theorem advance_sound (p : Parser) :
    Sound id (if p.cur.type = .End then 0 else 1) p p.advance := by
  unfold Parser.advance
  cases h : p.lx.next with
  | error e => exact next_error p.lx e h
  | ok r =>
    obtain ⟨t, lx⟩ := r
    obtain ⟨consumed, h1, -, h3, h4⟩ := next_consumed p.lx t lx h
    refine ⟨⟨consumed, h1.symm⟩, ?_⟩
    show Parser.weight ⟨lx, t⟩ + _ ≤ p.weight
    have hlen : p.lx.s.length = consumed.length + lx.s.length := by
      rw [h1, List.length_append]
    unfold Parser.weight
    simp only
    by_cases ht : t.type = .End
    · rw [if_pos ht, h4 ht]
      split <;> simp
    · rw [if_neg ht]
      have : consumed.length ≠ 0 := fun h0 => h3 ht (List.length_eq_zero.1 h0)
      split <;> omega


theorem advance_sound_zero (p : Parser) : Sound id 0 p p.advance :=
  sound_weaken id _ 0 p _ (Nat.zero_le _) (advance_sound p)

theorem advance_sound_one (p : Parser) (h : p.cur.type ≠ .End) : Sound id 1 p p.advance := by
  have := advance_sound p
  rwa [if_neg h] at this

theorem sound_advance_match {β : Type} (k : Nat) (π : β → Parser) (p : Parser) (f : Parser → β)
    (hf : ∀ q, π (f q) = q) (h : Sound id k p p.advance) :
    Sound π k p (match p.advance with
      | .error e => .error e
      | .ok q => .ok (f q)) := by
  cases hadv : p.advance with
  | error e => rw [hadv] at h; exact h
  | ok q =>
    rw [hadv] at h
    show (π (f q)).lx.s <:+ p.lx.s ∧ (π (f q)).weight + k ≤ p.weight
    rw [hf]
    exact h

theorem sound_same {β : Type} (π : β → Parser) (p : Parser) (b : β) (h : π b = p) :
    Sound π 0 p (.ok b) := by
  show (π b).lx.s <:+ p.lx.s ∧ (π b).weight + 0 ≤ p.weight
  rw [h]
  exact ⟨List.suffix_refl _, Nat.le_refl _⟩

theorem accept_sound (p : Parser) (t : TokType) :
    Sound (fun r : Bool × Parser => r.2) 0 p (p.accept t) := by
  unfold Parser.accept
  by_cases hc : p.cur.type = t
  · rw [if_pos hc]
    exact sound_advance_match 0 _ p (fun q => (true, q)) (fun _ => rfl) (advance_sound_zero p)
  · rw [if_neg hc]
    exact sound_same _ p _ rfl

theorem accept_true (p q : Parser) (t : TokType) (ht : t ≠ .End)
    (h : p.accept t = .ok (true, q)) : q.weight + 1 ≤ p.weight := by
  unfold Parser.accept at h
  by_cases hc : p.cur.type = t
  · rw [if_pos hc] at h
    have hs := advance_sound_one p (by rw [hc]; exact ht)
    cases hadv : p.advance with
    | error e => rw [hadv] at h; cases h
    | ok q2 =>
      rw [hadv] at h hs
      cases h
      exact hs.2
  · rw [if_neg hc] at h
    cases h

theorem accept_false (p q : Parser) (t : TokType) (h : p.accept t = .ok (false, q)) :
    q = p := by
  unfold Parser.accept at h
  by_cases hc : p.cur.type = t
  · rw [if_pos hc] at h
    cases hadv : p.advance with
    | error e => rw [hadv] at h; cases h
    | ok q2 => rw [hadv] at h; cases h
  · rw [if_neg hc] at h
    cases h
    rfl

theorem expect_sound (p : Parser) (t : TokType) (msg : String) (ht : t ≠ .End) :
    Sound id 1 p (p.expect t msg) := by
  unfold Parser.expect
  have hs := accept_sound p t
  cases ha : p.accept t with
  | error e => rw [ha] at hs; exact hs
  | ok r =>
    obtain ⟨b, q⟩ := r
    rw [ha] at hs
    cases b with
    | false => exact errOk_runtime p msg
    | true => exact ⟨hs.1, accept_true p q t ht ha⟩

theorem acceptWord_sound (p : Parser) (w : String) :
    Sound (fun r : Bool × Parser => r.2) 0 p (p.acceptWord w) := by
  unfold Parser.acceptWord
  by_cases hc : p.cur.type = .Ident ∧ p.cur.text = w
  · rw [if_pos hc]
    exact sound_advance_match 0 _ p (fun q => (true, q)) (fun _ => rfl) (advance_sound_zero p)
  · rw [if_neg hc]
    exact sound_same _ p _ rfl

theorem acceptWord_true (p q : Parser) (w : String)
    (h : p.acceptWord w = .ok (true, q)) : q.weight + 1 ≤ p.weight := by
  unfold Parser.acceptWord at h
  by_cases hc : p.cur.type = .Ident ∧ p.cur.text = w
  · rw [if_pos hc] at h
    have hs := advance_sound_one p (by rw [hc.1]; decide)
    cases hadv : p.advance with
    | error e => rw [hadv] at h; cases h
    | ok q2 =>
      rw [hadv] at h hs
      cases h
      exact hs.2
  · rw [if_neg hc] at h
    cases h

theorem expectWord_sound (p : Parser) (w msg : String) :
    Sound id 1 p (p.expectWord w msg) := by
  unfold Parser.expectWord
  have hs := acceptWord_sound p w
  cases ha : p.acceptWord w with
  | error e => rw [ha] at hs; exact hs
  | ok r =>
    obtain ⟨b, q⟩ := r
    rw [ha] at hs
    cases b with
    | false => exact errOk_runtime p msg
    | true => exact ⟨hs.1, acceptWord_true p q w ha⟩

theorem parseIdent_sound (p : Parser) (what : String) :
    Sound (fun r : String × Parser => r.2) 1 p (p.parseIdent what) := by
  unfold Parser.parseIdent
  by_cases hc : p.cur.type = .Ident ∧ isUpperKeyword p.cur.text = false ∧
      isTypeWord p.cur.text = false
  · rw [if_pos hc]
    exact sound_advance_match 1 _ p (fun q => (p.cur.text, q)) (fun _ => rfl)
      (advance_sound_one p (by rw [hc.1]; decide))
  · rw [if_neg hc]
    exact errOk_runtime p _

theorem stoll_error (text : String) (e : ParseError) (h : stoll text = .error e) :
    e = .invalid_argument ∨ e = .out_of_range := by
  unfold stoll at h
  simp only at h
  split_ifs at h <;>
    first
      | (cases h; exact Or.inl rfl)
      | (cases h; exact Or.inr rfl)

theorem parseLiteral_sound (p : Parser) :
    Sound (fun r : Value × Parser => r.2) 1 p p.parseLiteral := by
  unfold Parser.parseLiteral
  by_cases h1 : p.cur.type = .Number
  · rw [if_pos h1]
    cases hs : stoll p.cur.text with
    | error e =>
      rcases stoll_error _ e hs with rfl | rfl
      · exact ⟨by simp, by simp⟩
      · exact ⟨by simp, by simp⟩
    | ok x =>
      exact sound_advance_match 1 _ p (fun q => (Value.int x, q)) (fun _ => rfl)
        (advance_sound_one p (by rw [h1]; decide))
  · rw [if_neg h1]
    by_cases h2 : p.cur.type = .String
    · rw [if_pos h2]
      exact sound_advance_match 1 _ p (fun q => (Value.str p.cur.text, q)) (fun _ => rfl)
        (advance_sound_one p (by rw [h2]; decide))
    · rw [if_neg h2]
      exact errOk_runtime p _

theorem parseColumnDef_sound (p0 : Parser) :
    Sound (fun r : (String × ColType) × Parser => r.2) 2 p0 p0.parseColumnDef := by
  unfold Parser.parseColumnDef
  refine sound_bind 1 1 2 (fun r : String × Parser => r.2) _ p0 _ _ (by omega)
    (parseIdent_sound p0 "column") ?_
  intro a _ _
  obtain ⟨cname, p1⟩ := a
  simp only
  split
  · exact errOk_runtime p1 _
  · rename_i hc
    have hty : p1.cur.type ≠ .End := by
      intro he
      apply hc
      simp [he]
    refine sound_bind 1 0 1 id _ p1 _ _ (by omega) (advance_sound_one p1 hty) ?_
    intro p2 _ _
    exact sound_pure _ _ _ rfl

theorem createLoop_sound :
    ∀ (bound : Nat) (p : Parser) (acc : List (String × ColType)), p.weight < 2 * bound →
      Sound (fun r : List (String × ColType) × Parser => r.2) 0 p
        (Parser.createLoop bound p acc) := by
  intro bound
  induction bound with
  | zero => intro p acc h; omega
  | succ b ih =>
    intro p acc hb
    unfold Parser.createLoop
    refine sound_bind 0 0 0 (fun r : Bool × Parser => r.2) _ p _ _ (by omega)
      (accept_sound p .Comma) ?_
    intro a ha _
    obtain ⟨more, p1⟩ := a
    simp only
    cases more with
    | false => exact sound_pure _ _ _ rfl
    | true =>
      have h1 := accept_true p p1 .Comma (by decide) ha
      simp only [if_true]
      refine sound_bind 2 0 0 (fun r : (String × ColType) × Parser => r.2) _ p1 _ _ (by omega)
        (parseColumnDef_sound p1) ?_
      intro c _ hw
      obtain ⟨c, p2⟩ := c
      exact ih p2 _ (by simp only at hw; omega)


theorem parseCreate_sound (p0 : Parser) :
    Sound (fun r : CreateStmt × Parser => r.2) 1 p0 p0.parseCreate := by
  unfold Parser.parseCreate
  refine sound_bind 1 0 1 id _ p0 _ _ (by omega) (expectWord_sound p0 _ _) ?_
  intro p1 _ _
  refine sound_bind 1 0 0 id _ p1 _ _ (by omega) (expectWord_sound p1 _ _) ?_
  intro p2 _ _
  refine sound_bind 1 0 0 (fun r : String × Parser => r.2) _ p2 _ _ (by omega)
    (parseIdent_sound p2 _) ?_
  intro a _ _
  obtain ⟨table, p3⟩ := a
  simp only
  refine sound_bind 1 0 0 id _ p3 _ _ (by omega) (expect_sound p3 _ _ (by decide)) ?_
  intro p4 _ _
  refine sound_bind 2 0 0 (fun r : (String × ColType) × Parser => r.2) _ p4 _ _ (by omega)
    (parseColumnDef_sound p4) ?_
  intro a _ _
  obtain ⟨c, p5⟩ := a
  simp only
  refine sound_bind 0 0 0 (fun r : List (String × ColType) × Parser => r.2) _ p5 _ _ (by omega)
    (createLoop_sound _ p5 _ (weight_bound p5)) ?_
  intro a _ _
  obtain ⟨columns, p6⟩ := a
  simp only
  refine sound_bind 1 0 0 id _ p6 _ _ (by omega) (expect_sound p6 _ _ (by decide)) ?_
  intro p7 _ _
  exact sound_pure _ _ _ rfl

theorem identLoop_sound :
    ∀ (bound : Nat) (p : Parser) (acc : List String), p.weight < 2 * bound →
      Sound (fun r : List String × Parser => r.2) 0 p (Parser.identLoop bound p acc) := by
  intro bound
  induction bound with
  | zero => intro p acc h; omega
  | succ b ih =>
    intro p acc hb
    unfold Parser.identLoop
    refine sound_bind 0 0 0 (fun r : Bool × Parser => r.2) _ p _ _ (by omega)
      (accept_sound p .Comma) ?_
    intro a ha _
    obtain ⟨more, p1⟩ := a
    simp only
    cases more with
    | false => exact sound_pure _ _ _ rfl
    | true =>
      have h1 := accept_true p p1 .Comma (by decide) ha
      simp only [if_true]
      refine sound_bind 1 0 0 (fun r : String × Parser => r.2) _ p1 _ _ (by omega)
        (parseIdent_sound p1 _) ?_
      intro c _ hw
      obtain ⟨c, p2⟩ := c
      exact ih p2 _ (by simp only at hw; omega)

theorem literalLoop_sound :
    ∀ (bound : Nat) (p : Parser) (acc : List Value), p.weight < 2 * bound →
      Sound (fun r : List Value × Parser => r.2) 0 p (Parser.literalLoop bound p acc) := by
  intro bound
  induction bound with
  | zero => intro p acc h; omega
  | succ b ih =>
    intro p acc hb
    unfold Parser.literalLoop
    refine sound_bind 0 0 0 (fun r : Bool × Parser => r.2) _ p _ _ (by omega)
      (accept_sound p .Comma) ?_
    intro a ha _
    obtain ⟨more, p1⟩ := a
    simp only
    cases more with
    | false => exact sound_pure _ _ _ rfl
    | true =>
      have h1 := accept_true p p1 .Comma (by decide) ha
      simp only [if_true]
      refine sound_bind 1 0 0 (fun r : Value × Parser => r.2) _ p1 _ _ (by omega)
        (parseLiteral_sound p1) ?_
      intro c _ hw
      obtain ⟨c, p2⟩ := c
      exact ih p2 _ (by simp only at hw; omega)

theorem parseRow_sound (p0 : Parser) :
    Sound (fun r : List Value × Parser => r.2) 2 p0 p0.parseRow := by
  unfold Parser.parseRow
  refine sound_bind 1 1 2 id _ p0 _ _ (by omega) (expect_sound p0 _ _ (by decide)) ?_
  intro p1 _ _
  refine sound_bind 1 0 1 (fun r : Value × Parser => r.2) _ p1 _ _ (by omega)
    (parseLiteral_sound p1) ?_
  intro a _ _
  obtain ⟨v, p2⟩ := a
  simp only
  refine sound_bind 0 0 0 (fun r : List Value × Parser => r.2) _ p2 _ _ (by omega)
    (literalLoop_sound _ p2 _ (weight_bound p2)) ?_
  intro a _ _
  obtain ⟨row, p3⟩ := a
  simp only
  refine sound_bind 1 0 0 id _ p3 _ _ (by omega) (expect_sound p3 _ _ (by decide)) ?_
  intro p4 _ _
  exact sound_pure _ _ _ rfl

theorem rowLoop_sound :
    ∀ (bound : Nat) (p : Parser) (acc : List (List Value)), p.weight < 2 * bound →
      Sound (fun r : List (List Value) × Parser => r.2) 0 p (Parser.rowLoop bound p acc) := by
  intro bound
  induction bound with
  | zero => intro p acc h; omega
  | succ b ih =>
    intro p acc hb
    unfold Parser.rowLoop
    refine sound_bind 2 0 0 (fun r : List Value × Parser => r.2) _ p _ _ (by omega)
      (parseRow_sound p) ?_
    intro a _ hw
    obtain ⟨row, p1⟩ := a
    simp only at hw ⊢
    refine sound_bind 0 0 0 (fun r : Bool × Parser => r.2) _ p1 _ _ (by omega)
      (accept_sound p1 .Comma) ?_
    intro a _ hw2
    obtain ⟨more, p2⟩ := a
    simp only at hw2 ⊢
    cases more with
    | false => exact sound_pure _ _ _ rfl
    | true =>
      simp only [if_true]
      exact ih p2 _ (by omega)

theorem parseInsert_sound (p0 : Parser) :
    Sound (fun r : InsertStmt × Parser => r.2) 1 p0 p0.parseInsert := by
  unfold Parser.parseInsert
  refine sound_bind 1 0 1 id _ p0 _ _ (by omega) (expectWord_sound p0 _ _) ?_
  intro p1 _ _
  refine sound_bind 1 0 0 id _ p1 _ _ (by omega) (expectWord_sound p1 _ _) ?_
  intro p2 _ _
  refine sound_bind 1 0 0 (fun r : String × Parser => r.2) _ p2 _ _ (by omega)
    (parseIdent_sound p2 _) ?_
  intro a _ _
  obtain ⟨table, p3⟩ := a
  simp only
  refine sound_bind 1 0 0 id _ p3 _ _ (by omega) (expect_sound p3 _ _ (by decide)) ?_
  intro p4 _ _
  refine sound_bind 1 0 0 (fun r : String × Parser => r.2) _ p4 _ _ (by omega)
    (parseIdent_sound p4 _) ?_
  intro a _ _
  obtain ⟨c, p5⟩ := a
  simp only
  refine sound_bind 0 0 0 (fun r : List String × Parser => r.2) _ p5 _ _ (by omega)
    (identLoop_sound _ p5 _ (weight_bound p5)) ?_
  intro a _ _
  obtain ⟨cols, p6⟩ := a
  simp only
  refine sound_bind 1 0 0 id _ p6 _ _ (by omega) (expect_sound p6 _ _ (by decide)) ?_
  intro p7 _ _
  refine sound_bind 1 0 0 id _ p7 _ _ (by omega) (expectWord_sound p7 _ _) ?_
  intro p8 _ _
  refine sound_bind 0 0 0 (fun r : List (List Value) × Parser => r.2) _ p8 _ _ (by omega)
    (rowLoop_sound _ p8 _ (weight_bound p8)) ?_
  intro a _ _
  obtain ⟨rows, p9⟩ := a
  exact sound_pure _ _ _ rfl

theorem parseCondition_sound (p0 : Parser) :
    Sound (fun r : Condition × Parser => r.2) 1 p0 p0.parseCondition := by
  unfold Parser.parseCondition
  refine sound_bind 1 0 1 (fun r : String × Parser => r.2) _ p0 _ _ (by omega)
    (parseIdent_sound p0 _) ?_
  intro a _ _
  obtain ⟨column, p1⟩ := a
  simp only
  refine sound_bind 0 0 0 (fun r : Bool × Parser => r.2) _ p1 _ _ (by omega)
    (accept_sound p1 _) ?_
  intro a _ _
  obtain ⟨eq, p2⟩ := a
  simp only
  refine sound_bind 0 0 0 (fun r : CmpOp × Parser => r.2) _ p2 _ _ (by omega) ?_ ?_
  · cases eq with
    | true => exact sound_pure _ _ _ rfl
    | false =>
      simp only [Bool.false_eq_true, if_false]
      refine sound_bind 0 0 0 (fun r : Bool × Parser => r.2) _ p2 _ _ (by omega)
        (accept_sound p2 _) ?_
      intro a _ _
      obtain ⟨ne, p3⟩ := a
      simp only
      cases ne with
      | true => exact sound_pure _ _ _ rfl
      | false =>
        simp only [Bool.false_eq_true, if_false]
        refine sound_bind 0 0 0 (fun r : Bool × Parser => r.2) _ p3 _ _ (by omega)
          (accept_sound p3 _) ?_
        intro a _ _
        obtain ⟨le, p4⟩ := a
        simp only
        cases le with
        | true => exact sound_pure _ _ _ rfl
        | false =>
          simp only [Bool.false_eq_true, if_false]
          refine sound_bind 0 0 0 (fun r : Bool × Parser => r.2) _ p4 _ _ (by omega)
            (accept_sound p4 _) ?_
          intro a _ _
          obtain ⟨ge, p5⟩ := a
          simp only
          cases ge with
          | true => exact sound_pure _ _ _ rfl
          | false =>
            simp only [Bool.false_eq_true, if_false]
            refine sound_bind 0 0 0 (fun r : Bool × Parser => r.2) _ p5 _ _ (by omega)
              (accept_sound p5 _) ?_
            intro a _ _
            obtain ⟨lt, p6⟩ := a
            simp only
            cases lt with
            | true => exact sound_pure _ _ _ rfl
            | false =>
              simp only [Bool.false_eq_true, if_false]
              refine sound_bind 0 0 0 (fun r : Bool × Parser => r.2) _ p6 _ _ (by omega)
                (accept_sound p6 _) ?_
              intro a _ _
              obtain ⟨gt, p7⟩ := a
              simp only
              cases gt with
              | true => exact sound_pure _ _ _ rfl
              | false => exact errOk_runtime p7 _
  · intro a _ _
    obtain ⟨op, p⟩ := a
    simp only
    refine sound_bind 1 0 0 (fun r : Value × Parser => r.2) _ p _ _ (by omega)
      (parseLiteral_sound p) ?_
    intro a _ _
    obtain ⟨literal, q⟩ := a
    exact sound_pure _ _ _ rfl

theorem parseWhere_sound (p0 : Parser) :
    Sound (fun r : Option Condition × Parser => r.2) 0 p0 p0.parseWhere := by
  unfold Parser.parseWhere
  refine sound_bind 0 0 0 (fun r : Bool × Parser => r.2) _ p0 _ _ (by omega)
    (acceptWord_sound p0 _) ?_
  intro a _ _
  obtain ⟨w, p1⟩ := a
  simp only
  cases w with
  | false => exact sound_pure _ _ _ rfl
  | true =>
    simp only [if_true]
    refine sound_bind 1 0 0 (fun r : Condition × Parser => r.2) _ p1 _ _ (by omega)
      (parseCondition_sound p1) ?_
    intro a _ _
    obtain ⟨c, p2⟩ := a
    exact sound_pure _ _ _ rfl

theorem parseDelete_sound (p0 : Parser) :
    Sound (fun r : DeleteStmt × Parser => r.2) 1 p0 p0.parseDelete := by
  unfold Parser.parseDelete
  refine sound_bind 1 0 1 id _ p0 _ _ (by omega) (expectWord_sound p0 _ _) ?_
  intro p1 _ _
  refine sound_bind 1 0 0 id _ p1 _ _ (by omega) (expectWord_sound p1 _ _) ?_
  intro p2 _ _
  refine sound_bind 1 0 0 (fun r : String × Parser => r.2) _ p2 _ _ (by omega)
    (parseIdent_sound p2 _) ?_
  intro a _ _
  obtain ⟨table, p3⟩ := a
  simp only
  refine sound_bind 0 0 0 (fun r : Option Condition × Parser => r.2) _ p3 _ _ (by omega)
    (parseWhere_sound p3) ?_
  intro a _ _
  obtain ⟨w, p4⟩ := a
  exact sound_pure _ _ _ rfl

theorem assignLoop_sound :
    ∀ (bound : Nat) (p : Parser) (acc : List (String × Value)), p.weight < 2 * bound →
      Sound (fun r : List (String × Value) × Parser => r.2) 0 p
        (Parser.assignLoop bound p acc) := by
  intro bound
  induction bound with
  | zero => intro p acc h; omega
  | succ b ih =>
    intro p acc hb
    unfold Parser.assignLoop
    refine sound_bind 1 0 0 (fun r : String × Parser => r.2) _ p _ _ (by omega)
      (parseIdent_sound p _) ?_
    intro a _ hw1
    obtain ⟨cname, p1⟩ := a
    simp only at hw1 ⊢
    refine sound_bind 1 0 0 id _ p1 _ _ (by omega) (expect_sound p1 _ _ (by decide)) ?_
    intro p2 _ hw2
    simp only [id] at hw2
    refine sound_bind 1 0 0 (fun r : Value × Parser => r.2) _ p2 _ _ (by omega)
      (parseLiteral_sound p2) ?_
    intro a _ hw3
    obtain ⟨v, p3⟩ := a
    simp only at hw3 ⊢
    refine sound_bind 0 0 0 (fun r : Bool × Parser => r.2) _ p3 _ _ (by omega)
      (accept_sound p3 .Comma) ?_
    intro a _ hw4
    obtain ⟨more, p4⟩ := a
    simp only at hw4 ⊢
    cases more with
    | false => exact sound_pure _ _ _ rfl
    | true =>
      simp only [if_true]
      exact ih p4 _ (by omega)

theorem parseUpdate_sound (p0 : Parser) :
    Sound (fun r : UpdateStmt × Parser => r.2) 1 p0 p0.parseUpdate := by
  unfold Parser.parseUpdate
  refine sound_bind 1 0 1 id _ p0 _ _ (by omega) (expectWord_sound p0 _ _) ?_
  intro p1 _ _
  refine sound_bind 1 0 0 (fun r : String × Parser => r.2) _ p1 _ _ (by omega)
    (parseIdent_sound p1 _) ?_
  intro a _ _
  obtain ⟨table, p2⟩ := a
  simp only
  refine sound_bind 1 0 0 id _ p2 _ _ (by omega) (expectWord_sound p2 _ _) ?_
  intro p3 _ _
  refine sound_bind 0 0 0 (fun r : List (String × Value) × Parser => r.2) _ p3 _ _ (by omega)
    (assignLoop_sound _ p3 _ (weight_bound p3)) ?_
  intro a _ _
  obtain ⟨assignments, p4⟩ := a
  simp only
  refine sound_bind 0 0 0 (fun r : Option Condition × Parser => r.2) _ p4 _ _ (by omega)
    (parseWhere_sound p4) ?_
  intro a _ _
  obtain ⟨w, p5⟩ := a
  exact sound_pure _ _ _ rfl

theorem parseSelect_sound (p0 : Parser) :
    Sound (fun r : SelectStmt × Parser => r.2) 1 p0 p0.parseSelect := by
  unfold Parser.parseSelect
  refine sound_bind 1 0 1 id _ p0 _ _ (by omega) (expectWord_sound p0 _ _) ?_
  intro p1 _ _
  refine sound_bind 0 0 0 (fun r : Bool × Parser => r.2) _ p1 _ _ (by omega)
    (accept_sound p1 _) ?_
  intro a _ _
  obtain ⟨star, p2⟩ := a
  simp only
  refine sound_bind 0 0 0 (fun r : List String × Parser => r.2) _ p2 _ _ (by omega) ?_ ?_
  · cases star with
    | true => exact sound_pure _ _ _ rfl
    | false =>
      simp only [Bool.false_eq_true, if_false]
      refine sound_bind 1 0 0 (fun r : String × Parser => r.2) _ p2 _ _ (by omega)
        (parseIdent_sound p2 _) ?_
      intro a _ _
      obtain ⟨c, p⟩ := a
      exact identLoop_sound _ p _ (weight_bound p)
  · intro a _ _
    obtain ⟨cols, p3⟩ := a
    simp only
    refine sound_bind 1 0 0 id _ p3 _ _ (by omega) (expectWord_sound p3 _ _) ?_
    intro p4 _ _
    refine sound_bind 1 0 0 (fun r : String × Parser => r.2) _ p4 _ _ (by omega)
      (parseIdent_sound p4 _) ?_
    intro a _ _
    obtain ⟨table, p5⟩ := a
    simp only
    refine sound_bind 0 0 0 (fun r : Option Condition × Parser => r.2) _ p5 _ _ (by omega)
      (parseWhere_sound p5) ?_
    intro a _ _
    obtain ⟨w, p6⟩ := a
    exact sound_pure _ _ _ rfl

theorem sound_map {α β : Type} (k : Nat) (π : β → Parser) (f : α → β) (p : Parser)
    (r : Except ParseError α) (h : Sound (fun a => π (f a)) k p r) :
    Sound π k p (r.map f) := by
  cases r with
  | error e => exact h
  | ok a => exact h

theorem parseStatement_sound (p : Parser) :
    Sound (fun r : Statement × Parser => r.2) 1 p p.parseStatement := by
  unfold Parser.parseStatement
  split
  · exact errOk_runtime p _
  · split
    · exact sound_map 1 _ _ p _ (parseCreate_sound p)
    · split
      · exact sound_map 1 _ _ p _ (parseInsert_sound p)
      · split
        · exact sound_map 1 _ _ p _ (parseDelete_sound p)
        · split
          · exact sound_map 1 _ _ p _ (parseUpdate_sound p)
          · split
            · exact sound_map 1 _ _ p _ (parseSelect_sound p)
            · exact errOk_runtime p _

theorem parseAllLoop_sound :
    ∀ (bound : Nat) (p : Parser) (out : List Statement) (e : ParseError),
      p.weight < 2 * bound → Parser.parseAllLoop bound p out = .error e → ErrOk p e := by
  intro bound
  induction bound with
  | zero => intro p out e h; omega
  | succ b ih =>
    intro p out e hb h
    unfold Parser.parseAllLoop at h
    by_cases hend : p.cur.type = .End
    · rw [if_pos hend] at h; cases h
    · rw [if_neg hend] at h
      have h1 := parseStatement_sound p
      cases hs : p.parseStatement with
      | error e1 =>
        rw [hs] at h h1
        cases h
        exact h1
      | ok r =>
        obtain ⟨st, p1⟩ := r
        rw [hs] at h h1
        have h2 := expect_sound p1 .Semicolon "Expected ';' after statement" (by decide)
        cases hx : p1.expect .Semicolon "Expected ';' after statement" with
        | error e2 =>
          rw [hx] at h2
          simp only [bind, Except.bind, hx] at h
          cases h
          exact errOk_of_suffix p p1 _ h1.1 h2
        | ok p2 =>
          rw [hx] at h2
          simp only [bind, Except.bind, hx] at h
          have h3 := ih p2 _ e (by
            have := h1.2
            have := h2.2
            simp only [id] at *
            omega) h
          exact errOk_of_suffix p p2 _ (h2.1.trans h1.1) h3

theorem parseAll_sound (src : String) (e : ParseError) (h : parseAll src = .error e) :
    e ≠ .loopBound ∧ (e = .unbounded → NUL ∈ src.data) := by
  unfold parseAll Parser.create at h
  cases hn : Lexer.next ⟨src.data, 1, 1⟩ with
  | error e1 =>
    rw [hn] at h
    cases h
    exact next_error _ _ hn
  | ok r =>
    obtain ⟨t, lx⟩ := r
    rw [hn] at h
    obtain ⟨consumed, h1, -⟩ := next_consumed _ t lx hn
    have h2 := parseAllLoop_sound _ ⟨lx, t⟩ [] e (weight_bound _) h
    refine ⟨h2.1, fun he => ?_⟩
    have := h2.2 he
    replace h1 : src.data = consumed ++ lx.s := h1
    rw [h1]
    exact List.mem_append_right _ this

theorem readStringLoop_nul (tl tc : Nat) (body rest : List Char)
    (h : ∀ d ∈ body, d ≠ '"' ∧ d ≠ NUL) :
    ∀ (line col : Nat) (out : List Char),
      readStringLoop tl tc (body ++ NUL :: rest) line col out = .error .unbounded := by
  induction body with
  | nil => intro line col out; simp [readStringLoop]
  | cons c cs ih =>
    intro line col out
    obtain ⟨h1, h2⟩ := h c (List.mem_cons_self _ _)
    simp only [List.cons_append, readStringLoop, h1, h2, if_false]
    exact ih (fun d hd => h d (List.mem_cons_of_mem _ hd)) _ _ _

theorem loop_char_not_nul (c : Char)
    (h : isspace c = true ∨ isdigit c = true ∨ isalnum c = true ∨ c = '_') : c ≠ NUL := by
  rintro rfl
  revert h
  decide

theorem get_consumes (c : Char) (rest : List Char) (l col : Nat) (h : c ≠ NUL) :
    (Lexer.get ⟨c :: rest, l, col⟩).2.s = rest := by
  simp [Lexer.get, h]

/-- C28. A `'\0'` inside a string literal is never consumed: `get` returns it without
moving, `eof` stays false, and the loop of `readString` appends it for ever, so `next` and
`parseAll` do not end on such a text.  On every other text they end: `parseAll` returns
statements or raises, no loop of the parser runs more often than there are unread
characters, a call of `next` that returns has read at least one character unless it
returns `End` at the end of the text, and the characters the loops over spaces, digits
and identifier characters read are consumed by `get`. -/
theorem termination_except_nul_in_string :
    parseAll (String.mk ['"', NUL]) = .error .unbounded ∧
    parseAll (String.mk ("SELECT * FROM t WHERE s = \"a".data ++ NUL :: "\";".data)) =
      .error .unbounded ∧
    (∀ (rest : List Char) (l col : Nat),
      Lexer.eof ⟨NUL :: rest, l, col⟩ = false ∧
      Lexer.get ⟨NUL :: rest, l, col⟩ = (NUL, ⟨NUL :: rest, l, col⟩)) ∧
    (∀ (tl tc : Nat) (body rest : List Char) (line col : Nat) (out : List Char),
      (∀ d ∈ body, d ≠ '"' ∧ d ≠ NUL) →
      readStringLoop tl tc (body ++ NUL :: rest) line col out = .error .unbounded) ∧
    (∀ src : String,
      (∃ stmts, parseAll src = .ok stmts) ∨
      (∃ e, parseAll src = .error e ∧ e ≠ .loopBound ∧ (e = .unbounded → NUL ∈ src.data))) ∧
    (∀ lx0 : Lexer,
      (∃ t lx, lx0.next = .ok (t, lx) ∧
        ((t.type = .End ∧ lx.s = []) ∨ ∃ consumed, consumed ≠ [] ∧ lx0.s = consumed ++ lx.s)) ∨
      (∃ e, lx0.next = .error e ∧ e ≠ .loopBound ∧ (e = .unbounded → NUL ∈ lx0.s))) ∧
    (∀ (c : Char) (rest : List Char) (l col : Nat),
      isspace c = true ∨ isdigit c = true ∨ isalnum c = true ∨ c = '_' →
      c ≠ NUL ∧ (Lexer.get ⟨c :: rest, l, col⟩).2.s = rest) := by
  refine ⟨by decide, by decide, fun rest l col => ⟨rfl, rfl⟩, ?_, ?_, ?_, ?_⟩
  · intro tl tc body rest line col out h
    exact readStringLoop_nul tl tc body rest h line col out
  · intro src
    cases h : parseAll src with
    | ok stmts => exact Or.inl ⟨stmts, rfl⟩
    | error e => exact Or.inr ⟨e, rfl, parseAll_sound src e h⟩
  · intro lx0
    cases h : lx0.next with
    | ok r =>
      obtain ⟨t, lx⟩ := r
      obtain ⟨consumed, h1, -, h3, h4⟩ := next_consumed lx0 t lx h
      refine Or.inl ⟨t, lx, rfl, ?_⟩
      by_cases ht : t.type = .End
      · exact Or.inl ⟨ht, h4 ht⟩
      · exact Or.inr ⟨consumed, h3 ht, h1⟩
    | error e => exact Or.inr ⟨e, rfl, next_error lx0 e h⟩
  · intro c rest l col h
    exact ⟨loop_char_not_nul c h, get_consumes c rest l col (loop_char_not_nul c h)⟩

/-! ## C15: the statement a table's columns come from -/

theorem execute_table_source (db : Database) (st : Statement) (name : String) (t2 : Table)
    (h : mapFind (execute db st).db.tables name = some t2) :
    (∃ t, mapFind db.tables name = some t ∧ t2.columns = t.columns) ∨
    (mapFind db.tables name = none ∧ ∃ s, st = .create s ∧ s.table = name ∧
      t2.columns = s.columns.map (fun c => (⟨c.1, c.2⟩ : Column))) := by
  cases hT : st.rowTable with
  | some T =>
    obtain ⟨h1, h2⟩ := rowStatement_db db st T hT
    cases hf : mapFind db.tables T with
    | none =>
      rw [h1 hf] at h
      exact Or.inl ⟨t2, h, rfl⟩
    | some t =>
      obtain ⟨rows, hrows⟩ := h2 t hf
      rw [hrows] at h
      by_cases hn : T = name
      · subst hn
        rw [show (Database.mk (mapAssign db.tables T { t with rows := rows })).tables =
          mapAssign db.tables T { t with rows := rows } from rfl, mapFind_mapAssign_same] at h
        cases h
        exact Or.inl ⟨t, hf, rfl⟩
      · rw [show (Database.mk (mapAssign db.tables T { t with rows := rows })).tables =
          mapAssign db.tables T { t with rows := rows } from rfl,
          mapFind_mapAssign_other _ _ _ _ hn] at h
        exact Or.inl ⟨t2, h, rfl⟩
  | none =>
    cases st with
    | insert s => cases hT
    | delete s => cases hT
    | update s => cases hT
    | select s =>
      rw [show (execute db (.select s)).db = db from execSelect_db db s] at h
      exact Or.inl ⟨t2, h, rfl⟩
    | create s =>
      simp only [execute, execCreate] at h
      split at h
      · exact Or.inl ⟨t2, h, rfl⟩
      · rename_i hnone
        have hnone2 := optionIsSome_false _ hnone
        simp only [createColumns_name] at h
        rw [mapFind_mapEmplace _ _ _ _ hnone2] at h
        split at h
        · rename_i heq
          cases h
          exact Or.inr ⟨by rw [← heq]; exact hnone2, s, rfl, heq,
            by simp [createColumns_columns]⟩
        · exact Or.inl ⟨t2, h, rfl⟩

theorem execute_table_kept (db : Database) (st : Statement) (name : String) (t : Table)
    (h : mapFind db.tables name = some t) :
    ∃ t2, mapFind (execute db st).db.tables name = some t2 := by
  cases hT : st.rowTable with
  | some T =>
    obtain ⟨h1, h2⟩ := rowStatement_db db st T hT
    cases hf : mapFind db.tables T with
    | none => rw [h1 hf]; exact ⟨t, h⟩
    | some u =>
      obtain ⟨rows, hrows⟩ := h2 u hf
      rw [hrows]
      by_cases hn : T = name
      · subst hn
        exact ⟨_, mapFind_mapAssign_same _ _ _⟩
      · exact ⟨t, by
          rw [show (Database.mk (mapAssign db.tables T { u with rows := rows })).tables =
            mapAssign db.tables T { u with rows := rows } from rfl,
            mapFind_mapAssign_other _ _ _ _ hn]
          exact h⟩
  | none =>
    cases st with
    | insert s => cases hT
    | delete s => cases hT
    | update s => cases hT
    | select s =>
      rw [show (execute db (.select s)).db = db from execSelect_db db s]
      exact ⟨t, h⟩
    | create s =>
      simp only [execute, execCreate]
      split
      · exact ⟨t, h⟩
      · rename_i hnone
        have hnone2 := optionIsSome_false _ hnone
        simp only [createColumns_name]
        rw [mapFind_mapEmplace _ _ _ _ hnone2]
        split
        · exact ⟨_, rfl⟩
        · exact ⟨t, h⟩

theorem runAll_columns_kept (stmts : List Statement) :
    ∀ (db : Database) (name : String) (t0 t : Table),
      mapFind db.tables name = some t0 →
      mapFind (runAll db stmts).tables name = some t → t.columns = t0.columns := by
  induction stmts with
  | nil =>
    intro db name t0 t h0 h
    rw [show runAll db [] = db from rfl, h0] at h
    cases h
    rfl
  | cons st rest ih =>
    intro db name t0 t h0 h
    obtain ⟨t1, h1⟩ := execute_table_kept db st name t0 h0
    have hcols : t1.columns = t0.columns := by
      rcases execute_table_source db st name t1 h1 with ⟨u, hu, hc⟩ | ⟨hnone, _⟩
      · rw [h0] at hu
        cases hu
        exact hc
      · rw [h0] at hnone
        cases hnone
    rw [← hcols]
    exact ih (execute db st).db name t1 t h1 h

theorem runAll_columns_created (stmts : List Statement) :
    ∀ (db : Database) (name : String) (t : Table),
      mapFind db.tables name = none →
      mapFind (runAll db stmts).tables name = some t →
      ∃ s, creatingStatement name stmts = some s ∧
        t.columns = s.columns.map (fun c => (⟨c.1, c.2⟩ : Column)) := by
  induction stmts with
  | nil =>
    intro db name t h0 h
    rw [show runAll db [] = db from rfl, h0] at h
    cases h
  | cons st rest ih =>
    intro db name t h0 h
    cases h1 : mapFind (execute db st).db.tables name with
    | none =>
      obtain ⟨s, hs, hc⟩ := ih (execute db st).db name t h1 h
      refine ⟨s, ?_, hc⟩
      cases st with
      | create c =>
        by_cases hn : c.table = name
        · subst hn
          rw [(create_round_trip_table db c h0).1] at h1
          cases h1
        · simp only [creatingStatement, hn, if_false]
          exact hs
      | insert _ => exact hs
      | delete _ => exact hs
      | update _ => exact hs
      | select _ => exact hs
    | some t1 =>
      rcases execute_table_source db st name t1 h1 with ⟨u, hu, _⟩ | ⟨_, s, hst, hname, hc⟩
      · rw [h0] at hu
        cases hu
      · subst hst
        refine ⟨s, by simp [creatingStatement, hname], ?_⟩
        rw [← hc]
        exact runAll_columns_kept rest (execute db (.create s)).db name t1 t h1 h

/-- C15, amended. Every table of a database obtained by executing statements from the
empty database has exactly the columns of the CREATE TABLE statement that created it, the
first CREATE of its name among the statements; so its column names are pairwise distinct
if and only if that one statement lists pairwise distinct column names, whatever the
other statements are. -/
theorem distinct_columns_of_creating_statement (stmts : List Statement) (name : String)
    (t : Table) (ht : mapFind (runAll emptyDb stmts).tables name = some t) :
    ∃ s, creatingStatement name stmts = some s ∧
      t.columns = s.columns.map (fun c => (⟨c.1, c.2⟩ : Column)) ∧
      (t.distinctColumns ↔ (s.columns.map (fun c => c.1)).Nodup) := by
  obtain ⟨s, hs, hc⟩ := runAll_columns_created stmts emptyDb name t rfl ht
  refine ⟨s, hs, hc, ?_⟩
  unfold Table.distinctColumns
  rw [hc, List.map_map]
  exact Iff.rfl

/-- C15 instance: the table `u (id int, name str)` has distinct column names although the
statements before and after its CREATE create a table with a repeated name and repeat
the CREATE of `u` with a repeated name. -/
theorem distinct_columns_of_creating_statement_witness :
    ∃ s, creatingStatement "u"
        [.create ⟨"t", [("a", .INT), ("a", .INT)]⟩,
          .create ⟨"u", [("id", .INT), ("name", .STR)]⟩,
          .create ⟨"u", [("b", .INT), ("b", .INT)]⟩,
          .insert ⟨"u", ["id", "name"], [[.int 1, .str "Alice"]]⟩] = some s ∧
      (Table.mk "u" [⟨"id", .INT⟩, ⟨"name", .STR⟩] [("id", 0), ("name", 1)]
          [[.int 1, .str "Alice"]]).columns =
        s.columns.map (fun c => (⟨c.1, c.2⟩ : Column)) ∧
      ((Table.mk "u" [⟨"id", .INT⟩, ⟨"name", .STR⟩] [("id", 0), ("name", 1)]
          [[.int 1, .str "Alice"]]).distinctColumns ↔
        (s.columns.map (fun c => c.1)).Nodup) :=
  distinct_columns_of_creating_statement
    [.create ⟨"t", [("a", .INT), ("a", .INT)]⟩,
      .create ⟨"u", [("id", .INT), ("name", .STR)]⟩,
      .create ⟨"u", [("b", .INT), ("b", .INT)]⟩,
      .insert ⟨"u", ["id", "name"], [[.int 1, .str "Alice"]]⟩]
    "u" _ (by decide)

/-- C1, counterexample. Both texts parse and every statement succeeds.  After
`CREATE TABLE t (a int, a int); INSERT INTO t (a) VALUES (5);` the row `SELECT *` prints is
`0`, `5`: the first column, named `a` as the column list is, shows the default and not the
supplied literal.  After `CREATE TABLE t (n int, s str); INSERT INTO t (n, n) VALUES (1, 2);`
the row printed is `2` and the empty string: the literal `1` supplied for `n` is not
displayed. -/
theorem round_trip_fails_on_repeated_names :
    (parseAll "CREATE TABLE t (a int, a int); INSERT INTO t (a) VALUES (5);").map
        (fun stmts => (allSucceed emptyDb stmts,
          (execute (runAll emptyDb stmts) (.select ⟨true, [], "t", none⟩)).result)) =
      .ok (true, .ok (some ⟨["a", "a"], [["0", "5"]]⟩)) ∧
    (parseAll "CREATE TABLE t (n int, s str); INSERT INTO t (n, n) VALUES (1, 2);").map
        (fun stmts => (allSucceed emptyDb stmts,
          (execute (runAll emptyDb stmts) (.select ⟨true, [], "t", none⟩)).result)) =
      .ok (true, .ok (some ⟨["n", "s"], [["2", ""]]⟩)) := by
  refine ⟨by decide, by decide⟩

/-- C2, counterexample. On the fresh table `t (n int, s str)` the statement
`INSERT INTO t (n, n) VALUES (1, 2)` succeeds and appends `[2, ""]`: the cell at the
position of the named column `n` is not the literal `1` supplied with its first naming.
On the fresh table `t (a int, a int)` the statement `INSERT INTO t (a) VALUES (5)`
succeeds and appends `[0, 5]`: the first column named `a` holds the default. -/
theorem insert_last_literal_wins :
    (execute tableNS (.insert ⟨"t", ["n", "n"], [[.int 1, .int 2]]⟩)).result = .ok none ∧
    (mapFind (execute tableNS (.insert ⟨"t", ["n", "n"], [[.int 1, .int 2]]⟩)).db.tables
        "t").map (fun t => t.rows) = some [[.int 2, .str ""]] ∧
    (execute (execute emptyDb (.create ⟨"t", [("a", .INT), ("a", .INT)]⟩)).db
        (.insert ⟨"t", ["a"], [[.int 5]]⟩)).result = .ok none ∧
    (mapFind (execute (execute emptyDb (.create ⟨"t", [("a", .INT), ("a", .INT)]⟩)).db
        (.insert ⟨"t", ["a"], [[.int 5]]⟩)).db.tables "t").map (fun t => t.rows) =
      some [[.int 0, .int 5]] := by
  refine ⟨by decide, by decide, by decide, by decide⟩

/-- C7, counterexample. On the rows (1, Alice), (2, Bob), (3, Cara) the statement
`UPDATE t SET id = 2, id = 1` succeeds and leaves `id` equal to `1` in every row, not to
the assigned literal `2`.  On the table `t (a int, a int)` holding the row `[0, 7]` the
statement `UPDATE t SET a = 5` succeeds and gives `[0, 5]`: the first column named `a`
keeps its cell. -/
theorem update_last_assignment_wins :
    (execute threeRows (.update ⟨"t", [("id", .int 2), ("id", .int 1)], none⟩)).result =
      .ok none ∧
    (mapFind (execute threeRows
        (.update ⟨"t", [("id", .int 2), ("id", .int 1)], none⟩)).db.tables "t").map
        (fun t => t.rows) =
      some [[.int 1, .str "Alice"], [.int 1, .str "Bob"], [.int 1, .str "Cara"]] ∧
    (mapFind (runAll emptyDb [.create ⟨"t", [("a", .INT), ("a", .INT)]⟩,
        .insert ⟨"t", ["a"], [[.int 7]]⟩]).tables "t").map (fun t => t.rows) =
      some [[.int 0, .int 7]] ∧
    (execute (runAll emptyDb [.create ⟨"t", [("a", .INT), ("a", .INT)]⟩,
        .insert ⟨"t", ["a"], [[.int 7]]⟩]) (.update ⟨"t", [("a", .int 5)], none⟩)).result =
      .ok none ∧
    (mapFind (execute (runAll emptyDb [.create ⟨"t", [("a", .INT), ("a", .INT)]⟩,
        .insert ⟨"t", ["a"], [[.int 7]]⟩])
        (.update ⟨"t", [("a", .int 5)], none⟩)).db.tables "t").map (fun t => t.rows) =
      some [[.int 0, .int 5]] := by
  refine ⟨by decide, by decide, by decide, by decide, by decide⟩

/-! ## C1, C2, C7: statements that repeat a name -/

/-- C2, amended. A successful INSERT appends to its table, for each VALUES row in the
order given, one full-width row (as many cells as the table has columns) in which the
cell of every column that a listed name denotes is the literal supplied with that name,
the last one should several listed names denote the column, and the cell of every column
that no listed name denotes is the default of the column type (int 0, empty string).  A
name denotes the column at the position the table indexes it at, which on a database
reachable from the empty one is the position of the last column of that name.  The table
keeps its
name, columns and earlier rows, and every other table is untouched. On `t (n int, s str)`,
`INSERT INTO t (s) VALUES ("x")` appends the row `[0, "x"]`, and
`INSERT INTO t (n, n) VALUES (1, 2)` appends `[2, ""]`. -/
theorem insert_appends_default_filled_rows (db : Database) (s : InsertStmt) (t : Table)
    (ht : mapFind db.tables s.table = some t)
    (hok : (execute db (.insert s)).result = .ok none) :
    mapFind (execute db (.insert s)).db.tables s.table =
      some { t with rows := t.rows ++ s.rows.map (expectedRow t s.cols) } ∧
    (∀ values ∈ s.rows, (expectedRow t s.cols values).length = t.columns.length) ∧
    (∀ values ∈ s.rows, ∀ p col, t.columns[p]? = some col →
      (expectedRow t s.cols values)[p]? =
        some ((suppliedLiteral t s.cols values p).getD (defaultFor col.type))) ∧
    (∀ values ∈ s.rows, ∀ (p : Nat) (col : Column), t.columns[p]? = some col →
      (∃ (k : Nat) (cn : String) (v : Value), s.cols[k]? = some cn ∧ values[k]? = some v ∧
          t.indexOf cn = Int.ofNat p ∧ (expectedRow t s.cols values)[p]? = some v) ∨
      ((∀ cn ∈ s.cols, t.indexOf cn ≠ Int.ofNat p) ∧
        (expectedRow t s.cols values)[p]? = some (defaultFor col.type))) ∧
    (∀ values ∈ s.rows, ∀ (k : Nat) (cn : String) (v : Value),
      s.cols[k]? = some cn → values[k]? = some v →
      (∀ (k2 : Nat) (cn2 : String), k < k2 → s.cols[k2]? = some cn2 →
        t.indexOf cn2 ≠ t.indexOf cn) →
      (expectedRow t s.cols values)[(t.indexOf cn).toNat]? = some v) ∧
    (∀ values ∈ s.rows, ∀ p col, t.columns[p]? = some col →
      (∀ cn ∈ s.cols, t.indexOf cn ≠ Int.ofNat p) →
      (expectedRow t s.cols values)[p]? = some (defaultFor col.type)) ∧
    (∀ other, other ≠ s.table →
      mapFind (execute db (.insert s)).db.tables other = mapFind db.tables other) ∧
    mapFind (execute tableNS (.insert ⟨"t", ["s"], [[.str "x"]]⟩)).db.tables "t" =
      some ⟨"t", [⟨"n", .INT⟩, ⟨"s", .STR⟩], [("n", 0), ("s", 1)], [[.int 0, .str "x"]]⟩ ∧
    mapFind (execute tableNS (.insert ⟨"t", ["n", "n"], [[.int 1, .int 2]]⟩)).db.tables "t" =
      some ⟨"t", [⟨"n", .INT⟩, ⟨"s", .STR⟩], [("n", 0), ("s", 1)], [[.int 2, .str ""]]⟩ ∧
    (Reachable db → IndexConsistent t ∧ IndexLast t) := by
  obtain ⟨t2, ht2, hnn, hrows⟩ := execInsert_ok_inv db s hok
  rw [ht] at ht2
  cases ht2
  have hexec := execInsert_accept db s t ht hnn hrows
  refine ⟨?_, ?_, ?_, ?_, ?_, ?_, ?_, by decide, by decide,
    fun hdb => ⟨reachable_indexed db hdb _ t ht, reachable_indexLast db hdb _ t ht⟩⟩
  · simp [execute, hexec, mapFind_mapAssign_same]
  · intro values _
    simp [expectedRow]
  · intro values _ p col hcol
    simp [expectedRow, List.getElem?_mapIdx, hcol]
  · intro values hvalues p col hcol
    exact expectedRow_cell t s.cols values (hrows values hvalues).1 p col hcol
  · intro values hvalues k cn v hc hv hlater
    have hneg := hnn cn (List.getElem?_mem hc)
    have hp : t.indexOf cn = Int.ofNat (t.indexOf cn).toNat :=
      (Int.toNat_of_nonneg (not_lt.mp hneg)).symm
    have hmem : (cn, v) ∈ s.cols.zip values :=
      List.getElem?_mem (List.getElem?_zip_eq_some.2 ⟨hc, hv⟩)
    have hacc := (hrows values hvalues).2 (cn, v) hmem
    cases hcol : t.column? cn with
    | none => simp [hcol] at hacc
    | some col =>
      have hget := (column?_eq_some t cn col hcol).2
      simp only [expectedRow, List.getElem?_mapIdx, hget, Option.map_some',
        suppliedLiteral_last t s.cols values k cn v _ hc hv hp hlater, Option.getD_some]
  · intro values _ p col hcol hnone
    simp only [expectedRow, List.getElem?_mapIdx, hcol, Option.map_some',
      suppliedLiteral_none t s.cols values p hnone, Option.getD_none]
  · intro other hne
    simp [execute, hexec, mapFind_mapAssign_other _ _ _ _ (Ne.symm hne)]

/-- C2, at a concrete input: `INSERT INTO t (s, n) VALUES ("x", 7), ("y", 8)` on the fresh
table `t (n int, s str)`. -/
theorem insert_appends_default_filled_rows_witness :
    mapFind (execute tableNS (.insert ⟨"t", ["s", "n"],
        [[.str "x", .int 7], [.str "y", .int 8]]⟩)).db.tables "t" =
      some { (⟨"t", [⟨"n", .INT⟩, ⟨"s", .STR⟩], [("n", 0), ("s", 1)], []⟩ : Table) with
        rows := [] ++ [[Value.str "x", .int 7], [.str "y", .int 8]].map
          (expectedRow ⟨"t", [⟨"n", .INT⟩, ⟨"s", .STR⟩], [("n", 0), ("s", 1)], []⟩ ["s", "n"]) } :=
  (insert_appends_default_filled_rows tableNS
    ⟨"t", ["s", "n"], [[.str "x", .int 7], [.str "y", .int 8]]⟩
    ⟨"t", [⟨"n", .INT⟩, ⟨"s", .STR⟩], [("n", 0), ("s", 1)], []⟩ (by decide) (by decide)).1

/-- C7, amended. On a reachable database, UPDATE raises and changes nothing, whatever
rows the table holds, when the table does not exist, when a SET column is not a column of
the table, or when the kind of an assigned literal differs from the declared type of its
column. When it succeeds the table has the same rows in the same order, where every row
selected by the WHERE (every row when WHERE is absent) is replaced by the row of the same
length in which the cell of every column that a SET name denotes is the literal assigned
to it, that of the last assignment should several assignments denote the column, and
every other cell is the old cell, and every row that is not selected is unchanged.  A
SET name denotes the column at the position the table indexes it at, which is the
position of the last column of that name.  Every other table is untouched. -/
theorem update_semantics (db : Database) (s : UpdateStmt) (hdb : Reachable db) :
    (mapFind db.tables s.table = none →
      (execute db (.update s)).result = .error (.noSuchTable s.table) ∧
      (execute db (.update s)).db = db) ∧
    (∀ t, mapFind db.tables s.table = some t →
      (∃ a ∈ s.assignments, (¬ ∃ col ∈ t.columns, col.name = a.1) ∨
        ∃ col, t.column? a.1 = some col ∧ a.2.kind ≠ col.type) →
      (∃ e, (execute db (.update s)).result = .error e) ∧
      (execute db (.update s)).db = db) ∧
    (∀ t, mapFind db.tables s.table = some t →
      (execute db (.update s)).result = .ok none →
      mapFind (execute db (.update s)).db.tables s.table =
        some { t with rows := t.rows.map (fun r =>
          if selected t r s.where_ = .ok true then updatedRow t s.assignments r else r) } ∧
      (∀ r ∈ t.rows, ∃ b, selected t r s.where_ = .ok b) ∧
      (s.where_ = none → ∀ r ∈ t.rows, selected t r s.where_ = .ok true) ∧
      (∀ r ∈ t.rows, (updatedRow t s.assignments r).length = r.length) ∧
      (∀ r ∈ t.rows, ∀ p v, r[p]? = some v →
        (updatedRow t s.assignments r)[p]? =
          some ((assignedLiteral t s.assignments p).getD v)) ∧
      (∀ r ∈ t.rows, ∀ (p : Nat) (v0 : Value), r[p]? = some v0 →
        (∃ (k : Nat) (a : String × Value), s.assignments[k]? = some a ∧
            t.indexOf a.1 = Int.ofNat p ∧ (updatedRow t s.assignments r)[p]? = some a.2) ∨
        ((∀ a ∈ s.assignments, t.indexOf a.1 ≠ Int.ofNat p) ∧
          (updatedRow t s.assignments r)[p]? = some v0)) ∧
      (∀ r ∈ t.rows, selected t r s.where_ = .ok true →
        ∀ (k : Nat) (a : String × Value), s.assignments[k]? = some a →
        (∀ (k2 : Nat) (b : String × Value), k < k2 → s.assignments[k2]? = some b →
          t.indexOf b.1 ≠ t.indexOf a.1) →
        (updatedRow t s.assignments r)[(t.indexOf a.1).toNat]? = some a.2) ∧
      (∀ r ∈ t.rows, ∀ p v, r[p]? = some v →
        (∀ a ∈ s.assignments, t.indexOf a.1 ≠ Int.ofNat p) →
        (updatedRow t s.assignments r)[p]? = some v)) ∧
    (∀ other, other ≠ s.table →
      mapFind (execute db (.update s)).db.tables other = mapFind db.tables other) ∧
    (∀ t, mapFind db.tables s.table = some t → IndexConsistent t ∧ IndexLast t) := by
  have hidx := reachable_indexed db hdb
  refine ⟨?_, ?_, ?_, ?_, fun t ht => ⟨hidx _ t ht, reachable_indexLast db hdb _ t ht⟩⟩
  · intro h
    simp [execute, execUpdate, h]
  · intro t ht hbad
    have hrej : ∃ a ∈ s.assignments, ¬ AssignmentAccepted t a := by
      obtain ⟨a, ha, hcase⟩ := hbad
      refine ⟨a, ha, ?_⟩
      unfold AssignmentAccepted
      rcases hcase with hno | ⟨col, hcol, hkind⟩
      · have hneg := indexOf_neg_of_no_column t (hidx _ t ht) a.1 hno
        simp [Table.column?, hneg]
      · simp only [hcol, Option.map_some', Option.some.injEq]
        exact fun h => hkind h.symm
    obtain ⟨e, he⟩ := updateIndexes_reject t s.assignments hrej
    exact ⟨⟨e, by simp [execute, execUpdate, ht, he]⟩, by simp [execute, execUpdate, ht, he]⟩
  · intro t ht hok
    obtain ⟨hacc, hres, hdbeq⟩ := execUpdate_ok_inv db s t ht hok
    have hnn : ∀ a ∈ s.assignments, ¬ t.indexOf a.1 < 0 := by
      intro a ha
      have h1 := hacc a ha
      unfold AssignmentAccepted at h1
      cases hcol : t.column? a.1 with
      | none => simp [hcol] at h1
      | some col => exact (column?_eq_some t a.1 col hcol).1
    have hrows := updateRows_ok t s t.rows _ hnn (Prod.ext rfl hres)
    refine ⟨?_, updateRows_ok_selected t _ s t.rows hres, ?_, ?_, ?_, ?_, ?_, ?_⟩
    · simp only [execute, hdbeq, mapFind_mapAssign_same]
      exact congrArg (fun rows => some (⟨t.name, t.columns, t.colIndex, rows⟩ : Table)) hrows
    · intro hw r _
      simp [hw, selected]
    · intro r _
      simp [updatedRow]
    · intro r _ p v hv
      simp [updatedRow, List.getElem?_mapIdx, hv]
    · intro r _ p v0 hv0
      exact updatedRow_cell t s.assignments r p v0 hv0
    · intro r hr hsel k a hk hlater
      obtain ⟨r2, hr2⟩ := updateRows_ok_assign t _ s t.rows hres r hr hsel
      have hlt := assignRow_inrange t.indexOf s.assignments r r2 hr2 a (List.getElem?_mem hk)
      have hp : t.indexOf a.1 = Int.ofNat (t.indexOf a.1).toNat :=
        (Int.toNat_of_nonneg (not_lt.mp (hnn a (List.getElem?_mem hk)))).symm
      simp only [updatedRow, List.getElem?_mapIdx, List.getElem?_eq_getElem hlt, Option.map_some',
        assignedLiteral_last t s.assignments k a _ hk hp hlater, Option.getD_some]
    · intro r _ p v hv hnone
      simp only [updatedRow, List.getElem?_mapIdx, hv, Option.map_some',
        assignedLiteral_none t s.assignments p hnone, Option.getD_none]
  · intro other hne
    simp only [execute, execUpdate]
    split
    · rfl
    · split
      · rfl
      · simp [mapFind_mapAssign_other _ _ _ _ (Ne.symm hne)]

/-- C7, at a concrete input: on the rows (1, Alice), (2, Bob), (3, Cara),
`UPDATE t SET name = "Bee" WHERE id = 2` changes the second row only, and
`UPDATE t SET id = "x"` raises without changing the database. -/
theorem update_semantics_witness :
    mapFind (execute threeRows
        (.update ⟨"t", [("name", .str "Bee")], some ⟨"id", .EQ, .int 2⟩⟩)).db.tables "t" =
      some ⟨"t", [⟨"id", .INT⟩, ⟨"name", .STR⟩], [("id", 0), ("name", 1)],
        [[.int 1, .str "Alice"], [.int 2, .str "Bee"], [.int 3, .str "Cara"]]⟩ ∧
    ((∃ e, (execute threeRows (.update ⟨"t", [("id", .str "x")], none⟩)).result = .error e) ∧
      (execute threeRows (.update ⟨"t", [("id", .str "x")], none⟩)).db = threeRows) :=
  ⟨((update_semantics threeRows ⟨"t", [("name", .str "Bee")], some ⟨"id", .EQ, .int 2⟩⟩
      ⟨[.create ⟨"t", [("id", .INT), ("name", .STR)]⟩,
        .insert ⟨"t", ["id", "name"],
          [[.int 1, .str "Alice"], [.int 2, .str "Bob"], [.int 3, .str "Cara"]]⟩], rfl⟩).2.2.1
      ⟨"t", [⟨"id", .INT⟩, ⟨"name", .STR⟩], [("id", 0), ("name", 1)],
        [[.int 1, .str "Alice"], [.int 2, .str "Bob"], [.int 3, .str "Cara"]]⟩
      (by decide) (by decide)).1,
   (update_semantics threeRows ⟨"t", [("id", .str "x")], none⟩
      ⟨[.create ⟨"t", [("id", .INT), ("name", .STR)]⟩,
        .insert ⟨"t", ["id", "name"],
          [[.int 1, .str "Alice"], [.int 2, .str "Bob"], [.int 3, .str "Cara"]]⟩], rfl⟩).2.1
      ⟨"t", [⟨"id", .INT⟩, ⟨"name", .STR⟩], [("id", 0), ("name", 1)],
        [[.int 1, .str "Alice"], [.int 2, .str "Bob"], [.int 3, .str "Cara"]]⟩
      (by decide)
      ⟨("id", .str "x"), by simp, Or.inr ⟨⟨"id", .INT⟩, by decide, by decide⟩⟩⟩

/-- C1, amended. Round trip. On a database without a table of that name, after CREATE
TABLE and any sequence of INSERT statements into the new table that all succeed,
`SELECT *` without WHERE succeeds, its headers are the declared column names, and its rows
are, in insertion order, exactly one row per inserted VALUES row, in which each cell is
the display text of the literal supplied for its column, the last one should several
names of the column list denote the column, or of the default of the column type (`0` for
int, the empty string for str) when the column list of the INSERT has no name denoting
that column.  A name denotes the column at the position the table indexes it at, which
is the position of the last declared column of that name. -/
theorem insert_select_round_trip (db : Database) (cs : CreateStmt) (ins : List InsertStmt)
    (cols : List String)
    (hnew : mapFind db.tables cs.table = none)
    (htab : ∀ i ∈ ins, i.table = cs.table)
    (hok : allSucceed (execute db (.create cs)).db (ins.map Statement.insert) = true) :
    ∃ t0, mapFind (execute db (.create cs)).db.tables cs.table = some t0 ∧
      t0.columns = cs.columns.map (fun c => (⟨c.1, c.2⟩ : Column)) ∧ t0.rows = [] ∧
      (execute (runAll (execute db (.create cs)).db (ins.map Statement.insert))
          (.select ⟨true, cols, cs.table, none⟩)).result =
        .ok (some ⟨cs.columns.map (fun c => c.1),
          (ins.flatMap (fun i => i.rows.map (expectedRow t0 i.cols))).map
            (fun r => r.map Value.toString)⟩) ∧
      (∀ i ∈ ins, ∀ values ∈ i.rows, ∀ p col, t0.columns[p]? = some col →
        ((expectedRow t0 i.cols values).map Value.toString)[p]? =
          some ((suppliedLiteral t0 i.cols values p).getD (defaultFor col.type)).toString) ∧
      (∀ i ∈ ins, ∀ values ∈ i.rows, ∀ (p : Nat) (col : Column), t0.columns[p]? = some col →
        (∃ (k : Nat) (cn : String) (v : Value), i.cols[k]? = some cn ∧ values[k]? = some v ∧
            t0.indexOf cn = Int.ofNat p ∧
            ((expectedRow t0 i.cols values).map Value.toString)[p]? = some v.toString) ∨
        ((∀ cn ∈ i.cols, t0.indexOf cn ≠ Int.ofNat p) ∧
          ((expectedRow t0 i.cols values).map Value.toString)[p]? =
            some (defaultFor col.type).toString)) ∧
      (defaultFor .INT).toString = "0" ∧ (defaultFor .STR).toString = "" ∧
      IndexConsistent t0 ∧ IndexLast t0 := by
  have hcreate := (create_round_trip_table db cs hnew)
  obtain ⟨hfind0, hcols0, hrows0⟩ := hcreate
  refine ⟨createColumns cs.columns 0 ⟨cs.table, [], [], []⟩, hfind0, hcols0, hrows0, ?_, ?_, ?_,
    by decide, by decide,
    createColumns_consistent cs.columns _ (indexConsistent_blank cs.table),
    createColumns_last cs.columns _ (indexLast_blank cs.table)⟩
  · have hacc := (inserts_accumulate cs.table ins _ _ hfind0 htab hok).1
    have hlen : ∀ r ∈ (createColumns cs.columns 0 ⟨cs.table, [], [], []⟩).rows ++
        ins.flatMap (fun i => i.rows.map
          (expectedRow (createColumns cs.columns 0 ⟨cs.table, [], [], []⟩) i.cols)),
        r.length = (createColumns cs.columns 0 ⟨cs.table, [], [], []⟩).columns.length := by
      intro r hr
      rw [hrows0, List.nil_append, List.mem_flatMap] at hr
      obtain ⟨i, _, hr⟩ := hr
      rw [List.mem_map] at hr
      obtain ⟨values, _, rfl⟩ := hr
      simp [expectedRow]
    rw [select_star_all _ cs.table _ cols hacc hlen]
    simp [hrows0, hcols0]
  · intro i _ values _ p col hcol
    simp [expectedRow, List.getElem?_mapIdx, hcol]
  · intro i hi values hvalues p col hcol
    have hlen := (inserts_accumulate cs.table ins _ _ hfind0 htab hok).2 i hi values hvalues
    rcases expectedRow_cell (createColumns cs.columns 0 ⟨cs.table, [], [], []⟩) i.cols values
        hlen p col hcol with ⟨k, cn, v, h1, h2, h3, h4⟩ | ⟨h1, h2⟩
    · exact Or.inl ⟨k, cn, v, h1, h2, h3, by rw [List.getElem?_map, h4]; rfl⟩
    · exact Or.inr ⟨h1, by rw [List.getElem?_map, h2]; rfl⟩

/-- C1, at a concrete input: `CREATE TABLE t (n int, s str)`, then
`INSERT INTO t (s) VALUES ("x")` and `INSERT INTO t (n, s) VALUES (1, "a"), (2, "b")`, then
`SELECT * FROM t` prints the rows `0 x`, `1 a`, `2 b`. -/
theorem insert_select_round_trip_witness :
    ∃ t0, mapFind (execute emptyDb (.create ⟨"t", [("n", .INT), ("s", .STR)]⟩)).db.tables "t" =
        some t0 ∧
      (execute (runAll (execute emptyDb (.create ⟨"t", [("n", .INT), ("s", .STR)]⟩)).db
          ([⟨"t", ["s"], [[.str "x"]]⟩,
            ⟨"t", ["n", "s"], [[.int 1, .str "a"], [.int 2, .str "b"]]⟩].map Statement.insert))
          (.select ⟨true, [], "t", none⟩)).result =
        .ok (some ⟨([("n", ColType.INT), ("s", ColType.STR)]).map (fun c => c.1),
          (([⟨"t", ["s"], [[.str "x"]]⟩,
            ⟨"t", ["n", "s"], [[.int 1, .str "a"], [.int 2, .str "b"]]⟩] : List InsertStmt).flatMap
              (fun i => i.rows.map (expectedRow t0 i.cols))).map
            (fun r => r.map Value.toString)⟩) :=
  (insert_select_round_trip emptyDb ⟨"t", [("n", .INT), ("s", .STR)]⟩
    [⟨"t", ["s"], [[.str "x"]]⟩, ⟨"t", ["n", "s"], [[.int 1, .str "a"], [.int 2, .str "b"]]⟩] []
    rfl (by decide) (by decide)).imp (fun _ h => ⟨h.1, h.2.2.2.1⟩)

end imd
